import Mathlib

/-!
# In-memory profile series: `MemSeries`, its series tree and its normalizer

A shallow embedding of `series.go` (package `storage`).

* Go pointers to records that are never mutated after creation (interned mappings,
  functions, locations) are values; a nil pointer is `none`.
* Mutable state (`*MemSeries`, `*profileNormalizer`, trees) is passed explicitly.
* A function that can hit a Go runtime panic (nil dereference, index out of range)
  returns `Option`, with `none` for the panic.  A function that returns a Go `error`
  returns the state it leaves behind together with `Option Err`.
* `uint16`, `uint64` and `int64` are `Nat` / `Int` with explicit wrap-around.
* Go maps are association lists, newest binding first; only lookups are observable.
* The `Label`, `NumLabel` and `NumUnit` fields of tree value nodes are never written
  by `series.go` and are left out of the value-node records.
-/

/-- Errors returned (not panics) by the storage core. -/
inductive Err where
  /-- Go `ErrOutOfOrderSample` of `series.go`. -/
  | outOfOrderSample
  /-- Go `fmt.Errorf("incompatible period types ...")` of `compatibleProfiles`. -/
  | incompatiblePeriodTypes
  /-- Go `fmt.Errorf("incompatible sample types ...")` of `compatibleProfiles`. -/
  | incompatibleSampleTypes
  /-- The chunk codec refused an index below the last written one. -/
  | chunkOutOfOrder
  /-- The chunk codec could not open an appender. -/
  | encoding
  deriving DecidableEq, Repr

/-- Reinterpret an integer as an `int64` (wrap-around in twos complement). -/
def wrapInt64 (x : Int) : Int := (x + 2 ^ 63) % 2 ^ 64 - 2 ^ 63

/-- Reinterpret an integer as a `uint64`. -/
def wrapUint64 (x : Int) : Nat := (x % 2 ^ 64).toNat

/-- The `uint16` successor, as computed by `s.i++`. -/
def incUint16 (i : Nat) : Nat := (i + 1) % 65536

/-! ## Package `chunk`: the plain column chunk -/

namespace chunk

/-- Modelled from the spec: package `chunk` (`Chunk`, `NewFakeChunk`, `AppendAt`,
`Iterator`) is not among the sources.  Spec §4.1: a chunk stores a sparse sequence of
int64 values addressed by a 16-bit logical index.  `entries` holds the written
`(index, value)` pairs, the most recently written one first. -/
structure Chunk where
  entries : List (Nat × Int)
  deriving DecidableEq, Repr

/-- Modelled from the spec: `chunk.NewFakeChunk()`, a chunk with no entry. -/
def NewFakeChunk : Chunk := ⟨[]⟩

/-- Modelled from the spec: §4.1 `append_at(index, value)`: the index must be at
least the last written index, an equal index overwrites the last entry, and a
strictly smaller index fails with `OutOfOrder`. -/
def Chunk.AppendAt (c : Chunk) (i : Nat) (v : Int) : Except Err Chunk :=
  match c.entries with
  | [] => .ok ⟨[(i, v)]⟩
  | (j, w) :: rest =>
    if i < j then .error .chunkOutOfOrder
    else if i = j then .ok ⟨(i, v) :: rest⟩
    else .ok ⟨(i, v) :: (j, w) :: rest⟩

/-- Last written index of a chunk, if any entry was written. -/
def Chunk.lastIndex (c : Chunk) : Option Nat := c.entries.head?.map Prod.fst

/-- Value stored at a logical index; spec §4.1: an index with no entry reads 0. -/
def Chunk.valueAt (c : Chunk) (k : Nat) : Int :=
  match c.entries.find? (fun e => e.1 == k) with
  | some e => e.2
  | none => 0

/-- Modelled from the spec: §4.1 iterator, advancing one sample at a time from index
0 to the last written index inclusive.  `cur` is the index of the current sample,
`none` before the first `Next`. -/
structure ChunkIterator where
  c : Chunk
  cur : Option Nat
  deriving DecidableEq, Repr

/-- Modelled from the spec: `Chunk.Iterator()`, positioned before index 0. -/
def Chunk.Iterator (c : Chunk) : ChunkIterator := ⟨c, none⟩

/-- Modelled from the spec: `ChunkIterator.Next()`. -/
def ChunkIterator.Next (it : ChunkIterator) : ChunkIterator × Bool :=
  let nxt := match it.cur with
    | none => 0
    | some k => k + 1
  match it.c.lastIndex with
  | none => (it, false)
  | some l => if nxt ≤ l then ({ it with cur := some nxt }, true) else (it, false)

/-- Modelled from the spec: `ChunkIterator.At()`; before the first `Next` the spec
leaves the value open (Q3) and the model reads 0. -/
def ChunkIterator.At (it : ChunkIterator) : Int :=
  match it.cur with
  | none => 0
  | some k => it.c.valueAt k

end chunk

/-! ## Package `chunkenc`: the XOR value chunk -/

namespace chunkenc

/-- Modelled from the spec: package `chunkenc` (`Chunk`, `NewXORChunk`, `Appender`,
`AppendAt`, `Iterator`) is not among the sources.  Spec §4.1 gives the XOR chunk the
same sparse semantics as the plain chunk; `entries` holds the written
`(index, value)` pairs, most recent first.  Spec §7 lets the codec fail to open an
appender (`EncodingError`, implementation-defined): `broken` marks a chunk on which
`Appender()` fails; no operation of the model sets it. -/
structure XORChunk where
  entries : List (Nat × Int)
  broken : Bool
  deriving DecidableEq, Repr

/-- Modelled from the spec: `chunkenc.NewXORChunk()`. -/
def NewXORChunk : XORChunk := ⟨[], false⟩

/-- Modelled from the spec: `Chunk.Appender()`; it returns the error of §7 on a
chunk whose appender cannot be opened. -/
def XORChunk.Appender (c : XORChunk) : Except Err XORChunk :=
  if c.broken then .error .encoding else .ok c

/-- Modelled from the spec: `Appender.AppendAt(index, value)` of §4.1.  The callers
in `series.go` use it as a statement, so a refused (out-of-order) index leaves the
chunk as it was and the refusal is not observed. -/
def XORChunk.AppendAt (c : XORChunk) (i : Nat) (v : Int) : XORChunk :=
  match c.entries with
  | [] => { c with entries := [(i, v)] }
  | (j, w) :: rest =>
    if i < j then c
    else if i = j then { c with entries := (i, v) :: rest }
    else { c with entries := (i, v) :: (j, w) :: rest }

/-- Last written index, if any. -/
def XORChunk.lastIndex (c : XORChunk) : Option Nat := c.entries.head?.map Prod.fst

/-- Value stored at a logical index; an index with no entry reads 0. -/
def XORChunk.valueAt (c : XORChunk) (k : Nat) : Int :=
  match c.entries.find? (fun e => e.1 == k) with
  | some e => e.2
  | none => 0

/-- Modelled from the spec: the iterator of §4.1 over an XOR chunk. -/
structure Iterator where
  c : XORChunk
  cur : Option Nat
  deriving DecidableEq, Repr

/-- Modelled from the spec: `Chunk.Iterator(nil)`, positioned before index 0. -/
def XORChunk.Iterator (c : XORChunk) : Iterator := ⟨c, none⟩

/-- Modelled from the spec: `Iterator.Next()`. -/
def Iterator.Next (it : Iterator) : Iterator × Bool :=
  let nxt := match it.cur with
    | none => 0
    | some k => k + 1
  match it.c.lastIndex with
  | none => (it, false)
  | some l => if nxt ≤ l then ({ it with cur := some nxt }, true) else (it, false)

/-- Modelled from the spec: `Iterator.At()`. -/
def Iterator.At (it : Iterator) : Int :=
  match it.cur with
  | none => 0
  | some k => it.c.valueAt k

end chunkenc

/-! ## Package `profile`: the pprof records read by the core -/

namespace profile

/-- Go `profile.ValueType`: a `(type, unit)` pair. -/
structure ValueType where
  Typ : String
  Unit : String
  deriving DecidableEq, Repr

/-- Go `profile.Mapping`. -/
structure Mapping where
  ID : Nat
  Start : Nat
  Limit : Nat
  Offset : Nat
  File : String
  BuildID : String
  HasFunctions : Bool
  HasFilenames : Bool
  HasLineNumbers : Bool
  HasInlineFrames : Bool
  deriving DecidableEq, Repr

/-- Go `profile.Function`. -/
structure Function where
  ID : Nat
  Name : String
  SystemName : String
  Filename : String
  StartLine : Int
  deriving DecidableEq, Repr

/-- Go `profile.Line`; `Function` is a pointer and may be nil. -/
structure Line where
  Function : Option Function
  Line : Int
  deriving DecidableEq, Repr

/-- Go `profile.Location`; `Mapping` is a pointer and may be nil. -/
structure Location where
  ID : Nat
  Mapping : Option Mapping
  Address : Nat
  Line : List Line
  IsFolded : Bool
  deriving DecidableEq, Repr

/-- Go `profile.Sample`; `Location` holds pointers, each of which may be nil.  The three
label maps are association lists. -/
structure Sample where
  Location : List (Option Location)
  Value : List Int
  Label : List (String × List String)
  NumLabel : List (String × List Int)
  NumUnit : List (String × List String)
  deriving DecidableEq, Repr

/-- Go `profile.Profile`, restricted to the fields `series.go` reads or writes.
`PeriodType` is a pointer and may be nil. -/
structure Profile where
  SampleType : List ValueType
  Sample : List Sample
  Mapping : List Mapping
  Location : List Location
  Function : List Function
  TimeNanos : Int
  DurationNanos : Int
  PeriodType : Option ValueType
  Period : Int
  deriving DecidableEq, Repr

end profile

/-! ## Package `symbolizer` (src/pkg/symbolizer/symbolizer.go)

The bookkeeping of failed symbolization attempts.  Go maps are association lists read with
`List.lookup`; the iteration order of a Go map is unspecified and is taken to be the list
order. -/

namespace symbolizer

/-- Go `m[k] = v` on a map held as an association list. -/
def mapSet {κ ν : Type} [DecidableEq κ] (m : List (κ × ν)) (k : κ) (v : ν) : List (κ × ν) :=
  (k, v) :: m.filter (fun e => decide (e.1 ≠ k))

/-- Go `delete(m, k)`. -/
def mapDelete {κ ν : Type} [DecidableEq κ] (m : List (κ × ν)) (k : κ) : List (κ × ν) :=
  m.filter (fun e => decide (e.1 ≠ k))

/-- The error of `debuginfo.Store.Symbolize`: `ErrDebugInfoNotFound` or any other error. -/
inductive StoreErr where
  | debugInfoNotFound
  | other (msg : String)
  deriving DecidableEq, Repr

/-- Modelled from the spec: the collaborators of the symbolizer (spec §6), which live in
other packages.  `Symbolize` is `debuginfo.Store.Symbolize`, returning for each location the
lines found; `Update` is `metastore.LocationStore.Symbolize`, returning `true` when it fails;
`Unsymbolizable` is the pprof method `Mapping.Unsymbolizable`. -/
structure Collaborators where
  Symbolize : profile.Mapping → List profile.Location →
    Except StoreErr (List (profile.Location × List profile.Line))
  Update : profile.Location → Bool
  Unsymbolizable : profile.Mapping → Bool

/-- Go `Symbolizer`: the threshold and the two tables, `attempts[buildID][address]` and
`failed[buildID][address]` (a set, held as the map to `Unit`). -/
structure Symbolizer where
  attemptThreshold : Int
  attempts : List (String × List (Nat × Int))
  failed : List (String × List (Nat × Unit))
  deriving DecidableEq, Repr

/-- Go `NewSymbolizer`. -/
def NewSymbolizer (attemptThreshold : Int) : Symbolizer :=
  { attemptThreshold := attemptThreshold, attempts := [], failed := [] }

/-- Go `s.attempts[buildID][address]` with its `ok` flag (`none` when absent; indexing a
missing inner map yields an absent entry). -/
def Symbolizer.attempt (s : Symbolizer) (buildID : String) (address : Nat) : Option Int :=
  match s.attempts.lookup buildID with
  | none => none
  | some m => m.lookup address

/-- Go `_, failedBefore := s.failed[buildID][address]`. -/
def Symbolizer.failedBefore (s : Symbolizer) (buildID : String) (address : Nat) : Bool :=
  match s.failed.lookup buildID with
  | none => false
  | some m => (m.lookup address).isSome

/-- The body of `if len(lines) == 0 { ... }` in Go `symbolize`: one failed attempt for the
pair `(buildID, address)`.  Go `int` is taken to be 64 bits wide. -/
def Symbolizer.noLines (s : Symbolizer) (buildID : String) (address : Nat) : Symbolizer :=
  match s.attempt buildID address with
  | some prev0 =>
    let prev := wrapInt64 (prev0 + 1)
    if prev ≥ s.attemptThreshold then
      let failed1 :=
        if (s.failed.lookup buildID).isNone then mapSet s.failed buildID [] else s.failed
      let failed2 :=
        mapSet failed1 buildID (mapSet ((failed1.lookup buildID).getD []) address ())
      let attempts1 :=
        mapSet s.attempts buildID (mapDelete ((s.attempts.lookup buildID).getD []) address)
      { s with failed := failed2, attempts := attempts1 }
    else
      { s with attempts :=
          mapSet s.attempts buildID (mapSet ((s.attempts.lookup buildID).getD []) address prev) }
  | none =>
    -- First failed attempt
    let attempts1 :=
      if (s.attempts.lookup buildID).isNone then mapSet s.attempts buildID [] else s.attempts
    { s with attempts :=
        mapSet attempts1 buildID (mapSet ((attempts1.lookup buildID).getD []) address 1) }

/-- The locals `mappings` and `mappingLocations` of Go `symbolize`. -/
structure Batch where
  mappings : List (String × profile.Mapping)
  mappingLocations : List (String × List profile.Location)
  deriving DecidableEq, Repr

/-- The first loop of Go `symbolize`: group the locations to request by build id, skipping
locations without a usable mapping, already symbolized ones and pairs in `failed`. -/
def Symbolizer.group (c : Collaborators) (s : Symbolizer) :
    List profile.Location → Batch → Batch
  | [], b => b
  | loc :: rest, b =>
    match loc.Mapping with
    | none => Symbolizer.group c s rest b
    | some m =>
      if m.BuildID = "" ∨ c.Unsymbolizable m = true then Symbolizer.group c s rest b
      else if loc.Line.length > 0 then Symbolizer.group c s rest b
      else if s.failedBefore m.BuildID loc.Address = true then Symbolizer.group c s rest b
      else
        Symbolizer.group c s rest
          { mappings := mapSet b.mappings m.BuildID m,
            mappingLocations := mapSet b.mappingLocations m.BuildID
              ((b.mappingLocations.lookup m.BuildID).getD [] ++ [loc]) }

/-- The loop `for loc, lines := range symbolizedLocations` of Go `symbolize`; the second
component collects the errors appended to the result. -/
def Symbolizer.record (c : Collaborators) (buildID : String) :
    List (profile.Location × List profile.Line) → Symbolizer × List String →
    Symbolizer × List String
  | [], r => r
  | (loc, lines) :: rest, (s, errs) =>
    if lines.length = 0 then
      Symbolizer.record c buildID rest (s.noLines buildID loc.Address, errs)
    else if c.Update { loc with Line := lines } = true then
      Symbolizer.record c buildID rest (s, errs ++ ["failed to update location"])
    else Symbolizer.record c buildID rest (s, errs)

/-- The loop `for buildID, mapping := range mappings` of Go `symbolize`. -/
def Symbolizer.requests (c : Collaborators) (mappingLocations : List (String × List profile.Location)) :
    List (String × profile.Mapping) → Symbolizer × List String → Symbolizer × List String
  | [], r => r
  | (buildID, mapping) :: rest, (s, errs) =>
    match c.Symbolize mapping ((mappingLocations.lookup buildID).getD []) with
    | .error .debugInfoNotFound => Symbolizer.requests c mappingLocations rest (s, errs)
    | .error (.other _) =>
      Symbolizer.requests c mappingLocations rest
        (s, errs ++ ["storage symbolization request failed"])
    | .ok symbolizedLocations =>
      Symbolizer.requests c mappingLocations rest
        (Symbolizer.record c buildID symbolizedLocations (s, errs))

/-- Go `Symbolizer.symbolize`: the symbolizer afterwards and the aggregated errors (empty
for a nil result). -/
def Symbolizer.symbolize (c : Collaborators) (s : Symbolizer) (locations : List profile.Location) :
    Symbolizer × List String :=
  let b := Symbolizer.group c s locations { mappings := [], mappingLocations := [] }
  Symbolizer.requests c b.mappingLocations b.mappings (s, [])

/-- A debug-info store that finds no lines for any location it is asked about. -/
def noSymbols : Collaborators :=
  { Symbolize := fun _ locs => .ok (locs.map (fun l => (l, []))),
    Update := fun _ => false,
    Unsymbolizable := fun _ => false }

/-- An unsymbolized location at address 0x1010 of a mapping with build id "abc". -/
def exLoc : profile.Location :=
  { ID := 1, Address := 0x1010, Line := [], IsFolded := false,
    Mapping := some { ID := 1, Start := 0x1000, Limit := 0x2000, Offset := 0, File := "/bin/app",
                      BuildID := "abc", HasFunctions := false, HasFilenames := false,
                      HasLineNumbers := false, HasInlineFrames := false } }

/-- The symbolizer after `k` failed attempts for the pair `(buildID, address)`. -/
def failTimes (s : Symbolizer) (buildID : String) (address : Nat) : Nat → Symbolizer
  | 0 => s
  | k + 1 => (failTimes s buildID address k).noLines buildID address

end symbolizer

namespace storage

/-! ## `sort.Search` -/

/-- The loop of the Go function `sort.Search`: binary search on `[i, j)`, with `fuel` bounding
the number of halvings. -/
def sortSearchLoop (f : Nat → Bool) : Nat → Nat → Nat → Nat
  | 0, i, _ => i
  | fuel + 1, i, j =>
    if i < j then
      let h := (i + j) / 2
      if !f h then sortSearchLoop f fuel (h + 1) j else sortSearchLoop f fuel i h
    else i

/-- Go `sort.Search(n, f)`; `n` halvings always suffice for an interval of
length `n`. -/
def sortSearch (n : Nat) (f : Nat → Bool) : Nat := sortSearchLoop f n 0 n

/-! ## Profile tree -/

/-- Go `ProfileTreeValueNode`, restricted to `Value`. -/
structure ProfileTreeValueNode where
  Value : Int
  deriving DecidableEq, Repr

/-- Go `ProfileTreeNode`. -/
inductive ProfileTreeNode where
  | mk (locationID : Nat) (flatValues : List ProfileTreeValueNode)
      (cumulativeValues : List ProfileTreeValueNode) (Children : List ProfileTreeNode)
  deriving Repr

/-- Go `ProfileTreeNode.LocationID`. -/
def ProfileTreeNode.LocationID : ProfileTreeNode → Nat
  | .mk id _ _ _ => id

/-- Go `ProfileTreeNode.FlatValues`. -/
def ProfileTreeNode.FlatValues : ProfileTreeNode → List ProfileTreeValueNode
  | .mk _ flat _ _ => flat

/-- Go `ProfileTreeNode.CumulativeValues`. -/
def ProfileTreeNode.CumulativeValues : ProfileTreeNode → List ProfileTreeValueNode
  | .mk _ _ cum _ => cum

/-- The `Children` field of a profile-tree node. -/
def ProfileTreeNode.Children : ProfileTreeNode → List ProfileTreeNode
  | .mk _ _ _ ch => ch

/-- Go `ProfileTreeNode.CumulativeValue`: the int64 sum of the cumulative values. -/
def ProfileTreeNode.CumulativeValue (n : ProfileTreeNode) : Int :=
  n.CumulativeValues.foldl (fun res cv => wrapInt64 (res + cv.Value)) 0

/-- Go `ProfileTree`; `Roots` is nil until the first insert. -/
structure ProfileTree where
  Roots : Option ProfileTreeNode
  deriving Repr

/-- The statement pair `if vs == nil { vs = []*ProfileTreeValueNode{{}} };
vs[0].Value += v` of `ProfileTree.Insert`. -/
def addValue (vs : List ProfileTreeValueNode) (v : Int) : List ProfileTreeValueNode :=
  match vs with
  | [] => [⟨wrapInt64 (0 + v)⟩]
  | x :: rest => ⟨wrapInt64 (x.Value + v)⟩ :: rest

/-- Location id of the `k`-th child, as read by the predicate handed to
`sort.Search` (which only asks for `k` below the number of children). -/
def childID (ch : List ProfileTreeNode) (k : Nat) : Nat :=
  match ch[k]? with
  | some c => c.LocationID
  | none => 0

/-- The walk of `ProfileTree.Insert` from node `cur` along the location ids still to
visit (deepest caller first): find or create the child by binary search, add the
value to the cumulative slot of `cur`, descend; at the end of the walk add the value
to the cumulative and the flat slot. -/
def ProfileTreeNode.insertPath (v : Int) : List Nat → ProfileTreeNode → ProfileTreeNode
  | [], .mk id flat cum ch => .mk id (addValue flat v) (addValue cum v) ch
  | nextId :: rest, .mk id flat cum ch =>
    let i := sortSearch ch.length (fun k => decide (childID ch k ≥ nextId))
    let found : Option ProfileTreeNode :=
      match ch[i]? with
      | some c => if c.LocationID = nextId then some c else none
      | none => none
    match found with
    | some child =>
      .mk id flat (addValue cum v) (ch.set i (ProfileTreeNode.insertPath v rest child))
    | none =>
      .mk id flat (addValue cum v)
        (ch.take i ++ ProfileTreeNode.insertPath v rest (.mk nextId [] [] []) :: ch.drop i)

/-- Ids of a location list; `none` when one of the pointers is nil (reading `.ID`
through it panics). -/
def locationIDs : List (Option profile.Location) → Option (List Nat)
  | [] => some []
  | none :: _ => none
  | some l :: rest =>
    match locationIDs rest with
    | some ids => some (l.ID :: ids)
    | none => none

/-- Go `ProfileTree.Insert`.  The locations are walked from the last to the first; the
result is `none` when the walk panics (a nil location, or an empty `Value`). -/
def ProfileTree.Insert (t : ProfileTree) (sample : profile.Sample) : Option ProfileTree :=
  let root : ProfileTreeNode :=
    match t.Roots with
    | some r => r
    | none => .mk 0 [] [] []
  match locationIDs sample.Location, sample.Value with
  | some ids, v :: _ => some ⟨some (root.insertPath v ids.reverse)⟩
  | _, _ => none

/-! ## Keys of the memoization tables -/

/-- Go `stacktraceKey`. -/
structure stacktraceKey where
  locations : String
  labels : String
  numlabels : String
  deriving DecidableEq, Repr

/-- Go `locationKey`. -/
structure locationKey where
  addr : Nat
  mappingID : Nat
  lines : String
  isFolded : Bool
  deriving DecidableEq, Repr

/-- Go `functionKey`. -/
structure functionKey where
  startLine : Int
  name : String
  systemName : String
  fileName : String
  deriving DecidableEq, Repr

/-- Go `mapInfo`: an interned mapping (nil for a nil source) and the address offset
recorded for the source mapping. -/
structure mapInfo where
  m : Option profile.Mapping
  offset : Int
  deriving DecidableEq, Repr

/-- Go `mappingKey`. -/
structure mappingKey where
  size : Nat
  offset : Nat
  buildIDOrFile : String
  deriving DecidableEq, Repr

/-! ## Text formatting used by the keys (Go standard library) -/

/-- Go `strconv.FormatUint(n, 16)`. -/
def formatUint16 (n : Nat) : String := String.mk (Nat.toDigits 16 n)

/-- Go `strconv.FormatInt(x, 16)`: a minus sign followed by the hexadecimal magnitude
for a negative number. -/
def formatInt16 (x : Int) : String :=
  if x < 0 then String.mk ('-' :: Nat.toDigits 16 x.natAbs) else String.mk (Nat.toDigits 16 x.natAbs)

/-- Two lower-case hexadecimal digits of a byte. -/
def hexByte (b : Nat) : List Char :=
  let ds := Nat.toDigits 16 b
  List.replicate (2 - ds.length) '0' ++ ds

/-- The text Go `strconv.Quote` writes for one code point: the double quote and the
backslash behind a backslash; the control characters with a letter escape as `\a`, `\b`,
`\f`, `\n`, `\r`, `\t`, `\v`; the other code points below U+0020 and U+007F as `\x` and
two hexadecimal digits; the code points of Latin-1 that are not printable (U+0080 to
U+00A0 and U+00AD) as `\u00` and two hexadecimal digits; every other code point as it is.
Above U+00FF Go asks `unicode.IsPrint`, whose table is not embedded: those code points are
taken as printable. -/
def goQuoteChar (c : Char) : List Char :=
  if c = Char.ofNat 34 ∨ c = Char.ofNat 92 then [Char.ofNat 92, c]
  else if c = Char.ofNat 7 then [Char.ofNat 92, 'a']
  else if c = Char.ofNat 8 then [Char.ofNat 92, 'b']
  else if c = Char.ofNat 12 then [Char.ofNat 92, 'f']
  else if c = Char.ofNat 10 then [Char.ofNat 92, 'n']
  else if c = Char.ofNat 13 then [Char.ofNat 92, 'r']
  else if c = Char.ofNat 9 then [Char.ofNat 92, 't']
  else if c = Char.ofNat 11 then [Char.ofNat 92, 'v']
  else if c.toNat < 32 ∨ c.toNat = 127 then Char.ofNat 92 :: 'x' :: hexByte c.toNat
  else if (128 ≤ c.toNat ∧ c.toNat ≤ 160) ∨ c.toNat = 173 then
    Char.ofNat 92 :: 'u' :: '0' :: '0' :: hexByte c.toNat
  else [c]

/-- The `%q` verb on a string (Go `strconv.Quote`): the quoted code points between double
quotes. -/
def goQuote (s : String) : String :=
  String.mk (Char.ofNat 34 :: (s.data.flatMap goQuoteChar) ++ [Char.ofNat 34])

/-- The `%q` verb on a `[]string`: the quoted elements, space separated, in square
brackets. -/
def goQuoteList (vs : List String) : String :=
  "[" ++ String.intercalate " " (vs.map goQuote) ++ "]"

/-- The `%x` verb on a `[]int64`. -/
def goHexInts (vs : List Int) : String :=
  "[" ++ String.intercalate " " (vs.map formatInt16) ++ "]"

/-- The `%x` verb on a string: the hexadecimal form of its UTF-8 bytes. -/
def goHexString (s : String) : String :=
  String.mk (s.data.flatMap (fun c => (String.utf8EncodeChar c).flatMap (fun b => hexByte b.toNat)))

/-- The `%x` verb on a `[]string`. -/
def goHexStrings (vs : List String) : String :=
  "[" ++ String.intercalate " " (vs.map goHexString) ++ "]"

/-- Byte-wise order of Go strings (`sort.Strings`); on UTF-8 text it is the
lexicographic order of the code points. -/
def strLE (a b : String) : Prop := a.data ≤ b.data

instance : DecidableRel strLE := fun a b => by unfold strLE; infer_instance

/-- Go `sort.Strings`. -/
def sortStrings (l : List String) : List String := l.insertionSort strLE

/-! ## Key construction -/

/-- Go `makeMappingKey`: the size is rounded up to the next 4K boundary in `uint64`
arithmetic; the build id takes precedence over the file name. -/
def makeMappingKey (m : profile.Mapping) : mappingKey :=
  let size0 := wrapUint64 ((m.Limit : Int) - (m.Start : Int))
  let size1 := wrapUint64 ((size0 : Int) + 0x1000 - 1)
  let size2 := size1 - size1 % 0x1000
  { size := size2
    offset := m.Offset
    buildIDOrFile := if m.BuildID ≠ "" then m.BuildID else if m.File ≠ "" then m.File else "" }

/-- Go `makeFunctionKey`. -/
def makeFunctionKey (f : profile.Function) : functionKey :=
  { startLine := f.StartLine, name := f.Name, systemName := f.SystemName, fileName := f.Filename }

/-- The `lines` slice of `makeLocationKey`: for each line the function id in hex (the
empty string when the function is nil) followed by the line number in hex. -/
def locationKeyLines (ls : List profile.Line) : List String :=
  ls.flatMap (fun line =>
    [ (match line.Function with
        | some f => formatUint16 f.ID
        | none => ""),
      formatInt16 line.Line ])

/-- Go `makeLocationKey`: the address is taken relative to the start of the mapping
(in `uint64` arithmetic) when the location has a mapping. -/
def makeLocationKey (l : profile.Location) : locationKey :=
  match l.Mapping with
  | some m =>
    { addr := wrapUint64 ((l.Address : Int) - (m.Start : Int))
      mappingID := m.ID
      lines := String.intercalate "|" (locationKeyLines l.Line)
      isFolded := l.IsFolded }
  | none =>
    { addr := l.Address
      mappingID := 0
      lines := String.intercalate "|" (locationKeyLines l.Line)
      isFolded := l.IsFolded }

/-- The three components of `makeStacktraceKey`, given the ids of the locations. -/
def stacktraceKeyOf (ids : List Nat) (sample : profile.Sample) : stacktraceKey :=
  { locations := String.intercalate "|" (ids.map formatUint16)
    labels := String.join (sortStrings (sample.Label.map (fun kv => goQuote kv.1 ++ goQuoteList kv.2)))
    numlabels := String.join (sortStrings (sample.NumLabel.map (fun kv =>
      goQuote kv.1 ++ goHexInts kv.2 ++ goHexStrings ((sample.NumUnit.lookup kv.1).getD [])))) }

/-- Go `makeStacktraceKey`; `none` when a location pointer is nil (reading `l.ID`
panics). -/
def makeStacktraceKey (sample : profile.Sample) : Option stacktraceKey :=
  match locationIDs sample.Location with
  | some ids => some (stacktraceKeyOf ids sample)
  | none => none

/-! ## The normalizer -/

/-- Go `profileNormalizer`.  `p`, `locations`, `functions` and `mappings` are shared
with the series; the other tables live for one profile.  `samples` is the store of
the samples interned for this profile: a `*profile.Sample` handed out by `mapSample`
is represented by its key in this store. -/
structure profileNormalizer where
  p : profile.Profile
  locationsByID : List (Nat × profile.Location)
  functionsByID : List (Nat × profile.Function)
  mappingsByID : List (Nat × mapInfo)
  samples : List (stacktraceKey × profile.Sample)
  locations : List (locationKey × profile.Location)
  functions : List (functionKey × profile.Function)
  mappings : List (mappingKey × profile.Mapping)
  deriving DecidableEq, Repr

/-- Go `profileNormalizer.mapMapping`. -/
def profileNormalizer.mapMapping (pn : profileNormalizer) (src : Option profile.Mapping) :
    profileNormalizer × mapInfo :=
  match src with
  | none => (pn, ⟨none, 0⟩)
  | some src =>
    match pn.mappingsByID.lookup src.ID with
    | some mi => (pn, mi)
    | none =>
      let mk := makeMappingKey src
      match pn.mappings.lookup mk with
      | some m =>
        let mi : mapInfo := ⟨some m, wrapInt64 (wrapInt64 m.Start - wrapInt64 src.Start)⟩
        ({ pn with mappingsByID := (src.ID, mi) :: pn.mappingsByID }, mi)
      | none =>
        let m : profile.Mapping :=
          { ID := pn.p.Mapping.length + 1
            Start := src.Start
            Limit := src.Limit
            Offset := src.Offset
            File := src.File
            BuildID := src.BuildID
            HasFunctions := src.HasFunctions
            HasFilenames := src.HasFilenames
            HasLineNumbers := src.HasLineNumbers
            HasInlineFrames := src.HasInlineFrames }
        let mi : mapInfo := ⟨some m, 0⟩
        ({ pn with
            p := { pn.p with Mapping := pn.p.Mapping ++ [m] }
            mappings := (mk, m) :: pn.mappings
            mappingsByID := (src.ID, mi) :: pn.mappingsByID }, mi)

/-- Go `profileNormalizer.mapFunction`. -/
def profileNormalizer.mapFunction (pn : profileNormalizer) (src : Option profile.Function) :
    profileNormalizer × Option profile.Function :=
  match src with
  | none => (pn, none)
  | some src =>
    match pn.functionsByID.lookup src.ID with
    | some f => (pn, some f)
    | none =>
      let k := makeFunctionKey src
      match pn.functions.lookup k with
      | some f => ({ pn with functionsByID := (src.ID, f) :: pn.functionsByID }, some f)
      | none =>
        let f : profile.Function :=
          { ID := pn.p.Function.length + 1
            Name := src.Name
            SystemName := src.SystemName
            Filename := src.Filename
            StartLine := src.StartLine }
        ({ pn with
            functions := (k, f) :: pn.functions
            functionsByID := (src.ID, f) :: pn.functionsByID
            p := { pn.p with Function := pn.p.Function ++ [f] } }, some f)

/-- Go `profileNormalizer.mapLine`. -/
def profileNormalizer.mapLine (pn : profileNormalizer) (src : profile.Line) :
    profileNormalizer × profile.Line :=
  let r := pn.mapFunction src.Function
  (r.1, { Function := r.2, Line := src.Line })

/-- The loop `for i, ln := range src.Line { l.Line[i] = pn.mapLine(ln) }`. -/
def profileNormalizer.mapLines (pn : profileNormalizer) :
    List profile.Line → profileNormalizer × List profile.Line
  | [] => (pn, [])
  | ln :: rest =>
    let r := pn.mapLine ln
    let rs := r.1.mapLines rest
    (rs.1, r.2 :: rs.2)

/-- Go `profileNormalizer.mapLocation`. -/
def profileNormalizer.mapLocation (pn : profileNormalizer) (src : Option profile.Location) :
    profileNormalizer × Option profile.Location :=
  match src with
  | none => (pn, none)
  | some src =>
    match pn.locationsByID.lookup src.ID with
    | some l => (pn, some l)
    | none =>
      let rm := pn.mapMapping src.Mapping
      let mi := rm.2
      let rl := rm.1.mapLines src.Line
      let pn2 := rl.1
      let l : profile.Location :=
        { ID := rm.1.p.Location.length + 1
          Mapping := mi.m
          Address := wrapUint64 (wrapInt64 src.Address + mi.offset)
          Line := rl.2
          IsFolded := src.IsFolded }
      let k := makeLocationKey l
      match pn2.locations.lookup k with
      | some ll => ({ pn2 with locationsByID := (src.ID, ll) :: pn2.locationsByID }, some ll)
      | none =>
        ({ pn2 with
            locationsByID := (src.ID, l) :: pn2.locationsByID
            locations := (k, l) :: pn2.locations
            p := { pn2.p with Location := pn2.p.Location ++ [l] } }, some l)

/-- The loop `for i, l := range src.Location { s.Location[i] = pn.mapLocation(l) }`. -/
def profileNormalizer.mapLocations (pn : profileNormalizer) :
    List (Option profile.Location) → profileNormalizer × List (Option profile.Location)
  | [] => (pn, [])
  | l :: rest =>
    let r := pn.mapLocation l
    let rs := r.1.mapLocations rest
    (rs.1, r.2 :: rs.2)

/-- Go `profileNormalizer.mapSample`: the key of the interned sample in `pn.samples` and
whether it is new.  `none` when the call panics: a nil location (in
`makeStacktraceKey`) or an empty `Value`. -/
def profileNormalizer.mapSample (pn : profileNormalizer) (src : profile.Sample) :
    Option (profileNormalizer × stacktraceKey × Bool) :=
  let rl := pn.mapLocations src.Location
  let pn1 := rl.1
  let s : profile.Sample :=
    { Location := rl.2
      Value := []
      Label := src.Label
      NumLabel := src.NumLabel
      NumUnit := src.NumLabel.map (fun kv => (kv.1, (src.NumUnit.lookup kv.1).getD [])) }
  match makeStacktraceKey s with
  | none => none
  | some k =>
    match pn1.samples.lookup k with
    | some sa =>
      match sa.Value, src.Value with
      | x :: xs, v :: _ =>
        some ({ pn1 with samples := (k, { sa with Value := wrapInt64 (x + v) :: xs }) :: pn1.samples },
          k, false)
      | _, _ => none
    | none =>
      match src.Value with
      | v :: _ => some ({ pn1 with samples := (k, { s with Value := [v] }) :: pn1.samples }, k, true)
      | [] => none

/-- Go `isZeroSample`. -/
def isZeroSample (s : profile.Sample) : Bool := s.Value.all (fun v => v == 0)

/-! ## Series tree -/

/-- Go `MemSeriesTreeValueNode`, restricted to its chunk. -/
structure MemSeriesTreeValueNode where
  Values : chunkenc.XORChunk
  deriving DecidableEq, Repr

/-- Go `MemSeriesTreeNode`. -/
inductive MemSeriesTreeNode where
  | mk (LocationID : Nat) (FlatValues : List MemSeriesTreeValueNode)
      (CumulativeValues : List MemSeriesTreeValueNode) (Children : List MemSeriesTreeNode)
  deriving Repr

/-- The `LocationID` field. -/
def MemSeriesTreeNode.LocationID : MemSeriesTreeNode → Nat
  | .mk id _ _ _ => id

/-- The `FlatValues` field. -/
def MemSeriesTreeNode.FlatValues : MemSeriesTreeNode → List MemSeriesTreeValueNode
  | .mk _ flat _ _ => flat

/-- The `CumulativeValues` field. -/
def MemSeriesTreeNode.CumulativeValues : MemSeriesTreeNode → List MemSeriesTreeValueNode
  | .mk _ _ cum _ => cum

/-- The `Children` field. -/
def MemSeriesTreeNode.Children : MemSeriesTreeNode → List MemSeriesTreeNode
  | .mk _ _ _ ch => ch

/-- Go `MemSeriesTree`; `Roots` is nil until the first insert. -/
structure MemSeriesTree where
  Roots : Option MemSeriesTreeNode
  deriving Repr

/-- The statement group of `MemSeriesTree.Insert` that writes one value slot:
`if slot == nil { slot = {{Values: NewXORChunk()}} }; app, err := slot[0].Values.Appender();
if err != nil { return err }; app.AppendAt(index, v)`.  The value `v` is read from the
profile node after the appender is open; `v = none` stands for a profile node without
that value (indexing `[0]` panics).  The result is the slot as left behind and the
error returned, or `none` for the panic. -/
def appendSlot (slot : List MemSeriesTreeValueNode) (index : Nat) (v : Option Int) :
    Option (List MemSeriesTreeValueNode × Option Err) :=
  let slot1 : List MemSeriesTreeValueNode :=
    match slot with
    | [] => [⟨chunkenc.NewXORChunk⟩]
    | _ :: _ => slot
  match slot1 with
  | [] => none
  | x :: xs =>
    match x.Values.Appender with
    | .error e => some (slot1, some e)
    | .ok app =>
      match v with
      | none => none
      | some v => some (⟨app.AppendAt index v⟩ :: xs, none)

/-- Writing the values of the profile node `p` at `index` into a series node with the
given slots: the flat slot only when `p` has a flat value, then the cumulative slot.
Shared by the three branches (exhausted, match, gap) of `MemSeriesTree.Insert`. -/
def appendNodeValues (index : Nat) (p : ProfileTreeNode)
    (flat cum : List MemSeriesTreeValueNode) :
    Option ((List MemSeriesTreeValueNode × List MemSeriesTreeValueNode) × Option Err) :=
  let rflat : Option (List MemSeriesTreeValueNode × Option Err) :=
    match p.FlatValues with
    | [] => some (flat, none)
    | f :: _ => appendSlot flat index (some f.Value)
  match rflat with
  | none => none
  | some (flat1, some e) => some ((flat1, cum), some e)
  | some (flat1, none) =>
    match appendSlot cum index (p.CumulativeValues.head?.map (fun c => c.Value)) with
    | none => none
    | some (cum1, e) => some ((flat1, cum1), e)

mutual
/-- Modelled from the spec: the tree iterators (`NewProfileTreeIterator`,
`NewMemSeriesTreeIterator` with `HasMore`, `NextChild`, `At`, `Node`, `ChildIndex`,
`StepInto`, `StepUp`) are not among the sources.  Spec §4.4: both trees are walked in
parallel; at each level the merge walks the children of the profile node in order,
advancing the child cursor of the series node to the first child whose location id
is not below the profile child, and `StepInto` / `StepUp` enter and leave the pair of
children.

`mergeChildren index ps before rest` is the body of the loop of
`MemSeriesTree.Insert` at one level: `ps` are the children of the profile node that
`pit.NextChild()` has not yet returned, `before` the children of the series node at
positions up to the cursor, `rest` those after it.  The result is the children of the
series node as left behind and the error returned; `none` is a panic. -/
def mergeChildren (index : Nat) :
    List ProfileTreeNode → List MemSeriesTreeNode → List MemSeriesTreeNode →
    Option (List MemSeriesTreeNode × Option Err)
  | [], before, rest => some (before ++ rest, none)
  | p :: ps, before, rest =>
    -- inner loop: `sit.NextChild()` until exhausted or `pId == sId || pId < sId`
    let skipped := rest.takeWhile (fun s => decide (s.LocationID < p.LocationID))
    match rest.dropWhile (fun s => decide (s.LocationID < p.LocationID)) with
    | [] =>
      -- exhausted: a new child is appended to `node.Children`
      match appendNodeValues index p [] [] with
      | none => none
      | some (_, some e) => some (before ++ skipped, some e)
      | some ((flat, cum), none) =>
        match mergeNode index p (.mk p.LocationID flat cum []) with
        | none => none
        | some (c, some e) => some (before ++ skipped ++ [c], some e)
        | some (c, none) => mergeChildren index ps (before ++ skipped ++ [c]) []
    | s :: rest1 =>
      if p.LocationID = s.LocationID then
        -- match: the values are appended to the existing series node
        match appendNodeValues index p s.FlatValues s.CumulativeValues with
        | none => none
        | some ((flat, cum), some e) =>
          some (before ++ skipped ++ MemSeriesTreeNode.mk s.LocationID flat cum s.Children :: rest1,
            some e)
        | some ((flat, cum), none) =>
          match mergeNode index p (.mk s.LocationID flat cum s.Children) with
          | none => none
          | some (c, some e) => some (before ++ skipped ++ c :: rest1, some e)
          | some (c, none) => mergeChildren index ps (before ++ skipped ++ [c]) rest1
      else
        -- gap (`pId < sId`): a new child is inserted at the child index
        match appendNodeValues index p [] [] with
        | none => none
        | some (_, some e) => some (before ++ skipped ++ s :: rest1, some e)
        | some ((flat, cum), none) =>
          match mergeNode index p (.mk p.LocationID flat cum []) with
          | none => none
          | some (c, some e) => some (before ++ skipped ++ c :: s :: rest1, some e)
          | some (c, none) => mergeChildren index ps (before ++ skipped ++ [c]) (s :: rest1)
/-- The part of the walk between `StepInto` and the matching `StepUp` on a pair of nodes
whose values have been written by the branch that entered the pair (exhausted, match or
gap, and the match of the two roots in `MemSeriesTree.Insert`): the children of the
profile node `p` are merged into the children of the series node `s`. -/
def mergeNode (index : Nat) : ProfileTreeNode → MemSeriesTreeNode →
    Option (MemSeriesTreeNode × Option Err)
  | .mk _ _ _ pch, s =>
    match mergeChildren index pch [] s.Children with
    | none => none
    | some (ch, e) => some (.mk s.LocationID s.FlatValues s.CumulativeValues ch, e)
end

/-- Go `MemSeriesTree.Insert`: the root is created when nil, then the two trees are
walked in parallel.  The tree iterators are not among the sources; the start of the walk
is modelled from the spec: the first pair of nodes visited is the pair of roots, which
both have the location id 0 (spec §3) and so take the match branch, which writes the flat
value (if any) and the cumulative value of the profile root at `index` into the root of
the series tree (spec §8, scenario 1: "root cumulative[0]=5"); the children are merged
below.  A profile tree without root (no sample was inserted) has no node to visit and the
merge returns nil. -/
def MemSeriesTree.Insert (t : MemSeriesTree) (index : Nat) (profileTree : ProfileTree) :
    Option (MemSeriesTree × Option Err) :=
  let roots : MemSeriesTreeNode :=
    match t.Roots with
    | some r => r
    | none => .mk 0 [] [] []
  match profileTree.Roots with
  | none => some (⟨some roots⟩, none)
  | some proot =>
    match appendNodeValues index proot roots.FlatValues roots.CumulativeValues with
    | none => none
    | some ((flat, cum), some e) =>
      some (⟨some (.mk roots.LocationID flat cum roots.Children)⟩, some e)
    | some ((flat, cum), none) =>
      match mergeNode index proot (.mk roots.LocationID flat cum roots.Children) with
      | none => none
      | some (r, e) => some (⟨some r⟩, e)

/-! ## The series -/

/-- Go `ValueType` of package `storage` (its declaration is in another file): a
`(type, unit)` pair, spec §3. -/
structure ValueType where
  Typ : String
  Unit : String
  deriving DecidableEq, Repr

/-- Go `MemSeries`.  The tables `stacktraceIDs` and `stacktraces` are never touched by
`series.go` and are left out.  `p`, the three column chunks and `seriesTree` are
pointers or interfaces and may be nil. -/
structure MemSeries where
  p : Option profile.Profile
  periodType : ValueType
  sampleType : ValueType
  locations : List (locationKey × profile.Location)
  functions : List (functionKey × profile.Function)
  mappings : List (mappingKey × profile.Mapping)
  minTime : Int
  maxTime : Int
  timestamps : Option chunk.Chunk
  durations : Option chunk.Chunk
  periods : Option chunk.Chunk
  seriesTree : Option MemSeriesTree
  i : Nat
  deriving Repr

/-- The zero value `&profile.Profile{}`. -/
def emptyProfile : profile.Profile :=
  { SampleType := [], Sample := [], Mapping := [], Location := [], Function := [],
    TimeNanos := 0, DurationNanos := 0, PeriodType := none, Period := 0 }

/-- Go `NewMemSeries`. -/
def NewMemSeries : MemSeries :=
  { p := none
    periodType := ⟨"", ""⟩
    sampleType := ⟨"", ""⟩
    locations := []
    functions := []
    mappings := []
    minTime := 0
    maxTime := 0
    timestamps := some chunk.NewFakeChunk
    durations := some chunk.NewFakeChunk
    periods := some chunk.NewFakeChunk
    seriesTree := some ⟨none⟩
    i := 0 }

/-- Go `equalValueType`. -/
def equalValueType (st1 : ValueType) (st2 : profile.ValueType) : Bool :=
  st1.Typ == st2.Typ && st1.Unit == st2.Unit

/-- Go `compatibleProfiles`: `none` is the panic on a nil `PeriodType` or an empty
`SampleType`; otherwise the error returned, if any. -/
def compatibleProfiles (s : MemSeries) (pb : profile.Profile) : Option (Option Err) :=
  match pb.PeriodType with
  | none => none
  | some pt =>
    if !equalValueType s.periodType pt then some (some .incompatiblePeriodTypes)
    else
      match pb.SampleType with
      | [] => none
      | st :: _ =>
        if !equalValueType s.sampleType st then some (some .incompatibleSampleTypes)
        else some none

/-- Order of stacktrace keys: by `locations`, then `labels`, then `numlabels`, each
compared as Go strings. -/
def stacktraceKeyLE (a b : stacktraceKey) : Prop :=
  a.locations.data < b.locations.data ∨
  (a.locations = b.locations ∧
    (a.labels.data < b.labels.data ∨ (a.labels = b.labels ∧ a.numlabels.data ≤ b.numlabels.data)))

instance : DecidableRel stacktraceKeyLE := fun a b => by unfold stacktraceKeyLE; infer_instance

/-- Stacktrace key of an interned sample, total: a nil location counts with id 0. -/
def sampleKey (s : profile.Sample) : stacktraceKey :=
  stacktraceKeyOf (s.Location.map (fun l =>
    match l with
    | some l => l.ID
    | none => 0)) s

/-- Modelled from the spec: `sortSamples` is declared in another file.  Spec §4.3:
the new samples are sorted into a canonical order, by stacktrace key, before the
profile tree is built. -/
def sortSamples (samples : List profile.Sample) : List profile.Sample :=
  samples.insertionSort (fun a b => stacktraceKeyLE (sampleKey a) (sampleKey b))

/-- The loop `for _, s := range value.Sample` of `prepareSamplesForInsert`: `keys`
is the slice `samples` collected so far, each pointer given by its key in
`pn.samples`.  `none` when `mapSample` panics. -/
def mapSamples (pn : profileNormalizer) (keys : List stacktraceKey) :
    List profile.Sample → Option (profileNormalizer × List stacktraceKey)
  | [] => some (pn, keys)
  | s :: rest =>
    if !isZeroSample s then
      match pn.mapSample s with
      | none => none
      | some (pn1, k, isNew) =>
        if isNew then mapSamples pn1 (keys ++ [k]) rest else mapSamples pn1 keys rest
    else mapSamples pn keys rest

/-- The loop `for _, s := range samples { profileTree.Insert(s) }`. -/
def insertSamples (t : ProfileTree) : List profile.Sample → Option ProfileTree
  | [] => some t
  | s :: rest =>
    match t.Insert s with
    | none => none
    | some t1 => insertSamples t1 rest

/-- The samples behind the pointers of the slice `samples`, read when the slice is
sorted (after every `mapSample` call has added its value). -/
def derefSamples (pn : profileNormalizer) (keys : List stacktraceKey) : List profile.Sample :=
  keys.filterMap (fun k => pn.samples.lookup k)

/-- The block `if s.p == nil { ... }` of `prepareSamplesForInsert`: on the first
profile the series takes its period type and its first sample type from the profile
and gets fresh tables.  `none` for the panic on a nil `PeriodType` or an empty
`SampleType`. -/
def MemSeries.initFrom (s : MemSeries) (value : profile.Profile) : Option MemSeries :=
  match s.p with
  | some _ => some s
  | none =>
    match value.PeriodType, value.SampleType with
    | some pt, st :: _ =>
      some { s with
        p := some emptyProfile
        periodType := ⟨pt.Typ, pt.Unit⟩
        sampleType := ⟨st.Typ, st.Unit⟩
        locations := []
        functions := []
        mappings := [] }
    | _, _ => none

/-- The literal `pn := &profileNormalizer{...}` of `prepareSamplesForInsert`: the
tables of the series and empty per-profile tables. -/
def MemSeries.normalizer (s : MemSeries) : profileNormalizer :=
  { p := s.p.getD emptyProfile
    locations := s.locations
    functions := s.functions
    mappings := s.mappings
    samples := []
    locationsByID := []
    functionsByID := []
    mappingsByID := [] }

/-- The block `if len(pn.mappings) == 0 && len(value.Mapping) > 0 {
pn.mapMapping(value.Mapping[0]) }`. -/
def profileNormalizer.mapFirstMapping (pn : profileNormalizer) (value : profile.Profile) :
    profileNormalizer :=
  match pn.mappings, value.Mapping with
  | [], m :: _ => (pn.mapMapping (some m)).1
  | _, _ => pn

/-- The rest of `prepareSamplesForInsert`: the samples are mapped, the new ones
sorted and inserted into a fresh profile tree.  `none` for a panic. -/
def profileNormalizer.buildProfileTree (pn : profileNormalizer) (value : profile.Profile) :
    Option (profileNormalizer × ProfileTree) :=
  match mapSamples pn [] value.Sample with
  | none => none
  | some (pn2, keys) =>
    match insertSamples ⟨none⟩ (sortSamples (derefSamples pn2 keys)) with
    | none => none
    | some profileTree => some (pn2, profileTree)

/-- The series after the normalizer has run: `p` and the three tables are shared
with the normalizer, so they hold what it left in them. -/
def MemSeries.withTables (s : MemSeries) (pn : profileNormalizer) : MemSeries :=
  { s with p := some pn.p, locations := pn.locations, functions := pn.functions,
           mappings := pn.mappings }

/-- Go `MemSeries.prepareSamplesForInsert`: the series as left behind and the profile
tree or the error returned; `none` for a panic. -/
def MemSeries.prepareSamplesForInsert (s : MemSeries) (value : profile.Profile) :
    Option (MemSeries × Except Err ProfileTree) :=
  match s.initFrom value with
  | none => none
  | some s1 =>
    match compatibleProfiles s1 value with
    | none => none
    | some (some e) => some (s1, .error e)
    | some none =>
      match (s1.normalizer.mapFirstMapping value).buildProfileTree value with
      | none => none
      | some (pn2, profileTree) => some (s1.withTables pn2, .ok profileTree)

/-- The statement pair `if s.seriesTree == nil { s.seriesTree = &MemSeriesTree{} }`. -/
def orNewTree (t : Option MemSeriesTree) : MemSeriesTree :=
  match t with
  | some t => t
  | none => ⟨none⟩

/-- Go `MemSeries.append`: the tree is merged at index `s.i`, the error of
`MemSeriesTree.Insert` is dropped (the call is a statement), then `s.i++`.  `none`
when the merge panics. -/
def MemSeries.append (s : MemSeries) (profileTree : ProfileTree) : Option MemSeries :=
  match (orNewTree s.seriesTree).Insert s.i profileTree with
  | none => none
  | some (tree1, _) => some { s with seriesTree := some tree1, i := incUint16 s.i }

/-- The statement pair `if c == nil { c = chunk.NewFakeChunk() }` on a column. -/
def orNewFakeChunk (c : Option chunk.Chunk) : chunk.Chunk :=
  match c with
  | some c => c
  | none => chunk.NewFakeChunk

/-- Millisecond timestamp of a profile: `value.TimeNanos / 1000000`, the int64
division of Go (truncated toward zero). -/
def timestampOf (value : profile.Profile) : Int := Int.tdiv value.TimeNanos 1000000

/-- The part of `MemSeries.Append` after `s.append(profileTree)`: the out-of-order
check against `maxTime`, then the three column appends at `s.i` (already incremented
by `append`), then `s.maxTime = timestamp`.  The series as left behind and the error
returned. -/
def MemSeries.appendColumns (s2 : MemSeries) (value : profile.Profile) :
    MemSeries × Option Err :=
  let s3 : MemSeries := { s2 with timestamps := some (orNewFakeChunk s2.timestamps) }
  let timestamp := timestampOf value
  if timestamp ≤ s3.maxTime then (s3, some .outOfOrderSample)
  else
    match (orNewFakeChunk s3.timestamps).AppendAt s3.i timestamp with
    | .error e => (s3, some e)
    | .ok ts =>
      let s4 : MemSeries :=
        { s3 with timestamps := some ts, durations := some (orNewFakeChunk s3.durations) }
      match (orNewFakeChunk s4.durations).AppendAt s4.i value.DurationNanos with
      | .error e => (s4, some e)
      | .ok ds =>
        let s5 : MemSeries :=
          { s4 with durations := some ds, periods := some (orNewFakeChunk s4.periods) }
        match (orNewFakeChunk s5.periods).AppendAt s5.i value.Period with
        | .error e => (s5, some e)
        | .ok ps => ({ s5 with periods := some ps, maxTime := timestamp }, none)

/-- Go `MemSeries.Append`: the series as left behind and the error returned (`none` for
a nil error); the outer `none` is a panic. -/
def MemSeries.Append (s : MemSeries) (value : profile.Profile) :
    Option (MemSeries × Option Err) :=
  match s.prepareSamplesForInsert value with
  | none => none
  | some (s1, .error e) => some (s1, some e)
  | some (s1, .ok profileTree) =>
    match s1.append profileTree with
    | none => none
    | some s2 => some (s2.appendColumns value)

/-! ## Iteration -/

/-- Go `MemSeriesIteratorTreeValueNode`, restricted to its chunk iterator. -/
structure MemSeriesIteratorTreeValueNode where
  Values : chunkenc.Iterator
  deriving DecidableEq, Repr

/-- Go `MemSeriesIteratorTreeNode`. -/
inductive MemSeriesIteratorTreeNode where
  | mk (locationID : Nat) (flatValues : List MemSeriesIteratorTreeValueNode)
      (cumulativeValues : List MemSeriesIteratorTreeValueNode)
      (Children : List MemSeriesIteratorTreeNode)
  deriving Repr

/-- Go `MemSeriesIteratorTreeNode.LocationID`. -/
def MemSeriesIteratorTreeNode.LocationID : MemSeriesIteratorTreeNode → Nat
  | .mk id _ _ _ => id

/-- The `flatValues` field. -/
def MemSeriesIteratorTreeNode.flatValues :
    MemSeriesIteratorTreeNode → List MemSeriesIteratorTreeValueNode
  | .mk _ flat _ _ => flat

/-- The `cumulativeValues` field. -/
def MemSeriesIteratorTreeNode.cumulativeValues :
    MemSeriesIteratorTreeNode → List MemSeriesIteratorTreeValueNode
  | .mk _ _ cum _ => cum

/-- The `Children` field. -/
def MemSeriesIteratorTreeNode.Children : MemSeriesIteratorTreeNode → List MemSeriesIteratorTreeNode
  | .mk _ _ _ ch => ch

/-- Go `MemSeriesIteratorTreeNode.CumulativeValue`. -/
def MemSeriesIteratorTreeNode.CumulativeValue (n : MemSeriesIteratorTreeNode) : Int :=
  n.cumulativeValues.foldl (fun res v => wrapInt64 (res + v.Values.At)) 0

/-- Go `MemSeriesIteratorTreeNode.CumulativeValues`: the current value of each column. -/
def MemSeriesIteratorTreeNode.CumulativeValues (n : MemSeriesIteratorTreeNode) :
    List ProfileTreeValueNode :=
  n.cumulativeValues.map (fun v => ⟨v.Values.At⟩)

/-- Go `MemSeriesIteratorTreeNode.FlatValues`: the current value of each column. -/
def MemSeriesIteratorTreeNode.FlatValues (n : MemSeriesIteratorTreeNode) :
    List ProfileTreeValueNode :=
  n.flatValues.map (fun v => ⟨v.Values.At⟩)

/-- Go `MemSeriesIterator`.  `series` is the series the iterator was made from. -/
structure MemSeriesIterator where
  tree : MemSeriesIteratorTreeNode
  timestampsIterator : chunk.ChunkIterator
  durationsIterator : chunk.ChunkIterator
  periodsIterator : chunk.ChunkIterator
  series : MemSeries
  i : Nat

mutual
/-- The node built by `MemSeries.Iterator` for a child of the series tree: a fresh
chunk iterator for every flat and cumulative column, and the same for its children.
The loop walks the series tree with `it.NextChild()`, `it.StepInto()`, `it.StepUp()`
and mirrors it on `memItStack`; the tree iterator is not among the sources and is
read, as in `mergeChildren`, as the pre-order walk of spec §4.4. -/
def iteratorNode : MemSeriesTreeNode → MemSeriesIteratorTreeNode
  | .mk id flat cum ch =>
    .mk id (flat.map (fun v => ⟨v.Values.Iterator⟩)) (cum.map (fun v => ⟨v.Values.Iterator⟩))
      (iteratorNodes ch)
/-- The iterator nodes of a list of children, in order. -/
def iteratorNodes : List MemSeriesTreeNode → List MemSeriesIteratorTreeNode
  | [] => []
  | c :: cs => iteratorNode c :: iteratorNodes cs
end

/-- Go `MemSeries.Iterator`: the root of the iterator tree takes the cumulative columns
of the root of the series tree (not its flat columns); the countdown starts at `s.i`.
`none` for the panic on a nil `seriesTree`, a nil `Roots` or a nil column. -/
def MemSeries.Iterator (s : MemSeries) : Option MemSeriesIterator :=
  match s.seriesTree with
  | none => none
  | some t =>
    match t.Roots, s.timestamps, s.durations, s.periods with
    | some r, some ts, some ds, some ps =>
      some
        { tree := .mk 0 [] (r.CumulativeValues.map (fun v => ⟨v.Values.Iterator⟩))
            (iteratorNodes r.Children)
          timestampsIterator := ts.Iterator
          durationsIterator := ds.Iterator
          periodsIterator := ps.Iterator
          series := s
          i := s.i }
    | _, _, _, _ => none

mutual
/-- The walk of `MemSeriesIterator.Next` over one node below the root: every flat and
cumulative column iterator is advanced once, then the children
(`NewMemSeriesIteratorTreeIterator` is not among the sources and is read as the same
pre-order walk). -/
def nextNode : MemSeriesIteratorTreeNode → MemSeriesIteratorTreeNode
  | .mk id flat cum ch =>
    .mk id (flat.map (fun v => ⟨v.Values.Next.1⟩)) (cum.map (fun v => ⟨v.Values.Next.1⟩))
      (nextNodes ch)
/-- The walk over a list of children. -/
def nextNodes : List MemSeriesIteratorTreeNode → List MemSeriesIteratorTreeNode
  | [] => []
  | c :: cs => nextNode c :: nextNodes cs
end

/-- Go `MemSeriesIterator.Next`: the iterator as left behind and the value returned.
The column iterators are advanced one after the other, so an early `false` leaves the
earlier ones advanced; the columns of the root are not advanced by the walk. -/
def MemSeriesIterator.Next (it : MemSeriesIterator) : MemSeriesIterator × Bool :=
  if it.i = 0 then (it, false)
  else
    let rt := it.timestampsIterator.Next
    let it1 := { it with timestampsIterator := rt.1 }
    if !rt.2 then (it1, false)
    else
      let rd := it1.durationsIterator.Next
      let it2 := { it1 with durationsIterator := rd.1 }
      if !rd.2 then (it2, false)
      else
        let rp := it2.periodsIterator.Next
        let it3 := { it2 with periodsIterator := rp.1 }
        if !rp.2 then (it3, false)
        else
          let tree1 : MemSeriesIteratorTreeNode :=
            .mk it3.tree.LocationID it3.tree.flatValues it3.tree.cumulativeValues
              (nextNodes it3.tree.Children)
          ({ it3 with tree := tree1, i := it3.i - 1 }, true)

/-- Go `InstantProfileMeta` (declared in another file): the fields filled by
`ProfileMeta`. -/
structure InstantProfileMeta where
  PeriodType : ValueType
  SampleType : ValueType
  Timestamp : Int
  Duration : Int
  Period : Int
  deriving DecidableEq, Repr

/-- Go `MemSeriesIterator.At` followed by `MemSeriesInstantProfile.ProfileMeta`. -/
def MemSeriesIterator.ProfileMeta (it : MemSeriesIterator) : InstantProfileMeta :=
  { PeriodType := it.series.periodType
    SampleType := it.series.sampleType
    Timestamp := it.timestampsIterator.At
    Duration := it.durationsIterator.At
    Period := it.periodsIterator.At }

/-! ## Definitions used to state the properties -/

/-- The fields of a series that `prepareSamplesForInsert` never writes. -/
def MemSeries.sameColumns (s1 s : MemSeries) : Prop :=
  s1.i = s.i ∧ s1.maxTime = s.maxTime ∧ s1.minTime = s.minTime ∧
  s1.timestamps = s.timestamps ∧ s1.durations = s.durations ∧ s1.periods = s.periods ∧
  s1.seriesTree = s.seriesTree

/-- Consecutive `Append` calls that all return a nil error: the series after the
last one; `none` as soon as a call panics or returns an error. -/
def appendSeq (s : MemSeries) : List profile.Profile → Option MemSeries
  | [] => some s
  | value :: rest =>
    match s.Append value with
    | some (s1, none) => appendSeq s1 rest
    | _ => none

/-- Consecutive `Append` calls, whatever they return: the series after the last one
and the error returned by each call, in order; `none` when a call panics. -/
def appendAll (s : MemSeries) : List profile.Profile → Option (MemSeries × List (Option Err))
  | [] => some (s, [])
  | value :: rest =>
    match s.Append value with
    | none => none
    | some (s1, e) =>
      match appendAll s1 rest with
      | none => none
      | some (s2, es) => some (s2, e :: es)

/-- The values returned by `n` consecutive calls of `Next`. -/
def MemSeriesIterator.nextResults : Nat → MemSeriesIterator → List Bool
  | 0, _ => []
  | n + 1, it => it.Next.2 :: MemSeriesIterator.nextResults n it.Next.1

/-- The metadata seen by the loop `for it.Next() { ... it.At().ProfileMeta() ... }`.
Every `Next` that returns true decrements `it.i`, so `fuel = it.i` rounds run the
loop to its end. -/
def MemSeriesIterator.collectFrom : Nat → MemSeriesIterator → List InstantProfileMeta
  | 0, _ => []
  | fuel + 1, it =>
    if it.Next.2 then it.Next.1.ProfileMeta :: MemSeriesIterator.collectFrom fuel it.Next.1 else []

/-- The `(timestamp, duration, period)` of the profiles yielded by iterating. -/
def MemSeriesIterator.collectMeta (it : MemSeriesIterator) : List (Int × Int × Int) :=
  (it.collectFrom it.i).map (fun m => (m.Timestamp, m.Duration, m.Period))

/-- The `(timestamp, duration, period)` that `Append` derives from a profile. -/
def metaOf (value : profile.Profile) : Int × Int × Int :=
  (timestampOf value, value.DurationNanos, value.Period)

/-! ### Example data -/

/-- The value type `(cpu, nanoseconds)`. -/
def exValueType : profile.ValueType := ⟨"cpu", "nanoseconds"⟩

/-- A location without mapping and without lines. -/
def exLocation (id : Nat) : profile.Location :=
  { ID := id, Mapping := none, Address := 16 * id, Line := [], IsFolded := false }

/-- A profile with one sample of value `v` whose stack is `L1 ← L2` (leaf `L2`
first, as in pprof), stamped `timeNanos`. -/
def exProfile (timeNanos v : Int) : profile.Profile :=
  { SampleType := [exValueType]
    Sample := [{ Location := [some (exLocation 2), some (exLocation 1)], Value := [v],
                 Label := [], NumLabel := [], NumUnit := [] }]
    Mapping := []
    Location := [exLocation 1, exLocation 2]
    Function := []
    TimeNanos := timeNanos
    DurationNanos := 10
    PeriodType := some exValueType
    Period := 100 }

/-- A fresh series, except that its tree already has the node of the caller `L1`
(interned id 2) with a cumulative chunk whose appender cannot be opened. -/
def brokenSeries : MemSeries :=
  { NewMemSeries with
    seriesTree := some ⟨some (.mk 0 [] [] [.mk 2 [] [⟨⟨[], true⟩⟩] []])⟩ }

mutual
/-- A profile-tree node that has a cumulative value, as have all nodes below it. -/
def ProfileTreeNode.hasCum : ProfileTreeNode → Prop
  | .mk _ _ cum ch => cum ≠ [] ∧ allHaveCum ch
/-- Every node of a list of subtrees has a cumulative value. -/
def allHaveCum : List ProfileTreeNode → Prop
  | [] => True
  | c :: cs => c.hasCum ∧ allHaveCum cs
end

/-- A profile that `Append` can read without a panic: it has a period type and a
sample type, and the samples that are not skipped as zero samples hold no nil
location. -/
def WellFormed (value : profile.Profile) : Prop :=
  value.PeriodType ≠ none ∧ value.SampleType ≠ [] ∧
  ∀ sample ∈ value.Sample, isZeroSample sample = false → ∀ l ∈ sample.Location, l ≠ none

/-- Samples that `ProfileTree.Insert` can read: a first value and no nil location. -/
def readableSample (s : profile.Sample) : Prop :=
  s.Value ≠ [] ∧ (locationIDs s.Location).isSome

/-- Every sample interned by the normalizer for the current profile is readable. -/
def samplesReadable (pn : profileNormalizer) : Prop :=
  ∀ e ∈ pn.samples, readableSample e.2

/-- Every node of a profile tree, the root included, has a cumulative value. -/
def ProfileTree.hasCum (t : ProfileTree) : Prop :=
  match t.Roots with
  | none => True
  | some r => r.hasCum

/-- The profile passes `compatibleProfiles` on the series: the series has not seen a
profile yet (it then takes its types from this one), or the period type and the first
sample type of the profile are present and equal to those of the series. -/
def Compatible (s : MemSeries) (value : profile.Profile) : Prop :=
  s.p = none ∨
  ((∃ pt, value.PeriodType = some pt ∧ equalValueType s.periodType pt = true) ∧
   (∃ st rest, value.SampleType = st :: rest ∧ equalValueType s.sampleType st = true))

/-- The series reached from `NewMemSeries` by appending `exProfile 5000000 5`
(see `append_exProfile`). -/
def exSeries1 : MemSeries :=
  { p := some { emptyProfile with
      Location := [{ ID := 1, Mapping := none, Address := 32, Line := [], IsFolded := false },
                   { ID := 2, Mapping := none, Address := 16, Line := [], IsFolded := false }] }
    periodType := ⟨"cpu", "nanoseconds"⟩
    sampleType := ⟨"cpu", "nanoseconds"⟩
    locations :=
      [(⟨16, 0, "", false⟩, { ID := 2, Mapping := none, Address := 16, Line := [], IsFolded := false }),
       (⟨32, 0, "", false⟩, { ID := 1, Mapping := none, Address := 32, Line := [], IsFolded := false })]
    functions := []
    mappings := []
    minTime := 0
    maxTime := 5
    timestamps := some ⟨[(1, 5)]⟩
    durations := some ⟨[(1, 10)]⟩
    periods := some ⟨[(1, 100)]⟩
    seriesTree := some ⟨some (.mk 0 [] [⟨⟨[(0, 5)], false⟩⟩]
      [.mk 2 [] [⟨⟨[(0, 5)], false⟩⟩]
        [.mk 1 [⟨⟨[(0, 5)], false⟩⟩] [⟨⟨[(0, 5)], false⟩⟩] []]])⟩
    i := 1 }

/-- The column chunk takes an append at index `i`: `i` is not below its last
written index. -/
def accepts (c : chunk.Chunk) (i : Nat) : Prop :=
  ∀ j, c.lastIndex = some j → j ≤ i

/-- Last written index of a column after `n` appends at the indices `1, ..., n`. -/
def lastOf (n : Nat) : Option Nat := if n = 0 then none else some n

/-- The counters and columns of a series after `n` successful appends on a fresh
series: `i = n`, `minTime` still 0, and each of the three columns last written at
index `n` (not written at all for `n = 0`). -/
def ColumnsAt (s : MemSeries) (n : Nat) : Prop :=
  s.i = n ∧ n ≤ 65535 ∧ s.minTime = 0 ∧
  ∃ ts ds ps, s.timestamps = some ts ∧ s.durations = some ds ∧ s.periods = some ps ∧
    ts.lastIndex = lastOf n ∧ ds.lastIndex = lastOf n ∧ ps.lastIndex = lastOf n

/-- Position of a column iterator after `k` successful calls of `Next`. -/
def posOf (k : Nat) : Option Nat := if k = 0 then none else some (k - 1)

/-- A series iterator over columns last written at index `n`, after `k` successful
calls of `Next` out of the `total` it was created for. -/
def IterAt (it : MemSeriesIterator) (total n k : Nat) : Prop :=
  it.i = total - k ∧
  it.timestampsIterator.c.lastIndex = some n ∧ it.timestampsIterator.cur = posOf k ∧
  it.durationsIterator.c.lastIndex = some n ∧ it.durationsIterator.cur = posOf k ∧
  it.periodsIterator.c.lastIndex = some n ∧ it.periodsIterator.cur = posOf k

/-- The profile has period type `pt` and first sample type `st`. -/
def hasTypes (pt st : profile.ValueType) (value : profile.Profile) : Prop :=
  value.PeriodType = some pt ∧ value.SampleType.head? = some st

/-- The series has not seen a profile yet, or it is fixed on the types `pt`, `st`. -/
def typesAre (s : MemSeries) (pt st : profile.ValueType) : Prop :=
  s.p = none ∨ (s.periodType = ⟨pt.Typ, pt.Unit⟩ ∧ s.sampleType = ⟨st.Typ, st.Unit⟩)

/-- The example profile stamped `k` milliseconds. -/
def exProfileAt (k : Nat) : profile.Profile := exProfile ((k : Int) * 1000000) 5

/-- The example profiles stamped `1, 2, ..., n` milliseconds. -/
def exSeq (n : Nat) : List profile.Profile := (List.range n).map (fun k => exProfileAt (k + 1))

/-- Location ids of a list of children, in order. -/
def childIDs (ch : List ProfileTreeNode) : List Nat := ch.map ProfileTreeNode.LocationID

mutual
/-- The children of this node and of every node below it are strictly ascending by
location id. -/
def ProfileTreeNode.Sorted : ProfileTreeNode → Prop
  | .mk _ _ _ ch => List.Pairwise (· < ·) (childIDs ch) ∧ allSorted ch
/-- Every tree of the list is sorted. -/
def allSorted : List ProfileTreeNode → Prop
  | [] => True
  | c :: cs => c.Sorted ∧ allSorted cs
end

/-- The children of every node of a profile tree are strictly ascending by location
id (an empty tree has no node). -/
def ProfileTree.Sorted (t : ProfileTree) : Prop :=
  match t.Roots with
  | none => True
  | some r => r.Sorted

/-- A profile tree whose root has the children 1 and 3, the first with a child 2. -/
def exTree : ProfileTree :=
  ⟨some (.mk 0 [] [⟨9⟩] [.mk 1 [] [⟨4⟩] [.mk 2 [⟨4⟩] [⟨4⟩] []], .mk 3 [⟨5⟩] [⟨5⟩] []])⟩

/-- A sample of value 7 whose only location has id 2. -/
def exSample : profile.Sample :=
  { Location := [some (exLocation 2)], Value := [7], Label := [], NumLabel := [], NumUnit := [] }


/-! ## Definitions used to state the mapping-key, interning and tree-value properties -/

/-- An example mapping: 0x1001 bytes starting at 0x1000, with a build id. -/
def exMapping : profile.Mapping :=
  { ID := 1, Start := 0x1000, Limit := 0x2001, Offset := 0, File := "/bin/app",
    BuildID := "abc", HasFunctions := false, HasFilenames := false,
    HasLineNumbers := false, HasInlineFrames := false }

/-- The value in the first slot of a list of profile-tree values, 0 when there is none. -/
def slotValue (vs : List ProfileTreeValueNode) : Int :=
  match vs with
  | [] => 0
  | x :: _ => x.Value

/-- The flat value of a profile-tree node (0 when it has no flat slot). -/
def ProfileTreeNode.FlatValue (n : ProfileTreeNode) : Int := slotValue n.FlatValues

mutual
/-- The nodes of the subtree rooted at a node, the node itself first. -/
def ProfileTreeNode.nodes : ProfileTreeNode → List ProfileTreeNode
  | .mk id flat cum ch => .mk id flat cum ch :: nodesOfList ch
/-- The nodes of a list of subtrees. -/
def nodesOfList : List ProfileTreeNode → List ProfileTreeNode
  | [] => []
  | c :: cs => c.nodes ++ nodesOfList cs
end

/-- The sum of a list of values in int64 arithmetic (every addition wraps). -/
def int64Sum (xs : List Int) : Int := xs.foldl (fun acc x => wrapInt64 (acc + x)) 0

mutual
/-- The exact (unbounded) sum of the flat values of the nodes of a subtree. -/
def ProfileTreeNode.flatTotal : ProfileTreeNode → Int
  | .mk _ flat _ ch => slotValue flat + flatTotalList ch
/-- The exact sum of the flat values of the nodes of a list of subtrees. -/
def flatTotalList : List ProfileTreeNode → Int
  | [] => 0
  | c :: cs => c.flatTotal + flatTotalList cs
end

mutual
/-- At a node and everywhere below it there is at most one cumulative slot, and it holds
the int64 image of the sum of the flat values of the subtree. -/
def ProfileTreeNode.cumOK : ProfileTreeNode → Prop
  | .mk _ flat cum ch =>
    cum.length ≤ 1 ∧ slotValue cum = wrapInt64 (slotValue flat + flatTotalList ch) ∧ cumOKList ch
/-- Every subtree of the list satisfies `cumOK`. -/
def cumOKList : List ProfileTreeNode → Prop
  | [] => True
  | c :: cs => c.cumOK ∧ cumOKList cs
end

/-- Three samples over two stacks: 1 ← 2 twice (values 4 and 6) and the stack 1 alone. -/
def exSamples : List profile.Sample :=
  [ { Location := [some (exLocation 2), some (exLocation 1)], Value := [4],
      Label := [], NumLabel := [], NumUnit := [] },
    { Location := [some (exLocation 1)], Value := [3], Label := [], NumLabel := [], NumUnit := [] },
    { Location := [some (exLocation 2), some (exLocation 1)], Value := [6],
      Label := [], NumLabel := [], NumUnit := [] } ]

/-- The profile tree that inserting `exSamples` into the empty tree builds. -/
def exBuilt : ProfileTreeNode :=
  .mk 0 [] [⟨13⟩] [.mk 1 [⟨3⟩] [⟨13⟩] [.mk 2 [⟨10⟩] [⟨10⟩] []]]

/-- The ids of the interned mappings, functions and locations are dense: the entity at
position `k` (counting from 0) of each list has id `k + 1`. -/
def DenseIds (p : profile.Profile) : Prop :=
  (∀ k m, p.Mapping[k]? = some m → m.ID = k + 1) ∧
  (∀ k f, p.Function[k]? = some f → f.ID = k + 1) ∧
  (∀ k l, p.Location[k]? = some l → l.ID = k + 1)

/-- The interned lists of `q` continue those of `p`: every entity interned in `p` is at
the same position of `q`, unchanged. -/
def Extends (p q : profile.Profile) : Prop :=
  p.Mapping <+: q.Mapping ∧ p.Function <+: q.Function ∧ p.Location <+: q.Location

/-- Every binding that can be read from the table `t1` can be read from `t2`. -/
def TableLe {κ ν : Type} [BEq κ] (t1 t2 : List (κ × ν)) : Prop :=
  ∀ k v, t1.lookup k = some v → t2.lookup k = some v

/-- The three interning tables of `b` hold every binding of those of `a`. -/
def TablesLe (a b : profileNormalizer) : Prop :=
  TableLe a.mappings b.mappings ∧ TableLe a.functions b.functions ∧
  TableLe a.locations b.locations

/-- A source mapping without build id and file name of 0x1000 bytes. -/
def fakeA : profile.Mapping :=
  { ID := 1, Start := 0, Limit := 0x1000, Offset := 0, File := "", BuildID := "",
    HasFunctions := false, HasFilenames := false, HasLineNumbers := false,
    HasInlineFrames := false }

/-- A source mapping without build id and file name of 0x2000 bytes. -/
def fakeB : profile.Mapping :=
  { ID := 2, Start := 0x1000, Limit := 0x3000, Offset := 0, File := "", BuildID := "",
    HasFunctions := false, HasFilenames := false, HasLineNumbers := false,
    HasInlineFrames := false }

/-- A source mapping without build id and file name of 0x1000 bytes at another address. -/
def fakeC : profile.Mapping :=
  { ID := 3, Start := 0x7000, Limit := 0x7fff, Offset := 0, File := "", BuildID := "",
    HasFunctions := false, HasFilenames := false, HasLineNumbers := false,
    HasInlineFrames := false }

/-- A source mapping without build id and file name of 0x1000 bytes, like `fakeA`, at
offset 0x1000. -/
def fakeOff : profile.Mapping := { fakeA with ID := 4, Offset := 0x1000 }

/-- A source mapping with a file name. -/
def fileD : profile.Mapping := { fakeA with ID := 2, File := "/bin/app" }

/-- A source mapping without build id and file name, with the key of `fakeA` and the source
id of `fileD`. -/
def fakeE : profile.Mapping := { fakeC with ID := 2 }

/-- A location with source id 1 at `address` in the mapping `m`. -/
def exLocationIn (m : profile.Mapping) (address : Nat) : profile.Location :=
  { ID := 1, Mapping := some m, Address := address, Line := [], IsFolded := false }

/-- A profile stamped `ms` milliseconds with the one mapping `m` and one sample of value
`v` whose location lies at `address` in `m`. -/
def exProfileIn (ms : Int) (m : profile.Mapping) (address : Nat) (v : Int) : profile.Profile :=
  { exProfile (ms * 1000000) v with
    Mapping := [m]
    Location := [exLocationIn m address]
    Sample := [{ Location := [some (exLocationIn m address)], Value := [v],
                 Label := [], NumLabel := [], NumUnit := [] }] }

/-- The series reached from `NewMemSeries` by appending `exProfileIn 5 fakeA 0x10 5`: the
mapping `fakeA` is interned with id 1. -/
def exSeriesFakeA : MemSeries :=
  { exSeries1 with
    p := some { emptyProfile with
      Mapping := [fakeA]
      Location := [exLocationIn fakeA 0x10] }
    locations := [(⟨16, 1, "", false⟩, exLocationIn fakeA 0x10)]
    mappings := [(⟨4096, 0, ""⟩, fakeA)]
    seriesTree := some ⟨some (.mk 0 [] [⟨⟨[(0, 5)], false⟩⟩]
      [.mk 1 [⟨⟨[(0, 5)], false⟩⟩] [⟨⟨[(0, 5)], false⟩⟩] []])⟩ }

/-- The series reached from `exSeriesFakeA` by appending `exProfileIn 6 fakeC 0x7020 7`: the
location of the second profile is interned with id 2 in the one mapping of the series. -/
def exSeriesFakeAC : MemSeries :=
  { exSeriesFakeA with
    p := some { emptyProfile with
      Mapping := [fakeA]
      Location := [exLocationIn fakeA 0x10, { exLocationIn fakeA 0x20 with ID := 2 }] }
    locations := [(⟨32, 1, "", false⟩, { exLocationIn fakeA 0x20 with ID := 2 }),
                  (⟨16, 1, "", false⟩, exLocationIn fakeA 0x10)]
    maxTime := 6
    timestamps := some ⟨[(2, 6), (1, 5)]⟩
    durations := some ⟨[(2, 10), (1, 10)]⟩
    periods := some ⟨[(2, 100), (1, 100)]⟩
    seriesTree := some ⟨some (.mk 0 [] [⟨⟨[(1, 7), (0, 5)], false⟩⟩]
      [.mk 1 [⟨⟨[(0, 5)], false⟩⟩] [⟨⟨[(0, 5)], false⟩⟩] [],
       .mk 2 [⟨⟨[(1, 7)], false⟩⟩] [⟨⟨[(1, 7)], false⟩⟩] []])⟩
    i := 2 }

/-! ## The merge of `MemSeriesTree.Insert` when it runs to its end

`mergeChildren` returns a nil error only when every appender opened and every profile node
met had a cumulative value.  `mergedChildren` is what it leaves in that case. -/

/-- What `appendSlot` leaves in a slot when the appender opens and the value is `v`. -/
def writeSlot (slot : List MemSeriesTreeValueNode) (index : Nat) (v : Int) :
    List MemSeriesTreeValueNode :=
  match slot with
  | [] => [⟨chunkenc.NewXORChunk.AppendAt index v⟩]
  | x :: xs => ⟨x.Values.AppendAt index v⟩ :: xs

/-- What `appendNodeValues` leaves in the two slots when it returns a nil error. -/
def writeNodeValues (index : Nat) (p : ProfileTreeNode)
    (flat cum : List MemSeriesTreeValueNode) :
    List MemSeriesTreeValueNode × List MemSeriesTreeValueNode :=
  (match p.FlatValues with
    | [] => flat
    | f :: _ => writeSlot flat index f.Value,
   writeSlot cum index (slotValue p.CumulativeValues))

mutual
/-- What `mergeChildren` leaves as children when it returns a nil error. -/
def mergedChildren (index : Nat) :
    List ProfileTreeNode → List MemSeriesTreeNode → List MemSeriesTreeNode →
    List MemSeriesTreeNode
  | [], before, rest => before ++ rest
  | p :: ps, before, rest =>
    let skipped := rest.takeWhile (fun s => decide (s.LocationID < p.LocationID))
    match rest.dropWhile (fun s => decide (s.LocationID < p.LocationID)) with
    | [] =>
      mergedChildren index ps
        (before ++ skipped ++ [mergedNode index p
          (.mk p.LocationID (writeNodeValues index p [] []).1 (writeNodeValues index p [] []).2 [])])
        []
    | s :: rest1 =>
      if p.LocationID = s.LocationID then
        mergedChildren index ps
          (before ++ skipped ++ [mergedNode index p
            (.mk s.LocationID (writeNodeValues index p s.FlatValues s.CumulativeValues).1
              (writeNodeValues index p s.FlatValues s.CumulativeValues).2 s.Children)])
          rest1
      else
        mergedChildren index ps
          (before ++ skipped ++ [mergedNode index p
            (.mk p.LocationID (writeNodeValues index p [] []).1
              (writeNodeValues index p [] []).2 [])])
          (s :: rest1)
/-- What `mergeNode` leaves when it returns a nil error. -/
def mergedNode (index : Nat) : ProfileTreeNode → MemSeriesTreeNode → MemSeriesTreeNode
  | .mk _ _ _ pch, s =>
    .mk s.LocationID s.FlatValues s.CumulativeValues (mergedChildren index pch [] s.Children)
end

mutual
/-- No chunk of the node or below it refuses to open an appender. -/
def MemSeriesTreeNode.Healthy : MemSeriesTreeNode → Prop
  | .mk _ flat cum ch =>
    (∀ x ∈ flat, x.Values.broken = false) ∧ (∀ x ∈ cum, x.Values.broken = false) ∧
    allHealthy ch
/-- Every tree of the list is healthy. -/
def allHealthy : List MemSeriesTreeNode → Prop
  | [] => True
  | c :: cs => c.Healthy ∧ allHealthy cs
end

/-- No chunk of the series tree refuses to open an appender. -/
def MemSeriesTree.Healthy (t : MemSeriesTree) : Prop :=
  match t.Roots with
  | none => True
  | some r => r.Healthy

/-- What `MemSeriesTree.Insert` leaves when it returns a nil error. -/
def MemSeriesTree.merged (t : MemSeriesTree) (index : Nat) (profileTree : ProfileTree) :
    MemSeriesTree :=
  let roots : MemSeriesTreeNode :=
    match t.Roots with
    | some r => r
    | none => .mk 0 [] [] []
  match profileTree.Roots with
  | none => ⟨some roots⟩
  | some proot =>
    ⟨some (mergedNode index proot
      (.mk roots.LocationID (writeNodeValues index proot roots.FlatValues roots.CumulativeValues).1
        (writeNodeValues index proot roots.FlatValues roots.CumulativeValues).2 roots.Children))⟩

/-- Location ids of a list of series-tree children, in order. -/
def seriesChildIDs (ch : List MemSeriesTreeNode) : List Nat := ch.map MemSeriesTreeNode.LocationID

mutual
/-- The children of this series-tree node and of every node below it are strictly
ascending by location id. -/
def MemSeriesTreeNode.Sorted : MemSeriesTreeNode → Prop
  | .mk _ _ _ ch => List.Pairwise (· < ·) (seriesChildIDs ch) ∧ allSeriesSorted ch
/-- Every series tree of the list is sorted. -/
def allSeriesSorted : List MemSeriesTreeNode → Prop
  | [] => True
  | c :: cs => c.Sorted ∧ allSeriesSorted cs
end

/-- The children of every node of a series tree are strictly ascending by location id. -/
def MemSeriesTree.Sorted (t : MemSeriesTree) : Prop :=
  match t.Roots with
  | none => True
  | some r => r.Sorted

/-- A series tree holding one sample at index 0: the stack 2 ← 1 with value 5. -/
def exSeriesTree : MemSeriesTree :=
  ⟨some (.mk 0 [] [⟨⟨[(0, 5)], false⟩⟩] [.mk 2 [] [⟨⟨[(0, 5)], false⟩⟩]
    [.mk 1 [⟨⟨[(0, 5)], false⟩⟩] [⟨⟨[(0, 5)], false⟩⟩] []]])⟩

/-- The series tree `exSeriesTree` after the profile tree `exTree` is merged at index 1. -/
def exSeriesTreeMerged : MemSeriesTree :=
  ⟨some (.mk 0 [] [⟨⟨[(1, 9), (0, 5)], false⟩⟩]
    [.mk 1 [] [⟨⟨[(1, 4)], false⟩⟩] [.mk 2 [⟨⟨[(1, 4)], false⟩⟩] [⟨⟨[(1, 4)], false⟩⟩] []],
     .mk 2 [] [⟨⟨[(0, 5)], false⟩⟩]
       [.mk 1 [⟨⟨[(0, 5)], false⟩⟩] [⟨⟨[(0, 5)], false⟩⟩] []],
     .mk 3 [⟨⟨[(1, 5)], false⟩⟩] [⟨⟨[(1, 5)], false⟩⟩] []])⟩

/-- The nodes of a profile tree reached from a node by following a path of location ids
downward (the empty path reaches the node itself). -/
def ProfileTreeNode.reaches : List Nat → ProfileTreeNode → ProfileTreeNode → Prop
  | [], r, n => n = r
  | id :: rest, r, n => ∃ c ∈ r.Children, c.LocationID = id ∧ ProfileTreeNode.reaches rest c n

/-- The nodes of a series tree reached from a node by following a path of location ids. -/
def MemSeriesTreeNode.reaches : List Nat → MemSeriesTreeNode → MemSeriesTreeNode → Prop
  | [], r, n => n = r
  | id :: rest, r, n => ∃ c ∈ r.Children, c.LocationID = id ∧ MemSeriesTreeNode.reaches rest c n

/-- The value at index `k` of the first chunk of a slot, 0 when the slot is empty. -/
def seriesSlotAt (slot : List MemSeriesTreeValueNode) (k : Nat) : Int :=
  match slot with
  | [] => 0
  | x :: _ => x.Values.valueAt k

/-- The flat value of a series-tree node at index `k`. -/
def MemSeriesTreeNode.flatAt (n : MemSeriesTreeNode) (k : Nat) : Int := seriesSlotAt n.FlatValues k

/-- The cumulative value of a series-tree node at index `k`. -/
def MemSeriesTreeNode.cumulativeAt (n : MemSeriesTreeNode) (k : Nat) : Int :=
  seriesSlotAt n.CumulativeValues k

/-- Every chunk of the slot has been written at indices below `i` only. -/
def slotBelow (i : Nat) (slot : List MemSeriesTreeValueNode) : Prop :=
  ∀ x ∈ slot, ∀ e ∈ x.Values.entries, e.1 < i

mutual
/-- The chunks of the node and of every node below it have been written at indices below
`i` only. -/
def MemSeriesTreeNode.Below (i : Nat) : MemSeriesTreeNode → Prop
  | .mk _ flat cum ch => slotBelow i flat ∧ slotBelow i cum ∧ allBelow i ch
/-- Every tree of the list is written below `i` only. -/
def allBelow (i : Nat) : List MemSeriesTreeNode → Prop
  | [] => True
  | c :: cs => c.Below i ∧ allBelow i cs
end

/-- The chunks of the series tree have been written at indices below `i` only. -/
def MemSeriesTree.Below (t : MemSeriesTree) (i : Nat) : Prop :=
  match t.Roots with
  | none => True
  | some r => r.Below i

/-- The series node `s1` stands for the profile node `p` at index `i`: it has the same
location id, and every profile node below `p` has a series node at the same path below `s1`
that holds its cumulative and its flat value at index `i`. -/
def Carries (i : Nat) (p : ProfileTreeNode) (s1 : MemSeriesTreeNode) : Prop :=
  s1.LocationID = p.LocationID ∧
  ∀ path pn, ProfileTreeNode.reaches path p pn →
    ∃ sn, MemSeriesTreeNode.reaches path s1 sn ∧
      sn.cumulativeAt i = slotValue pn.CumulativeValues ∧ sn.flatAt i = pn.FlatValue

/-- The series node `s1` continues `s`: it has the same location id, and every node below
`s` has a node at the same path below `s1` with the same values at every index but `i`. -/
def Keeps (i : Nat) (s s1 : MemSeriesTreeNode) : Prop :=
  s1.LocationID = s.LocationID ∧
  ∀ path sn, MemSeriesTreeNode.reaches path s sn →
    ∃ sn1, MemSeriesTreeNode.reaches path s1 sn1 ∧
      ∀ k, k ≠ i → sn1.cumulativeAt k = sn.cumulativeAt k ∧ sn1.flatAt k = sn.flatAt k

/-- The node of an iterator tree at a path of location ids below `n` (the first child with
each id), if there is one. -/
def iteratorFind : List Nat → MemSeriesIteratorTreeNode → Option MemSeriesIteratorTreeNode
  | [], n => some n
  | id :: rest, n =>
    match n.Children.find? (fun c => c.LocationID == id) with
    | some c => iteratorFind rest c
    | none => none

/-- The series reached from `NewMemSeries` by appending `exProfile 5000000 4`. -/
def exSeriesA : MemSeries :=
  { exSeries1 with
    seriesTree := some ⟨some (.mk 0 [] [⟨⟨[(0, 4)], false⟩⟩]
      [.mk 2 [] [⟨⟨[(0, 4)], false⟩⟩]
        [.mk 1 [⟨⟨[(0, 4)], false⟩⟩] [⟨⟨[(0, 4)], false⟩⟩] []]])⟩ }

/-- The series reached from `exSeriesA` by appending `exProfile 6000000 6`. -/
def exSeriesAB : MemSeries :=
  { exSeries1 with
    maxTime := 6
    timestamps := some ⟨[(2, 6), (1, 5)]⟩
    durations := some ⟨[(2, 10), (1, 10)]⟩
    periods := some ⟨[(2, 100), (1, 100)]⟩
    seriesTree := some ⟨some (.mk 0 [] [⟨⟨[(1, 6), (0, 4)], false⟩⟩]
      [.mk 2 [] [⟨⟨[(1, 6), (0, 4)], false⟩⟩]
        [.mk 1 [⟨⟨[(1, 6), (0, 4)], false⟩⟩] [⟨⟨[(1, 6), (0, 4)], false⟩⟩] []]])⟩
    i := 2 }

mutual
/-- The nodes of the subtree rooted at a series-tree node, the node itself first. -/
def MemSeriesTreeNode.nodes : MemSeriesTreeNode → List MemSeriesTreeNode
  | .mk id flat cum ch => .mk id flat cum ch :: seriesNodesOfList ch
/-- The nodes of a list of series subtrees. -/
def seriesNodesOfList : List MemSeriesTreeNode → List MemSeriesTreeNode
  | [] => []
  | c :: cs => c.nodes ++ seriesNodesOfList cs
end

mutual
/-- The exact (unbounded) sum of the flat values at index `k` of the nodes of a subtree. -/
def MemSeriesTreeNode.flatTotalAt (k : Nat) : MemSeriesTreeNode → Int
  | .mk _ flat _ ch => seriesSlotAt flat k + flatTotalListAt k ch
/-- The exact sum of the flat values at index `k` of the nodes of a list of subtrees. -/
def flatTotalListAt (k : Nat) : List MemSeriesTreeNode → Int
  | [] => 0
  | c :: cs => c.flatTotalAt k + flatTotalListAt k cs
end

mutual
/-- At index `k`, the cumulative value of the node and of every node below it is the int64
image of the sum of the flat values of its subtree. -/
def MemSeriesTreeNode.sumOK (k : Nat) : MemSeriesTreeNode → Prop
  | .mk _ flat cum ch =>
    seriesSlotAt cum k = wrapInt64 (seriesSlotAt flat k + flatTotalListAt k ch) ∧ allSumOK k ch
/-- Every subtree of the list satisfies `sumOK`. -/
def allSumOK (k : Nat) : List MemSeriesTreeNode → Prop
  | [] => True
  | c :: cs => c.sumOK k ∧ allSumOK k cs
end

mutual
/-- The sum of the flat values at index `k` of the leaf nodes of a subtree. -/
def MemSeriesTreeNode.leafFlatAt (k : Nat) : MemSeriesTreeNode → Int
  | .mk _ flat _ ch => if ch.isEmpty then seriesSlotAt flat k else leafFlatListAt k ch
/-- The sum of the flat values at index `k` of the leaf nodes of a list of subtrees. -/
def leafFlatListAt (k : Nat) : List MemSeriesTreeNode → Int
  | [] => 0
  | c :: cs => wrapInt64 (c.leafFlatAt k + leafFlatListAt k cs)
end

/-- A mapping loaded `d` bytes higher (64-bit wrap-around). -/
def shiftMapping (d : Nat) (m : profile.Mapping) : profile.Mapping :=
  { m with Start := (m.Start + d) % 2 ^ 64, Limit := (m.Limit + d) % 2 ^ 64 }

/-- A location of a binary loaded `d` bytes higher: its address and its mapping move. -/
def shiftLocation (d : Nat) (l : profile.Location) : profile.Location :=
  { l with Address := (l.Address + d) % 2 ^ 64, Mapping := l.Mapping.map (shiftMapping d) }

/-- A sample whose locations are moved by `d`. -/
def shiftSample (d : Nat) (s : profile.Sample) : profile.Sample :=
  { s with Location := s.Location.map (Option.map (shiftLocation d)) }

/-- The profile `P` with the start and limit of every mapping and the address of every
location increased by `d` (64-bit wrap-around), and nothing else changed. -/
def shiftProfile (d : Nat) (P : profile.Profile) : profile.Profile :=
  { P with
    Mapping := P.Mapping.map (shiftMapping d)
    Location := P.Location.map (shiftLocation d)
    Sample := P.Sample.map (shiftSample d) }

/-- The memo entry of a mapping in the run on the shifted profile, given its entry in the
run on the original profile: the same interned mapping, the offset lowered by `d`. -/
def InfoRel (d : Nat) (a b : mapInfo) : Prop :=
  b.m = a.m ∧ b.offset = wrapInt64 (a.offset - (d : Int))

/-- The state `B` of the normalizer run on the shifted profile corresponds to the state `A`
of the run on the original profile, `F` being the tables the original run ends with: `B`
works on the tables of `F`, has interned the same samples and memoized the same locations
and functions, and its mapping memo holds the entries of `A` with shifted offsets, except
possibly the entry of the eagerly interned first mapping `e`. -/
def Sim (d : Nat) (e : Option profile.Mapping) (F A B : profileNormalizer) : Prop :=
  B.p = F.p ∧ B.mappings = F.mappings ∧ B.functions = F.functions ∧
  B.locations = F.locations ∧ B.samples = A.samples ∧
  B.locationsByID = A.locationsByID ∧ B.functionsByID = A.functionsByID ∧
  (∀ id mi1, B.mappingsByID.lookup id = some mi1 →
    ∃ mi, A.mappingsByID.lookup id = some mi ∧ InfoRel d mi mi1) ∧
  (∀ id mi, A.mappingsByID.lookup id = some mi → B.mappingsByID.lookup id = none →
    ∃ M0 m, e = some M0 ∧ M0.ID = id ∧ F.mappings.lookup (makeMappingKey M0) = some m ∧
      mi = ⟨some m, wrapInt64 (wrapInt64 (m.Start : Int) - wrapInt64 (M0.Start : Int))⟩)

/-- A location with id `id` at `address` in the mapping `exMapping`. -/
def exMappedLocation (id address : Nat) : profile.Location :=
  { ID := id, Mapping := some exMapping, Address := address, Line := [], IsFolded := false }

/-- A profile with one mapping and one sample whose two locations lie in that mapping. -/
def exMappedProfile : profile.Profile :=
  { exProfile 5000000 5 with
    Mapping := [exMapping]
    Location := [exMappedLocation 1 0x1010, exMappedLocation 2 0x1020]
    Sample := [{ Location := [some (exMappedLocation 2 0x1020), some (exMappedLocation 1 0x1010)],
                 Value := [5], Label := [], NumLabel := [], NumUnit := [] }] }

/-! ## Definitions used to state the iterator and rejected-append properties -/

/-- A series as `NewMemSeries` makes it, except that its tree already has a root node
(what the first `MemSeriesTree.Insert` creates). -/
def exRootedSeries (r : MemSeriesTreeNode) : MemSeries :=
  { NewMemSeries with seriesTree := some ⟨some r⟩ }

/-- The series reached from `exSeries1` (one accepted profile stamped 5 ms, sample index 1)
by appending a second profile with the same stamp and sample value 7: the tree holds the 7
at index 1 and the sample index is 2, the columns and `maxTime` are those of `exSeries1`. -/
def exSeriesRejected : MemSeries :=
  { exSeries1 with
    seriesTree := some ⟨some (.mk 0 [] [⟨⟨[(1, 7), (0, 5)], false⟩⟩]
      [.mk 2 [] [⟨⟨[(1, 7), (0, 5)], false⟩⟩]
        [.mk 1 [⟨⟨[(1, 7), (0, 5)], false⟩⟩] [⟨⟨[(1, 7), (0, 5)], false⟩⟩] []]])⟩
    i := 2 }

/-! ## Definitions used to state the properties of `ProfileTree.Insert` on paths -/

/-- The step of `ProfileTree.Insert` on a list of children that ascends by location id,
without the binary search: the child with id `x` is replaced by its image under `f`; when
there is none, the image of a fresh node with id `x` is put at its place in the order. -/
def upsertChild (f : ProfileTreeNode → ProfileTreeNode) (x : Nat) :
    List ProfileTreeNode → List ProfileTreeNode
  | [] => [f (.mk x [] [] [])]
  | c :: cs =>
    if c.LocationID < x then c :: upsertChild f x cs
    else if c.LocationID = x then f c :: cs
    else f (.mk x [] [] []) :: c :: cs

/-- The walk of `ProfileTree.Insert` with `upsertChild` in place of the binary search; it
agrees with `ProfileTreeNode.insertPath` on sorted nodes (`insertPath_eq_insertedPath`). -/
def ProfileTreeNode.insertedPath (v : Int) : List Nat → ProfileTreeNode → ProfileTreeNode
  | [], .mk id flat cum ch => .mk id (addValue flat v) (addValue cum v) ch
  | x :: rest, .mk id flat cum ch =>
    .mk id flat (addValue cum v) (upsertChild (ProfileTreeNode.insertedPath v rest) x ch)

/-- The node at a path of location ids below `n` (the first child with each id), if there
is one; the empty path is `n` itself. -/
def ProfileTreeNode.find : List Nat → ProfileTreeNode → Option ProfileTreeNode
  | [], n => some n
  | x :: rest, n =>
    match n.Children.find? (fun c => c.LocationID == x) with
    | some c => ProfileTreeNode.find rest c
    | none => none

/-- The node of a profile tree at a path of location ids from the root (the empty path is
the root); an empty tree has no node. -/
def ProfileTree.nodeAt (t : ProfileTree) (q : List Nat) : Option ProfileTreeNode :=
  t.Roots.bind (ProfileTreeNode.find q)

/-- The cumulative value of the node at path `q`, 0 when there is no such node. -/
def ProfileTree.cumulativeAt (t : ProfileTree) (q : List Nat) : Int :=
  ((t.nodeAt q).map ProfileTreeNode.CumulativeValue).getD 0

/-- The flat value of the node at path `q`, 0 when there is no such node. -/
def ProfileTree.flatAt (t : ProfileTree) (q : List Nat) : Int :=
  ((t.nodeAt q).map ProfileTreeNode.FlatValue).getD 0

/-- The flat and the cumulative slots of the node at path `q` below `n`, both empty when
there is no such node. -/
def ProfileTreeNode.slotsAt (n : ProfileTreeNode) (q : List Nat) :
    List ProfileTreeValueNode × List ProfileTreeValueNode :=
  match n.find q with
  | some m => (m.FlatValues, m.CumulativeValues)
  | none => ([], [])

/-- The example profile with two more samples in front: one with an empty value list and
one of value 0; both are zero samples. -/
def exZeroProfile : profile.Profile :=
  { exProfile 5000000 5 with
    Sample := [{ Location := [some (exLocation 2), some (exLocation 1)], Value := [],
                 Label := [], NumLabel := [], NumUnit := [] },
               { Location := [some (exLocation 1)], Value := [0],
                 Label := [], NumLabel := [], NumUnit := [] },
               { Location := [some (exLocation 2), some (exLocation 1)], Value := [5],
                 Label := [], NumLabel := [], NumUnit := [] }] }

/-! ## Definitions used to state the first-mapping property -/

/-- The mapping as `mapMapping` interns it: a copy of the source mapping under a new id. -/
def internedMapping (src : profile.Mapping) (id : Nat) : profile.Mapping :=
  { src with ID := id }

/-- A profile stamped 5 ms with the mapping `exMapping` and no sample. -/
def exFirstProfile : profile.Profile :=
  { exProfile 5000000 5 with Sample := [], Location := [], Mapping := [exMapping] }

/-- A profile stamped 6 ms whose mapping list is "bbb", "ccc" (by build id) and whose only
sample has its location in the second of them. -/
def exSecondProfile : profile.Profile :=
  { exProfile 6000000 5 with
    Mapping := [{ exMapping with ID := 1, BuildID := "bbb" },
                { exMapping with ID := 2, BuildID := "ccc" }]
    Location := [{ ID := 1, Mapping := some { exMapping with ID := 2, BuildID := "ccc" },
                   Address := 0x1010, Line := [], IsFolded := false }]
    Sample := [{ Location := [some { ID := 1,
                                     Mapping := some { exMapping with ID := 2, BuildID := "ccc" },
                                     Address := 0x1010, Line := [], IsFolded := false }],
                 Value := [5], Label := [], NumLabel := [], NumUnit := [] }] }

/-- The series reached from `NewMemSeries` by appending `exMappedProfile`: the mapping
`exMapping` is interned with id 1, the two locations of the sample with ids 1 and 2. -/
def exSeriesMapped : MemSeries :=
  { exSeries1 with
    p := some { emptyProfile with
      Mapping := [exMapping]
      Location := [exMappedLocation 1 0x1020, exMappedLocation 2 0x1010] }
    locations := [(⟨16, 1, "", false⟩, exMappedLocation 2 0x1010),
                  (⟨32, 1, "", false⟩, exMappedLocation 1 0x1020)]
    mappings := [(⟨8192, 0, "abc"⟩, exMapping)] }

/-- The fresh series as `prepareSamplesForInsert` leaves it on `exMappedProfile`: the
types and the interned tables of `exSeriesMapped`, nothing appended yet. -/
def exSeriesPrepared : MemSeries :=
  { NewMemSeries with
    p := exSeriesMapped.p
    periodType := ⟨"cpu", "nanoseconds"⟩
    sampleType := ⟨"cpu", "nanoseconds"⟩
    locations := exSeriesMapped.locations
    mappings := exSeriesMapped.mappings }

/-- The profile tree of `exMappedProfile`: the stack 2 ← 1 (interned ids) with value 5. -/
def exMappedTree : ProfileTree :=
  ⟨some (.mk 0 [] [⟨5⟩] [.mk 2 [] [⟨5⟩] [.mk 1 [⟨5⟩] [⟨5⟩] []]])⟩

/-! ## Definitions used to state the duplicate-sample property -/

open profile

theorem initFrom_sameColumns {s s1 : MemSeries} {value : Profile}
    (h : s.initFrom value = some s1) : s1.sameColumns s := by
  unfold MemSeries.initFrom at h
  split at h
  · simp at h; subst h; simp [MemSeries.sameColumns]
  · split at h
    · simp at h; subst h; simp [MemSeries.sameColumns]
    · simp at h

theorem prepare_sameColumns {s s1 : MemSeries} {value : Profile} {r : Except Err ProfileTree}
    (h : s.prepareSamplesForInsert value = some (s1, r)) : s1.sameColumns s := by
  unfold MemSeries.prepareSamplesForInsert at h
  split at h
  · simp at h
  · rename_i s0 hs0
    have h0 := initFrom_sameColumns hs0
    split at h
    · simp at h
    · simp at h; obtain ⟨h1, _⟩ := h; subst h1; exact h0
    · split at h
      · simp at h
      · simp at h; obtain ⟨h1, _⟩ := h; subst h1
        simpa [MemSeries.sameColumns, MemSeries.withTables] using h0

theorem appendColumns_no_error {s2 s' : MemSeries} {value : Profile}
    (h : s2.appendColumns value = (s', none)) :
    s2.maxTime < timestampOf value ∧
    ∃ ts ds ps,
      (orNewFakeChunk s2.timestamps).AppendAt s2.i (timestampOf value) = .ok ts ∧
      (orNewFakeChunk s2.durations).AppendAt s2.i value.DurationNanos = .ok ds ∧
      (orNewFakeChunk s2.periods).AppendAt s2.i value.Period = .ok ps ∧
      s' = { s2 with timestamps := some ts, durations := some ds, periods := some ps,
                     maxTime := timestampOf value } := by
  unfold MemSeries.appendColumns at h
  simp only [orNewFakeChunk] at h ⊢
  split at h
  · simp at h
  · rename_i hlt
    refine ⟨by simpa using hlt, ?_⟩
    split at h
    · simp at h
    · rename_i ts hts
      split at h
      · simp at h
      · rename_i ds hds
        split at h
        · simp at h
        · rename_i ps hps
          simp at h
          exact ⟨ts, ds, ps, hts, hds, hps, h.symm⟩

theorem append_some {s s2 : MemSeries} {tree : ProfileTree} (h : s.append tree = some s2) :
    ∃ t e, (orNewTree s.seriesTree).Insert s.i tree = some (t, e) ∧
      s2 = { s with seriesTree := some t, i := incUint16 s.i } := by
  unfold MemSeries.append at h
  split at h
  · simp at h
  · rename_i t e ht
    simp at h
    exact ⟨t, e, ht, h.symm⟩

theorem Append_no_error {s s' : MemSeries} {value : Profile}
    (h : s.Append value = some (s', none)) :
    ∃ s1 tree t e ts ds ps,
      s.prepareSamplesForInsert value = some (s1, .ok tree) ∧
      (orNewTree s.seriesTree).Insert s.i tree = some (t, e) ∧
      s.maxTime < timestampOf value ∧
      (orNewFakeChunk s.timestamps).AppendAt (incUint16 s.i) (timestampOf value) = .ok ts ∧
      (orNewFakeChunk s.durations).AppendAt (incUint16 s.i) value.DurationNanos = .ok ds ∧
      (orNewFakeChunk s.periods).AppendAt (incUint16 s.i) value.Period = .ok ps ∧
      s' = { s1 with seriesTree := some t, i := incUint16 s.i, timestamps := some ts,
                     durations := some ds, periods := some ps, maxTime := timestampOf value } := by
  unfold MemSeries.Append at h
  split at h
  · simp at h
  · simp at h
  · rename_i s1 tree hprep
    obtain ⟨hi, hmax, hmin, hts, hds, hps, htree⟩ := prepare_sameColumns hprep
    split at h
    · simp at h
    · rename_i s2 happ
      obtain ⟨t, e, hins, hs2⟩ := append_some happ
      simp only [Option.some.injEq] at h
      obtain ⟨hlt, ts, ds, ps, h1, h2, h3, h4⟩ := appendColumns_no_error h
      subst hs2
      simp only [hts, hds, hps, hi, hmax] at h1 h2 h3 hlt
      rw [htree, hi] at hins
      refine ⟨s1, tree, t, e, ts, ds, ps, hprep, hins, hlt, h1, h2, h3, ?_⟩
      rw [h4, hi]

theorem allHaveCum_iff (ch : List ProfileTreeNode) :
    allHaveCum ch ↔ ∀ c ∈ ch, c.hasCum := by
  induction ch with
  | nil => simp [allHaveCum]
  | cons c cs ih => simp [allHaveCum, ih]

theorem addValue_ne_nil (vs : List ProfileTreeValueNode) (v : Int) : addValue vs v ≠ [] := by
  unfold addValue; split <;> simp

theorem insertPath_hasCum (v : Int) : ∀ (ids : List Nat) (node : ProfileTreeNode),
    allHaveCum node.Children → (node.insertPath v ids).hasCum := by
  intro ids
  induction ids with
  | nil =>
    intro node h
    cases node with
    | mk id flat cum ch =>
      simp only [ProfileTreeNode.insertPath, ProfileTreeNode.hasCum]
      exact ⟨addValue_ne_nil _ _, h⟩
  | cons nextId rest ih =>
    intro node h
    cases node with
    | mk id flat cum ch =>
      simp only [ProfileTreeNode.Children] at h
      rw [allHaveCum_iff] at h
      simp only [ProfileTreeNode.insertPath]
      split
      · rename_i child hfound
        simp only [ProfileTreeNode.hasCum]
        refine ⟨addValue_ne_nil _ _, ?_⟩
        rw [allHaveCum_iff]
        intro c hc
        have hchild : child ∈ ch := by
          split at hfound
          · rename_i c0 hc0
            split at hfound
            · simp at hfound; subst hfound
              exact List.getElem?_mem hc0
            · simp at hfound
          · simp at hfound
        rcases List.mem_or_eq_of_mem_set hc with hc | hc
        · exact h c hc
        · subst hc
          apply ih
          have := h child hchild
          cases child with
          | mk _ _ _ cch => exact this.2
      · simp only [ProfileTreeNode.hasCum]
        refine ⟨addValue_ne_nil _ _, ?_⟩
        rw [allHaveCum_iff]
        intro c hc
        simp only [List.mem_append, List.mem_cons] at hc
        rcases hc with hc | hc | hc
        · exact h c (List.mem_of_mem_take hc)
        · subst hc
          apply ih
          simp [ProfileTreeNode.Children, allHaveCum]
        · exact h c (List.mem_of_mem_drop hc)

theorem appendSlot_isSome (slot : List MemSeriesTreeValueNode) (index : Nat) (v : Int) :
    (appendSlot slot index (some v)).isSome := by
  unfold appendSlot
  cases slot with
  | nil =>
    simp only
    split <;> simp
  | cons x xs =>
    simp only
    split <;> simp

theorem appendNodeValues_isSome (index : Nat) (p : ProfileTreeNode)
    (flat cum : List MemSeriesTreeValueNode) (hp : p.CumulativeValues ≠ []) :
    (appendNodeValues index p flat cum).isSome := by
  unfold appendNodeValues
  obtain ⟨c, cs, hc⟩ := List.exists_cons_of_ne_nil hp
  have hcum : ∀ fl, (match appendSlot cum index
        (p.CumulativeValues.head?.map (fun c : ProfileTreeValueNode => c.Value)) with
      | none => (none : Option ((List MemSeriesTreeValueNode × List MemSeriesTreeValueNode) × Option Err))
      | some (cum1, e) => some ((fl, cum1), e)).isSome := by
    intro fl
    obtain ⟨r, hr⟩ := Option.isSome_iff_exists.mp (appendSlot_isSome cum index c.Value)
    rw [hc]
    simp only [List.head?_cons, Option.map_some', hr]
    rfl
  cases hf : p.FlatValues with
  | nil =>
    simp only
    exact hcum flat
  | cons f fs =>
    simp only
    obtain ⟨r, hr⟩ := Option.isSome_iff_exists.mp (appendSlot_isSome flat index f.Value)
    rw [hr]
    obtain ⟨flat1, e⟩ := r
    cases e with
    | some e => rfl
    | none => exact hcum flat1

theorem hasCum_cumulativeValues {p : ProfileTreeNode} (h : p.hasCum) :
    p.CumulativeValues ≠ [] := by
  cases p with
  | mk _ _ cum ch => exact h.1

mutual
theorem mergeChildren_isSome (index : Nat) :
    ∀ (ps : List ProfileTreeNode) (before rest : List MemSeriesTreeNode),
      allHaveCum ps → (mergeChildren index ps before rest).isSome
  | [], before, rest, _ => by simp [mergeChildren]
  | p :: ps, before, rest, h => by
    have hp : p.hasCum := h.1
    have hps : allHaveCum ps := h.2
    have hcv := hasCum_cumulativeValues hp
    have hch : allHaveCum p.Children := by
      cases p with
      | mk _ _ _ pch => exact hp.2
    unfold mergeChildren
    simp only
    split
    · have h1 := appendNodeValues_isSome index p [] [] hcv
      split
      · rename_i hnone; simp [hnone] at h1
      · simp
      · rename_i flat cum _
        have h2 := mergeNode_isSome index p (.mk p.LocationID flat cum []) hch
        split
        · rename_i hnone; simp [hnone] at h2
        · simp
        · exact mergeChildren_isSome index ps _ _ hps
    · rename_i s rest1 _
      split
      · have h1 := appendNodeValues_isSome index p s.FlatValues s.CumulativeValues hcv
        split
        · rename_i hnone; simp [hnone] at h1
        · simp
        · rename_i flat cum _
          have h2 := mergeNode_isSome index p (.mk s.LocationID flat cum s.Children) hch
          split
          · rename_i hnone; simp [hnone] at h2
          · simp
          · exact mergeChildren_isSome index ps _ _ hps
      · have h1 := appendNodeValues_isSome index p [] [] hcv
        split
        · rename_i hnone; simp [hnone] at h1
        · simp
        · rename_i flat cum _
          have h2 := mergeNode_isSome index p (.mk p.LocationID flat cum []) hch
          split
          · rename_i hnone; simp [hnone] at h2
          · simp
          · exact mergeChildren_isSome index ps _ _ hps
theorem mergeNode_isSome (index : Nat) :
    ∀ (p : ProfileTreeNode) (s : MemSeriesTreeNode),
      allHaveCum p.Children → (mergeNode index p s).isSome
  | .mk _ _ _ pch, s, h => by
    have h1 := mergeChildren_isSome index pch [] s.Children h
    unfold mergeNode
    split
    · rename_i hnone; simp [hnone] at h1
    · simp
end

theorem mapMapping_samples (pn : profileNormalizer) (src : Option Mapping) :
    (pn.mapMapping src).1.samples = pn.samples := by
  unfold profileNormalizer.mapMapping
  split
  · rfl
  · split
    · rfl
    · dsimp only
      split <;> rfl

theorem mapFunction_samples (pn : profileNormalizer) (src : Option profile.Function) :
    (pn.mapFunction src).1.samples = pn.samples := by
  unfold profileNormalizer.mapFunction
  split
  · rfl
  · split
    · rfl
    · dsimp only
      split <;> rfl

theorem mapLines_samples (ls : List profile.Line) : ∀ pn : profileNormalizer,
    (pn.mapLines ls).1.samples = pn.samples := by
  induction ls with
  | nil => intro pn; rfl
  | cons ln rest ih =>
    intro pn
    simp only [profileNormalizer.mapLines, ih, profileNormalizer.mapLine, mapFunction_samples]

theorem mapLocation_samples (pn : profileNormalizer) (src : Option Location) :
    (pn.mapLocation src).1.samples = pn.samples := by
  unfold profileNormalizer.mapLocation
  split
  · rfl
  · split
    · rfl
    · dsimp only
      split <;> simp [mapLines_samples, mapMapping_samples]

theorem mapLocation_isSome (pn : profileNormalizer) (l : Location) :
    (pn.mapLocation (some l)).2.isSome := by
  simp only [profileNormalizer.mapLocation]
  split
  · rfl
  · split <;> rfl

theorem mapLocations_samples (ls : List (Option Location)) : ∀ pn : profileNormalizer,
    (pn.mapLocations ls).1.samples = pn.samples := by
  induction ls with
  | nil => intro pn; rfl
  | cons l rest ih =>
    intro pn
    simp only [profileNormalizer.mapLocations, ih, mapLocation_samples]

theorem mapLocations_readable (ls : List (Option Location)) (h : ∀ l ∈ ls, l ≠ none) :
    ∀ pn : profileNormalizer, (locationIDs (pn.mapLocations ls).2).isSome := by
  induction ls with
  | nil => intro pn; rfl
  | cons l rest ih =>
    intro pn
    cases l with
    | none => exact absurd rfl (h none (List.mem_cons_self _ _))
    | some l =>
      obtain ⟨l1, hl1⟩ := Option.isSome_iff_exists.mp (mapLocation_isSome pn l)
      obtain ⟨ids, hids⟩ := Option.isSome_iff_exists.mp
        (ih (fun x hx => h x (List.mem_cons_of_mem _ hx)) (pn.mapLocation (some l)).1)
      simp only [profileNormalizer.mapLocations, hl1, locationIDs, hids]
      rfl

theorem mem_of_lookup {α β : Type} [DecidableEq α] {k : α} {v : β} :
    ∀ {l : List (α × β)}, l.lookup k = some v → (k, v) ∈ l := by
  intro l
  induction l with
  | nil => intro h; simp [List.lookup] at h
  | cons e rest ih =>
    intro h
    obtain ⟨k1, v1⟩ := e
    by_cases hk : k = k1
    · subst hk
      simp [List.lookup] at h
      subst h
      exact List.mem_cons_self _ _
    · have : (k == k1) = false := by simpa using hk
      simp only [List.lookup, this] at h
      exact List.mem_cons_of_mem _ (ih h)

theorem mapSample_total (pn : profileNormalizer) (src : Sample)
    (hpn : samplesReadable pn) (hv : src.Value ≠ []) (hl : ∀ l ∈ src.Location, l ≠ none) :
    ∃ pn1 k b, pn.mapSample src = some (pn1, k, b) ∧ samplesReadable pn1 := by
  obtain ⟨v, vs, hvs⟩ := List.exists_cons_of_ne_nil hv
  obtain ⟨ids, hids⟩ := Option.isSome_iff_exists.mp (mapLocations_readable src.Location hl pn)
  have hsam := mapLocations_samples src.Location pn
  simp only [profileNormalizer.mapSample, makeStacktraceKey, hids, hvs]
  split
  · rename_i sa hsa
    have hmem := mem_of_lookup hsa
    rw [hsam] at hmem
    have hr : readableSample sa := hpn _ hmem
    obtain ⟨x, xs, hx⟩ := List.exists_cons_of_ne_nil hr.1
    rw [hx]
    refine ⟨_, _, _, rfl, ?_⟩
    intro e he
    simp only [List.mem_cons] at he
    rcases he with he | he
    · subst he
      exact ⟨by simp, hr.2⟩
    · rw [hsam] at he
      exact hpn e he
  · refine ⟨_, _, _, rfl, ?_⟩
    intro e he
    simp only [List.mem_cons] at he
    rcases he with he | he
    · subst he
      exact ⟨by simp, by simp [hids]⟩
    · rw [hsam] at he
      exact hpn e he

theorem isZeroSample_false_value {s : Sample} (h : isZeroSample s = false) : s.Value ≠ [] := by
  intro hnil
  simp [isZeroSample, hnil] at h

theorem mapSamples_total (samples : List Sample)
    (hs : ∀ sample ∈ samples, isZeroSample sample = false → ∀ l ∈ sample.Location, l ≠ none) :
    ∀ (pn : profileNormalizer) (keys : List stacktraceKey), samplesReadable pn →
      ∃ pn1 keys1, mapSamples pn keys samples = some (pn1, keys1) ∧ samplesReadable pn1 := by
  induction samples with
  | nil => intro pn keys hpn; exact ⟨pn, keys, rfl, hpn⟩
  | cons s rest ih =>
    intro pn keys hpn
    have hrest := fun x hx => hs x (List.mem_cons_of_mem _ hx)
    cases hz : isZeroSample s with
    | true =>
      simp only [mapSamples, hz]
      exact ih hrest pn keys hpn
    | false =>
      obtain ⟨pn1, k, b, hmap, hpn1⟩ := mapSample_total pn s hpn (isZeroSample_false_value hz)
        (hs s (List.mem_cons_self _ _) hz)
      simp only [mapSamples, hz, hmap]
      cases b with
      | true => exact ih hrest pn1 _ hpn1
      | false => exact ih hrest pn1 _ hpn1

theorem derefSamples_readable (pn : profileNormalizer) (keys : List stacktraceKey)
    (hpn : samplesReadable pn) : ∀ s ∈ sortSamples (derefSamples pn keys), readableSample s := by
  intro s hs
  have hs1 : s ∈ derefSamples pn keys := (List.perm_insertionSort _ _).mem_iff.mp hs
  simp only [derefSamples, List.mem_filterMap] at hs1
  obtain ⟨k, _, hk⟩ := hs1
  exact hpn _ (mem_of_lookup hk)

theorem hasCum_children {p : ProfileTreeNode} (h : p.hasCum) : allHaveCum p.Children := by
  cases p with
  | mk _ _ cum ch => exact h.2

theorem Insert_total (t : ProfileTree) (s : Sample) (hs : readableSample s)
    (ht : t.hasCum) : ∃ t1, t.Insert s = some t1 ∧ t1.hasCum := by
  obtain ⟨v, vs, hvs⟩ := List.exists_cons_of_ne_nil hs.1
  obtain ⟨ids, hids⟩ := Option.isSome_iff_exists.mp hs.2
  simp only [ProfileTree.Insert, hids, hvs]
  refine ⟨_, rfl, ?_⟩
  simp only [ProfileTree.hasCum]
  apply insertPath_hasCum
  cases hr : t.Roots with
  | none => simp [ProfileTreeNode.Children, allHaveCum]
  | some r =>
    apply hasCum_children
    simpa [ProfileTree.hasCum, hr] using ht

theorem insertSamples_total (samples : List Sample) (hs : ∀ s ∈ samples, readableSample s) :
    ∀ t : ProfileTree, t.hasCum →
      ∃ t1, insertSamples t samples = some t1 ∧ t1.hasCum := by
  induction samples with
  | nil => intro t ht; exact ⟨t, rfl, ht⟩
  | cons s rest ih =>
    intro t ht
    obtain ⟨t1, h1, ht1⟩ := Insert_total t s (hs s (List.mem_cons_self _ _)) ht
    simp only [insertSamples, h1]
    exact ih (fun x hx => hs x (List.mem_cons_of_mem _ hx)) t1 ht1

theorem buildProfileTree_total (pn : profileNormalizer) (value : Profile)
    (hpn : pn.samples = []) (hwf : WellFormed value) :
    ∃ pn2 tree, pn.buildProfileTree value = some (pn2, tree) ∧ tree.hasCum := by
  have hr : samplesReadable pn := by intro e he; rw [hpn] at he; simp at he
  obtain ⟨pn2, keys, h1, hpn2⟩ := mapSamples_total value.Sample hwf.2.2 pn [] hr
  obtain ⟨tree, h2, htree⟩ := insertSamples_total _ (derefSamples_readable pn2 keys hpn2) ⟨none⟩
    (by simp [ProfileTree.hasCum])
  simp only [profileNormalizer.buildProfileTree, h1, h2]
  exact ⟨_, _, rfl, htree⟩

theorem mapFirstMapping_samples (pn : profileNormalizer) (value : Profile) :
    (pn.mapFirstMapping value).samples = pn.samples := by
  unfold profileNormalizer.mapFirstMapping
  split
  · exact mapMapping_samples _ _
  · rfl

theorem equalValueType_self (pt : profile.ValueType) :
    equalValueType ⟨pt.Typ, pt.Unit⟩ pt = true := by
  simp [equalValueType]

theorem initFrom_compatible (s : MemSeries) (value : Profile) (hwf : WellFormed value)
    (hc : Compatible s value) :
    ∃ s1, s.initFrom value = some s1 ∧ compatibleProfiles s1 value = some none := by
  obtain ⟨hpt, hst, _⟩ := hwf
  obtain ⟨pt, hpt⟩ := Option.ne_none_iff_exists'.mp hpt
  obtain ⟨st, rest, hst⟩ := List.exists_cons_of_ne_nil hst
  cases hp : s.p with
  | none =>
    simp only [MemSeries.initFrom, hp, hpt, hst]
    refine ⟨_, rfl, ?_⟩
    simp [compatibleProfiles, hpt, hst, equalValueType_self]
  | some p0 =>
    simp only [MemSeries.initFrom, hp]
    refine ⟨s, rfl, ?_⟩
    rcases hc with hc | ⟨⟨pt1, h1, h2⟩, ⟨st1, rest1, h3, h4⟩⟩
    · simp [hp] at hc
    · simp [compatibleProfiles, h1, h2, h3, h4]

theorem prepare_total (s : MemSeries) (value : Profile) (hwf : WellFormed value)
    (hc : Compatible s value) :
    ∃ s1 tree, s.prepareSamplesForInsert value = some (s1, .ok tree) ∧ tree.hasCum := by
  obtain ⟨s1, h1, h2⟩ := initFrom_compatible s value hwf hc
  obtain ⟨pn2, tree, h3, htree⟩ := buildProfileTree_total (s1.normalizer.mapFirstMapping value) value
    (by rw [mapFirstMapping_samples]; rfl) hwf
  simp only [MemSeries.prepareSamplesForInsert, h1, h2, h3]
  exact ⟨_, _, rfl, htree⟩

theorem MemSeriesTree_Insert_total (t : MemSeriesTree) (index : Nat) (tree : ProfileTree)
    (h : tree.hasCum) : ∃ t1 e, t.Insert index tree = some (t1, e) := by
  unfold MemSeriesTree.Insert
  cases hr : tree.Roots with
  | none => exact ⟨_, _, rfl⟩
  | some proot =>
    simp only
    have hp : proot.hasCum := by simpa [ProfileTree.hasCum, hr] using h
    have h1 := appendNodeValues_isSome index proot
      (match t.Roots with
        | some r => r
        | none => .mk 0 [] [] []).FlatValues
      (match t.Roots with
        | some r => r
        | none => .mk 0 [] [] []).CumulativeValues (hasCum_cumulativeValues hp)
    split
    · rename_i hnone; simp [hnone] at h1
    · exact ⟨_, _, rfl⟩
    · rename_i flat cum _
      have h2 := mergeNode_isSome index proot
        (.mk (match t.Roots with
          | some r => r
          | none => .mk 0 [] [] []).LocationID flat cum
          (match t.Roots with
          | some r => r
          | none => .mk 0 [] [] []).Children) (hasCum_children hp)
      split
      · rename_i hnone; simp [hnone] at h2
      · exact ⟨_, _, rfl⟩

theorem Append_total (s : MemSeries) (value : Profile) (hwf : WellFormed value)
    (hc : Compatible s value) :
    ∃ s1 tree t e,
      s.prepareSamplesForInsert value = some (s1, .ok tree) ∧
      (orNewTree s.seriesTree).Insert s.i tree = some (t, e) ∧
      s.Append value =
        some (({ s1 with seriesTree := some t, i := incUint16 s.i } : MemSeries).appendColumns value) := by
  obtain ⟨s1, tree, hprep, htree⟩ := prepare_total s value hwf hc
  obtain ⟨hi, _, _, _, _, _, hst⟩ := prepare_sameColumns hprep
  obtain ⟨t, e, hins⟩ := MemSeriesTree_Insert_total (orNewTree s.seriesTree) s.i tree htree
  refine ⟨s1, tree, t, e, hprep, hins, ?_⟩
  simp only [MemSeries.Append, hprep, MemSeries.append, hst, hi, hins]

/-! ## Appending one profile -/

theorem append_exProfile :
    NewMemSeries.Append (exProfile 5000000 5) = some (exSeries1, none) := rfl

/-- C1 (the code at the failing input): on a fresh series, `Append` of a profile
stamped 5 ms returns no error; the values of its tree are written at sample index 0,
the value of `i` before the call, while the timestamp, the duration and the period are
written at index 1, because `append` has already incremented `i` when the columns are
written. -/
theorem append_writes_columns_at_incremented_index :
    (NewMemSeries.Append (exProfile 5000000 5)).map
        (fun r => (r.2, r.1.i, r.1.timestamps, r.1.durations, r.1.periods)) =
      some (none, 1, some ⟨[(1, 5)]⟩, some ⟨[(1, 10)]⟩, some ⟨[(1, 100)]⟩) ∧
    (NewMemSeries.Append (exProfile 5000000 5)).map
        (fun r => r.1.seriesTree.map (fun t => t.Roots)) =
      some (some (some (.mk 0 [] [⟨⟨[(0, 5)], false⟩⟩]
        [.mk 2 [] [⟨⟨[(0, 5)], false⟩⟩]
          [.mk 1 [⟨⟨[(0, 5)], false⟩⟩] [⟨⟨[(0, 5)], false⟩⟩] []]]))) :=
  ⟨by decide, rfl⟩

/-- C2 (the code at the failing input): after one successful `Append` of a profile
with metadata `(1, 10, 100)` on a fresh series, iterating yields one profile, whose
metadata is `(0, 0, 0)`: the columns were written at index 1 and the iterator reads
index 0, which has no entry. -/
theorem iterator_meta_reads_unwritten_index :
    metaOf (exProfile 1000000 4) = (1, 10, 100) ∧
    ((appendSeq NewMemSeries [exProfile 1000000 4]).bind (fun s => s.Iterator)).map
        (fun it => it.collectMeta) = some [(0, 0, 0)] :=
  ⟨by decide, by decide⟩

/-- C5 (counterexample): the append of the profile with one sample of value 5, stack
`L1 ← L2` and `time_nanos = 1000` to a fresh series does not return a nil error. -/
theorem append_1000ns_not_accepted :
    ¬ ∃ s1, NewMemSeries.Append (exProfile 1000 5) = some (s1, none) := by
  rintro ⟨s1, h⟩
  have h1 : (NewMemSeries.Append (exProfile 1000 5)).map (fun r => r.2) = some none := by
    rw [h]; rfl
  revert h1
  decide

/-- C5 (amended): that append is rejected with `ErrOutOfOrderSample`, its
millisecond timestamp `1000 / 1000000 = 0` not being above the initial `maxTime = 0`,
and the sample index `i` is 1 afterwards. -/
theorem append_1000ns_out_of_order :
    timestampOf (exProfile 1000 5) = 0 ∧ NewMemSeries.maxTime = 0 ∧
    ∃ s1, NewMemSeries.Append (exProfile 1000 5) = some (s1, some .outOfOrderSample) ∧ s1.i = 1 := by
  refine ⟨by decide, rfl, ?_⟩
  have h : (NewMemSeries.Append (exProfile 1000 5)).map (fun r => (r.2, r.1.i)) =
      some (some .outOfOrderSample, 1) := by decide
  obtain ⟨⟨s1, e⟩, hs, hf⟩ := Option.map_eq_some'.mp h
  simp only [Prod.mk.injEq] at hf
  obtain ⟨he, hi⟩ := hf
  subst he
  exact ⟨s1, hs, hi⟩

/-- C6: on a series that has seen a first profile (`s.p` is set), a profile whose
period type or first sample type differs in type or unit from the one of the series
makes `Append` return an incompatibility error and leaves the series exactly as it
was. -/
theorem append_incompatible_leaves_series_unchanged (s : MemSeries) (value : Profile)
    (pt st : profile.ValueType) (rest : List profile.ValueType)
    (hp : s.p ≠ none) (hpt : value.PeriodType = some pt) (hst : value.SampleType = st :: rest)
    (hdiff : (s.periodType.Typ ≠ pt.Typ ∨ s.periodType.Unit ≠ pt.Unit) ∨
             (s.sampleType.Typ ≠ st.Typ ∨ s.sampleType.Unit ≠ st.Unit)) :
    ∃ e, (e = Err.incompatiblePeriodTypes ∨ e = Err.incompatibleSampleTypes) ∧
      s.Append value = some (s, some e) := by
  obtain ⟨p0, hp0⟩ := Option.ne_none_iff_exists'.mp hp
  have hinit : s.initFrom value = some s := by simp only [MemSeries.initFrom, hp0]
  by_cases hper : equalValueType s.periodType pt = true
  · have hsam : equalValueType s.sampleType st = false := by
      rcases hdiff with h | h
      · exfalso
        simp only [equalValueType, Bool.and_eq_true, beq_iff_eq] at hper
        rcases h with h | h
        · exact h hper.1
        · exact h hper.2
      · cases hq : equalValueType s.sampleType st with
        | false => rfl
        | true =>
          exfalso
          simp only [equalValueType, Bool.and_eq_true, beq_iff_eq] at hq
          rcases h with h | h
          · exact h hq.1
          · exact h hq.2
    refine ⟨.incompatibleSampleTypes, Or.inr rfl, ?_⟩
    simp [MemSeries.Append, MemSeries.prepareSamplesForInsert, hinit, compatibleProfiles, hpt,
      hst, hper, hsam]
  · have hper1 : equalValueType s.periodType pt = false := by simpa using hper
    refine ⟨.incompatiblePeriodTypes, Or.inl rfl, ?_⟩
    simp [MemSeries.Append, MemSeries.prepareSamplesForInsert, hinit, compatibleProfiles, hpt,
      hper1]

/-- C6 (witness): the series reached by one accepted append, and a profile whose period
type is `(wall, seconds)` instead of `(cpu, nanoseconds)`. -/
theorem append_incompatible_leaves_series_unchanged_witness :
    NewMemSeries.Append (exProfile 5000000 5) = some (exSeries1, none) ∧
    ∃ e, (e = Err.incompatiblePeriodTypes ∨ e = Err.incompatibleSampleTypes) ∧
      exSeries1.Append { exProfile 6000000 5 with PeriodType := some ⟨"wall", "seconds"⟩ } =
        some (exSeries1, some e) :=
  ⟨rfl, append_incompatible_leaves_series_unchanged exSeries1
    { exProfile 6000000 5 with PeriodType := some ⟨"wall", "seconds"⟩ }
    ⟨"wall", "seconds"⟩ exValueType [] (by simp [exSeries1]) rfl rfl
    (Or.inl (Or.inl (by decide)))⟩

/-- C7 (the code at the failing input): on a series whose tree holds, at the node the
profile reaches, a cumulative chunk whose appender cannot be opened, the merge
`MemSeriesTree.Insert` returns the encoding error, and `Append` returns a nil error:
`append` drops the error of the merge. -/
theorem append_drops_merge_error :
    ((brokenSeries.prepareSamplesForInsert (exProfile 5000000 5)).bind (fun r =>
        match r.2 with
        | .ok tree => ((orNewTree r.1.seriesTree).Insert r.1.i tree).map (fun x => x.2)
        | .error _ => none)) = some (some .encoding) ∧
    (brokenSeries.Append (exProfile 5000000 5)).map (fun r => r.2) = some none :=
  ⟨by decide, by decide⟩

/-! ## The column appends -/

theorem AppendAt_of_accepts (c : chunk.Chunk) (i : Nat) (v : Int) (h : accepts c i) :
    ∃ c1, c.AppendAt i v = .ok c1 ∧ c1.lastIndex = some i := by
  unfold chunk.Chunk.AppendAt
  cases hc : c.entries with
  | nil => exact ⟨_, rfl, rfl⟩
  | cons e rest =>
    obtain ⟨j, w⟩ := e
    have hj : j ≤ i := h j (by simp [chunk.Chunk.lastIndex, hc])
    simp only
    rw [if_neg (by omega)]
    split
    · exact ⟨_, rfl, rfl⟩
    · exact ⟨_, rfl, rfl⟩

theorem accepts_of_AppendAt {c c1 : chunk.Chunk} {i : Nat} {v : Int}
    (h : c.AppendAt i v = .ok c1) : accepts c i ∧ c1.lastIndex = some i := by
  unfold chunk.Chunk.AppendAt at h
  cases hc : c.entries with
  | nil =>
    simp only [hc, Except.ok.injEq] at h
    subst h
    exact ⟨by intro j hj; simp [chunk.Chunk.lastIndex, hc] at hj, rfl⟩
  | cons e rest =>
    obtain ⟨j, w⟩ := e
    simp only [hc] at h
    split at h
    · simp at h
    · rename_i hlt
      have hacc : accepts c i := by
        intro j1 hj1
        simp [chunk.Chunk.lastIndex, hc] at hj1
        omega
      split at h
      · simp only [Except.ok.injEq] at h; subst h; exact ⟨hacc, rfl⟩
      · simp only [Except.ok.injEq] at h; subst h; exact ⟨hacc, rfl⟩

theorem AppendAt_of_not_accepts (c : chunk.Chunk) (i : Nat) (v : Int) (h : ¬ accepts c i) :
    c.AppendAt i v = .error .chunkOutOfOrder := by
  cases hr : c.AppendAt i v with
  | error e =>
    unfold chunk.Chunk.AppendAt at hr
    split at hr
    · simp at hr
    · split at hr
      · simp at hr; rw [hr]
      · split at hr <;> simp at hr
  | ok c1 => exact absurd (accepts_of_AppendAt hr).1 h

theorem appendColumns_of_le (s2 : MemSeries) (value : Profile)
    (h : timestampOf value ≤ s2.maxTime) :
    s2.appendColumns value =
      ({ s2 with timestamps := some (orNewFakeChunk s2.timestamps) }, some .outOfOrderSample) := by
  simp only [MemSeries.appendColumns, h, if_true]

theorem appendColumns_of_gt (s2 : MemSeries) (value : Profile)
    (h : s2.maxTime < timestampOf value)
    (hts : accepts (orNewFakeChunk s2.timestamps) s2.i)
    (hds : accepts (orNewFakeChunk s2.durations) s2.i)
    (hps : accepts (orNewFakeChunk s2.periods) s2.i) :
    ∃ ts ds ps,
      (orNewFakeChunk s2.timestamps).AppendAt s2.i (timestampOf value) = .ok ts ∧
      (orNewFakeChunk s2.durations).AppendAt s2.i value.DurationNanos = .ok ds ∧
      (orNewFakeChunk s2.periods).AppendAt s2.i value.Period = .ok ps ∧
      s2.appendColumns value =
        ({ s2 with timestamps := some ts, durations := some ds, periods := some ps,
                   maxTime := timestampOf value }, none) := by
  obtain ⟨ts, h1, _⟩ := AppendAt_of_accepts _ _ (timestampOf value) hts
  obtain ⟨ds, h2, _⟩ := AppendAt_of_accepts _ _ value.DurationNanos hds
  obtain ⟨ps, h3, _⟩ := AppendAt_of_accepts _ _ value.Period hps
  refine ⟨ts, ds, ps, h1, h2, h3, ?_⟩
  have hn : ¬ timestampOf value ≤ s2.maxTime := by omega
  simp only [MemSeries.appendColumns, hn, if_false]
  simp only [orNewFakeChunk] at h1 h2 h3 ⊢
  rw [h1]
  simp only
  rw [h2]
  simp only
  rw [h3]

/-- C4: for a well-formed profile that is compatible with the series, and with the
three columns in a state where the appends of this call (at the index `append` leaves
in `i`) cannot fail, `Append` returns, and it returns `ErrOutOfOrderSample` exactly
when `time_nanos / 1000000` (truncating int64 division) is at most `maxTime`;
otherwise it returns nil.  In particular a second profile with the same `time_nanos`,
compatible with the series left by the first call, is rejected with
`ErrOutOfOrderSample`. -/
theorem append_out_of_order_iff (s : MemSeries) (value : Profile)
    (hwf : WellFormed value) (hc : Compatible s value)
    (hts : accepts (orNewFakeChunk s.timestamps) (incUint16 s.i))
    (hds : accepts (orNewFakeChunk s.durations) (incUint16 s.i))
    (hps : accepts (orNewFakeChunk s.periods) (incUint16 s.i)) :
    (∃ s1 r, s.Append value = some (s1, r) ∧
      (r = some .outOfOrderSample ↔ timestampOf value ≤ s.maxTime) ∧
      (r = none ↔ s.maxTime < timestampOf value)) ∧
    (∀ value2 : Profile, value2.TimeNanos = value.TimeNanos → WellFormed value2 →
      ∀ s1 r, s.Append value = some (s1, r) → Compatible s1 value2 →
        ∃ s2, s1.Append value2 = some (s2, some .outOfOrderSample)) := by
  obtain ⟨s0, tree, t, e, hprep, _, happ⟩ := Append_total s value hwf hc
  obtain ⟨hi, hmax, _, htsq, hdsq, hpsq, _⟩ := prepare_sameColumns hprep
  -- the first call
  have hfirst : ∃ s1 r, s.Append value = some (s1, r) ∧
      (r = some .outOfOrderSample ↔ timestampOf value ≤ s.maxTime) ∧
      (r = none ↔ s.maxTime < timestampOf value) ∧ timestampOf value ≤ s1.maxTime := by
    by_cases hle : timestampOf value ≤ s.maxTime
    · refine ⟨_, _, happ.trans (congrArg some (appendColumns_of_le _ value
        (by simpa [hmax] using hle))), by simp [hle], by simp; omega, ?_⟩
      simpa [hmax] using hle
    · obtain ⟨ts, ds, ps, _, _, _, hcol⟩ := appendColumns_of_gt
        ({ s0 with seriesTree := some t, i := incUint16 s.i } : MemSeries) value
        (by simp only [hmax]; omega) (by simpa [htsq] using hts) (by simpa [hdsq] using hds)
        (by simpa [hpsq] using hps)
      exact ⟨_, _, happ.trans (congrArg some hcol), by simp [hle], by simp; omega, by simp⟩
  obtain ⟨s1, r, h1, h2, h3, h4⟩ := hfirst
  refine ⟨⟨s1, r, h1, h2, h3⟩, ?_⟩
  intro value2 hsame hwf2 s1' r' h1' hc2
  rw [h1] at h1'
  simp only [Option.some.injEq, Prod.mk.injEq] at h1'
  obtain ⟨hs, _⟩ := h1'
  subst hs
  obtain ⟨s0', tree', t', e', hprep', _, happ'⟩ := Append_total s1 value2 hwf2 hc2
  obtain ⟨_, hmax', _⟩ := prepare_sameColumns hprep'
  have hts2 : timestampOf value2 = timestampOf value := by simp [timestampOf, hsame]
  exact ⟨_, happ'.trans (congrArg some (appendColumns_of_le _ value2
    (by simp only [hmax', hts2]; exact h4)))⟩

/-- C4 (witness): a fresh series and the example profile stamped 5 ms. -/
theorem append_out_of_order_iff_witness :
    (∃ s1 r, NewMemSeries.Append (exProfile 5000000 5) = some (s1, r) ∧
      (r = some .outOfOrderSample ↔ timestampOf (exProfile 5000000 5) ≤ NewMemSeries.maxTime) ∧
      (r = none ↔ NewMemSeries.maxTime < timestampOf (exProfile 5000000 5))) ∧
    (∀ value2 : Profile, value2.TimeNanos = (exProfile 5000000 5).TimeNanos → WellFormed value2 →
      ∀ s1 r, NewMemSeries.Append (exProfile 5000000 5) = some (s1, r) → Compatible s1 value2 →
        ∃ s2, s1.Append value2 = some (s2, some .outOfOrderSample)) :=
  append_out_of_order_iff NewMemSeries (exProfile 5000000 5)
    (by
      refine ⟨by simp [exProfile], by simp [exProfile], ?_⟩
      intro sample hs _ l hl
      simp only [exProfile, List.mem_singleton] at hs
      subst hs
      simp only [List.mem_cons, List.mem_singleton, List.not_mem_nil, or_false] at hl
      rcases hl with hl | hl <;> simp [hl])
    (Or.inl rfl)
    (by intro j hj; simp [orNewFakeChunk, NewMemSeries, chunk.NewFakeChunk, chunk.Chunk.lastIndex] at hj)
    (by intro j hj; simp [orNewFakeChunk, NewMemSeries, chunk.NewFakeChunk, chunk.Chunk.lastIndex] at hj)
    (by intro j hj; simp [orNewFakeChunk, NewMemSeries, chunk.NewFakeChunk, chunk.Chunk.lastIndex] at hj)

/-! ## Sequences of successful appends -/

theorem columnsAt_new : ColumnsAt NewMemSeries 0 :=
  ⟨rfl, by omega, rfl, _, _, _, rfl, rfl, rfl, rfl, rfl, rfl⟩

theorem Insert_roots {t t1 : MemSeriesTree} {index : Nat} {tree : ProfileTree} {e : Option Err}
    (h : t.Insert index tree = some (t1, e)) : ∃ r, t1.Roots = some r := by
  simp only [MemSeriesTree.Insert] at h
  cases hr : tree.Roots with
  | none =>
    rw [hr] at h
    simp only [Option.some.injEq, Prod.mk.injEq] at h
    obtain ⟨h1, _⟩ := h
    subst h1
    exact ⟨_, rfl⟩
  | some proot =>
    rw [hr] at h
    simp only at h
    split at h
    · simp at h
    · simp only [Option.some.injEq, Prod.mk.injEq] at h
      obtain ⟨h1, _⟩ := h
      subst h1
      exact ⟨_, rfl⟩
    · split at h
      · simp at h
      · simp only [Option.some.injEq, Prod.mk.injEq] at h
        obtain ⟨h1, _⟩ := h
        subst h1
        exact ⟨_, rfl⟩

theorem columnsAt_step {s s1 : MemSeries} {n : Nat} {value : Profile}
    (hcol : ColumnsAt s n) (h : s.Append value = some (s1, none)) :
    ColumnsAt s1 (n + 1) ∧ s.maxTime < timestampOf value ∧ s1.maxTime = timestampOf value ∧
      ∃ r, s1.seriesTree = some ⟨some r⟩ := by
  obtain ⟨hi, hn, hmin, ts, ds, ps, hts, hds, hps, lts, lds, lps⟩ := hcol
  obtain ⟨s0, tree, t, e, ts1, ds1, ps1, hprep, hins, hlt, h1, h2, h3, hs1⟩ := Append_no_error h
  obtain ⟨_, _, hmin0, _⟩ := prepare_sameColumns hprep
  rw [hts] at h1
  rw [hds] at h2
  rw [hps] at h3
  simp only [orNewFakeChunk] at h1 h2 h3
  obtain ⟨a1, l1⟩ := accepts_of_AppendAt h1
  obtain ⟨_, l2⟩ := accepts_of_AppendAt h2
  obtain ⟨_, l3⟩ := accepts_of_AppendAt h3
  have hinc : incUint16 s.i = n + 1 := by
    rw [hi]
    by_cases h0 : n = 0
    · subst h0; rfl
    · have := a1 n (by rw [lts, lastOf, if_neg h0])
      rw [hi] at this
      unfold incUint16 at this ⊢
      omega
  have hn1 : n + 1 ≤ 65535 := by
    have : incUint16 s.i < 65536 := by unfold incUint16; omega
    omega
  obtain ⟨r, hr⟩ := Insert_roots hins
  have ht : t = ⟨some r⟩ := by cases t; simp_all
  subst hs1
  rw [hinc] at l1 l2 l3
  refine ⟨⟨hinc, hn1, ?_, ts1, ds1, ps1, rfl, rfl, rfl, ?_, ?_, ?_⟩, hlt, rfl, r, ?_⟩
  · simpa [hmin] using hmin0
  · simpa [lastOf] using l1
  · simpa [lastOf] using l2
  · simpa [lastOf] using l3
  · simp [ht]

theorem appendSeq_columnsAt (ps : List Profile) :
    ∀ (s0 s : MemSeries) (n0 : Nat), ColumnsAt s0 n0 → appendSeq s0 ps = some s →
      ColumnsAt s (n0 + ps.length) ∧
      (∀ last, ps.getLast? = some last → s.maxTime = timestampOf last) ∧
      (ps ≠ [] → ∃ r, s.seriesTree = some ⟨some r⟩) := by
  induction ps with
  | nil =>
    intro s0 s n0 hcol h
    simp only [appendSeq, Option.some.injEq] at h
    subst h
    exact ⟨by simpa using hcol, by simp, by simp⟩
  | cons value rest ih =>
    intro s0 s n0 hcol h
    simp only [appendSeq] at h
    split at h
    · rename_i s1 hs1
      obtain ⟨hc1, _, hmax1, r1, hr1⟩ := columnsAt_step hcol hs1
      obtain ⟨hc, hlast, hroot⟩ := ih s1 s (n0 + 1) hc1 h
      refine ⟨by simpa [Nat.add_assoc, Nat.add_comm 1] using hc, ?_, ?_⟩
      · intro last hl
        cases rest with
        | nil =>
          simp only [appendSeq, Option.some.injEq] at h
          subst h
          simp only [List.getLast?_singleton, Option.some.injEq] at hl
          subst hl
          exact hmax1
        | cons v2 rest2 =>
          exact hlast last (by simpa [List.getLast?_cons_cons] using hl)
      · intro _
        cases rest with
        | nil =>
          simp only [appendSeq, Option.some.injEq] at h
          subst h
          exact ⟨r1, hr1⟩
        | cons v2 rest2 => exact hroot (by simp)
    · simp at h

/-! ## Iterating a series -/

theorem posOf_succ (k : Nat) : posOf (k + 1) = some k := by
  simp [posOf]

theorem chunkIterator_next (it : chunk.ChunkIterator) (n k : Nat)
    (hl : it.c.lastIndex = some n) (hc : it.cur = posOf k) (hk : k ≤ n) :
    it.Next = ({ it with cur := some k }, true) := by
  have hnxt : (match it.cur with
      | none => 0
      | some j => j + 1) = k := by
    rw [hc]
    unfold posOf
    split
    · rename_i h0; split at h0
      · omega
      · simp at h0
    · rename_i j h0; split at h0
      · simp at h0
      · simp only [Option.some.injEq] at h0; omega
  simp only [chunk.ChunkIterator.Next, hl, hnxt, hk, if_true]

theorem next_of_iterAt_lt {it : MemSeriesIterator} {total n k : Nat}
    (h : IterAt it total n k) (hk : k < total) (hn : k ≤ n) :
    it.Next.2 = true ∧ IterAt it.Next.1 total n (k + 1) := by
  obtain ⟨hi, l1, c1, l2, c2, l3, c3⟩ := h
  have hi0 : ¬ it.i = 0 := by omega
  have e1 := chunkIterator_next it.timestampsIterator n k l1 c1 hn
  have e2 := chunkIterator_next it.durationsIterator n k l2 c2 hn
  have e3 := chunkIterator_next it.periodsIterator n k l3 c3 hn
  simp only [MemSeriesIterator.Next, hi0, if_false, e1, e2, e3, Bool.not_true,
    Bool.false_eq_true]
  refine ⟨trivial, ?_, l1, posOf_succ k ▸ rfl, l2, posOf_succ k ▸ rfl, l3, posOf_succ k ▸ rfl⟩
  simp only [hi]
  omega

theorem next_of_iterAt_done {it : MemSeriesIterator} {total n k : Nat}
    (h : IterAt it total n k) (hk : total ≤ k) : it.Next = (it, false) := by
  have hi0 : it.i = 0 := by rw [h.1]; omega
  simp only [MemSeriesIterator.Next, hi0, if_true]

theorem nextResults_of_iterAt (total n : Nat) (htn : total ≤ n) :
    ∀ (m k : Nat) (it : MemSeriesIterator), IterAt it total n k → k ≤ total →
      it.nextResults m =
        List.replicate (min m (total - k)) true ++ List.replicate (m - (total - k)) false := by
  intro m
  induction m with
  | zero => intro k it _ _; simp [MemSeriesIterator.nextResults]
  | succ m ih =>
    intro k it h hk
    by_cases hlt : k < total
    · obtain ⟨h1, h2⟩ := next_of_iterAt_lt h hlt (by omega)
      simp only [MemSeriesIterator.nextResults, h1, ih (k + 1) _ h2 (by omega)]
      have e1 : min (m + 1) (total - k) = min m (total - (k + 1)) + 1 := by omega
      have e2 : m + 1 - (total - k) = m - (total - (k + 1)) := by omega
      rw [e1, e2, List.replicate_succ, List.cons_append]
    · have hdone := next_of_iterAt_done h (by omega)
      have h0 : total - k = 0 := by omega
      simp only [MemSeriesIterator.nextResults, hdone]
      have := ih k it h hk
      rw [this, h0]
      simp [List.replicate_succ]

theorem iterator_after_accepted {s s1 : MemSeries} {value : Profile}
    (h : s.Append value = some (s1, none)) :
    ∃ it, s1.Iterator = some it ∧ IterAt it s1.i s1.i 0 := by
  obtain ⟨s0, tree, t, e, ts1, ds1, ps1, _, hins, _, h1, h2, h3, hs1⟩ := Append_no_error h
  obtain ⟨_, l1⟩ := accepts_of_AppendAt h1
  obtain ⟨_, l2⟩ := accepts_of_AppendAt h2
  obtain ⟨_, l3⟩ := accepts_of_AppendAt h3
  obtain ⟨r, hr⟩ := Insert_roots hins
  have ht : t = ⟨some r⟩ := by cases t; simp_all
  subst hs1
  subst ht
  simp only [MemSeries.Iterator]
  exact ⟨_, rfl, by simp, l1, rfl, l2, rfl, l3, rfl⟩

/-- C3 (counterexample): after the rejected append of the profile stamped 1000 ns on a
fresh series the sample index is 1, yet the first `Next` of an iterator returns false:
`Next` returns true 0 times, not `i` times. -/
theorem next_false_after_rejected_append :
    (NewMemSeries.Append (exProfile 1000 5)).bind (fun r =>
        r.1.Iterator.map (fun it => (r.2, r.1.i, it.nextResults 2))) =
      some (some .outOfOrderSample, 1, [false, false]) := by
  decide

/-- C3 (amended): for every series state left by an `Append` call that returned a nil
error (so for every state reached from `NewMemSeries` by `Append` calls of which the
last one was accepted), `Iterator()` returns an iterator, and `n` consecutive calls of
`Next` on it return true for the first `i` calls and false for every later one, `i`
being the sample index of the series. -/
theorem next_true_exactly_i_times (s s1 : MemSeries) (value : Profile)
    (h : s.Append value = some (s1, none)) :
    ∃ it, s1.Iterator = some it ∧
      ∀ n, it.nextResults n =
        List.replicate (min n s1.i) true ++ List.replicate (n - s1.i) false := by
  obtain ⟨it, hit, hat⟩ := iterator_after_accepted h
  refine ⟨it, hit, ?_⟩
  intro n
  have := nextResults_of_iterAt _ _ (Nat.le_refl _) n 0 it hat (Nat.zero_le _)
  simpa using this

/-- C3 (witness): the series reached by appending the example profile stamped 5 ms to a
fresh series. -/
theorem next_true_exactly_i_times_witness :
    NewMemSeries.Append (exProfile 5000000 5) = some (exSeries1, none) ∧
    ∃ it, exSeries1.Iterator = some it ∧
      ∀ n, it.nextResults n =
        List.replicate (min n exSeries1.i) true ++ List.replicate (n - exSeries1.i) false :=
  ⟨append_exProfile,
    next_true_exactly_i_times NewMemSeries exSeries1 (exProfile 5000000 5) append_exProfile⟩

/-- C9 (counterexample): after one successful append of a profile stamped 5 ms on a
fresh series, `minTime` is not the millisecond timestamp of that profile. -/
theorem minTime_not_earliest_timestamp :
    ∃ s, appendSeq NewMemSeries [exProfile 5000000 5] = some s ∧
      s.minTime ≠ timestampOf (exProfile 5000000 5) :=
  ⟨exSeries1, by simp only [appendSeq, append_exProfile], by decide⟩

/-- C9 (amended): after a non-empty sequence of `Append` calls on a fresh series that
all return a nil error, `maxTime` is the millisecond timestamp of the last appended
profile, while `minTime`, which `Append` never writes, is still 0 and so below the
timestamp of the first appended profile. -/
theorem maxTime_tracks_latest_minTime_zero (ps : List Profile) (s : MemSeries)
    (first last : Profile) (h : appendSeq NewMemSeries ps = some s)
    (hf : ps.head? = some first) (hl : ps.getLast? = some last) :
    s.maxTime = timestampOf last ∧ s.minTime = 0 ∧ s.minTime < timestampOf first := by
  obtain ⟨hcol, hlast, _⟩ := appendSeq_columnsAt ps NewMemSeries s 0 columnsAt_new h
  have hmin : s.minTime = 0 := hcol.2.2.1
  refine ⟨hlast last hl, hmin, ?_⟩
  cases ps with
  | nil => simp at hf
  | cons p rest =>
    simp only [List.head?_cons, Option.some.injEq] at hf
    subst hf
    simp only [appendSeq] at h
    split at h
    · rename_i s1 hs1
      have := (columnsAt_step columnsAt_new hs1).2.1
      rw [hmin]
      simpa [NewMemSeries] using this
    · simp at h

/-- C9 (witness): the sequence of one example profile stamped 5 ms. -/
theorem maxTime_tracks_latest_minTime_zero_witness :
    exSeries1.maxTime = timestampOf (exProfile 5000000 5) ∧ exSeries1.minTime = 0 ∧
      exSeries1.minTime < timestampOf (exProfile 5000000 5) :=
  maxTime_tracks_latest_minTime_zero [exProfile 5000000 5] exSeries1 (exProfile 5000000 5)
    (exProfile 5000000 5) (by simp only [appendSeq, append_exProfile]) rfl rfl

/-! ## The 16-bit sample index -/

theorem compatible_of_types {s : MemSeries} {pt st : profile.ValueType} {value : Profile}
    (hs : typesAre s pt st) (hv : hasTypes pt st value) : Compatible s value := by
  rcases hs with hs | ⟨h1, h2⟩
  · exact Or.inl hs
  · right
    obtain ⟨hp, hst⟩ := hv
    refine ⟨⟨pt, hp, by rw [h1]; exact equalValueType_self pt⟩, ?_⟩
    cases hl : value.SampleType with
    | nil => simp [hl] at hst
    | cons st1 rest =>
      simp only [hl, List.head?_cons, Option.some.injEq] at hst
      subst hst
      exact ⟨st1, rest, rfl, by rw [h2]; exact equalValueType_self st1⟩

theorem prepare_types {s s1 : MemSeries} {pt st : profile.ValueType} {value : Profile}
    {r : Except Err ProfileTree} (h : s.prepareSamplesForInsert value = some (s1, r))
    (hs : typesAre s pt st) (hv : hasTypes pt st value) :
    s1.p ≠ none ∧ s1.periodType = ⟨pt.Typ, pt.Unit⟩ ∧ s1.sampleType = ⟨st.Typ, st.Unit⟩ := by
  obtain ⟨hp, hst⟩ := hv
  have hinit : ∀ s0, s.initFrom value = some s0 →
      s0.p ≠ none ∧ s0.periodType = ⟨pt.Typ, pt.Unit⟩ ∧ s0.sampleType = ⟨st.Typ, st.Unit⟩ := by
    intro s0 h0
    unfold MemSeries.initFrom at h0
    split at h0
    · rename_i p0 hp0
      simp only [Option.some.injEq] at h0
      subst h0
      rcases hs with hs | hs
      · simp [hp0] at hs
      · exact ⟨by simp [hp0], hs⟩
    · split at h0
      · rename_i pt1 st1 rest1 hpt1 hst1
        simp only [Option.some.injEq] at h0
        subst h0
        rw [hp] at hpt1
        rw [hst1] at hst
        simp only [Option.some.injEq] at hpt1
        simp only [List.head?_cons, Option.some.injEq] at hst
        subst hpt1
        subst hst
        simp
      · simp at h0
  unfold MemSeries.prepareSamplesForInsert at h
  split at h
  · simp at h
  · rename_i s0 hs0
    have h0 := hinit s0 hs0
    split at h
    · simp at h
    · simp only [Option.some.injEq, Prod.mk.injEq] at h
      obtain ⟨h1, _⟩ := h
      subst h1
      exact h0
    · split at h
      · simp at h
      · simp only [Option.some.injEq, Prod.mk.injEq] at h
        obtain ⟨h1, _⟩ := h
        subst h1
        simpa [MemSeries.withTables] using h0.2

theorem appendColumns_rejected (s2 : MemSeries) (value : Profile)
    (h : s2.maxTime < timestampOf value)
    (hts : ¬ accepts (orNewFakeChunk s2.timestamps) s2.i) :
    s2.appendColumns value =
      ({ s2 with timestamps := some (orNewFakeChunk s2.timestamps) }, some .chunkOutOfOrder) := by
  have hn : ¬ timestampOf value ≤ s2.maxTime := by omega
  have he := AppendAt_of_not_accepts _ _ (timestampOf value) hts
  simp only [MemSeries.appendColumns, hn, if_false]
  simp only [orNewFakeChunk] at he ⊢
  rw [he]

theorem append_accepted {s : MemSeries} {n : Nat} {pt st : profile.ValueType} {value : Profile}
    (hcol : ColumnsAt s n) (hn : n < 65535) (hs : typesAre s pt st)
    (hwf : WellFormed value) (hv : hasTypes pt st value) (hlt : s.maxTime < timestampOf value) :
    ∃ s1, s.Append value = some (s1, none) ∧ typesAre s1 pt st := by
  obtain ⟨s0, tree, t, e, hprep, _, happ⟩ := Append_total s value hwf (compatible_of_types hs hv)
  obtain ⟨_, hmax, _, htsq, hdsq, hpsq, _⟩ := prepare_sameColumns hprep
  obtain ⟨hi, _, _, ts, ds, ps, hts, hds, hps, lts, lds, lps⟩ := hcol
  have hinc : incUint16 s.i = n + 1 := by rw [hi]; unfold incUint16; omega
  have hacc : ∀ c : chunk.Chunk, c.lastIndex = lastOf n → accepts c (n + 1) := by
    intro c hc j hj
    rw [hc] at hj
    unfold lastOf at hj
    split at hj
    · simp at hj
    · simp only [Option.some.injEq] at hj; omega
  obtain ⟨ts1, ds1, ps1, _, _, _, hres⟩ := appendColumns_of_gt
    ({ s0 with seriesTree := some t, i := incUint16 s.i } : MemSeries) value
    (by simp only [hmax]; exact hlt)
    (by simp only [htsq, hts, orNewFakeChunk, hinc]; exact hacc ts lts)
    (by simp only [hdsq, hds, orNewFakeChunk, hinc]; exact hacc ds lds)
    (by simp only [hpsq, hps, orNewFakeChunk, hinc]; exact hacc ps lps)
  refine ⟨_, happ.trans (congrArg some hres), Or.inr ?_⟩
  exact (prepare_types hprep hs hv).2

theorem append_run (pt st : profile.ValueType) (tq : Int) (ps : List Profile) :
    ∀ (s : MemSeries) (n : Nat), ColumnsAt s n → typesAre s pt st → n + ps.length ≤ 65535 →
      (∀ p ∈ ps, WellFormed p ∧ hasTypes pt st p) →
      List.Pairwise (· < ·) (s.maxTime :: (ps.map timestampOf ++ [tq])) →
      ∃ s1, appendSeq s ps = some s1 ∧ ColumnsAt s1 (n + ps.length) ∧ typesAre s1 pt st ∧
        s1.maxTime < tq := by
  induction ps with
  | nil =>
    intro s n hcol hs _ _ hpw
    refine ⟨s, rfl, by simpa using hcol, hs, ?_⟩
    simp only [List.map_nil, List.nil_append, List.pairwise_cons, List.mem_singleton,
      forall_eq] at hpw
    exact hpw.1
  | cons p rest ih =>
    intro s n hcol hs hlen hall hpw
    simp only [List.length_cons] at hlen
    have hp := hall p (List.mem_cons_self _ _)
    simp only [List.map_cons, List.cons_append] at hpw
    rw [List.pairwise_cons] at hpw
    obtain ⟨hhead, htail⟩ := hpw
    have hlt : s.maxTime < timestampOf p := hhead _ (List.mem_cons_self _ _)
    obtain ⟨s1, happ, hs1⟩ := append_accepted hcol (by omega) hs hp.1 hp.2 hlt
    obtain ⟨hcol1, _, hmax1, _⟩ := columnsAt_step hcol happ
    obtain ⟨s2, hseq, hcol2, hs2, hlt2⟩ := ih s1 (n + 1) hcol1 hs1 (by omega)
      (fun x hx => hall x (List.mem_cons_of_mem _ hx)) (by rw [hmax1]; exact htail)
    refine ⟨s2, by simp only [appendSeq, happ, hseq], ?_, hs2, hlt2⟩
    simpa [Nat.add_assoc, Nat.add_comm 1] using hcol2

theorem append_at_capacity {s : MemSeries} {pt st : profile.ValueType} {value : Profile}
    (hcol : ColumnsAt s 65535) (hs : typesAre s pt st)
    (hwf : WellFormed value) (hv : hasTypes pt st value) (hlt : s.maxTime < timestampOf value) :
    ∃ s1, s.Append value = some (s1, some .chunkOutOfOrder) ∧ s1.i = 0 := by
  obtain ⟨s0, tree, t, e, hprep, _, happ⟩ := Append_total s value hwf (compatible_of_types hs hv)
  obtain ⟨_, hmax, _, htsq, _, _, _⟩ := prepare_sameColumns hprep
  obtain ⟨hi, _, _, ts, ds, ps, hts, _, _, lts, _, _⟩ := hcol
  have hinc : incUint16 s.i = 0 := by rw [hi]; rfl
  have hres := appendColumns_rejected
    ({ s0 with seriesTree := some t, i := incUint16 s.i } : MemSeries) value
    (by simp only [hmax]; exact hlt)
    (by
      simp only [htsq, hts, orNewFakeChunk, hinc]
      intro hacc
      have := hacc 65535 (by rw [lts]; rfl)
      omega)
  exact ⟨_, happ.trans (congrArg some hres), hinc⟩

theorem append_65536 (pt st : profile.ValueType) (ps : List Profile) (q : Profile)
    (hlen : ps.length = 65535)
    (hall : ∀ p ∈ ps ++ [q], WellFormed p ∧ hasTypes pt st p)
    (hinc : List.Pairwise (· < ·) (0 :: (ps ++ [q]).map timestampOf)) :
    ∃ s, appendSeq NewMemSeries ps = some s ∧ s.i = 65535 ∧
      ∃ s1, s.Append q = some (s1, some .chunkOutOfOrder) ∧ s1.i = 0 := by
  obtain ⟨s, hseq, hcol, hs, hlt⟩ := append_run pt st (timestampOf q) ps NewMemSeries 0
    columnsAt_new (Or.inl rfl) (by omega)
    (fun p hp => hall p (List.mem_append_left _ hp))
    (by simpa [NewMemSeries] using hinc)
  have hq := hall q (List.mem_append_right _ (List.mem_singleton_self q))
  rw [Nat.zero_add, hlen] at hcol
  obtain ⟨s1, h1, h2⟩ := append_at_capacity hcol hs hq.1 hq.2 hlt
  exact ⟨s, hseq, hcol.1, s1, h1, h2⟩

theorem wellFormed_exProfile (t v : Int) : WellFormed (exProfile t v) := by
  refine ⟨by simp [exProfile], by simp [exProfile], ?_⟩
  intro sample hs _ l hl
  simp only [exProfile, List.mem_singleton] at hs
  subst hs
  simp only [List.mem_cons, List.mem_singleton, List.not_mem_nil, or_false] at hl
  rcases hl with hl | hl <;> simp [hl]

theorem hasTypes_exProfile (t v : Int) : hasTypes exValueType exValueType (exProfile t v) :=
  ⟨rfl, rfl⟩

theorem timestampOf_exProfileAt (k : Nat) : timestampOf (exProfileAt k) = (k : Int) := by
  simp only [timestampOf, exProfileAt, exProfile]
  exact Int.mul_tdiv_cancel _ (by decide)

theorem length_exSeq (n : Nat) : (exSeq n).length = n := by
  simp [exSeq]

theorem exSeq_succ (n : Nat) : exSeq n ++ [exProfileAt (n + 1)] = exSeq (n + 1) := by
  simp [exSeq, List.range_succ]

theorem exSeq_all (n : Nat) :
    ∀ p ∈ exSeq n, WellFormed p ∧ hasTypes exValueType exValueType p := by
  intro p hp
  simp only [exSeq, List.mem_map] at hp
  obtain ⟨k, _, hk⟩ := hp
  subst hk
  exact ⟨wellFormed_exProfile _ _, hasTypes_exProfile _ _⟩

theorem exSeq_increasing (n : Nat) :
    List.Pairwise (· < ·) (0 :: (exSeq n).map timestampOf) := by
  have hmap : (exSeq n).map timestampOf = (List.range n).map (fun k => ((k + 1 : Nat) : Int)) := by
    simp only [exSeq, List.map_map]
    apply List.map_congr_left
    intro k _
    exact timestampOf_exProfileAt (k + 1)
  rw [hmap, List.pairwise_cons]
  constructor
  · intro x hx
    simp only [List.mem_map] at hx
    obtain ⟨k, _, hk⟩ := hx
    subst hk
    omega
  · rw [List.pairwise_map]
    exact (List.pairwise_lt_range n).imp (by intro a b hab; omega)

/-- C8 (counterexample): 65 535 appends of the example profiles stamped 1 ms, 2 ms, ...
on a fresh series return nil, the 65 536-th is rejected, and after it the sample index
is 0 again, the index the series had before its first append: `s.i++` has wrapped. -/
theorem sample_index_wraps_to_zero :
    ∃ s s1, appendSeq NewMemSeries (exSeq 65535) = some s ∧
      s.Append (exProfileAt 65536) = some (s1, some .chunkOutOfOrder) ∧
      s1.i = NewMemSeries.i := by
  obtain ⟨s, h1, _, s1, h2, h3⟩ := append_65536 exValueType exValueType (exSeq 65535)
    (exProfileAt 65536) (length_exSeq _)
    (by rw [exSeq_succ]; exact exSeq_all _)
    (by rw [exSeq_succ]; exact exSeq_increasing _)
  exact ⟨s, s1, h1, h2, h3⟩

/-- C8 (amended): starting from a fresh series, 65 535 consecutive appends of
well-formed profiles with the same period and sample type and strictly increasing
millisecond timestamps above 0 all return nil and leave `i = 65535`; the 65 536-th such
append is rejected with the out-of-order error of the timestamp column, `i` having
wrapped to 0 before the column is written, and `i` is 0 after the call. -/
theorem append_rejected_after_65535 (pt st : profile.ValueType) (ps : List Profile)
    (q : Profile) (hlen : ps.length = 65535)
    (hall : ∀ p ∈ ps ++ [q], WellFormed p ∧ hasTypes pt st p)
    (hinc : List.Pairwise (· < ·) (0 :: (ps ++ [q]).map timestampOf)) :
    ∃ s, appendSeq NewMemSeries ps = some s ∧ s.i = 65535 ∧
      ∃ s1, s.Append q = some (s1, some .chunkOutOfOrder) ∧ s1.i = 0 :=
  append_65536 pt st ps q hlen hall hinc

/-- C8 (witness): the example profiles stamped 1 ms to 65 536 ms. -/
theorem append_rejected_after_65535_witness :
    ∃ s, appendSeq NewMemSeries (exSeq 65535) = some s ∧ s.i = 65535 ∧
      ∃ s1, s.Append (exProfileAt 65536) = some (s1, some .chunkOutOfOrder) ∧ s1.i = 0 :=
  append_rejected_after_65535 exValueType exValueType (exSeq 65535) (exProfileAt 65536)
    (length_exSeq _)
    (by rw [exSeq_succ]; exact exSeq_all _)
    (by rw [exSeq_succ]; exact exSeq_increasing _)

/-! ## Sorted children in the profile tree -/

theorem sortSearchLoop_spec (f : Nat → Bool) (n : Nat)
    (hmono : ∀ a b, a ≤ b → b < n → f a = true → f b = true) :
    ∀ (fuel i j : Nat), i ≤ j → j ≤ n → j - i ≤ fuel →
      (∀ k, k < i → f k = false) → (∀ k, j ≤ k → k < n → f k = true) →
      i ≤ sortSearchLoop f fuel i j ∧ sortSearchLoop f fuel i j ≤ j ∧
      (∀ k, k < sortSearchLoop f fuel i j → f k = false) ∧
      (∀ k, sortSearchLoop f fuel i j ≤ k → k < n → f k = true) := by
  intro fuel
  induction fuel with
  | zero =>
    intro i j hij hjn hfuel hlo hhi
    have : i = j := by omega
    subst this
    simp only [sortSearchLoop]
    exact ⟨Nat.le_refl _, Nat.le_refl _, hlo, hhi⟩
  | succ fuel ih =>
    intro i j hij hjn hfuel hlo hhi
    simp only [sortSearchLoop]
    by_cases hlt : i < j
    · simp only [hlt, if_true]
      have hh1 : i ≤ (i + j) / 2 := by omega
      have hh2 : (i + j) / 2 < j := by omega
      cases hf : f ((i + j) / 2) with
      | false =>
        simp only [Bool.not_false, if_true]
        have hlo1 : ∀ k, k < (i + j) / 2 + 1 → f k = false := by
          intro k hk
          cases hfk : f k with
          | false => rfl
          | true =>
            have := hmono k ((i + j) / 2) (by omega) (by omega) hfk
            rw [hf] at this
            exact absurd this (by simp)
        obtain ⟨h1, h2, h3, h4⟩ := ih ((i + j) / 2 + 1) j (by omega) hjn (by omega) hlo1 hhi
        exact ⟨by omega, h2, h3, h4⟩
      | true =>
        simp only [Bool.not_true, Bool.false_eq_true, if_false]
        have hhi1 : ∀ k, (i + j) / 2 ≤ k → k < n → f k = true := by
          intro k hk hkn
          exact hmono ((i + j) / 2) k hk hkn hf
        obtain ⟨h1, h2, h3, h4⟩ := ih i ((i + j) / 2) hh1 (by omega) (by omega) hlo hhi1
        exact ⟨h1, by omega, h3, h4⟩
    · simp only [hlt, if_false]
      have : i = j := by omega
      subst this
      exact ⟨Nat.le_refl _, Nat.le_refl _, hlo, hhi⟩

theorem sortSearch_spec (f : Nat → Bool) (n : Nat)
    (hmono : ∀ a b, a ≤ b → b < n → f a = true → f b = true) :
    sortSearch n f ≤ n ∧ (∀ k, k < sortSearch n f → f k = false) ∧
      (∀ k, sortSearch n f ≤ k → k < n → f k = true) := by
  obtain ⟨_, h2, h3, h4⟩ := sortSearchLoop_spec f n hmono n 0 n (Nat.zero_le _) (Nat.le_refl _)
    (by omega) (by intro k hk; omega) (by intro k hk hkn; omega)
  exact ⟨h2, h3, h4⟩

theorem childID_eq (ch : List ProfileTreeNode) (k : Nat) :
    childID ch k = ((childIDs ch)[k]?).getD 0 := by
  simp only [childID, childIDs, List.getElem?_map]
  cases ch[k]? <;> rfl

theorem sorted_getElem?_lt {l : List Nat} (hs : List.Pairwise (· < ·) l) {a b x y : Nat}
    (hab : a < b) (ha : l[a]? = some x) (hb : l[b]? = some y) : x < y := by
  obtain ⟨ha1, ha2⟩ := List.getElem?_eq_some.mp ha
  obtain ⟨hb1, hb2⟩ := List.getElem?_eq_some.mp hb
  have := List.pairwise_iff_getElem.mp hs a b ha1 hb1 hab
  rw [ha2, hb2] at this
  exact this

theorem search_position (ids : List Nat) (nextId : Nat) (hs : List.Pairwise (· < ·) ids) :
    (∀ a ∈ ids.take (sortSearch ids.length (fun k => decide ((ids[k]?).getD 0 ≥ nextId))),
      a < nextId) ∧
    (∀ b ∈ ids.drop (sortSearch ids.length (fun k => decide ((ids[k]?).getD 0 ≥ nextId))),
      nextId ≤ b) := by
  have hmono : ∀ a b, a ≤ b → b < ids.length →
      (fun k => decide ((ids[k]?).getD 0 ≥ nextId)) a = true →
      (fun k => decide ((ids[k]?).getD 0 ≥ nextId)) b = true := by
    intro a b hab hb ha
    simp only [decide_eq_true_eq] at ha ⊢
    have ha1 : a < ids.length := by omega
    rw [List.getElem?_eq_getElem ha1] at ha
    rw [List.getElem?_eq_getElem hb]
    simp only [Option.getD_some] at ha ⊢
    rcases Nat.lt_or_ge a b with h | h
    · have := List.pairwise_iff_getElem.mp hs a b ha1 hb h
      omega
    · have : a = b := by omega
      subst this
      exact ha
  obtain ⟨_, hlo, hhi⟩ := sortSearch_spec _ ids.length hmono
  constructor
  · intro a ha
    obtain ⟨k, hk, hka⟩ := List.mem_take_iff_getElem.mp ha
    have hk1 : k < ids.length := by omega
    have := hlo k (by omega)
    simp only [decide_eq_false_iff_not, List.getElem?_eq_getElem hk1, Option.getD_some] at this
    omega
  · intro b hb
    obtain ⟨k, hk, hkb⟩ := List.mem_drop_iff_getElem.mp hb
    have hk1 : sortSearch ids.length (fun k => decide ((ids[k]?).getD 0 ≥ nextId)) + k
        < ids.length := by omega
    have := hhi _ (Nat.le_add_right _ k) hk1
    simp only [decide_eq_true_eq, List.getElem?_eq_getElem hk1, Option.getD_some] at this
    omega

theorem search_position_strict (ids : List Nat) (nextId : Nat)
    (hs : List.Pairwise (· < ·) ids)
    (hnf : ids[sortSearch ids.length (fun k => decide ((ids[k]?).getD 0 ≥ nextId))]? ≠
      some nextId) :
    ∀ b ∈ ids.drop (sortSearch ids.length (fun k => decide ((ids[k]?).getD 0 ≥ nextId))),
      nextId < b := by
  intro b hb
  have hle := (search_position ids nextId hs).2 b hb
  rcases Nat.lt_or_ge nextId b with h | h
  · exact h
  · exfalso
    have hbe : b = nextId := by omega
    subst hbe
    obtain ⟨k, hk, hkb⟩ := List.mem_drop_iff_getElem.mp hb
    have hk1 : sortSearch ids.length (fun k => decide ((ids[k]?).getD 0 ≥ b)) + k
        < ids.length := by omega
    have hr1 : sortSearch ids.length (fun k => decide ((ids[k]?).getD 0 ≥ b)) < ids.length := by
      omega
    have hbk : ids[sortSearch ids.length (fun k => decide ((ids[k]?).getD 0 ≥ b)) + k]? =
        some b := by
      rw [List.getElem?_eq_getElem hk1, hkb]
    rcases Nat.eq_zero_or_pos k with h0 | hpos
    · subst h0
      exact hnf hbk
    · have hfirst := (search_position ids b hs).2 _
        (List.mem_drop_iff_getElem.mpr ⟨0, by omega, rfl⟩)
      have := sorted_getElem?_lt hs (Nat.lt_add_of_pos_right hpos)
        (List.getElem?_eq_getElem hr1) hbk
      simp only [Nat.add_zero] at hfirst
      omega

theorem allSorted_iff (ch : List ProfileTreeNode) :
    allSorted ch ↔ ∀ c ∈ ch, c.Sorted := by
  induction ch with
  | nil => simp [allSorted]
  | cons c cs ih => simp [allSorted, ih]

theorem insertPath_LocationID (v : Int) (ids : List Nat) (node : ProfileTreeNode) :
    (node.insertPath v ids).LocationID = node.LocationID := by
  cases node with
  | mk id flat cum ch =>
    cases ids with
    | nil => rfl
    | cons nextId rest =>
      simp only [ProfileTreeNode.insertPath]
      split <;> rfl

theorem childIDs_set (ch : List ProfileTreeNode) (r : Nat) (c x : ProfileTreeNode)
    (hc : ch[r]? = some c) (hx : x.LocationID = c.LocationID) :
    childIDs (ch.set r x) = childIDs ch := by
  apply List.ext_getElem?
  intro k
  simp only [childIDs, List.getElem?_map, List.getElem?_set]
  split
  · rename_i hrk
    subst hrk
    split
    · rw [hc]; simp [hx]
    · rename_i hlen
      have := (List.getElem?_eq_some.mp hc).1
      omega
  · rfl

theorem insertPath_sorted (v : Int) : ∀ (ids : List Nat) (node : ProfileTreeNode),
    node.Sorted → (node.insertPath v ids).Sorted := by
  intro ids
  induction ids with
  | nil =>
    intro node h
    cases node with
    | mk id flat cum ch => exact h
  | cons nextId rest ih =>
    intro node h
    cases node with
    | mk id flat cum ch =>
      obtain ⟨hpw, hall⟩ := h
      rw [allSorted_iff] at hall
      have hfun : (fun k => decide (childID ch k ≥ nextId)) =
          (fun k => decide (((childIDs ch)[k]?).getD 0 ≥ nextId)) := by
        funext k
        rw [childID_eq]
      have hlen : ch.length = (childIDs ch).length := by simp [childIDs]
      have hA := (search_position (childIDs ch) nextId hpw).1
      have hB := search_position_strict (childIDs ch) nextId hpw
      simp only [ProfileTreeNode.insertPath, hfun, hlen]
      generalize sortSearch (childIDs ch).length
        (fun k => decide (((childIDs ch)[k]?).getD 0 ≥ nextId)) = r at hA hB ⊢
      split
      · rename_i child hfound
        have hget : ch[r]? = some child := by
          split at hfound
          · rename_i c0 hc0
            split at hfound
            · simp only [Option.some.injEq] at hfound; subst hfound; exact hc0
            · simp at hfound
          · simp at hfound
        have hchild : child ∈ ch := List.getElem?_mem hget
        refine ⟨?_, ?_⟩
        · rw [childIDs_set ch _ child _ hget (insertPath_LocationID v rest child)]
          exact hpw
        · rw [allSorted_iff]
          intro c hc
          rcases List.mem_or_eq_of_mem_set hc with hc | hc
          · exact hall c hc
          · subst hc
            exact ih child (hall child hchild)
      · rename_i hfound
        have hnf : (childIDs ch)[r]? ≠ some nextId := by
          intro hcontra
          simp only [childIDs, List.getElem?_map] at hcontra
          cases hc : ch[r]? with
          | none => rw [hc] at hcontra; simp at hcontra
          | some c =>
            rw [hc] at hcontra hfound
            simp only [Option.map_some', Option.some.injEq] at hcontra
            simp [hcontra] at hfound
        have hB1 := hB hnf
        refine ⟨?_, ?_⟩
        · simp only [childIDs] at hA hB1 hpw
          simp only [childIDs, List.map_append, List.map_cons, List.map_take, List.map_drop,
            insertPath_LocationID]
          simp only [ProfileTreeNode.LocationID]
          rw [List.pairwise_append]
          refine ⟨hpw.sublist (List.take_sublist _ _), ?_, ?_⟩
          · rw [List.pairwise_cons]
            exact ⟨hB1, hpw.sublist (List.drop_sublist _ _)⟩
          · intro a ha b hb
            simp only [List.mem_cons] at hb
            rcases hb with hb | hb
            · subst hb; exact hA a ha
            · exact Nat.lt_trans (hA a ha) (hB1 b hb)
        · rw [allSorted_iff]
          intro c hc
          simp only [List.mem_append, List.mem_cons] at hc
          rcases hc with hc | hc | hc
          · exact hall c (List.mem_of_mem_take hc)
          · subst hc
            exact ih _ ⟨List.Pairwise.nil, trivial⟩
          · exact hall c (List.mem_of_mem_drop hc)

theorem Insert_sorted {t t1 : ProfileTree} {sample : Sample} (ht : t.Sorted)
    (h : t.Insert sample = some t1) : t1.Sorted := by
  have hroot : (match t.Roots with
      | some r => r
      | none => ProfileTreeNode.mk 0 [] [] []).Sorted := by
    cases hr : t.Roots with
    | none => exact ⟨List.Pairwise.nil, trivial⟩
    | some r => simpa [ProfileTree.Sorted, hr] using ht
  cases hids : locationIDs sample.Location with
  | none => simp [ProfileTree.Insert, hids] at h
  | some ids =>
    cases hv : sample.Value with
    | nil => simp [ProfileTree.Insert, hids, hv] at h
    | cons v vs =>
      simp only [ProfileTree.Insert, hids, hv, Option.some.injEq] at h
      subst h
      exact insertPath_sorted v _ _ hroot

theorem insertSamples_sorted (samples : List Sample) :
    ∀ t t1 : ProfileTree, t.Sorted → insertSamples t samples = some t1 → t1.Sorted := by
  induction samples with
  | nil =>
    intro t t1 ht h
    simp only [insertSamples, Option.some.injEq] at h
    subst h
    exact ht
  | cons s rest ih =>
    intro t t1 ht h
    simp only [insertSamples] at h
    split at h
    · simp at h
    · rename_i t2 ht2
      exact ih t2 t1 (Insert_sorted ht ht2) h

theorem Insert_readable (t : ProfileTree) (sample : Sample) (hs : readableSample sample) :
    ∃ t1, t.Insert sample = some t1 := by
  obtain ⟨v, vs, hvs⟩ := List.exists_cons_of_ne_nil hs.1
  obtain ⟨ids, hids⟩ := Option.isSome_iff_exists.mp hs.2
  simp only [ProfileTree.Insert, hids, hvs]
  exact ⟨_, rfl⟩

theorem insertSamples_readable (samples : List Sample) (hs : ∀ s ∈ samples, readableSample s) :
    ∀ t : ProfileTree, ∃ t1, insertSamples t samples = some t1 := by
  induction samples with
  | nil => intro t; exact ⟨t, rfl⟩
  | cons s rest ih =>
    intro t
    obtain ⟨t1, h1⟩ := Insert_readable t s (hs s (List.mem_cons_self _ _))
    simp only [insertSamples, h1]
    exact ih (fun x hx => hs x (List.mem_cons_of_mem _ hx)) t1

/-- C10: on a profile tree in which the children of every node are strictly ascending
by location id, whenever `ProfileTree.Insert` returns (it does for every sample with a
first value and no nil location, and panics otherwise) the tree it leaves has the same
property; hence every tree built from the empty tree by a sequence of `Insert` calls
has the property, and such a tree exists for every list of readable samples. -/
theorem profileTree_insert_keeps_children_sorted (t : ProfileTree) (sample : Sample)
    (ht : t.Sorted) :
    (∀ t1, t.Insert sample = some t1 → t1.Sorted) ∧
    (readableSample sample → ∃ t1, t.Insert sample = some t1 ∧ t1.Sorted) ∧
    (∀ (samples : List Sample) (t2 : ProfileTree),
      insertSamples ⟨none⟩ samples = some t2 → t2.Sorted) ∧
    (∀ samples : List Sample, (∀ s ∈ samples, readableSample s) →
      ∃ t2, insertSamples ⟨none⟩ samples = some t2 ∧ t2.Sorted) := by
  refine ⟨fun t1 h1 => Insert_sorted ht h1, ?_, ?_, ?_⟩
  · intro hs
    obtain ⟨t1, h1⟩ := Insert_readable t sample hs
    exact ⟨t1, h1, Insert_sorted ht h1⟩
  · intro samples t2 h2
    exact insertSamples_sorted samples ⟨none⟩ t2 trivial h2
  · intro samples hall
    obtain ⟨t2, h2⟩ := insertSamples_readable samples hall ⟨none⟩
    exact ⟨t2, h2, insertSamples_sorted samples ⟨none⟩ t2 trivial h2⟩

/-- C10 (witness): the tree with children 1 and 3 below the root, and a sample that
adds the child 2 between them. -/
theorem profileTree_insert_keeps_children_sorted_witness :
    exTree.Sorted ∧
    exTree.Insert exSample = some ⟨some (.mk 0 [] [⟨16⟩]
      [.mk 1 [] [⟨4⟩] [.mk 2 [⟨4⟩] [⟨4⟩] []], .mk 2 [⟨7⟩] [⟨7⟩] [], .mk 3 [⟨5⟩] [⟨5⟩] []])⟩ ∧
    (∀ t1, exTree.Insert exSample = some t1 → t1.Sorted) ∧
    (readableSample exSample → ∃ t1, exTree.Insert exSample = some t1 ∧ t1.Sorted) ∧
    (∀ (samples : List Sample) (t2 : ProfileTree),
      insertSamples ⟨none⟩ samples = some t2 → t2.Sorted) ∧
    (∀ samples : List Sample, (∀ s ∈ samples, readableSample s) →
      ∃ t2, insertSamples ⟨none⟩ samples = some t2 ∧ t2.Sorted) :=
  have hs : exTree.Sorted := by
    simp [exTree, ProfileTree.Sorted, ProfileTreeNode.Sorted, allSorted, childIDs,
      ProfileTreeNode.LocationID]
  ⟨hs, rfl, profileTree_insert_keeps_children_sorted exTree exSample hs⟩

/-- C15. For a mapping with start ≤ limit and limit - start ≤ 2^64 - 4096, the size
component of Go makeMappingKey is (limit - start) rounded up to the next multiple of 4096
(a multiple of 4096, at least limit - start, and the least such), the offset component is
the mapping offset, and the third component is the build id when it is non-empty and the
file name otherwise. -/
theorem makeMappingKey_rounds_up (m : Mapping) (h1 : m.Start ≤ m.Limit)
    (h2 : m.Limit - m.Start ≤ 2 ^ 64 - 4096) :
    (makeMappingKey m).size = (m.Limit - m.Start + 4095) / 4096 * 4096 ∧
    4096 ∣ (makeMappingKey m).size ∧ m.Limit - m.Start ≤ (makeMappingKey m).size ∧
    (∀ k, 4096 ∣ k → m.Limit - m.Start ≤ k → (makeMappingKey m).size ≤ k) ∧
    (makeMappingKey m).offset = m.Offset ∧
    (makeMappingKey m).buildIDOrFile = (if m.BuildID ≠ "" then m.BuildID else m.File) := by
  have hs : (makeMappingKey m).size = (m.Limit - m.Start + 4095) / 4096 * 4096 := by
    simp only [makeMappingKey, wrapUint64]
    norm_num at h2 ⊢
    omega
  refine ⟨hs, ?_, ?_, ?_, rfl, ?_⟩
  · rw [hs]; exact Nat.dvd_mul_left _ _
  · rw [hs]; omega
  · intro k hk hle
    rw [hs]
    obtain ⟨c, hc⟩ := hk
    subst hc
    omega
  · simp only [makeMappingKey]
    by_cases hb : m.BuildID = ""
    · by_cases hf : m.File = ""
      · simp [hb, hf]
      · simp [hb, hf]
    · simp [hb]

theorem makeMappingKey_rounds_up_witness :
    exMapping.Start ≤ exMapping.Limit ∧ exMapping.Limit - exMapping.Start ≤ 2 ^ 64 - 4096 ∧
    (makeMappingKey exMapping).size = 0x2000 ∧
    (makeMappingKey exMapping).buildIDOrFile = "abc" :=
  ⟨by decide, by decide,
    (makeMappingKey_rounds_up exMapping (by decide) (by decide)).1.trans (by decide),
    (makeMappingKey_rounds_up exMapping (by decide) (by decide)).2.2.2.2.2.trans (by decide)⟩

theorem wrapInt64_add_left (a b : Int) : wrapInt64 (wrapInt64 a + b) = wrapInt64 (a + b) := by
  unfold wrapInt64
  norm_num
  omega

theorem wrapInt64_add_right (a b : Int) : wrapInt64 (a + wrapInt64 b) = wrapInt64 (a + b) := by
  unfold wrapInt64
  norm_num
  omega

theorem wrapInt64_idem (a : Int) : wrapInt64 (wrapInt64 a) = wrapInt64 a := by
  unfold wrapInt64
  norm_num

theorem wrapInt64_congr_add {a b : Int} (c : Int) (h : wrapInt64 a = wrapInt64 b) :
    wrapInt64 (a + c) = wrapInt64 (b + c) := by
  rw [← wrapInt64_add_left a c, h, wrapInt64_add_left]

theorem int64Sum_fold (xs : List Int) : ∀ a : Int,
    xs.foldl (fun acc x => wrapInt64 (acc + x)) (wrapInt64 a) = wrapInt64 (a + xs.sum) := by
  induction xs with
  | nil => intro a; simp
  | cons x xs ih =>
    intro a
    rw [List.foldl_cons, wrapInt64_add_left, ih, List.sum_cons, add_assoc]

theorem int64Sum_eq (xs : List Int) : int64Sum xs = wrapInt64 xs.sum := by
  have h := int64Sum_fold xs 0
  have h0 : wrapInt64 0 = 0 := by decide
  rw [h0, zero_add] at h
  exact h

theorem cumOKList_iff (ch : List ProfileTreeNode) : cumOKList ch ↔ ∀ c ∈ ch, c.cumOK := by
  induction ch with
  | nil => simp [cumOKList]
  | cons c cs ih => simp [cumOKList, ih]

theorem flatTotalList_append (l1 l2 : List ProfileTreeNode) :
    flatTotalList (l1 ++ l2) = flatTotalList l1 + flatTotalList l2 := by
  induction l1 with
  | nil => simp [flatTotalList]
  | cons c cs ih =>
    rw [List.cons_append]
    simp only [flatTotalList]
    rw [ih]; ring

theorem flatTotalList_insert (ch : List ProfileTreeNode) (i : Nat) (c : ProfileTreeNode) :
    flatTotalList (ch.take i ++ c :: ch.drop i) = flatTotalList ch + c.flatTotal := by
  rw [flatTotalList_append]
  simp only [flatTotalList]
  have h := flatTotalList_append (ch.take i) (ch.drop i)
  rw [List.take_append_drop] at h
  rw [h]; ring

theorem flatTotalList_set (ch : List ProfileTreeNode) : ∀ (i : Nat) (c c1 : ProfileTreeNode),
    ch[i]? = some c → flatTotalList (ch.set i c1) = flatTotalList ch - c.flatTotal + c1.flatTotal := by
  induction ch with
  | nil => intro i c c1 h; simp at h
  | cons x xs ih =>
    intro i c c1 h
    cases i with
    | zero =>
      simp only [List.getElem?_cons_zero, Option.some.injEq] at h
      subst h
      simp only [List.set_cons_zero, flatTotalList]; ring
    | succ i =>
      simp only [List.getElem?_cons_succ] at h
      simp only [List.set_cons_succ, flatTotalList, ih i c c1 h]; ring

mutual
theorem flatTotal_eq_sum : ∀ n : ProfileTreeNode,
    n.flatTotal = (n.nodes.map ProfileTreeNode.FlatValue).sum
  | .mk id flat cum ch => by
    simp only [ProfileTreeNode.flatTotal, ProfileTreeNode.nodes, List.map_cons, List.sum_cons,
      flatTotalList_eq_sum ch, ProfileTreeNode.FlatValue, ProfileTreeNode.FlatValues]
theorem flatTotalList_eq_sum : ∀ ch : List ProfileTreeNode,
    flatTotalList ch = ((nodesOfList ch).map ProfileTreeNode.FlatValue).sum
  | [] => by simp [flatTotalList, nodesOfList]
  | c :: cs => by
    simp only [flatTotalList, nodesOfList, List.map_append, List.sum_append,
      flatTotal_eq_sum c, flatTotalList_eq_sum cs]
end

mutual
theorem cumOK_nodes : ∀ n : ProfileTreeNode, n.cumOK → ∀ d ∈ n.nodes, d.cumOK
  | .mk id flat cum ch => by
    intro h d hd
    simp only [ProfileTreeNode.nodes, List.mem_cons] at hd
    rcases hd with hd | hd
    · subst hd; exact h
    · exact cumOKList_nodes ch h.2.2 d hd
theorem cumOKList_nodes : ∀ ch : List ProfileTreeNode, cumOKList ch → ∀ d ∈ nodesOfList ch, d.cumOK
  | [] => by intro _ d hd; simp [nodesOfList] at hd
  | c :: cs => by
    intro h d hd
    simp only [nodesOfList, List.mem_append] at hd
    rcases hd with hd | hd
    · exact cumOK_nodes c h.1 d hd
    · exact cumOKList_nodes cs h.2 d hd
end

theorem cumOK_value (n : ProfileTreeNode) (h : n.cumOK) :
    n.CumulativeValue = int64Sum (n.nodes.map ProfileTreeNode.FlatValue) := by
  rw [int64Sum_eq, ← flatTotal_eq_sum]
  cases n with
  | mk id flat cum ch =>
    obtain ⟨hlen, hval, _⟩ := h
    simp only [ProfileTreeNode.CumulativeValue, ProfileTreeNode.CumulativeValues,
      ProfileTreeNode.flatTotal]
    match cum, hlen, hval with
    | [], _, hval =>
      rw [show slotValue ([] : List ProfileTreeValueNode) = 0 from rfl] at hval
      rw [List.foldl_nil]
      exact hval
    | [x], _, hval =>
      rw [show slotValue [x] = x.Value from rfl] at hval
      rw [List.foldl_cons, List.foldl_nil, zero_add, hval, wrapInt64_idem]
    | _ :: _ :: _, hlen, _ => simp at hlen

theorem slotValue_addValue (vs : List ProfileTreeValueNode) (v : Int) :
    slotValue (addValue vs v) = wrapInt64 (slotValue vs + v) := by
  cases vs <;> simp [addValue, slotValue]

theorem length_addValue (vs : List ProfileTreeValueNode) (v : Int) (h : vs.length ≤ 1) :
    (addValue vs v).length ≤ 1 := by
  cases vs with
  | nil => simp [addValue]
  | cons x xs => simpa [addValue] using h
theorem wrapInt64_shift {a b : Int} (x : Int) (h : wrapInt64 a = wrapInt64 b) :
    wrapInt64 (x + a) = wrapInt64 (x + b) := by
  rw [← wrapInt64_add_right x a, h, wrapInt64_add_right]

theorem cumOK_fresh (id : Nat) : (ProfileTreeNode.mk id [] [] []).cumOK := by
  simp only [ProfileTreeNode.cumOK, slotValue, flatTotalList, cumOKList]
  exact ⟨by simp, by decide, trivial⟩

theorem insertPath_cumOK (v : Int) : ∀ (ids : List Nat) (node : ProfileTreeNode), node.cumOK →
    (node.insertPath v ids).cumOK ∧
    wrapInt64 (node.insertPath v ids).flatTotal = wrapInt64 (node.flatTotal + v) := by
  intro ids
  induction ids with
  | nil =>
    intro node h
    cases node with
    | mk id flat cum ch =>
      obtain ⟨hlen, hval, hch⟩ := h
      simp only [ProfileTreeNode.insertPath, ProfileTreeNode.cumOK, ProfileTreeNode.flatTotal,
        slotValue_addValue, hval, wrapInt64_add_left]
      refine ⟨⟨length_addValue _ _ hlen, ?_, hch⟩, ?_⟩
      · congr 1; ring
      · congr 1; ring
  | cons nextId rest ih =>
    intro node h
    cases node with
    | mk id flat cum ch =>
      obtain ⟨hlen, hval, hch⟩ := h
      rw [cumOKList_iff] at hch
      simp only [ProfileTreeNode.insertPath]
      generalize sortSearch ch.length (fun k => decide (childID ch k ≥ nextId)) = i
      split
      · rename_i child hfound
        have hchild : ch[i]? = some child := by
          split at hfound
          · rename_i c0 hc0
            split at hfound
            · simp at hfound; subst hfound; exact hc0
            · simp at hfound
          · simp at hfound
        obtain ⟨ih1, ih2⟩ := ih child (hch child (List.getElem?_mem hchild))
        have hT := flatTotalList_set ch i child (ProfileTreeNode.insertPath v rest child) hchild
        have key : wrapInt64 (slotValue flat + flatTotalList
            (ch.set i (ProfileTreeNode.insertPath v rest child)))
            = wrapInt64 (slotValue flat + flatTotalList ch + v) := by
          rw [hT]
          have e1 : slotValue flat + (flatTotalList ch - child.flatTotal +
              (ProfileTreeNode.insertPath v rest child).flatTotal)
              = (slotValue flat + flatTotalList ch - child.flatTotal) +
                (ProfileTreeNode.insertPath v rest child).flatTotal := by ring
          rw [e1, wrapInt64_shift _ ih2]
          congr 1; ring
        simp only [ProfileTreeNode.cumOK, ProfileTreeNode.flatTotal, slotValue_addValue, hval,
          wrapInt64_add_left, key]
        refine ⟨⟨length_addValue _ _ hlen, trivial, ?_⟩, trivial⟩
        rw [cumOKList_iff]
        intro c hc
        rcases List.mem_or_eq_of_mem_set hc with hc | hc
        · exact hch c hc
        · subst hc; exact ih1
      · obtain ⟨ih1, ih2⟩ := ih (.mk nextId [] [] []) (cumOK_fresh nextId)
        have hT := flatTotalList_insert ch i
          (ProfileTreeNode.insertPath v rest (.mk nextId [] [] []))
        have h0 : (ProfileTreeNode.mk nextId [] [] []).flatTotal = 0 := by
          simp [ProfileTreeNode.flatTotal, slotValue, flatTotalList]
        rw [h0] at ih2
        have key : wrapInt64 (slotValue flat + flatTotalList
            (ch.take i ++ ProfileTreeNode.insertPath v rest (.mk nextId [] [] []) :: ch.drop i))
            = wrapInt64 (slotValue flat + flatTotalList ch + v) := by
          rw [hT]
          have e1 : slotValue flat + (flatTotalList ch +
              (ProfileTreeNode.insertPath v rest (.mk nextId [] [] [])).flatTotal)
              = (slotValue flat + flatTotalList ch) +
                (ProfileTreeNode.insertPath v rest (.mk nextId [] [] [])).flatTotal := by ring
          rw [e1, wrapInt64_shift _ ih2]
          congr 1; ring
        simp only [ProfileTreeNode.cumOK, ProfileTreeNode.flatTotal, slotValue_addValue, hval,
          wrapInt64_add_left, key]
        refine ⟨⟨length_addValue _ _ hlen, trivial, ?_⟩, trivial⟩
        rw [cumOKList_iff]
        intro c hc
        simp only [List.mem_append, List.mem_cons] at hc
        rcases hc with hc | hc | hc
        · exact hch c (List.mem_of_mem_take hc)
        · subst hc; exact ih1
        · exact hch c (List.mem_of_mem_drop hc)

/-- Go `ProfileTree.Insert` keeps the relation between cumulative and flat values. -/
theorem Insert_cumOK {t t1 : ProfileTree} {sample : Sample}
    (ht : ∀ r, t.Roots = some r → r.cumOK) (h : t.Insert sample = some t1) :
    ∀ r, t1.Roots = some r → r.cumOK := by
  have hroot : (match t.Roots with
      | some r => r
      | none => ProfileTreeNode.mk 0 [] [] []).cumOK := by
    cases hr : t.Roots with
    | none => exact cumOK_fresh 0
    | some r => exact ht r hr
  cases hids : locationIDs sample.Location with
  | none => simp [ProfileTree.Insert, hids] at h
  | some ids =>
    cases hv : sample.Value with
    | nil => simp [ProfileTree.Insert, hids, hv] at h
    | cons v vs =>
      simp only [ProfileTree.Insert, hids, hv, Option.some.injEq] at h
      subst h
      intro r hr
      simp only [Option.some.injEq] at hr
      subst hr
      exact (insertPath_cumOK v ids.reverse _ hroot).1

theorem insertSamples_cumOK (samples : List Sample) :
    ∀ t t1 : ProfileTree, (∀ r, t.Roots = some r → r.cumOK) →
      insertSamples t samples = some t1 → ∀ r, t1.Roots = some r → r.cumOK := by
  induction samples with
  | nil =>
    intro t t1 ht h
    simp only [insertSamples, Option.some.injEq] at h
    subst h
    exact ht
  | cons s rest ih =>
    intro t t1 ht h
    simp only [insertSamples] at h
    cases h1 : t.Insert s with
    | none => simp [h1] at h
    | some t2 =>
      simp only [h1] at h
      exact ih t2 t1 (Insert_cumOK ht h1) h

/-- C11. In every profile tree built from the empty tree by a sequence of
ProfileTree.Insert calls, the cumulative value of every node n (the root included) equals
the sum, in int64 arithmetic, of the flat values of all nodes of the subtree rooted at n
(n itself included, a node without a flat slot counting as 0). -/
theorem cumulative_is_subtree_flat_sum (samples : List Sample) (t : ProfileTree)
    (root : ProfileTreeNode) (h : insertSamples ⟨none⟩ samples = some t)
    (hr : t.Roots = some root) :
    ∀ n ∈ root.nodes, n.CumulativeValue = int64Sum (n.nodes.map ProfileTreeNode.FlatValue) := by
  intro n hn
  have hroot : root.cumOK :=
    insertSamples_cumOK samples ⟨none⟩ t (fun r hr0 => by simp at hr0) h root hr
  exact cumOK_value n (cumOK_nodes root hroot n hn)

theorem cumulative_is_subtree_flat_sum_witness :
    insertSamples ⟨none⟩ exSamples = some ⟨some exBuilt⟩ ∧
    exBuilt.nodes.map ProfileTreeNode.CumulativeValue = [13, 13, 10] ∧
    exBuilt.nodes.map ProfileTreeNode.FlatValue = [0, 3, 10] ∧
    ∀ n ∈ exBuilt.nodes,
      n.CumulativeValue = int64Sum (n.nodes.map ProfileTreeNode.FlatValue) :=
  ⟨rfl, by decide, by decide,
    cumulative_is_subtree_flat_sum exSamples ⟨some exBuilt⟩ exBuilt rfl rfl⟩

theorem dense_append {α : Type} (id : α → Nat) (l : List α) (y : α)
    (h : ∀ k x, l[k]? = some x → id x = k + 1) (hy : id y = l.length + 1) :
    ∀ k x, (l ++ [y])[k]? = some x → id x = k + 1 := by
  intro k x hk
  by_cases hlt : k < l.length
  · rw [List.getElem?_append_left hlt] at hk
    exact h k x hk
  · rw [List.getElem?_append_right (by omega)] at hk
    have hz : k - l.length = 0 := by
      by_contra hne
      have : 1 ≤ k - l.length := by omega
      rw [List.getElem?_eq_none (by simpa using this)] at hk
      simp at hk
    rw [hz] at hk
    simp only [List.getElem?_cons_zero, Option.some.injEq] at hk
    subst hk
    omega

theorem extends_refl (p : Profile) : Extends p p :=
  ⟨List.prefix_refl _, List.prefix_refl _, List.prefix_refl _⟩

theorem extends_trans {p q r : Profile} (h1 : Extends p q) (h2 : Extends q r) : Extends p r :=
  ⟨h1.1.trans h2.1, h1.2.1.trans h2.2.1, h1.2.2.trans h2.2.2⟩

theorem mapMapping_interns (pn : profileNormalizer) (src : Option Mapping) :
    Extends pn.p (pn.mapMapping src).1.p ∧ (DenseIds pn.p → DenseIds (pn.mapMapping src).1.p) ∧
    (pn.mapMapping src).1.p.Location = pn.p.Location := by
  unfold profileNormalizer.mapMapping
  split
  · exact ⟨extends_refl _, id, rfl⟩
  · split
    · exact ⟨extends_refl _, id, rfl⟩
    · dsimp only
      split
      · exact ⟨extends_refl _, id, rfl⟩
      · refine ⟨⟨List.prefix_append _ _, List.prefix_refl _, List.prefix_refl _⟩, ?_, rfl⟩
        intro hd
        exact ⟨dense_append _ _ _ hd.1 rfl, hd.2.1, hd.2.2⟩

theorem mapFunction_interns (pn : profileNormalizer) (src : Option Function) :
    Extends pn.p (pn.mapFunction src).1.p ∧ (DenseIds pn.p → DenseIds (pn.mapFunction src).1.p) ∧
    (pn.mapFunction src).1.p.Location = pn.p.Location := by
  unfold profileNormalizer.mapFunction
  split
  · exact ⟨extends_refl _, id, rfl⟩
  · split
    · exact ⟨extends_refl _, id, rfl⟩
    · dsimp only
      split
      · exact ⟨extends_refl _, id, rfl⟩
      · refine ⟨⟨List.prefix_refl _, List.prefix_append _ _, List.prefix_refl _⟩, ?_, rfl⟩
        intro hd
        exact ⟨hd.1, dense_append _ _ _ hd.2.1 rfl, hd.2.2⟩

theorem mapLines_interns (ls : List profile.Line) : ∀ pn : profileNormalizer,
    Extends pn.p (pn.mapLines ls).1.p ∧ (DenseIds pn.p → DenseIds (pn.mapLines ls).1.p) ∧
    (pn.mapLines ls).1.p.Location = pn.p.Location := by
  induction ls with
  | nil => intro pn; exact ⟨extends_refl _, id, rfl⟩
  | cons ln rest ih =>
    intro pn
    obtain ⟨a1, a2, a3⟩ := mapFunction_interns pn ln.Function
    obtain ⟨b1, b2, b3⟩ := ih (pn.mapFunction ln.Function).1
    simp only [profileNormalizer.mapLines, profileNormalizer.mapLine]
    exact ⟨extends_trans a1 b1, fun h => b2 (a2 h), b3.trans a3⟩

theorem mapLocation_interns (pn : profileNormalizer) (src : Option Location) :
    Extends pn.p (pn.mapLocation src).1.p ∧
    (DenseIds pn.p → DenseIds (pn.mapLocation src).1.p) := by
  unfold profileNormalizer.mapLocation
  split
  · exact ⟨extends_refl _, id⟩
  · rename_i l
    split
    · exact ⟨extends_refl _, id⟩
    · obtain ⟨a1, a2, a3⟩ := mapMapping_interns pn l.Mapping
      obtain ⟨b1, b2, b3⟩ := mapLines_interns l.Line (pn.mapMapping l.Mapping).1
      dsimp only
      split
      · exact ⟨extends_trans a1 b1, fun h => b2 (a2 h)⟩
      · refine ⟨extends_trans (extends_trans a1 b1)
          ⟨List.prefix_refl _, List.prefix_refl _, List.prefix_append _ _⟩, ?_⟩
        intro hd
        have hd2 := b2 (a2 hd)
        refine ⟨hd2.1, hd2.2.1, dense_append _ _ _ hd2.2.2 ?_⟩
        simp only [b3]

theorem mapLocations_interns (ls : List (Option Location)) : ∀ pn : profileNormalizer,
    Extends pn.p (pn.mapLocations ls).1.p ∧
    (DenseIds pn.p → DenseIds (pn.mapLocations ls).1.p) := by
  induction ls with
  | nil => intro pn; exact ⟨extends_refl _, id⟩
  | cons l rest ih =>
    intro pn
    obtain ⟨a1, a2⟩ := mapLocation_interns pn l
    obtain ⟨b1, b2⟩ := ih (pn.mapLocation l).1
    simp only [profileNormalizer.mapLocations]
    exact ⟨extends_trans a1 b1, fun h => b2 (a2 h)⟩

theorem mapSample_p {pn pn1 : profileNormalizer} {src : Sample} {k : stacktraceKey} {b : Bool}
    (h : pn.mapSample src = some (pn1, k, b)) : pn1.p = (pn.mapLocations src.Location).1.p := by
  simp only [profileNormalizer.mapSample] at h
  split at h
  · simp at h
  · split at h
    · split at h
      · simp only [Option.some.injEq, Prod.mk.injEq] at h
        rw [← h.1]
      · simp at h
    · split at h
      · simp only [Option.some.injEq, Prod.mk.injEq] at h
        rw [← h.1]
      · simp at h

theorem mapSample_interns {pn pn1 : profileNormalizer} {src : Sample} {k : stacktraceKey}
    {b : Bool} (h : pn.mapSample src = some (pn1, k, b)) :
    Extends pn.p pn1.p ∧ (DenseIds pn.p → DenseIds pn1.p) := by
  rw [mapSample_p h]
  exact mapLocations_interns src.Location pn

theorem mapSamples_interns (samples : List Sample) :
    ∀ (pn pn1 : profileNormalizer) (keys keys1 : List stacktraceKey),
      mapSamples pn keys samples = some (pn1, keys1) →
      Extends pn.p pn1.p ∧ (DenseIds pn.p → DenseIds pn1.p) := by
  induction samples with
  | nil =>
    intro pn pn1 keys keys1 h
    simp only [mapSamples, Option.some.injEq, Prod.mk.injEq] at h
    rw [← h.1]
    exact ⟨extends_refl _, id⟩
  | cons s rest ih =>
    intro pn pn1 keys keys1 h
    cases hz : isZeroSample s with
    | true =>
      simp only [mapSamples, hz] at h
      exact ih pn pn1 keys keys1 (by simpa using h)
    | false =>
      simp only [mapSamples, hz] at h
      cases hm : pn.mapSample s with
      | none => simp [hm] at h
      | some r =>
        obtain ⟨pn2, k, isNew⟩ := r
        obtain ⟨a1, a2⟩ := mapSample_interns hm
        simp only [hm, Bool.not_false, if_true] at h
        cases isNew with
        | true =>
          obtain ⟨b1, b2⟩ := ih pn2 pn1 _ keys1 (by simpa using h)
          exact ⟨extends_trans a1 b1, fun h => b2 (a2 h)⟩
        | false =>
          obtain ⟨b1, b2⟩ := ih pn2 pn1 _ keys1 (by simpa using h)
          exact ⟨extends_trans a1 b1, fun h => b2 (a2 h)⟩
theorem denseIds_emptyProfile : DenseIds emptyProfile := by
  refine ⟨?_, ?_, ?_⟩ <;> intro k x h <;> simp [emptyProfile] at h

theorem initFrom_p {s s1 : MemSeries} {value : Profile} (h : s.initFrom value = some s1) :
    s1.p = some (s.p.getD emptyProfile) := by
  unfold MemSeries.initFrom at h
  split at h
  · rename_i p hp
    simp only [Option.some.injEq] at h
    subst h
    simp [hp]
  · rename_i hp
    split at h
    · simp only [Option.some.injEq] at h
      subst h
      simp [hp]
    · simp at h

theorem mapFirstMapping_interns (pn : profileNormalizer) (value : Profile) :
    Extends pn.p (pn.mapFirstMapping value).p ∧
    (DenseIds pn.p → DenseIds (pn.mapFirstMapping value).p) := by
  unfold profileNormalizer.mapFirstMapping
  split
  · exact ⟨(mapMapping_interns pn _).1, (mapMapping_interns pn _).2.1⟩
  · exact ⟨extends_refl _, id⟩

theorem buildProfileTree_interns {pn pn2 : profileNormalizer} {value : Profile}
    {t : ProfileTree} (h : pn.buildProfileTree value = some (pn2, t)) :
    Extends pn.p pn2.p ∧ (DenseIds pn.p → DenseIds pn2.p) := by
  unfold profileNormalizer.buildProfileTree at h
  split at h
  · simp at h
  · rename_i pn3 keys hm
    split at h
    · simp at h
    · simp only [Option.some.injEq, Prod.mk.injEq] at h
      rw [← h.1]
      exact mapSamples_interns _ _ _ _ _ hm

theorem prepare_interns {s s1 : MemSeries} {value : Profile} {r : Except Err ProfileTree}
    (h : s.prepareSamplesForInsert value = some (s1, r)) :
    ∃ p1, s1.p = some p1 ∧ Extends (s.p.getD emptyProfile) p1 ∧
      (DenseIds (s.p.getD emptyProfile) → DenseIds p1) := by
  unfold MemSeries.prepareSamplesForInsert at h
  split at h
  · simp at h
  · rename_i s0 hs0
    have h0 := initFrom_p hs0
    split at h
    · simp at h
    · simp only [Option.some.injEq, Prod.mk.injEq] at h
      obtain ⟨h1, _⟩ := h
      subst h1
      exact ⟨_, h0, extends_refl _, id⟩
    · split at h
      · simp at h
      · rename_i pn2 t hb
        simp only [Option.some.injEq, Prod.mk.injEq] at h
        obtain ⟨h1, _⟩ := h
        subst h1
        obtain ⟨a1, a2⟩ := mapFirstMapping_interns s0.normalizer value
        obtain ⟨b1, b2⟩ := buildProfileTree_interns hb
        have hn : s0.normalizer.p = s.p.getD emptyProfile := by
          simp [MemSeries.normalizer, h0]
        rw [hn] at a1 a2
        exact ⟨pn2.p, rfl, extends_trans a1 b1, fun hd => b2 (a2 hd)⟩

theorem append_p {s s2 : MemSeries} {t : ProfileTree} (h : s.append t = some s2) :
    s2.p = s.p := by
  unfold MemSeries.append at h
  split at h
  · simp at h
  · simp only [Option.some.injEq] at h
    subst h
    rfl

theorem appendColumns_p (s : MemSeries) (value : Profile) : (s.appendColumns value).1.p = s.p := by
  unfold MemSeries.appendColumns
  dsimp only
  split
  · rfl
  · split
    · rfl
    · split
      · rfl
      · split <;> rfl

theorem Append_interns {s s1 : MemSeries} {value : Profile} {e : Option Err}
    (h : s.Append value = some (s1, e)) :
    ∃ p1, s1.p = some p1 ∧ Extends (s.p.getD emptyProfile) p1 ∧
      (DenseIds (s.p.getD emptyProfile) → DenseIds p1) := by
  unfold MemSeries.Append at h
  split at h
  · simp at h
  · rename_i s0 e0 hp
    simp only [Option.some.injEq, Prod.mk.injEq] at h
    obtain ⟨h1, _⟩ := h
    subst h1
    exact prepare_interns hp
  · rename_i s0 t hp
    split at h
    · simp at h
    · rename_i s2 ha
      simp only [Option.some.injEq] at h
      obtain ⟨p1, hp1, hx⟩ := prepare_interns hp
      refine ⟨p1, ?_, hx⟩
      have h3 : s1 = (s2.appendColumns value).1 := by rw [h]
      rw [h3, appendColumns_p, append_p ha, hp1]

theorem appendAll_dense (ps : List Profile) :
    ∀ (s s1 : MemSeries) (es : List (Option Err)), DenseIds (s.p.getD emptyProfile) →
      appendAll s ps = some (s1, es) → DenseIds (s1.p.getD emptyProfile) := by
  induction ps with
  | nil =>
    intro s s1 es hd h
    simp only [appendAll, Option.some.injEq, Prod.mk.injEq] at h
    rw [← h.1]
    exact hd
  | cons value rest ih =>
    intro s s1 es hd h
    simp only [appendAll] at h
    cases ha : s.Append value with
    | none => simp [ha] at h
    | some r =>
      obtain ⟨s2, e⟩ := r
      simp only [ha] at h
      cases hr : appendAll s2 rest with
      | none => simp [hr] at h
      | some r2 =>
        obtain ⟨s3, es3⟩ := r2
        simp only [hr, Option.some.injEq, Prod.mk.injEq] at h
        rw [← h.1]
        obtain ⟨p1, hp1, _, hdense⟩ := Append_interns ha
        apply ih s2 s3 es3 _ hr
        rw [hp1]
        exact hdense hd

/-- C17. On a normalizer whose interned lists have dense ids (the k-th interned mapping,
function and location has id k, counting from 1), each of mapMapping, mapFunction,
mapLocation and mapSample leaves lists with dense ids that continue the old lists, so an
entity already interned keeps its position and its id; hence after any sequence of Append
calls on a fresh series, whatever each call returned, the ids of the interned mappings,
functions and locations are exactly 1..K in insertion order, and every Append only adds
to the end of the three lists. -/
theorem interned_ids_dense_and_stable (pn : profileNormalizer) (hd : DenseIds pn.p) :
    (∀ src, DenseIds (pn.mapMapping src).1.p ∧ Extends pn.p (pn.mapMapping src).1.p) ∧
    (∀ src, DenseIds (pn.mapFunction src).1.p ∧ Extends pn.p (pn.mapFunction src).1.p) ∧
    (∀ src, DenseIds (pn.mapLocation src).1.p ∧ Extends pn.p (pn.mapLocation src).1.p) ∧
    (∀ src pn1 k isNew, pn.mapSample src = some (pn1, k, isNew) →
      DenseIds pn1.p ∧ Extends pn.p pn1.p) ∧
    (∀ (ps : List Profile) (s : MemSeries) (es : List (Option Err)),
      appendAll NewMemSeries ps = some (s, es) → ∀ p, s.p = some p → DenseIds p) ∧
    (∀ (s s1 : MemSeries) (value : Profile) (e : Option Err) (p : Profile),
      s.p = some p → s.Append value = some (s1, e) → ∃ p1, s1.p = some p1 ∧ Extends p p1) := by
  refine ⟨?_, ?_, ?_, ?_, ?_, ?_⟩
  · intro src
    exact ⟨(mapMapping_interns pn src).2.1 hd, (mapMapping_interns pn src).1⟩
  · intro src
    exact ⟨(mapFunction_interns pn src).2.1 hd, (mapFunction_interns pn src).1⟩
  · intro src
    exact ⟨(mapLocation_interns pn src).2 hd, (mapLocation_interns pn src).1⟩
  · intro src pn1 k isNew h
    exact ⟨(mapSample_interns h).2 hd, (mapSample_interns h).1⟩
  · intro ps s es h p hp
    have := appendAll_dense ps NewMemSeries s es denseIds_emptyProfile h
    rwa [hp] at this
  · intro s s1 value e p hp h
    obtain ⟨p1, hp1, hx, _⟩ := Append_interns h
    rw [hp] at hx
    exact ⟨p1, hp1, hx⟩

theorem interned_ids_dense_and_stable_witness :
    DenseIds NewMemSeries.normalizer.p ∧
    NewMemSeries.Append (exProfile 5000000 5) = some (exSeries1, none) ∧
    (∀ p, exSeries1.p = some p → DenseIds p) :=
  ⟨denseIds_emptyProfile, append_exProfile,
    fun p hp => (interned_ids_dense_and_stable NewMemSeries.normalizer
      denseIds_emptyProfile).2.2.2.2.1 [exProfile 5000000 5] exSeries1 [none]
      (by simp only [appendAll, append_exProfile]) p hp⟩

theorem tableLe_refl {κ ν : Type} [BEq κ] (t : List (κ × ν)) : TableLe t t := fun _ _ h => h

theorem tableLe_trans {κ ν : Type} [BEq κ] {t1 t2 t3 : List (κ × ν)} (h1 : TableLe t1 t2)
    (h2 : TableLe t2 t3) : TableLe t1 t3 := fun k v h => h2 k v (h1 k v h)

theorem tableLe_cons {κ ν : Type} [BEq κ] [LawfulBEq κ] (t : List (κ × ν)) (k : κ) (v : ν)
    (h : t.lookup k = none) : TableLe t ((k, v) :: t) := by
  intro k1 v1 h1
  rw [List.lookup_cons]
  by_cases hk : k1 = k
  · subst hk; rw [h] at h1; simp at h1
  · have : (k1 == k) = false := by simpa using hk
    rw [this]; exact h1

theorem tablesLe_refl (pn : profileNormalizer) : TablesLe pn pn :=
  ⟨tableLe_refl _, tableLe_refl _, tableLe_refl _⟩

theorem tablesLe_trans {a b c : profileNormalizer} (h1 : TablesLe a b) (h2 : TablesLe b c) :
    TablesLe a c :=
  ⟨tableLe_trans h1.1 h2.1, tableLe_trans h1.2.1 h2.2.1, tableLe_trans h1.2.2 h2.2.2⟩

theorem mapMapping_tablesLe (pn : profileNormalizer) (src : Option Mapping) :
    TablesLe pn (pn.mapMapping src).1 := by
  unfold profileNormalizer.mapMapping
  split
  · exact tablesLe_refl _
  · split
    · exact tablesLe_refl _
    · dsimp only
      split
      · exact tablesLe_refl _
      · rename_i hk
        exact ⟨tableLe_cons _ _ _ hk, tableLe_refl _, tableLe_refl _⟩

theorem mapFunction_tablesLe (pn : profileNormalizer) (src : Option Function) :
    TablesLe pn (pn.mapFunction src).1 := by
  unfold profileNormalizer.mapFunction
  split
  · exact tablesLe_refl _
  · split
    · exact tablesLe_refl _
    · dsimp only
      split
      · exact tablesLe_refl _
      · rename_i hk
        exact ⟨tableLe_refl _, tableLe_cons _ _ _ hk, tableLe_refl _⟩

theorem mapLines_tablesLe (ls : List profile.Line) : ∀ pn : profileNormalizer,
    TablesLe pn (pn.mapLines ls).1 := by
  induction ls with
  | nil => intro pn; exact tablesLe_refl _
  | cons ln rest ih =>
    intro pn
    simp only [profileNormalizer.mapLines, profileNormalizer.mapLine]
    exact tablesLe_trans (mapFunction_tablesLe pn ln.Function) (ih _)

theorem mapLocation_tablesLe (pn : profileNormalizer) (src : Option Location) :
    TablesLe pn (pn.mapLocation src).1 := by
  unfold profileNormalizer.mapLocation
  split
  · exact tablesLe_refl _
  · rename_i l
    split
    · exact tablesLe_refl _
    · have h12 := tablesLe_trans (mapMapping_tablesLe pn l.Mapping)
        (mapLines_tablesLe l.Line (pn.mapMapping l.Mapping).1)
      dsimp only
      split
      · exact h12
      · rename_i hk
        exact tablesLe_trans h12 ⟨tableLe_refl _, tableLe_refl _, tableLe_cons _ _ _ hk⟩

theorem mapLocations_tablesLe (ls : List (Option Location)) : ∀ pn : profileNormalizer,
    TablesLe pn (pn.mapLocations ls).1 := by
  induction ls with
  | nil => intro pn; exact tablesLe_refl _
  | cons l rest ih =>
    intro pn
    simp only [profileNormalizer.mapLocations]
    exact tablesLe_trans (mapLocation_tablesLe pn l) (ih _)

theorem mapSample_tables {pn pn1 : profileNormalizer} {src : Sample} {k : stacktraceKey}
    {b : Bool} (h : pn.mapSample src = some (pn1, k, b)) :
    pn1.mappings = (pn.mapLocations src.Location).1.mappings ∧
    pn1.functions = (pn.mapLocations src.Location).1.functions ∧
    pn1.locations = (pn.mapLocations src.Location).1.locations := by
  simp only [profileNormalizer.mapSample] at h
  split at h
  · simp at h
  · split at h
    · split at h
      · simp only [Option.some.injEq, Prod.mk.injEq] at h
        rw [← h.1]; exact ⟨rfl, rfl, rfl⟩
      · simp at h
    · split at h
      · simp only [Option.some.injEq, Prod.mk.injEq] at h
        rw [← h.1]; exact ⟨rfl, rfl, rfl⟩
      · simp at h

theorem mapSample_tablesLe {pn pn1 : profileNormalizer} {src : Sample} {k : stacktraceKey}
    {b : Bool} (h : pn.mapSample src = some (pn1, k, b)) : TablesLe pn pn1 := by
  obtain ⟨h1, h2, h3⟩ := mapSample_tables h
  have := mapLocations_tablesLe src.Location pn
  unfold TablesLe at this ⊢
  rw [h1, h2, h3]
  exact this

theorem mapSamples_tablesLe (samples : List Sample) :
    ∀ (pn pn1 : profileNormalizer) (keys keys1 : List stacktraceKey),
      mapSamples pn keys samples = some (pn1, keys1) → TablesLe pn pn1 := by
  induction samples with
  | nil =>
    intro pn pn1 keys keys1 h
    simp only [mapSamples, Option.some.injEq, Prod.mk.injEq] at h
    rw [← h.1]
    exact tablesLe_refl _
  | cons s rest ih =>
    intro pn pn1 keys keys1 h
    cases hz : isZeroSample s with
    | true =>
      simp only [mapSamples, hz] at h
      exact ih pn pn1 keys keys1 (by simpa using h)
    | false =>
      simp only [mapSamples, hz] at h
      cases hm : pn.mapSample s with
      | none => simp [hm] at h
      | some r =>
        obtain ⟨pn2, k, isNew⟩ := r
        have a1 := mapSample_tablesLe hm
        simp only [hm, Bool.not_false, if_true] at h
        cases isNew with
        | true => exact tablesLe_trans a1 (ih pn2 pn1 _ keys1 (by simpa using h))
        | false => exact tablesLe_trans a1 (ih pn2 pn1 _ keys1 (by simpa using h))
theorem tableLe_nil {κ ν : Type} [BEq κ] (t : List (κ × ν)) : TableLe [] t := by
  intro k v h; simp at h

theorem initFrom_mappings {s s1 : MemSeries} {value : Profile} (h : s.initFrom value = some s1)
    (hs : s.p = none → s.mappings = []) : s1.mappings = s.mappings := by
  unfold MemSeries.initFrom at h
  split at h
  · simp only [Option.some.injEq] at h
    subst h; rfl
  · rename_i hp
    split at h
    · simp only [Option.some.injEq] at h
      subst h
      exact (hs hp).symm
    · simp at h

theorem mapFirstMapping_tablesLe (pn : profileNormalizer) (value : Profile) :
    TablesLe pn (pn.mapFirstMapping value) := by
  unfold profileNormalizer.mapFirstMapping
  split
  · exact mapMapping_tablesLe pn _
  · exact tablesLe_refl _

theorem buildProfileTree_tablesLe {pn pn2 : profileNormalizer} {value : Profile}
    {t : ProfileTree} (h : pn.buildProfileTree value = some (pn2, t)) : TablesLe pn pn2 := by
  unfold profileNormalizer.buildProfileTree at h
  split at h
  · simp at h
  · rename_i pn3 keys hm
    split at h
    · simp at h
    · simp only [Option.some.injEq, Prod.mk.injEq] at h
      rw [← h.1]
      exact mapSamples_tablesLe _ _ _ _ _ hm

theorem prepare_mappings_le {s s1 : MemSeries} {value : Profile} {r : Except Err ProfileTree}
    (h : s.prepareSamplesForInsert value = some (s1, r)) (hs : s.p = none → s.mappings = []) :
    TableLe s.mappings s1.mappings := by
  unfold MemSeries.prepareSamplesForInsert at h
  split at h
  · simp at h
  · rename_i s0 hs0
    have h0 := initFrom_mappings hs0 hs
    split at h
    · simp at h
    · simp only [Option.some.injEq, Prod.mk.injEq] at h
      obtain ⟨h1, _⟩ := h
      subst h1
      rw [h0]; exact tableLe_refl _
    · split at h
      · simp at h
      · rename_i pn2 t hb
        simp only [Option.some.injEq, Prod.mk.injEq] at h
        obtain ⟨h1, _⟩ := h
        subst h1
        have a := (mapFirstMapping_tablesLe s0.normalizer value).1
        have b := (buildProfileTree_tablesLe hb).1
        have hn : s0.normalizer.mappings = s.mappings := h0
        rw [hn] at a
        exact tableLe_trans a b

theorem append_mappings {s s2 : MemSeries} {t : ProfileTree} (h : s.append t = some s2) :
    s2.mappings = s.mappings := by
  unfold MemSeries.append at h
  split at h
  · simp at h
  · simp only [Option.some.injEq] at h
    subst h
    rfl

theorem appendColumns_mappings (s : MemSeries) (value : Profile) :
    (s.appendColumns value).1.mappings = s.mappings := by
  unfold MemSeries.appendColumns
  dsimp only
  split
  · rfl
  · split
    · rfl
    · split
      · rfl
      · split <;> rfl

theorem Append_mappings_le {s s1 : MemSeries} {value : Profile} {e : Option Err}
    (h : s.Append value = some (s1, e)) (hs : s.p = none → s.mappings = []) :
    TableLe s.mappings s1.mappings := by
  unfold MemSeries.Append at h
  split at h
  · simp at h
  · rename_i s0 e0 hp
    simp only [Option.some.injEq, Prod.mk.injEq] at h
    obtain ⟨h1, _⟩ := h
    subst h1
    exact prepare_mappings_le hp hs
  · rename_i s0 t hp
    split at h
    · simp at h
    · rename_i s2 ha
      simp only [Option.some.injEq] at h
      have h3 : s1 = (s2.appendColumns value).1 := by rw [h]
      rw [h3, appendColumns_mappings, append_mappings ha]
      exact prepare_mappings_le hp hs

theorem makeMappingKey_fake (a : Mapping) (h1 : a.BuildID = "") (h2 : a.File = "") :
    makeMappingKey a = ⟨(makeMappingKey a).size, a.Offset, ""⟩ := by
  simp [makeMappingKey, h1, h2]

/-- A source mapping whose id is not memoized is interned under its key. -/
theorem mapMapping_by_key (pn : profileNormalizer) (a : Mapping)
    (hc : pn.mappingsByID.lookup a.ID = none) :
    ∃ m, (pn.mapMapping (some a)).2.m = some m ∧
      (pn.mapMapping (some a)).1.mappings.lookup (makeMappingKey a) = some m := by
  simp only [profileNormalizer.mapMapping, hc]
  cases hk : pn.mappings.lookup (makeMappingKey a) with
  | some m => exact ⟨m, rfl, hk⟩
  | none => exact ⟨_, rfl, by simp [List.lookup]⟩

/-- A source mapping whose id is not memoized maps to the mapping interned under its key. -/
theorem mapMapping_of_lookup (pn : profileNormalizer) (b m : Mapping)
    (hc : pn.mappingsByID.lookup b.ID = none)
    (hk : pn.mappings.lookup (makeMappingKey b) = some m) :
    (pn.mapMapping (some b)).2.m = some m := by
  simp only [profileNormalizer.mapMapping, hc, hk]

/-- Every binding of the mapping table of a series is kept by any number of `Append` calls,
whatever they return. -/
theorem appendAll_mappings_le (ps : List Profile) :
    ∀ (s s2 : MemSeries) (es : List (Option Err)), (s.p = none → s.mappings = []) →
      appendAll s ps = some (s2, es) →
      TableLe s.mappings s2.mappings ∧ (s2.p = none → s2.mappings = []) := by
  induction ps with
  | nil =>
    intro s s2 es hs h
    simp only [appendAll, Option.some.injEq, Prod.mk.injEq] at h
    rw [← h.1]
    exact ⟨tableLe_refl _, hs⟩
  | cons value rest ih =>
    intro s s2 es hs h
    simp only [appendAll] at h
    cases ha : s.Append value with
    | none => simp [ha] at h
    | some r =>
      obtain ⟨s1, e⟩ := r
      simp only [ha] at h
      cases hr : appendAll s1 rest with
      | none => simp [hr] at h
      | some q =>
        obtain ⟨s3, es3⟩ := q
        simp only [hr, Option.some.injEq, Prod.mk.injEq] at h
        obtain ⟨p1, hp1, _⟩ := Append_interns ha
        have hs1 : s1.p = none → s1.mappings = [] := by
          intro h0; rw [hp1] at h0; simp at h0
        obtain ⟨i1, i2⟩ := ih s1 s3 es3 hs1 hr
        rw [← h.1]
        exact ⟨tableLe_trans (Append_mappings_le ha hs) i1, i2⟩

theorem makeMappingKey_fake_eq (a b : Mapping) (ha : a.BuildID = "" ∧ a.File = "")
    (hb : b.BuildID = "" ∧ b.File = "")
    (hsize : (makeMappingKey a).size = (makeMappingKey b).size) (hoff : a.Offset = b.Offset) :
    makeMappingKey b = makeMappingKey a := by
  rw [makeMappingKey_fake a ha.1 ha.2, makeMappingKey_fake b hb.1 hb.2, hsize, hoff]

theorem makeMappingKey_offset (a : Mapping) : (makeMappingKey a).offset = a.Offset := rfl

theorem appendSlot_ok {slot slot1 : List MemSeriesTreeValueNode} {index : Nat} {v : Option Int}
    (h : appendSlot slot index v = some (slot1, none)) :
    ∃ w, v = some w ∧ slot1 = writeSlot slot index w := by
  unfold appendSlot at h
  cases slot with
  | nil =>
    simp only [chunkenc.XORChunk.Appender, chunkenc.NewXORChunk] at h
    cases v with
    | none => simp at h
    | some w =>
      simp only [Bool.false_eq_true, if_false, Option.some.injEq, Prod.mk.injEq, and_true] at h
      exact ⟨w, rfl, h.symm⟩
  | cons x xs =>
    simp only [chunkenc.XORChunk.Appender] at h
    cases hb : x.Values.broken with
    | true => simp [hb] at h
    | false =>
      simp only [hb, Bool.false_eq_true, if_false] at h
      cases v with
      | none => simp at h
      | some w =>
        simp only [Option.some.injEq, Prod.mk.injEq, and_true] at h
        exact ⟨w, rfl, h.symm⟩

theorem appendSlot_healthy (slot : List MemSeriesTreeValueNode) (index : Nat) (w : Int)
    (hs : ∀ x ∈ slot, x.Values.broken = false) :
    appendSlot slot index (some w) = some (writeSlot slot index w, none) := by
  unfold appendSlot
  cases slot with
  | nil => simp [chunkenc.XORChunk.Appender, chunkenc.NewXORChunk, writeSlot]
  | cons x xs =>
    have hb := hs x (List.mem_cons_self _ _)
    simp [chunkenc.XORChunk.Appender, hb, writeSlot]

theorem appendNodeValues_ok {index : Nat} {p : ProfileTreeNode}
    {flat cum flat1 cum1 : List MemSeriesTreeValueNode}
    (h : appendNodeValues index p flat cum = some ((flat1, cum1), none)) :
    (flat1, cum1) = writeNodeValues index p flat cum := by
  unfold appendNodeValues at h
  simp only [writeNodeValues]
  cases hf : p.FlatValues with
  | nil =>
    simp only [hf] at h
    cases hc : appendSlot cum index (p.CumulativeValues.head?.map
        (fun c : ProfileTreeValueNode => c.Value)) with
    | none => simp [hc] at h
    | some r =>
      obtain ⟨c1, e⟩ := r
      simp only [hc, Option.some.injEq, Prod.mk.injEq] at h
      obtain ⟨⟨h1, h2⟩, h3⟩ := h
      subst h1 h2 h3
      obtain ⟨w, hw, hc1⟩ := appendSlot_ok hc
      have hsv : slotValue p.CumulativeValues = w := by
        cases hcv : p.CumulativeValues with
        | nil => simp [hcv] at hw
        | cons c cs => simpa [hcv, slotValue] using hw
      rw [hsv, hc1]
  | cons f fs =>
    simp only [hf] at h
    cases hfl : appendSlot flat index (some f.Value) with
    | none => simp [hfl] at h
    | some r =>
      obtain ⟨f1, e⟩ := r
      cases e with
      | some e => simp [hfl] at h
      | none =>
        simp only [hfl] at h
        obtain ⟨w0, hw0, hf1⟩ := appendSlot_ok hfl
        simp only [Option.some.injEq] at hw0
        subst hw0
        cases hc : appendSlot cum index (p.CumulativeValues.head?.map
            (fun c : ProfileTreeValueNode => c.Value)) with
        | none => simp [hc] at h
        | some r =>
          obtain ⟨c1, e⟩ := r
          simp only [hc, Option.some.injEq, Prod.mk.injEq] at h
          obtain ⟨⟨h1, h2⟩, h3⟩ := h
          subst h1 h2 h3
          obtain ⟨w, hw, hc1⟩ := appendSlot_ok hc
          have hsv : slotValue p.CumulativeValues = w := by
            cases hcv : p.CumulativeValues with
            | nil => simp [hcv] at hw
            | cons c cs => simpa [hcv, slotValue] using hw
          rw [hsv, hc1, hf1]

theorem appendNodeValues_healthy (index : Nat) (p : ProfileTreeNode)
    (flat cum : List MemSeriesTreeValueNode) (hp : p.CumulativeValues ≠ [])
    (hf : ∀ x ∈ flat, x.Values.broken = false) (hc : ∀ x ∈ cum, x.Values.broken = false) :
    appendNodeValues index p flat cum = some (writeNodeValues index p flat cum, none) := by
  obtain ⟨c, cs, hcv⟩ := List.exists_cons_of_ne_nil hp
  unfold appendNodeValues
  simp only [writeNodeValues, hcv, List.head?_cons, Option.map_some', slotValue]
  cases hfv : p.FlatValues with
  | nil => simp only [appendSlot_healthy cum index c.Value hc]
  | cons f fs =>
    simp only [appendSlot_healthy flat index f.Value hf, appendSlot_healthy cum index c.Value hc]
mutual
theorem mergeChildren_ok (index : Nat) :
    ∀ (ps : List ProfileTreeNode) (before rest ch : List MemSeriesTreeNode),
      mergeChildren index ps before rest = some (ch, none) →
      ch = mergedChildren index ps before rest
  | [], before, rest, ch, h => by
    simp only [mergeChildren, Option.some.injEq, Prod.mk.injEq, and_true] at h
    simp only [mergedChildren, h]
  | p :: ps, before, rest, ch, h => by
    unfold mergeChildren at h
    unfold mergedChildren
    simp only at h ⊢
    cases hd : rest.dropWhile (fun s => decide (s.LocationID < p.LocationID)) with
    | nil =>
      simp only [hd] at h ⊢
      cases ha : appendNodeValues index p [] [] with
      | none => simp [ha] at h
      | some r =>
        obtain ⟨⟨flat, cum⟩, e⟩ := r
        cases e with
        | some e => simp [ha] at h
        | none =>
          simp only [ha] at h
          have hw := appendNodeValues_ok ha
          cases hm : mergeNode index p (.mk p.LocationID flat cum []) with
          | none => simp [hm] at h
          | some r2 =>
            obtain ⟨c, e2⟩ := r2
            cases e2 with
            | some e2 => simp [hm] at h
            | none =>
              simp only [hm] at h
              have hc := mergeNode_ok index p _ c hm
              rw [mergeChildren_ok index ps _ _ ch h, hc, ← hw]
    | cons s rest1 =>
      simp only [hd] at h ⊢
      by_cases hid : p.LocationID = s.LocationID
      · simp only [hid, if_true] at h ⊢
        cases ha : appendNodeValues index p s.FlatValues s.CumulativeValues with
        | none => simp [ha] at h
        | some r =>
          obtain ⟨⟨flat, cum⟩, e⟩ := r
          cases e with
          | some e => simp [ha] at h
          | none =>
            simp only [ha] at h
            have hw := appendNodeValues_ok ha
            cases hm : mergeNode index p (.mk s.LocationID flat cum s.Children) with
            | none => simp [hm] at h
            | some r2 =>
              obtain ⟨c, e2⟩ := r2
              cases e2 with
              | some e2 => simp [hm] at h
              | none =>
                simp only [hm] at h
                have hc := mergeNode_ok index p _ c hm
                rw [mergeChildren_ok index ps _ _ ch h, hc, ← hw]
      · simp only [hid, if_false] at h ⊢
        cases ha : appendNodeValues index p [] [] with
        | none => simp [ha] at h
        | some r =>
          obtain ⟨⟨flat, cum⟩, e⟩ := r
          cases e with
          | some e => simp [ha] at h
          | none =>
            simp only [ha] at h
            have hw := appendNodeValues_ok ha
            cases hm : mergeNode index p (.mk p.LocationID flat cum []) with
            | none => simp [hm] at h
            | some r2 =>
              obtain ⟨c, e2⟩ := r2
              cases e2 with
              | some e2 => simp [hm] at h
              | none =>
                simp only [hm] at h
                have hc := mergeNode_ok index p _ c hm
                rw [mergeChildren_ok index ps _ _ ch h, hc, ← hw]
theorem mergeNode_ok (index : Nat) :
    ∀ (p : ProfileTreeNode) (s s1 : MemSeriesTreeNode),
      mergeNode index p s = some (s1, none) → s1 = mergedNode index p s
  | .mk _ _ _ pch, s, s1, h => by
    unfold mergeNode at h
    unfold mergedNode
    cases hm : mergeChildren index pch [] s.Children with
    | none => simp [hm] at h
    | some r =>
      obtain ⟨ch, e⟩ := r
      simp only [hm, Option.some.injEq, Prod.mk.injEq] at h
      obtain ⟨h1, h2⟩ := h
      subst h2
      rw [← h1, mergeChildren_ok index pch _ _ ch hm]
end
theorem allHealthy_iff (ch : List MemSeriesTreeNode) : allHealthy ch ↔ ∀ c ∈ ch, c.Healthy := by
  induction ch with
  | nil => simp [allHealthy]
  | cons c cs ih => simp [allHealthy, ih]

theorem healthy_parts {s : MemSeriesTreeNode} (h : s.Healthy) :
    (∀ x ∈ s.FlatValues, x.Values.broken = false) ∧
    (∀ x ∈ s.CumulativeValues, x.Values.broken = false) ∧ ∀ c ∈ s.Children, c.Healthy := by
  cases s with
  | mk id flat cum ch => exact ⟨h.1, h.2.1, (allHealthy_iff ch).mp h.2.2⟩

theorem dropWhile_cons_mem {α : Type} {f : α → Bool} {l rest1 : List α} {s : α}
    (h : l.dropWhile f = s :: rest1) : s ∈ l ∧ ∀ x ∈ rest1, x ∈ l := by
  have hsub := (List.dropWhile_suffix f (l := l)).subset
  rw [h] at hsub
  exact ⟨hsub (List.mem_cons_self _ _), fun x hx => hsub (List.mem_cons_of_mem _ hx)⟩

mutual
theorem mergeChildren_healthy (index : Nat) :
    ∀ (ps : List ProfileTreeNode) (before rest : List MemSeriesTreeNode),
      allHaveCum ps → (∀ c ∈ rest, c.Healthy) →
      mergeChildren index ps before rest = some (mergedChildren index ps before rest, none)
  | [], before, rest, _, _ => by simp only [mergeChildren, mergedChildren]
  | p :: ps, before, rest, h, hr => by
    have hp : p.hasCum := h.1
    have hps : allHaveCum ps := h.2
    have hcv := hasCum_cumulativeValues hp
    have hch : allHaveCum p.Children := by
      cases p with
      | mk _ _ _ pch => exact hp.2
    unfold mergeChildren
    unfold mergedChildren
    simp only
    cases hd : rest.dropWhile (fun s => decide (s.LocationID < p.LocationID)) with
    | nil =>
      simp only
      rw [appendNodeValues_healthy index p [] [] hcv (by simp) (by simp)]
      simp only
      rw [mergeNode_healthy index p _ hch (by simp [MemSeriesTreeNode.Children])]
      simp only
      exact mergeChildren_healthy index ps _ _ hps (by simp)
    | cons s rest1 =>
      obtain ⟨hs, hrest1⟩ := dropWhile_cons_mem hd
      obtain ⟨hsf, hsc, hsch⟩ := healthy_parts (hr s hs)
      simp only
      by_cases hid : p.LocationID = s.LocationID
      · simp only [hid, if_true]
        rw [appendNodeValues_healthy index p _ _ hcv hsf hsc]
        simp only
        rw [mergeNode_healthy index p _ hch (by simpa [MemSeriesTreeNode.Children] using hsch)]
        simp only
        exact mergeChildren_healthy index ps _ _ hps (fun c hc => hr c (hrest1 c hc))
      · simp only [hid, if_false]
        rw [appendNodeValues_healthy index p [] [] hcv (by simp) (by simp)]
        simp only
        rw [mergeNode_healthy index p _ hch (by simp [MemSeriesTreeNode.Children])]
        simp only
        refine mergeChildren_healthy index ps _ _ hps ?_
        intro c hc
        rcases List.mem_cons.mp hc with hc | hc
        · subst hc; exact hr _ hs
        · exact hr c (hrest1 c hc)
theorem mergeNode_healthy (index : Nat) :
    ∀ (p : ProfileTreeNode) (s : MemSeriesTreeNode),
      allHaveCum p.Children → (∀ c ∈ s.Children, c.Healthy) →
      mergeNode index p s = some (mergedNode index p s, none)
  | .mk _ _ _ pch, s, h, hs => by
    unfold mergeNode
    unfold mergedNode
    rw [mergeChildren_healthy index pch [] s.Children h hs]
end

theorem Insert_ok {t t1 : MemSeriesTree} {index : Nat} {pt : ProfileTree}
    (h : t.Insert index pt = some (t1, none)) : t1 = t.merged index pt := by
  unfold MemSeriesTree.Insert at h
  unfold MemSeriesTree.merged
  cases hp : pt.Roots with
  | none =>
    simp only [hp, Option.some.injEq, Prod.mk.injEq, and_true] at h
    simp only [← h]
    try rfl
  | some proot =>
    simp only [hp] at h ⊢
    split at h
    · simp at h
    · simp at h
    · rename_i flat cum hm
      have hw := appendNodeValues_ok hm
      rw [← hw]
      split at h
      · simp at h
      · rename_i r e hmn
        simp only [Option.some.injEq, Prod.mk.injEq] at h
        obtain ⟨h1, h2⟩ := h
        subst h2
        rw [← h1, mergeNode_ok index proot _ r hmn]

theorem Insert_healthy (t : MemSeriesTree) (index : Nat) (pt : ProfileTree)
    (hp : pt.hasCum) (ht : t.Healthy) :
    t.Insert index pt = some (t.merged index pt, none) := by
  cases hpr : pt.Roots with
  | none =>
    simp only [MemSeriesTree.Insert, MemSeriesTree.merged, hpr]
    try rfl
  | some proot =>
    have hpc : proot.hasCum := by
      simpa [ProfileTree.hasCum, hpr] using hp
    have hc : allHaveCum proot.Children := hasCum_children hpc
    have hcv := hasCum_cumulativeValues hpc
    cases htr : t.Roots with
    | none =>
      simp only [MemSeriesTree.Insert, MemSeriesTree.merged, hpr, htr]
      rw [appendNodeValues_healthy index proot _ _ hcv
        (by simp [MemSeriesTreeNode.FlatValues])
        (by simp [MemSeriesTreeNode.CumulativeValues])]
      simp only
      rw [mergeNode_healthy index proot _ hc (by simp [MemSeriesTreeNode.Children])]
    | some r =>
      have hr : r.Healthy := by simpa [MemSeriesTree.Healthy, htr] using ht
      simp only [MemSeriesTree.Insert, MemSeriesTree.merged, hpr, htr]
      rw [appendNodeValues_healthy index proot _ _ hcv (healthy_parts hr).1 (healthy_parts hr).2.1]
      simp only
      rw [mergeNode_healthy index proot _ hc
        (by simpa [MemSeriesTreeNode.Children] using (healthy_parts hr).2.2)]

theorem dropWhile_cons_not {α : Type} {f : α → Bool} : ∀ {l rest1 : List α} {s : α},
    l.dropWhile f = s :: rest1 → f s = false := by
  intro l
  induction l with
  | nil => intro rest1 s h; simp at h
  | cons x xs ih =>
    intro rest1 s h
    rw [List.dropWhile_cons] at h
    cases hx : f x with
    | true => simp only [hx, if_true] at h; exact ih h
    | false =>
      simp only [hx] at h
      simp only [Bool.false_eq_true, if_false, List.cons.injEq] at h
      rw [← h.1]; exact hx

theorem pairwise_insert_between (B R : List Nat) (x : Nat)
    (hB : List.Pairwise (· < ·) B) (hBx : ∀ b ∈ B, b < x)
    (hR : List.Pairwise (· < ·) R) (hxR : ∀ r ∈ R, x < r) :
    List.Pairwise (· < ·) (B ++ x :: R) := by
  rw [List.pairwise_append]
  refine ⟨hB, List.pairwise_cons.mpr ⟨hxR, hR⟩, ?_⟩
  intro a ha b hb
  rcases List.mem_cons.mp hb with hb | hb
  · subst hb; exact hBx a ha
  · exact lt_trans (hBx a ha) (hxR b hb)

theorem allSeriesSorted_iff (ch : List MemSeriesTreeNode) :
    allSeriesSorted ch ↔ ∀ c ∈ ch, c.Sorted := by
  induction ch with
  | nil => simp [allSeriesSorted]
  | cons c cs ih => simp [allSeriesSorted, ih]
theorem mergedNode_LocationID (index : Nat) (p : ProfileTreeNode) (s : MemSeriesTreeNode) :
    (mergedNode index p s).LocationID = s.LocationID := by
  cases p with
  | mk _ _ _ pch => simp [mergedNode, MemSeriesTreeNode.LocationID]

theorem seriesSorted_of_children {id id1 : Nat} {flat cum flat1 cum1 : List MemSeriesTreeValueNode}
    {ch : List MemSeriesTreeNode} (h : (MemSeriesTreeNode.mk id flat cum ch).Sorted) :
    (MemSeriesTreeNode.mk id1 flat1 cum1 ch).Sorted := h

/-- The step of the merge keeps the children ascending: the node for the profile child goes
between the children below it and those above it. -/
theorem merge_step_pairwise (before skipped rest1 : List MemSeriesTreeNode)
    (c : MemSeriesTreeNode) (x : Nat) (hc : c.LocationID = x)
    (h : List.Pairwise (fun a b : MemSeriesTreeNode => a.LocationID < b.LocationID)
      (before ++ skipped ++ rest1))
    (hlo : ∀ b ∈ before ++ skipped, b.LocationID < x)
    (hhi : ∀ r ∈ rest1, x < r.LocationID) :
    List.Pairwise (fun a b : MemSeriesTreeNode => a.LocationID < b.LocationID)
      (before ++ skipped ++ [c] ++ rest1) := by
  rw [List.pairwise_append] at h
  obtain ⟨h1, h2, h3⟩ := h
  rw [List.append_assoc (before ++ skipped), List.pairwise_append]
  refine ⟨h1, ?_, ?_⟩
  · simp only [List.singleton_append, List.pairwise_cons]
    exact ⟨fun r hr => by rw [hc]; exact hhi r hr, h2⟩
  · intro a ha b hb
    simp only [List.singleton_append, List.mem_cons] at hb
    rcases hb with hb | hb
    · subst hb; rw [hc]; exact hlo a ha
    · exact h3 a ha b hb

mutual
theorem mergedChildren_sorted (index : Nat) :
    ∀ (ps : List ProfileTreeNode) (before rest : List MemSeriesTreeNode),
      List.Pairwise (· < ·) (childIDs ps) → allSorted ps →
      List.Pairwise (fun a b : MemSeriesTreeNode => a.LocationID < b.LocationID)
        (before ++ rest) →
      (∀ c ∈ before ++ rest, c.Sorted) →
      (∀ b ∈ before, ∀ p ∈ ps, b.LocationID < p.LocationID) →
      List.Pairwise (fun a b : MemSeriesTreeNode => a.LocationID < b.LocationID)
        (mergedChildren index ps before rest) ∧
      ∀ c ∈ mergedChildren index ps before rest, c.Sorted
  | [], before, rest, _, _, h3, h4, _ => by
    simp only [mergedChildren]; exact ⟨h3, h4⟩
  | p :: ps, before, rest, h1, h2, h3, h4, h5 => by
    have hpS : p.Sorted := h2.1
    have hpsS : allSorted ps := h2.2
    simp only [childIDs, List.map_cons, List.pairwise_cons] at h1
    obtain ⟨hp1, hps1⟩ := h1
    have hp1 : ∀ q ∈ ps, p.LocationID < q.LocationID := fun q hq =>
      hp1 q.LocationID (List.mem_map_of_mem _ hq)
    have hsplit := List.takeWhile_append_dropWhile
      (fun s : MemSeriesTreeNode => decide (s.LocationID < p.LocationID)) rest
    have hsk : ∀ x ∈ rest.takeWhile
        (fun s : MemSeriesTreeNode => decide (s.LocationID < p.LocationID)),
        x.LocationID < p.LocationID := by
      intro x hx
      simpa using List.mem_takeWhile_imp hx
    have hlo : ∀ b ∈ before ++ rest.takeWhile
        (fun s : MemSeriesTreeNode => decide (s.LocationID < p.LocationID)),
        b.LocationID < p.LocationID := by
      intro b hb
      rcases List.mem_append.mp hb with hb | hb
      · exact h5 b hb p (List.mem_cons_self _ _)
      · exact hsk b hb
    unfold mergedChildren
    simp only
    generalize hsk0 : rest.takeWhile
      (fun s : MemSeriesTreeNode => decide (s.LocationID < p.LocationID)) = skipped
      at hsplit hsk hlo ⊢
    cases hd : rest.dropWhile (fun s => decide (s.LocationID < p.LocationID)) with
    | nil =>
      simp only
      rw [hd, List.append_nil] at hsplit
      subst hsplit
      have hnode := mergedNode_sorted index p
        (.mk p.LocationID (writeNodeValues index p [] []).1 (writeNodeValues index p [] []).2 [])
        hpS ⟨List.Pairwise.nil, trivial⟩
      have hid := mergedNode_LocationID index p
        (.mk p.LocationID (writeNodeValues index p [] []).1 (writeNodeValues index p [] []).2 [])
      apply mergedChildren_sorted index ps _ [] hps1 hpsS
      · have := merge_step_pairwise before skipped [] _ p.LocationID hid
          (by simpa using h3) hlo (by simp)
        simpa using this
      · intro c hc
        simp only [List.append_nil, List.mem_append, List.mem_singleton] at hc
        rcases hc with (hc | hc) | hc
        · exact h4 c (by simp [hc])
        · exact h4 c (by simp [hc])
        · subst hc; exact hnode
      · intro b hb q hq
        simp only [List.mem_append, List.mem_singleton] at hb
        rcases hb with (hb | hb) | hb
        · exact h5 b hb q (List.mem_cons_of_mem _ hq)
        · exact lt_trans (hsk b hb) (hp1 q hq)
        · subst hb; rw [hid]; exact hp1 q hq
    | cons s rest1 =>
      simp only
      rw [hd] at hsplit
      subst hsplit
      have hnot : ¬ s.LocationID < p.LocationID := by
        simpa using dropWhile_cons_not hd
      have h3a : List.Pairwise (fun a b : MemSeriesTreeNode => a.LocationID < b.LocationID)
          (before ++ skipped ++ s :: rest1) := by simpa using h3
      have hsr : ∀ r ∈ rest1, s.LocationID < r.LocationID := by
        rw [List.pairwise_append] at h3a
        exact (List.pairwise_cons.mp h3a.2.1).1
      have hsS : s.Sorted := h4 s (by simp)
      by_cases hid : p.LocationID = s.LocationID
      · simp only [hid, if_true]
        have hnode := mergedNode_sorted index p
          (.mk s.LocationID (writeNodeValues index p s.FlatValues s.CumulativeValues).1
            (writeNodeValues index p s.FlatValues s.CumulativeValues).2 s.Children)
          hpS (by cases s; exact hsS)
        have hid1 : (mergedNode index p
            (.mk s.LocationID (writeNodeValues index p s.FlatValues s.CumulativeValues).1
              (writeNodeValues index p s.FlatValues s.CumulativeValues).2
              s.Children)).LocationID = s.LocationID :=
          (mergedNode_LocationID index p _).trans rfl
        apply mergedChildren_sorted index ps _ rest1 hps1 hpsS
        · refine merge_step_pairwise before skipped rest1 _ s.LocationID ?_ ?_ ?_ hsr
          · exact hid1
          · rw [List.pairwise_append] at h3a ⊢
            refine ⟨h3a.1, (List.pairwise_cons.mp h3a.2.1).2, ?_⟩
            intro a ha b hb
            exact h3a.2.2 a ha b (List.mem_cons_of_mem _ hb)
          · intro b hb; rw [← hid]; exact hlo b hb
        · intro c hc
          simp only [List.mem_append, List.mem_singleton] at hc
          rcases hc with ((hc | hc) | hc) | hc
          · exact h4 c (by simp [hc])
          · exact h4 c (by simp [hc])
          · subst hc; exact hnode
          · exact h4 c (by simp [hc])
        · intro b hb q hq
          simp only [List.mem_append, List.mem_singleton] at hb
          rcases hb with (hb | hb) | hb
          · exact h5 b hb q (List.mem_cons_of_mem _ hq)
          · exact lt_trans (hsk b hb) (hp1 q hq)
          · subst hb
            rw [hid1, ← hid]; exact hp1 q hq
      · simp only [hid, if_false]
        have hlt : p.LocationID < s.LocationID := by omega
        have hnode := mergedNode_sorted index p
          (.mk p.LocationID (writeNodeValues index p [] []).1 (writeNodeValues index p [] []).2 [])
          hpS ⟨List.Pairwise.nil, trivial⟩
        have hid1 := mergedNode_LocationID index p
          (.mk p.LocationID (writeNodeValues index p [] []).1 (writeNodeValues index p [] []).2 [])
        apply mergedChildren_sorted index ps _ (s :: rest1) hps1 hpsS
        · refine merge_step_pairwise before skipped (s :: rest1) _ p.LocationID hid1 h3a hlo ?_
          intro r hr
          rcases List.mem_cons.mp hr with hr | hr
          · subst hr; exact hlt
          · exact lt_trans hlt (hsr r hr)
        · intro c hc
          simp only [List.mem_append, List.mem_cons, List.not_mem_nil, or_false] at hc
          rcases hc with ((hc | hc) | hc) | hc | hc
          · exact h4 c (by simp [hc])
          · exact h4 c (by simp [hc])
          · subst hc; exact hnode
          · subst hc; exact hsS
          · exact h4 c (by simp [hc])
        · intro b hb q hq
          simp only [List.mem_append, List.mem_singleton] at hb
          rcases hb with (hb | hb) | hb
          · exact h5 b hb q (List.mem_cons_of_mem _ hq)
          · exact lt_trans (hsk b hb) (hp1 q hq)
          · subst hb; rw [hid1]; exact hp1 q hq
theorem mergedNode_sorted (index : Nat) :
    ∀ (p : ProfileTreeNode) (s : MemSeriesTreeNode), p.Sorted → s.Sorted →
      (mergedNode index p s).Sorted
  | .mk _ _ _ pch, s, hp, hs => by
    unfold mergedNode
    have hs1 : List.Pairwise (· < ·) (seriesChildIDs s.Children) ∧ allSeriesSorted s.Children := by
      cases s; exact hs
    have := mergedChildren_sorted index pch [] s.Children hp.1 hp.2
      (by simpa [seriesChildIDs, List.pairwise_map] using hs1.1)
      (by simpa using (allSeriesSorted_iff _).mp hs1.2) (by simp)
    exact ⟨by simpa [seriesChildIDs, List.pairwise_map] using this.1,
      (allSeriesSorted_iff _).mpr this.2⟩
end

theorem merged_sorted (t : MemSeriesTree) (index : Nat) (pt : ProfileTree)
    (ht : t.Sorted) (hp : pt.Sorted) : (t.merged index pt).Sorted := by
  have hroot : (match t.Roots with
      | some r => r
      | none => MemSeriesTreeNode.mk 0 [] [] []).Sorted := by
    cases hr : t.Roots with
    | none => exact ⟨List.Pairwise.nil, trivial⟩
    | some r => simpa [MemSeriesTree.Sorted, hr] using ht
  cases hpr : pt.Roots with
  | none =>
    simp only [MemSeriesTree.merged, hpr]
    exact hroot
  | some proot =>
    simp only [MemSeriesTree.merged, hpr]
    have hps : proot.Sorted := by simpa [ProfileTree.Sorted, hpr] using hp
    refine mergedNode_sorted index proot _ hps ?_
    generalize (match t.Roots with
      | some r => r
      | none => MemSeriesTreeNode.mk 0 [] [] []) = root at hroot ⊢
    cases root
    exact hroot

/-- C14. For a series tree and a profile tree in which the children of every node are
strictly ascending by location id (so without duplicates), every run of
MemSeriesTree.Insert that returns a nil error leaves a series tree with the same property,
whichever of the merge cases (exhausted, match, gap) occurred; and Insert does return a nil
error when every profile node has a cumulative value and no chunk refuses its appender. -/
theorem seriesTree_insert_keeps_children_sorted (t : MemSeriesTree) (index : Nat)
    (pt : ProfileTree) (ht : t.Sorted) (hp : pt.Sorted) :
    (∀ t1, t.Insert index pt = some (t1, none) → t1.Sorted) ∧
    (pt.hasCum → t.Healthy →
      ∃ t1, t.Insert index pt = some (t1, none) ∧ t1.Sorted) := by
  constructor
  · intro t1 h
    rw [Insert_ok h]
    exact merged_sorted t index pt ht hp
  · intro hc hh
    exact ⟨_, Insert_healthy t index pt hc hh, merged_sorted t index pt ht hp⟩

theorem seriesTree_insert_keeps_children_sorted_witness :
    exSeriesTree.Sorted ∧ exTree.Sorted ∧
    exSeriesTree.Insert 1 exTree = some (exSeriesTreeMerged, none) ∧
    exSeriesTreeMerged.Sorted :=
  have hs : exSeriesTree.Sorted := by
    simp [exSeriesTree, MemSeriesTree.Sorted, MemSeriesTreeNode.Sorted, allSeriesSorted,
      seriesChildIDs, MemSeriesTreeNode.LocationID]
  have hp : exTree.Sorted := by
    simp [exTree, ProfileTree.Sorted, ProfileTreeNode.Sorted, allSorted, childIDs,
      ProfileTreeNode.LocationID]
  ⟨hs, hp, rfl,
    (seriesTree_insert_keeps_children_sorted exSeriesTree 1 exTree hs hp).1
      exSeriesTreeMerged rfl⟩

theorem valueAt_AppendAt_ne (c : chunkenc.XORChunk) (i k : Nat) (v : Int) (h : k ≠ i) :
    (c.AppendAt i v).valueAt k = c.valueAt k := by
  have hik : (i == k) = false := by simpa using fun e => h e.symm
  unfold chunkenc.XORChunk.AppendAt
  cases hc : c.entries with
  | nil => simp [chunkenc.XORChunk.valueAt, hc, List.find?, hik]
  | cons e rest =>
    obtain ⟨j, w⟩ := e
    simp only
    by_cases h1 : i < j
    · simp [h1]
    · by_cases h2 : i = j
      · subst h2
        simp [chunkenc.XORChunk.valueAt, hc, List.find?, hik]
      · simp [h1, h2, chunkenc.XORChunk.valueAt, hc, List.find?, hik]

theorem valueAt_AppendAt_self (c : chunkenc.XORChunk) (i : Nat) (v : Int)
    (h : ∀ e ∈ c.entries, e.1 < i) : (c.AppendAt i v).valueAt i = v := by
  unfold chunkenc.XORChunk.AppendAt
  cases hc : c.entries with
  | nil => simp [chunkenc.XORChunk.valueAt, List.find?]
  | cons e rest =>
    obtain ⟨j, w⟩ := e
    have hj : j < i := h (j, w) (by simp [hc])
    simp only
    have h1 : ¬ i < j := by omega
    have h2 : ¬ i = j := by omega
    simp [h1, h2, chunkenc.XORChunk.valueAt, List.find?]

theorem valueAt_of_below (c : chunkenc.XORChunk) (i : Nat) (h : ∀ e ∈ c.entries, e.1 < i) :
    c.valueAt i = 0 := by
  unfold chunkenc.XORChunk.valueAt
  have : c.entries.find? (fun e => e.1 == i) = none := by
    rw [List.find?_eq_none]
    intro e he
    have := h e he
    simp only [beq_iff_eq]
    omega
  rw [this]

theorem seriesSlotAt_writeSlot_ne (slot : List MemSeriesTreeValueNode) (i k : Nat) (v : Int)
    (h : k ≠ i) : seriesSlotAt (writeSlot slot i v) k = seriesSlotAt slot k := by
  cases slot with
  | nil =>
    simp only [writeSlot, seriesSlotAt]
    rw [valueAt_AppendAt_ne _ _ _ _ h]
    rfl
  | cons x xs => simp only [writeSlot, seriesSlotAt, valueAt_AppendAt_ne _ _ _ _ h]

theorem seriesSlotAt_writeSlot_self (slot : List MemSeriesTreeValueNode) (i : Nat) (v : Int)
    (h : slotBelow i slot) : seriesSlotAt (writeSlot slot i v) i = v := by
  cases slot with
  | nil =>
    simp only [writeSlot, seriesSlotAt]
    exact valueAt_AppendAt_self _ _ _ (by simp [chunkenc.NewXORChunk])
  | cons x xs =>
    simp only [writeSlot, seriesSlotAt]
    exact valueAt_AppendAt_self _ _ _ (h x (List.mem_cons_self _ _))

theorem seriesSlotAt_of_below (slot : List MemSeriesTreeValueNode) (i : Nat)
    (h : slotBelow i slot) : seriesSlotAt slot i = 0 := by
  cases slot with
  | nil => rfl
  | cons x xs => exact valueAt_of_below _ _ (h x (List.mem_cons_self _ _))

theorem allBelow_iff (i : Nat) (ch : List MemSeriesTreeNode) :
    allBelow i ch ↔ ∀ c ∈ ch, c.Below i := by
  induction ch with
  | nil => simp [allBelow]
  | cons c cs ih => simp [allBelow, ih]

theorem below_parts {i : Nat} {s : MemSeriesTreeNode} (h : s.Below i) :
    slotBelow i s.FlatValues ∧ slotBelow i s.CumulativeValues ∧ ∀ c ∈ s.Children, c.Below i := by
  cases s with
  | mk id flat cum ch => exact ⟨h.1, h.2.1, (allBelow_iff i ch).mp h.2.2⟩

theorem keeps_refl (i : Nat) (s : MemSeriesTreeNode) : Keeps i s s :=
  ⟨rfl, fun _ sn h => ⟨sn, h, fun _ _ => ⟨rfl, rfl⟩⟩⟩

/-- The values written by `writeNodeValues`, read back at index `i` and elsewhere. -/
theorem writeNodeValues_at (i : Nat) (p : ProfileTreeNode)
    (flat cum : List MemSeriesTreeValueNode) (hf : slotBelow i flat) (hc : slotBelow i cum) :
    seriesSlotAt (writeNodeValues i p flat cum).2 i = slotValue p.CumulativeValues ∧
    seriesSlotAt (writeNodeValues i p flat cum).1 i = p.FlatValue ∧
    ∀ k, k ≠ i → seriesSlotAt (writeNodeValues i p flat cum).2 k = seriesSlotAt cum k ∧
      seriesSlotAt (writeNodeValues i p flat cum).1 k = seriesSlotAt flat k := by
  refine ⟨seriesSlotAt_writeSlot_self _ _ _ hc, ?_, ?_⟩
  · simp only [writeNodeValues, ProfileTreeNode.FlatValue]
    cases hfv : p.FlatValues with
    | nil => simp only [slotValue]; exact seriesSlotAt_of_below _ _ hf
    | cons f fs => simp only [slotValue]; exact seriesSlotAt_writeSlot_self _ _ _ hf
  · intro k hk
    refine ⟨seriesSlotAt_writeSlot_ne _ _ _ _ hk, ?_⟩
    simp only [writeNodeValues]
    cases hfv : p.FlatValues with
    | nil => rfl
    | cons f fs => exact seriesSlotAt_writeSlot_ne _ _ _ _ hk
theorem mergedNode_eq (i : Nat) (p : ProfileTreeNode) (s : MemSeriesTreeNode) :
    mergedNode i p s = .mk s.LocationID s.FlatValues s.CumulativeValues
      (mergedChildren i p.Children [] s.Children) := by
  cases p with
  | mk _ _ _ pch => simp [mergedNode, ProfileTreeNode.Children]

theorem carries_mk (i : Nat) (p : ProfileTreeNode) (id : Nat)
    (flat cum : List MemSeriesTreeValueNode) (ch1 : List MemSeriesTreeNode)
    (hid : id = p.LocationID)
    (hcum : seriesSlotAt cum i = slotValue p.CumulativeValues)
    (hflat : seriesSlotAt flat i = p.FlatValue)
    (hch : ∀ pc ∈ p.Children, ∃ c1 ∈ ch1, Carries i pc c1) :
    Carries i p (.mk id flat cum ch1) := by
  refine ⟨hid, ?_⟩
  intro path pn hpath
  cases path with
  | nil =>
    simp only [ProfileTreeNode.reaches] at hpath
    subst hpath
    exact ⟨_, rfl, hcum, hflat⟩
  | cons x rest =>
    simp only [ProfileTreeNode.reaches] at hpath
    obtain ⟨pc, hpc, hx, hr⟩ := hpath
    obtain ⟨c1, hc1, hcar⟩ := hch pc hpc
    obtain ⟨sn, hsn, hv⟩ := hcar.2 rest pn hr
    exact ⟨sn, ⟨c1, hc1, hcar.1.trans hx, hsn⟩, hv⟩

theorem keeps_mk (i : Nat) (s : MemSeriesTreeNode)
    (flat cum : List MemSeriesTreeValueNode) (ch1 : List MemSeriesTreeNode)
    (hvals : ∀ k, k ≠ i → seriesSlotAt cum k = s.cumulativeAt k ∧
      seriesSlotAt flat k = s.flatAt k)
    (hch : ∀ c ∈ s.Children, ∃ c1 ∈ ch1, Keeps i c c1) :
    Keeps i s (.mk s.LocationID flat cum ch1) := by
  refine ⟨rfl, ?_⟩
  intro path sn hpath
  cases path with
  | nil =>
    simp only [MemSeriesTreeNode.reaches] at hpath
    subst hpath
    exact ⟨_, rfl, hvals⟩
  | cons x rest =>
    simp only [MemSeriesTreeNode.reaches] at hpath
    obtain ⟨c, hc, hx, hr⟩ := hpath
    obtain ⟨c1, hc1, hk⟩ := hch c hc
    obtain ⟨sn1, hsn1, hv⟩ := hk.2 rest sn hr
    exact ⟨sn1, ⟨c1, hc1, hk.1.trans hx, hsn1⟩, hv⟩

mutual
theorem mergedChildren_values (i : Nat) :
    ∀ (ps : List ProfileTreeNode) (before rest : List MemSeriesTreeNode),
      (∀ c ∈ rest, c.Below i) →
      (∀ b ∈ before, b ∈ mergedChildren i ps before rest) ∧
      (∀ s ∈ rest, ∃ s1 ∈ mergedChildren i ps before rest, Keeps i s s1) ∧
      (∀ p ∈ ps, ∃ s1 ∈ mergedChildren i ps before rest, Carries i p s1)
  | [], before, rest, _ => by
    simp only [mergedChildren]
    refine ⟨fun b hb => List.mem_append_left _ hb,
      fun s hs => ⟨s, List.mem_append_right _ hs, keeps_refl i s⟩, ?_⟩
    intro p hp; simp at hp
  | p :: ps, before, rest, hr => by
    have hsplit := List.takeWhile_append_dropWhile
      (fun s : MemSeriesTreeNode => decide (s.LocationID < p.LocationID)) rest
    unfold mergedChildren
    simp only
    generalize rest.takeWhile
      (fun s : MemSeriesTreeNode => decide (s.LocationID < p.LocationID)) = skipped
      at hsplit ⊢
    cases hd : rest.dropWhile (fun s => decide (s.LocationID < p.LocationID)) with
    | nil =>
      simp only
      rw [hd, List.append_nil] at hsplit
      subst hsplit
      obtain ⟨ih1, _, ih3⟩ := mergedChildren_values i ps
        (before ++ skipped ++ [mergedNode i p (.mk p.LocationID (writeNodeValues i p [] []).1
          (writeNodeValues i p [] []).2 [])]) [] (by simp)
      obtain ⟨_, hC⟩ := mergedNode_values i p (.mk p.LocationID (writeNodeValues i p [] []).1
          (writeNodeValues i p [] []).2 []) (by simp [MemSeriesTreeNode.Children])
      obtain ⟨w1, w2, _⟩ := writeNodeValues_at i p [] [] (by simp [slotBelow])
        (by simp [slotBelow])
      have hcar : Carries i p (mergedNode i p (.mk p.LocationID (writeNodeValues i p [] []).1
          (writeNodeValues i p [] []).2 [])) := by
        rw [mergedNode_eq] at hC ⊢
        exact carries_mk i p _ _ _ _ rfl w1 w2 hC
      refine ⟨fun b hb => ih1 b (by simp [hb]),
        fun s hs => ⟨s, ih1 s (by simp [hs]), keeps_refl i s⟩, ?_⟩
      intro q hq
      rcases List.mem_cons.mp hq with hq | hq
      · subst hq; exact ⟨_, ih1 _ (by simp), hcar⟩
      · exact ih3 q hq
    | cons s rest1 =>
      simp only
      rw [hd] at hsplit
      subst hsplit
      have hsB : s.Below i := hr s (by simp)
      obtain ⟨hsf, hsc, hsch⟩ := below_parts hsB
      by_cases hid : p.LocationID = s.LocationID
      · simp only [hid, if_true]
        obtain ⟨ih1, ih2, ih3⟩ := mergedChildren_values i ps
          (before ++ skipped ++ [mergedNode i p (.mk s.LocationID
            (writeNodeValues i p s.FlatValues s.CumulativeValues).1
            (writeNodeValues i p s.FlatValues s.CumulativeValues).2 s.Children)]) rest1
          (fun c hc => hr c (by simp [hc]))
        obtain ⟨hK, hC⟩ := mergedNode_values i p (.mk s.LocationID
            (writeNodeValues i p s.FlatValues s.CumulativeValues).1
            (writeNodeValues i p s.FlatValues s.CumulativeValues).2 s.Children)
          (by simpa [MemSeriesTreeNode.Children] using hsch)
        obtain ⟨w1, w2, w3⟩ := writeNodeValues_at i p s.FlatValues s.CumulativeValues hsf hsc
        have hcar : Carries i p (mergedNode i p (.mk s.LocationID
            (writeNodeValues i p s.FlatValues s.CumulativeValues).1
            (writeNodeValues i p s.FlatValues s.CumulativeValues).2 s.Children)) := by
          rw [mergedNode_eq] at hC ⊢
          exact carries_mk i p _ _ _ _ hid.symm w1 w2 hC
        have hkeep : Keeps i s (mergedNode i p (.mk s.LocationID
            (writeNodeValues i p s.FlatValues s.CumulativeValues).1
            (writeNodeValues i p s.FlatValues s.CumulativeValues).2 s.Children)) := by
          rw [mergedNode_eq] at hK ⊢
          exact keeps_mk i s _ _ _ w3 hK
        refine ⟨fun b hb => ih1 b (by simp [hb]), ?_, ?_⟩
        · intro c hc
          simp only [List.mem_append, List.mem_cons] at hc
          rcases hc with hc | hc | hc
          · exact ⟨c, ih1 c (by simp [hc]), keeps_refl i c⟩
          · subst hc; exact ⟨_, ih1 _ (by simp), hkeep⟩
          · exact ih2 c hc
        · intro q hq
          rcases List.mem_cons.mp hq with hq | hq
          · subst hq; exact ⟨_, ih1 _ (by simp), hcar⟩
          · exact ih3 q hq
      · simp only [hid, if_false]
        obtain ⟨ih1, ih2, ih3⟩ := mergedChildren_values i ps
          (before ++ skipped ++ [mergedNode i p (.mk p.LocationID (writeNodeValues i p [] []).1
            (writeNodeValues i p [] []).2 [])]) (s :: rest1)
          (fun c hc => hr c (by
            rcases List.mem_cons.mp hc with hc | hc
            · simp [hc]
            · simp [hc]))
        obtain ⟨_, hC⟩ := mergedNode_values i p (.mk p.LocationID (writeNodeValues i p [] []).1
            (writeNodeValues i p [] []).2 []) (by simp [MemSeriesTreeNode.Children])
        obtain ⟨w1, w2, _⟩ := writeNodeValues_at i p [] [] (by simp [slotBelow])
          (by simp [slotBelow])
        have hcar : Carries i p (mergedNode i p (.mk p.LocationID (writeNodeValues i p [] []).1
            (writeNodeValues i p [] []).2 [])) := by
          rw [mergedNode_eq] at hC ⊢
          exact carries_mk i p _ _ _ _ rfl w1 w2 hC
        refine ⟨fun b hb => ih1 b (by simp [hb]), ?_, ?_⟩
        · intro c hc
          simp only [List.mem_append, List.mem_cons] at hc
          rcases hc with hc | hc | hc
          · exact ⟨c, ih1 c (by simp [hc]), keeps_refl i c⟩
          · subst hc; exact ih2 _ (by simp)
          · exact ih2 c (by simp [hc])
        · intro q hq
          rcases List.mem_cons.mp hq with hq | hq
          · subst hq; exact ⟨_, ih1 _ (by simp), hcar⟩
          · exact ih3 q hq
theorem mergedNode_values (i : Nat) :
    ∀ (p : ProfileTreeNode) (s : MemSeriesTreeNode), (∀ c ∈ s.Children, c.Below i) →
      (∀ c ∈ s.Children, ∃ c1 ∈ (mergedNode i p s).Children, Keeps i c c1) ∧
      (∀ pc ∈ p.Children, ∃ c1 ∈ (mergedNode i p s).Children, Carries i pc c1)
  | .mk _ _ _ pch, s, hs => by
    obtain ⟨_, h2, h3⟩ := mergedChildren_values i pch [] s.Children hs
    simp only [mergedNode, MemSeriesTreeNode.Children, ProfileTreeNode.Children]
    exact ⟨h2, h3⟩
end
theorem append_exSeriesA : NewMemSeries.Append (exProfile 5000000 4) = some (exSeriesA, none) := rfl

theorem append_exSeriesAB : exSeriesA.Append (exProfile 6000000 6) = some (exSeriesAB, none) := rfl

theorem iterate_exSeriesAB :
    exSeriesAB.Iterator.map (fun it =>
      (it.Next.2, (iteratorFind [2, 1] it.Next.1.tree).map (fun n => n.FlatValues),
       it.Next.1.Next.2,
       (iteratorFind [2, 1] it.Next.1.Next.1.tree).map (fun n => n.FlatValues),
       it.Next.1.Next.1.Next.2))
      = some (true, some [⟨4⟩], true, some [⟨6⟩], false) := by
  rfl

theorem merged_roots_none (t : MemSeriesTree) (i : Nat) (pt : ProfileTree)
    (hpr : pt.Roots = none) :
    (t.merged i pt).Roots = some (t.Roots.getD (.mk 0 [] [] [])) := by
  cases hr : t.Roots <;> simp only [MemSeriesTree.merged, hpr, hr, Option.getD]

theorem merged_roots_some (t : MemSeriesTree) (i : Nat) (pt : ProfileTree)
    (proot : ProfileTreeNode) (hpr : pt.Roots = some proot) :
    (t.merged i pt).Roots = some (mergedNode i proot
      (.mk (t.Roots.getD (.mk 0 [] [] [])).LocationID
        (writeNodeValues i proot (t.Roots.getD (.mk 0 [] [] [])).FlatValues
          (t.Roots.getD (.mk 0 [] [] [])).CumulativeValues).1
        (writeNodeValues i proot (t.Roots.getD (.mk 0 [] [] [])).FlatValues
          (t.Roots.getD (.mk 0 [] [] [])).CumulativeValues).2
        (t.Roots.getD (.mk 0 [] [] [])).Children)) := by
  cases hr : t.Roots <;> simp only [MemSeriesTree.merged, hpr, hr, Option.getD]

/-- The root of the series tree, or the empty node that Insert allocates for a nil root,
is written below `i` when the tree is. -/
theorem below_rootOrNew (t : MemSeriesTree) (i : Nat) (hb : t.Below i) :
    (t.Roots.getD (.mk 0 [] [] [])).Below i := by
  cases hr : t.Roots with
  | none => simp [MemSeriesTreeNode.Below, slotBelow, allBelow]
  | some r => simpa [MemSeriesTree.Below, hr] using hb

/-- The values of the merged tree, the root included: every node of the profile tree has
its values at index `i` at the same path of the merged tree, and every node of the old tree
keeps its values at the other indices. -/
theorem merged_values_all (t : MemSeriesTree) (i : Nat) (pt : ProfileTree) (hb : t.Below i) :
    ∃ root1, (t.merged i pt).Roots = some root1 ∧
      (∀ proot, pt.Roots = some proot → ∀ path pn,
        ProfileTreeNode.reaches path proot pn →
        ∃ sn, MemSeriesTreeNode.reaches path root1 sn ∧
          sn.cumulativeAt i = slotValue pn.CumulativeValues ∧ sn.flatAt i = pn.FlatValue) ∧
      (∀ root, t.Roots = some root → ∀ path sn, MemSeriesTreeNode.reaches path root sn →
        ∃ sn1, MemSeriesTreeNode.reaches path root1 sn1 ∧
          ∀ k, k ≠ i → sn1.cumulativeAt k = sn.cumulativeAt k ∧ sn1.flatAt k = sn.flatAt k) := by
  have hbr := below_rootOrNew t i hb
  cases hpr : pt.Roots with
  | none =>
    refine ⟨_, merged_roots_none t i pt hpr, ?_, ?_⟩
    · intro proot h; simp at h
    · intro root hroot path sn hsn
      simp only [hroot, Option.getD]
      exact ⟨sn, hsn, fun _ _ => ⟨rfl, rfl⟩⟩
  | some proot =>
    refine ⟨_, merged_roots_some t i pt proot hpr, ?_, ?_⟩
    · intro proot1 h path pn hreach
      simp only [Option.some.injEq] at h
      subst h
      generalize t.Roots.getD (.mk 0 [] [] []) = r at hbr ⊢
      obtain ⟨hrf, hrc, hrch⟩ := below_parts hbr
      obtain ⟨_, hC⟩ := mergedNode_values i proot (.mk r.LocationID
        (writeNodeValues i proot r.FlatValues r.CumulativeValues).1
        (writeNodeValues i proot r.FlatValues r.CumulativeValues).2 r.Children)
        (by simpa [MemSeriesTreeNode.Children] using hrch)
      obtain ⟨w1, w2, _⟩ := writeNodeValues_at i proot r.FlatValues r.CumulativeValues hrf hrc
      rw [mergedNode_eq] at hC ⊢
      cases path with
      | nil =>
        simp only [ProfileTreeNode.reaches] at hreach
        subst hreach
        exact ⟨_, rfl, w1, w2⟩
      | cons x rest =>
        simp only [ProfileTreeNode.reaches] at hreach
        obtain ⟨pc, hpc, hx, hr⟩ := hreach
        obtain ⟨c1, hc1, hcar⟩ := hC pc hpc
        obtain ⟨sn, hsn, hv⟩ := hcar.2 rest pn hr
        exact ⟨sn, ⟨c1, hc1, hcar.1.trans hx, hsn⟩, hv⟩
    · intro root hroot path sn hsn
      simp only [hroot, Option.getD] at hbr ⊢
      obtain ⟨hrf, hrc, hrch⟩ := below_parts hbr
      obtain ⟨hK, _⟩ := mergedNode_values i proot (.mk root.LocationID
        (writeNodeValues i proot root.FlatValues root.CumulativeValues).1
        (writeNodeValues i proot root.FlatValues root.CumulativeValues).2 root.Children)
        (by simpa [MemSeriesTreeNode.Children] using hrch)
      obtain ⟨_, _, w3⟩ := writeNodeValues_at i proot root.FlatValues root.CumulativeValues
        hrf hrc
      rw [mergedNode_eq] at hK ⊢
      exact (keeps_mk i root _ _ _ w3 hK).2 path sn hsn

theorem merged_values (t : MemSeriesTree) (i : Nat) (pt : ProfileTree) (hb : t.Below i) :
    ∃ root1, (t.merged i pt).Roots = some root1 ∧
      (∀ proot, pt.Roots = some proot → ∀ path pn, path ≠ [] →
        ProfileTreeNode.reaches path proot pn →
        ∃ sn, MemSeriesTreeNode.reaches path root1 sn ∧
          sn.cumulativeAt i = slotValue pn.CumulativeValues ∧ sn.flatAt i = pn.FlatValue) ∧
      (∀ root, t.Roots = some root → ∀ path sn, MemSeriesTreeNode.reaches path root sn →
        ∃ sn1, MemSeriesTreeNode.reaches path root1 sn1 ∧
          ∀ k, k ≠ i → sn1.cumulativeAt k = sn.cumulativeAt k ∧ sn1.flatAt k = sn.flatAt k) := by
  obtain ⟨root1, h1, h2, h3⟩ := merged_values_all t i pt hb
  exact ⟨root1, h1, fun proot hp path pn _ hr => h2 proot hp path pn hr, h3⟩

/-- C13. On a series tree whose chunks have only been written at indices below i, every
run of MemSeriesTree.Insert(i, pt) that returns a nil error leaves a tree in which every
non-root node of pt has a series-tree node at the same path of location ids whose
cumulative value at index i is the value of the cumulative slot of the pt node and whose
flat value at index i is its flat value (0 without a flat slot), while every node of the
old tree has a node at the same path with the same values at every index below i (indeed
at every index but i).  Insert returns a nil error when every pt node has a cumulative
value and no chunk refuses its appender.  Appending profile A (leaf value 4)
and then profile B (same stack, leaf value 6) to a fresh series makes the iterator report
flat 4 and then flat 6 at the shared leaf. -/
theorem seriesTree_insert_writes_values_at_index (t : MemSeriesTree) (i : Nat)
    (pt : ProfileTree) (hb : t.Below i) :
    (∀ t1, t.Insert i pt = some (t1, none) →
      ∃ root1, t1.Roots = some root1 ∧
        (∀ proot, pt.Roots = some proot → ∀ path pn, path ≠ [] →
          ProfileTreeNode.reaches path proot pn →
          ∃ sn, MemSeriesTreeNode.reaches path root1 sn ∧
            sn.cumulativeAt i = slotValue pn.CumulativeValues ∧ sn.flatAt i = pn.FlatValue) ∧
        (∀ root, t.Roots = some root → ∀ path sn, MemSeriesTreeNode.reaches path root sn →
          ∃ sn1, MemSeriesTreeNode.reaches path root1 sn1 ∧
            ∀ k, k ≠ i → sn1.cumulativeAt k = sn.cumulativeAt k ∧
              sn1.flatAt k = sn.flatAt k)) ∧
    (pt.hasCum → t.Healthy → ∃ t1, t.Insert i pt = some (t1, none)) ∧
    (NewMemSeries.Append (exProfile 5000000 4) = some (exSeriesA, none) ∧
      exSeriesA.Append (exProfile 6000000 6) = some (exSeriesAB, none) ∧
      exSeriesAB.Iterator.map (fun it =>
        (it.Next.2, (iteratorFind [2, 1] it.Next.1.tree).map (fun n => n.FlatValues),
         it.Next.1.Next.2,
         (iteratorFind [2, 1] it.Next.1.Next.1.tree).map (fun n => n.FlatValues)))
        = some (true, some [⟨4⟩], true, some [⟨6⟩])) := by
  refine ⟨?_, ?_, append_exSeriesA, append_exSeriesAB, rfl⟩
  · intro t1 h
    rw [Insert_ok h]
    exact merged_values t i pt hb
  · intro hc hh
    exact ⟨_, Insert_healthy t i pt hc hh⟩

theorem seriesTree_insert_writes_values_at_index_witness :
    exSeriesTree.Below 1 ∧
    exSeriesTree.Insert 1 exTree = some (exSeriesTreeMerged, none) ∧
    ∃ root1, exSeriesTreeMerged.Roots = some root1 ∧
      (∀ proot, exTree.Roots = some proot → ∀ path pn, path ≠ [] →
        ProfileTreeNode.reaches path proot pn →
        ∃ sn, MemSeriesTreeNode.reaches path root1 sn ∧
          sn.cumulativeAt 1 = slotValue pn.CumulativeValues ∧ sn.flatAt 1 = pn.FlatValue) ∧
      (∀ root, exSeriesTree.Roots = some root → ∀ path sn,
        MemSeriesTreeNode.reaches path root sn →
        ∃ sn1, MemSeriesTreeNode.reaches path root1 sn1 ∧
          ∀ k, k ≠ 1 → sn1.cumulativeAt k = sn.cumulativeAt k ∧ sn1.flatAt k = sn.flatAt k) :=
  have hb : exSeriesTree.Below 1 := by
    simp [exSeriesTree, MemSeriesTree.Below, MemSeriesTreeNode.Below, allBelow, slotBelow]
  ⟨hb, rfl,
    (seriesTree_insert_writes_values_at_index exSeriesTree 1 exTree hb).1
      exSeriesTreeMerged rfl⟩

theorem allSumOK_iff (k : Nat) (ch : List MemSeriesTreeNode) :
    allSumOK k ch ↔ ∀ c ∈ ch, c.sumOK k := by
  induction ch with
  | nil => simp [allSumOK]
  | cons c cs ih => simp [allSumOK, ih]

theorem flatTotalListAt_append (k : Nat) (l1 l2 : List MemSeriesTreeNode) :
    flatTotalListAt k (l1 ++ l2) = flatTotalListAt k l1 + flatTotalListAt k l2 := by
  induction l1 with
  | nil => simp [flatTotalListAt]
  | cons c cs ih =>
    rw [List.cons_append]
    simp only [flatTotalListAt]
    rw [ih]; ring

mutual
theorem flatTotalAt_of_below (i : Nat) : ∀ s : MemSeriesTreeNode, s.Below i → s.flatTotalAt i = 0
  | .mk _ flat _ ch, h => by
    simp only [MemSeriesTreeNode.flatTotalAt, seriesSlotAt_of_below flat i h.1,
      flatTotalListAt_of_below i ch h.2.2, add_zero]
theorem flatTotalListAt_of_below (i : Nat) :
    ∀ ch : List MemSeriesTreeNode, allBelow i ch → flatTotalListAt i ch = 0
  | [], _ => rfl
  | c :: cs, h => by
    simp only [flatTotalListAt, flatTotalAt_of_below i c h.1,
      flatTotalListAt_of_below i cs h.2, add_zero]
end

theorem cumOK_parts {p : ProfileTreeNode} (h : p.cumOK) :
    slotValue p.CumulativeValues = wrapInt64 (p.FlatValue + flatTotalList p.Children) ∧
    cumOKList p.Children ∧ p.flatTotal = p.FlatValue + flatTotalList p.Children := by
  cases p with
  | mk id flat cum ch => exact ⟨h.2.1, h.2.2, rfl⟩

theorem sumOK_parts {k : Nat} {s : MemSeriesTreeNode} (h : s.sumOK k) :
    s.cumulativeAt k = wrapInt64 (s.flatAt k + flatTotalListAt k s.Children) ∧
    ∀ c ∈ s.Children, c.sumOK k := by
  cases s with
  | mk id flat cum ch => exact ⟨h.1, (allSumOK_iff k ch).mp h.2⟩

theorem flatTotalAt_eq (k : Nat) (s : MemSeriesTreeNode) :
    s.flatTotalAt k = s.flatAt k + flatTotalListAt k s.Children := by
  cases s with
  | mk id flat cum ch => rfl

theorem writeNodeValues_ne (i k : Nat) (p : ProfileTreeNode)
    (flat cum : List MemSeriesTreeValueNode) (hk : k ≠ i) :
    seriesSlotAt (writeNodeValues i p flat cum).2 k = seriesSlotAt cum k ∧
    seriesSlotAt (writeNodeValues i p flat cum).1 k = seriesSlotAt flat k := by
  refine ⟨seriesSlotAt_writeSlot_ne _ _ _ _ hk, ?_⟩
  simp only [writeNodeValues]
  cases hfv : p.FlatValues with
  | nil => rfl
  | cons f fs => exact seriesSlotAt_writeSlot_ne _ _ _ _ hk

/-- The merged node for the profile node `p`, built on the series node `s` (an old node or
a new one), has sound sums at index `k` and adds the flat total of `p` at the merge index. -/
theorem merged_node_sum (i k : Nat) (p : ProfileTreeNode) (s : MemSeriesTreeNode)
    (ch1 : List MemSeriesTreeNode) (hp : p.cumOK) (hs : s.sumOK k) (hb : k = i → s.Below i)
    (hT : flatTotalListAt k ch1 = flatTotalListAt k s.Children +
      (if k = i then flatTotalList p.Children else 0))
    (hch : ∀ c ∈ ch1, c.sumOK k) :
    (MemSeriesTreeNode.mk s.LocationID
        (writeNodeValues i p s.FlatValues s.CumulativeValues).1
        (writeNodeValues i p s.FlatValues s.CumulativeValues).2 ch1).sumOK k ∧
    (MemSeriesTreeNode.mk s.LocationID
        (writeNodeValues i p s.FlatValues s.CumulativeValues).1
        (writeNodeValues i p s.FlatValues s.CumulativeValues).2 ch1).flatTotalAt k
      = s.flatTotalAt k + (if k = i then p.flatTotal else 0) := by
  obtain ⟨hp1, _, hp3⟩ := cumOK_parts hp
  obtain ⟨hs1, _⟩ := sumOK_parts hs
  simp only [MemSeriesTreeNode.sumOK, MemSeriesTreeNode.flatTotalAt, (allSumOK_iff k ch1).mpr hch,
    and_true, hT, flatTotalAt_eq k s]
  by_cases hk : k = i
  · subst hk
    obtain ⟨hbf, hbc, hbch⟩ := below_parts (hb rfl)
    obtain ⟨w1, w2, _⟩ := writeNodeValues_at k p s.FlatValues s.CumulativeValues hbf hbc
    have hz : flatTotalListAt k s.Children = 0 :=
      flatTotalListAt_of_below k _ ((allBelow_iff k _).mpr hbch)
    have hz2 : s.flatAt k = 0 := seriesSlotAt_of_below _ _ hbf
    simp only [w1, w2, hz, hz2, if_true, zero_add, hp1, hp3, and_self]
  · obtain ⟨w1, w2⟩ := writeNodeValues_ne i k p s.FlatValues s.CumulativeValues hk
    simp only [w1, w2, hk, if_false, add_zero]
    exact ⟨hs1, rfl⟩
theorem sumOK_fresh (k id : Nat) : (MemSeriesTreeNode.mk id [] [] []).sumOK k := by
  simp only [MemSeriesTreeNode.sumOK, seriesSlotAt, flatTotalListAt, allSumOK, and_true]
  decide

theorem below_fresh (i id : Nat) : (MemSeriesTreeNode.mk id [] [] []).Below i := by
  simp [MemSeriesTreeNode.Below, slotBelow, allBelow]

theorem cumOK_head {p : ProfileTreeNode} {ps : List ProfileTreeNode} (h : cumOKList (p :: ps)) :
    p.cumOK ∧ cumOKList ps := h

mutual
theorem mergedChildren_sums (i k : Nat) :
    ∀ (ps : List ProfileTreeNode) (before rest : List MemSeriesTreeNode),
      cumOKList ps → (k = i → ∀ c ∈ rest, c.Below i) →
      (∀ c ∈ before, c.sumOK k) → (∀ c ∈ rest, c.sumOK k) →
      flatTotalListAt k (mergedChildren i ps before rest) =
        flatTotalListAt k before + flatTotalListAt k rest +
          (if k = i then flatTotalList ps else 0) ∧
      ∀ c ∈ mergedChildren i ps before rest, c.sumOK k
  | [], before, rest, _, _, hbs, hrs => by
    simp only [mergedChildren, flatTotalListAt_append, flatTotalList, ite_self, add_zero,
      true_and]
    intro c hc
    rcases List.mem_append.mp hc with hc | hc
    · exact hbs c hc
    · exact hrs c hc
  | p :: ps, before, rest, hps, hrb, hbs, hrs => by
    obtain ⟨hp, hps1⟩ := cumOK_head hps
    have hpch := (cumOK_parts hp).2.1
    have hsplit := List.takeWhile_append_dropWhile
      (fun s : MemSeriesTreeNode => decide (s.LocationID < p.LocationID)) rest
    unfold mergedChildren
    simp only
    generalize rest.takeWhile
      (fun s : MemSeriesTreeNode => decide (s.LocationID < p.LocationID)) = skipped
      at hsplit ⊢
    cases hd : rest.dropWhile (fun s => decide (s.LocationID < p.LocationID)) with
    | nil =>
      simp only
      rw [hd, List.append_nil] at hsplit
      subst hsplit
      obtain ⟨n1, n2⟩ := mergedNode_sums i k p (.mk p.LocationID (writeNodeValues i p [] []).1
        (writeNodeValues i p [] []).2 []) hpch (by simp [MemSeriesTreeNode.Children])
        (by simp [MemSeriesTreeNode.Children])
      rw [mergedNode_eq] at n1 n2
      obtain ⟨m1, m2⟩ := merged_node_sum i k p (.mk p.LocationID [] [] []) _ hp
        (sumOK_fresh k _) (fun _ => below_fresh i _) n1 n2
      obtain ⟨r1, r2⟩ := mergedChildren_sums i k ps
        (before ++ skipped ++ [mergedNode i p (.mk p.LocationID (writeNodeValues i p [] []).1
          (writeNodeValues i p [] []).2 [])]) [] hps1 (by simp)
        (by
          intro c hc
          simp only [List.mem_append, List.mem_singleton] at hc
          rcases hc with (hc | hc) | hc
          · exact hbs c hc
          · exact hrs c hc
          · subst hc; rw [mergedNode_eq]; exact m1)
        (by simp)
      refine ⟨?_, r2⟩
      rw [r1, flatTotalListAt_append, flatTotalListAt_append, mergedNode_eq]
      simp only [flatTotalListAt, add_zero, flatTotalList]
      have m2a := m2
      simp only [MemSeriesTreeNode.LocationID, MemSeriesTreeNode.FlatValues,
        MemSeriesTreeNode.CumulativeValues, MemSeriesTreeNode.Children] at m2a ⊢
      rw [m2a]
      simp only [MemSeriesTreeNode.flatTotalAt, seriesSlotAt, flatTotalListAt]
      by_cases hk : k = i
      · simp only [hk, if_true]; ring
      · simp only [hk, if_false]; ring
    | cons s rest1 =>
      simp only
      rw [hd] at hsplit
      subst hsplit
      have hsS : s.sumOK k := hrs s (by simp)
      have hsB : k = i → s.Below i := fun hk => hrb hk s (by simp)
      by_cases hid : p.LocationID = s.LocationID
      · simp only [hid, if_true]
        obtain ⟨n1, n2⟩ := mergedNode_sums i k p (.mk s.LocationID
            (writeNodeValues i p s.FlatValues s.CumulativeValues).1
            (writeNodeValues i p s.FlatValues s.CumulativeValues).2 s.Children) hpch
          (fun hk => by simpa [MemSeriesTreeNode.Children] using (below_parts (hsB hk)).2.2)
          (by simpa [MemSeriesTreeNode.Children] using (sumOK_parts hsS).2)
        rw [mergedNode_eq] at n1 n2
        obtain ⟨m1, m2⟩ := merged_node_sum i k p s _ hp hsS hsB n1 n2
        obtain ⟨r1, r2⟩ := mergedChildren_sums i k ps
          (before ++ skipped ++ [mergedNode i p (.mk s.LocationID
            (writeNodeValues i p s.FlatValues s.CumulativeValues).1
            (writeNodeValues i p s.FlatValues s.CumulativeValues).2 s.Children)]) rest1 hps1
          (fun hk c hc => hrb hk c (by simp [hc]))
          (by
            intro c hc
            simp only [List.mem_append, List.mem_singleton] at hc
            rcases hc with (hc | hc) | hc
            · exact hbs c hc
            · exact hrs c (by simp [hc])
            · subst hc; rw [mergedNode_eq]; exact m1)
          (fun c hc => hrs c (by simp [hc]))
        refine ⟨?_, r2⟩
        rw [r1, flatTotalListAt_append, flatTotalListAt_append, flatTotalListAt_append,
          mergedNode_eq]
        simp only [flatTotalListAt, add_zero, flatTotalList]
        have m2a := m2
        simp only [MemSeriesTreeNode.LocationID, MemSeriesTreeNode.FlatValues,
          MemSeriesTreeNode.CumulativeValues, MemSeriesTreeNode.Children] at m2a ⊢
        rw [m2a]
        by_cases hk : k = i
        · simp only [hk, if_true]; ring
        · simp only [hk, if_false]; ring
      · simp only [hid, if_false]
        obtain ⟨n1, n2⟩ := mergedNode_sums i k p (.mk p.LocationID (writeNodeValues i p [] []).1
          (writeNodeValues i p [] []).2 []) hpch (by simp [MemSeriesTreeNode.Children])
          (by simp [MemSeriesTreeNode.Children])
        rw [mergedNode_eq] at n1 n2
        obtain ⟨m1, m2⟩ := merged_node_sum i k p (.mk p.LocationID [] [] []) _ hp
          (sumOK_fresh k _) (fun _ => below_fresh i _) n1 n2
        obtain ⟨r1, r2⟩ := mergedChildren_sums i k ps
          (before ++ skipped ++ [mergedNode i p (.mk p.LocationID (writeNodeValues i p [] []).1
            (writeNodeValues i p [] []).2 [])]) (s :: rest1) hps1
          (fun hk c hc => hrb hk c (by
            rcases List.mem_cons.mp hc with hc | hc
            · simp [hc]
            · simp [hc]))
          (by
            intro c hc
            simp only [List.mem_append, List.mem_singleton] at hc
            rcases hc with (hc | hc) | hc
            · exact hbs c hc
            · exact hrs c (by simp [hc])
            · subst hc; rw [mergedNode_eq]; exact m1)
          (fun c hc => hrs c (by
            rcases List.mem_cons.mp hc with hc | hc
            · simp [hc]
            · simp [hc]))
        refine ⟨?_, r2⟩
        rw [r1, flatTotalListAt_append, flatTotalListAt_append, flatTotalListAt_append,
          mergedNode_eq]
        simp only [flatTotalListAt, add_zero, flatTotalList]
        have m2a := m2
        simp only [MemSeriesTreeNode.LocationID, MemSeriesTreeNode.FlatValues,
          MemSeriesTreeNode.CumulativeValues, MemSeriesTreeNode.Children] at m2a ⊢
        rw [m2a]
        simp only [MemSeriesTreeNode.flatTotalAt, seriesSlotAt, flatTotalListAt]
        by_cases hk : k = i
        · simp only [hk, if_true]; ring
        · simp only [hk, if_false]; ring
theorem mergedNode_sums (i k : Nat) :
    ∀ (p : ProfileTreeNode) (s : MemSeriesTreeNode), cumOKList p.Children →
      (k = i → ∀ c ∈ s.Children, c.Below i) → (∀ c ∈ s.Children, c.sumOK k) →
      flatTotalListAt k (mergedNode i p s).Children =
        flatTotalListAt k s.Children + (if k = i then flatTotalList p.Children else 0) ∧
      ∀ c ∈ (mergedNode i p s).Children, c.sumOK k
  | .mk _ _ _ pch, s, hp, hb, hs => by
    obtain ⟨h1, h2⟩ := mergedChildren_sums i k pch [] s.Children hp hb (by simp) hs
    rw [mergedNode_eq]
    refine ⟨?_, h2⟩
    show flatTotalListAt k (mergedChildren i pch [] s.Children) = _
    rw [h1]
    simp [flatTotalListAt, ProfileTreeNode.Children]
end
mutual
theorem below_mono {i j : Nat} (hij : i ≤ j) : ∀ s : MemSeriesTreeNode, s.Below i → s.Below j
  | .mk _ _ _ ch, h =>
    ⟨fun x hx e he => lt_of_lt_of_le (h.1 x hx e he) hij,
     fun x hx e he => lt_of_lt_of_le (h.2.1 x hx e he) hij, allBelow_mono hij ch h.2.2⟩
theorem allBelow_mono {i j : Nat} (hij : i ≤ j) :
    ∀ ch : List MemSeriesTreeNode, allBelow i ch → allBelow j ch
  | [], _ => trivial
  | c :: cs, h => ⟨below_mono hij c h.1, allBelow_mono hij cs h.2⟩
end

theorem AppendAt_broken (c : chunkenc.XORChunk) (i : Nat) (v : Int) :
    (c.AppendAt i v).broken = c.broken := by
  unfold chunkenc.XORChunk.AppendAt
  split
  · rfl
  · split
    · rfl
    · split <;> rfl

theorem AppendAt_entries (c : chunkenc.XORChunk) (i : Nat) (v : Int) :
    ∀ e ∈ (c.AppendAt i v).entries, e = (i, v) ∨ e ∈ c.entries := by
  intro e he
  unfold chunkenc.XORChunk.AppendAt at he
  split at he
  · left; simpa using he
  · rename_i j w rest hc
    split at he
    · right; exact he
    · split at he
      · simp only [List.mem_cons] at he
        rcases he with he | he
        · left; exact he
        · right; rw [hc]; exact List.mem_cons_of_mem _ he
      · simp only [List.mem_cons] at he
        rcases he with he | he | he
        · left; exact he
        · right; rw [hc, he]; exact List.mem_cons_self _ _
        · right; rw [hc]; exact List.mem_cons_of_mem _ he

theorem writeSlot_good (slot : List MemSeriesTreeValueNode) (i : Nat) (v : Int)
    (hh : ∀ x ∈ slot, x.Values.broken = false) (hb : slotBelow i slot) :
    (∀ x ∈ writeSlot slot i v, x.Values.broken = false) ∧ slotBelow (i + 1) (writeSlot slot i v) := by
  cases slot with
  | nil =>
    simp only [writeSlot, List.mem_singleton, forall_eq, slotBelow, AppendAt_broken]
    refine ⟨rfl, ?_⟩
    intro e he
    rcases AppendAt_entries _ _ _ e he with h | h
    · rw [h]; exact Nat.lt_succ_self i
    · simp [chunkenc.NewXORChunk] at h
  | cons x xs =>
    constructor
    · intro y hy
      simp only [writeSlot, List.mem_cons] at hy
      rcases hy with hy | hy
      · rw [hy]; simp only [AppendAt_broken]; exact hh x (List.mem_cons_self _ _)
      · exact hh y (List.mem_cons_of_mem _ hy)
    · intro y hy e he
      simp only [writeSlot, List.mem_cons] at hy
      rcases hy with hy | hy
      · rw [hy] at he
        rcases AppendAt_entries _ _ _ e he with h | h
        · rw [h]; exact Nat.lt_succ_self i
        · exact Nat.lt_succ_of_lt (hb x (List.mem_cons_self _ _) e h)
      · exact Nat.lt_succ_of_lt (hb y (List.mem_cons_of_mem _ hy) e he)

theorem slotBelow_succ {i : Nat} {slot : List MemSeriesTreeValueNode} (h : slotBelow i slot) :
    slotBelow (i + 1) slot := fun x hx e he => Nat.lt_succ_of_lt (h x hx e he)

/-- A node holding the values written by `writeNodeValues` over sound slots is sound. -/
theorem merged_node_good (i : Nat) (p : ProfileTreeNode) (id : Nat)
    (flat cum : List MemSeriesTreeValueNode) (ch1 : List MemSeriesTreeNode)
    (hf : ∀ x ∈ flat, x.Values.broken = false) (hc : ∀ x ∈ cum, x.Values.broken = false)
    (hbf : slotBelow i flat) (hbc : slotBelow i cum)
    (hch : ∀ c ∈ ch1, c.Healthy ∧ c.Below (i + 1)) :
    (MemSeriesTreeNode.mk id (writeNodeValues i p flat cum).1 (writeNodeValues i p flat cum).2
      ch1).Healthy ∧
    (MemSeriesTreeNode.mk id (writeNodeValues i p flat cum).1 (writeNodeValues i p flat cum).2
      ch1).Below (i + 1) := by
  have hcum := writeSlot_good cum i (slotValue p.CumulativeValues) hc hbc
  have hflat : (∀ x ∈ (writeNodeValues i p flat cum).1, x.Values.broken = false) ∧
      slotBelow (i + 1) (writeNodeValues i p flat cum).1 := by
    simp only [writeNodeValues]
    cases hfv : p.FlatValues with
    | nil => exact ⟨hf, slotBelow_succ hbf⟩
    | cons f fs => exact writeSlot_good flat i f.Value hf hbf
  exact ⟨⟨hflat.1, hcum.1, (allHealthy_iff ch1).mpr (fun c hc => (hch c hc).1)⟩,
    ⟨hflat.2, hcum.2, (allBelow_iff _ ch1).mpr (fun c hc => (hch c hc).2)⟩⟩

mutual
theorem mergedChildren_good (i : Nat) :
    ∀ (ps : List ProfileTreeNode) (before rest : List MemSeriesTreeNode),
      (∀ c ∈ before, c.Healthy ∧ c.Below (i + 1)) → (∀ c ∈ rest, c.Healthy ∧ c.Below i) →
      ∀ c ∈ mergedChildren i ps before rest, c.Healthy ∧ c.Below (i + 1)
  | [], before, rest, hb, hr => by
    simp only [mergedChildren]
    intro c hc
    rcases List.mem_append.mp hc with hc | hc
    · exact hb c hc
    · exact ⟨(hr c hc).1, below_mono (Nat.le_succ i) c (hr c hc).2⟩
  | p :: ps, before, rest, hb, hr => by
    have hsplit := List.takeWhile_append_dropWhile
      (fun s : MemSeriesTreeNode => decide (s.LocationID < p.LocationID)) rest
    have hup : ∀ c ∈ rest, c.Healthy ∧ c.Below (i + 1) := fun c hc =>
      ⟨(hr c hc).1, below_mono (Nat.le_succ i) c (hr c hc).2⟩
    unfold mergedChildren
    simp only
    generalize rest.takeWhile
      (fun s : MemSeriesTreeNode => decide (s.LocationID < p.LocationID)) = skipped
      at hsplit ⊢
    cases hd : rest.dropWhile (fun s => decide (s.LocationID < p.LocationID)) with
    | nil =>
      simp only
      rw [hd, List.append_nil] at hsplit
      subst hsplit
      have n := mergedNode_good i p (.mk p.LocationID (writeNodeValues i p [] []).1
        (writeNodeValues i p [] []).2 []) (by simp [MemSeriesTreeNode.Children])
      rw [mergedNode_eq] at n
      have m := merged_node_good i p p.LocationID [] [] _ (by simp) (by simp)
        (by simp [slotBelow]) (by simp [slotBelow]) n
      apply mergedChildren_good i ps _ [] _ (by simp)
      intro c hc
      simp only [List.mem_append, List.mem_singleton] at hc
      rcases hc with (hc | hc) | hc
      · exact hb c hc
      · exact hup c hc
      · subst hc; rw [mergedNode_eq]; exact m
    | cons s rest1 =>
      simp only
      rw [hd] at hsplit
      subst hsplit
      obtain ⟨hsH, hsB⟩ := hr s (by simp)
      obtain ⟨hsf, hsc, hsch⟩ := healthy_parts hsH
      obtain ⟨bsf, bsc, bsch⟩ := below_parts hsB
      by_cases hid : p.LocationID = s.LocationID
      · simp only [hid, if_true]
        have n := mergedNode_good i p (.mk s.LocationID
            (writeNodeValues i p s.FlatValues s.CumulativeValues).1
            (writeNodeValues i p s.FlatValues s.CumulativeValues).2 s.Children)
          (by
            intro c hc
            simp only [MemSeriesTreeNode.Children] at hc
            exact ⟨hsch c hc, bsch c hc⟩)
        rw [mergedNode_eq] at n
        have m := merged_node_good i p s.LocationID s.FlatValues s.CumulativeValues _
          hsf hsc bsf bsc n
        apply mergedChildren_good i ps _ rest1 _ (fun c hc => hr c (by simp [hc]))
        intro c hc
        simp only [List.mem_append, List.mem_singleton] at hc
        rcases hc with (hc | hc) | hc
        · exact hb c hc
        · exact hup c (by simp [hc])
        · subst hc; rw [mergedNode_eq]; exact m
      · simp only [hid, if_false]
        have n := mergedNode_good i p (.mk p.LocationID (writeNodeValues i p [] []).1
          (writeNodeValues i p [] []).2 []) (by simp [MemSeriesTreeNode.Children])
        rw [mergedNode_eq] at n
        have m := merged_node_good i p p.LocationID [] [] _ (by simp) (by simp)
          (by simp [slotBelow]) (by simp [slotBelow]) n
        apply mergedChildren_good i ps _ (s :: rest1) _ (fun c hc => hr c (by
          rcases List.mem_cons.mp hc with hc | hc
          · simp [hc]
          · simp [hc]))
        intro c hc
        simp only [List.mem_append, List.mem_singleton] at hc
        rcases hc with (hc | hc) | hc
        · exact hb c hc
        · exact hup c (by simp [hc])
        · subst hc; rw [mergedNode_eq]; exact m
theorem mergedNode_good (i : Nat) :
    ∀ (p : ProfileTreeNode) (s : MemSeriesTreeNode),
      (∀ c ∈ s.Children, c.Healthy ∧ c.Below i) →
      ∀ c ∈ (mergedNode i p s).Children, c.Healthy ∧ c.Below (i + 1)
  | .mk _ _ _ pch, s, hs => by
    have h := mergedChildren_good i pch [] s.Children (by simp) hs
    rw [mergedNode_eq]
    exact h
end
theorem Insert_hasCum {t t1 : ProfileTree} {sample : Sample} (ht : t.hasCum)
    (h : t.Insert sample = some t1) : t1.hasCum := by
  cases hids : locationIDs sample.Location with
  | none => simp [ProfileTree.Insert, hids] at h
  | some ids =>
    cases hv : sample.Value with
    | nil => simp [ProfileTree.Insert, hids, hv] at h
    | cons v vs =>
      obtain ⟨t2, h2, hc⟩ := Insert_total t sample ⟨by simp [hv], by simp [hids]⟩ ht
      rw [h] at h2
      simp only [Option.some.injEq] at h2
      rw [h2]; exact hc

theorem insertSamples_hasCum (samples : List Sample) :
    ∀ t t1 : ProfileTree, t.hasCum → insertSamples t samples = some t1 →
      t1.hasCum := by
  induction samples with
  | nil =>
    intro t t1 ht h
    simp only [insertSamples, Option.some.injEq] at h
    subst h
    exact ht
  | cons s rest ih =>
    intro t t1 ht h
    simp only [insertSamples] at h
    cases h1 : t.Insert s with
    | none => simp [h1] at h
    | some t2 =>
      simp only [h1] at h
      exact ih t2 t1 (Insert_hasCum ht h1) h

/-- The profile tree returned by `prepareSamplesForInsert` is built from the empty tree by
`ProfileTree.Insert` calls. -/
theorem prepare_tree {s s1 : MemSeries} {value : Profile} {tree : ProfileTree}
    (h : s.prepareSamplesForInsert value = some (s1, .ok tree)) :
    ∃ samples, insertSamples ⟨none⟩ samples = some tree := by
  unfold MemSeries.prepareSamplesForInsert at h
  split at h
  · simp at h
  · split at h
    · simp at h
    · simp at h
    · split at h
      · simp at h
      · rename_i pn2 t hb
        simp only [Option.some.injEq, Prod.mk.injEq, Except.ok.injEq] at h
        obtain ⟨_, h2⟩ := h
        subst h2
        unfold profileNormalizer.buildProfileTree at hb
        split at hb
        · simp at hb
        · split at hb
          · simp at hb
          · rename_i pt hins
            simp only [Option.some.injEq, Prod.mk.injEq] at hb
            rw [← hb.2]
            exact ⟨_, hins⟩

mutual
theorem flatTotalAt_eq_sum (k : Nat) : ∀ n : MemSeriesTreeNode,
    n.flatTotalAt k = (n.nodes.map (fun d => d.flatAt k)).sum
  | .mk id flat cum ch => by
    simp only [MemSeriesTreeNode.flatTotalAt, MemSeriesTreeNode.nodes, List.map_cons,
      List.sum_cons, flatTotalListAt_eq_sum k ch, MemSeriesTreeNode.flatAt,
      MemSeriesTreeNode.FlatValues]
theorem flatTotalListAt_eq_sum (k : Nat) : ∀ ch : List MemSeriesTreeNode,
    flatTotalListAt k ch = ((seriesNodesOfList ch).map (fun d => d.flatAt k)).sum
  | [] => by simp [flatTotalListAt, seriesNodesOfList]
  | c :: cs => by
    simp only [flatTotalListAt, seriesNodesOfList, List.map_append, List.sum_append,
      flatTotalAt_eq_sum k c, flatTotalListAt_eq_sum k cs]
end

theorem makeMappingKey_shift (d : Nat) (X : Mapping) :
    makeMappingKey (shiftMapping d X) = makeMappingKey X := by
  have hsize : wrapUint64 ((((X.Limit + d) % 2 ^ 64 : Nat) : Int) - (((X.Start + d) % 2 ^ 64 : Nat) : Int))
      = wrapUint64 ((X.Limit : Int) - (X.Start : Int)) := by
    unfold wrapUint64
    push_cast
    omega
  simp only [makeMappingKey, shiftMapping, hsize]

theorem offset_shift (d ms xs : Nat) :
    wrapInt64 (wrapInt64 (ms : Int) - wrapInt64 (((xs + d) % 2 ^ 64 : Nat) : Int)) =
      wrapInt64 (wrapInt64 (wrapInt64 (ms : Int) - wrapInt64 (xs : Int)) - (d : Int)) := by
  unfold wrapInt64
  push_cast
  norm_num
  omega

theorem offset_shift_new (d xs : Nat) :
    wrapInt64 (wrapInt64 (xs : Int) - wrapInt64 (((xs + d) % 2 ^ 64 : Nat) : Int)) =
      wrapInt64 ((0 : Int) - (d : Int)) := by
  unfold wrapInt64
  push_cast
  norm_num
  omega

theorem address_shift (d a : Nat) (off : Int) :
    wrapUint64 (wrapInt64 (((a + d) % 2 ^ 64 : Nat) : Int) + wrapInt64 (off - (d : Int))) =
      wrapUint64 (wrapInt64 (a : Int) + off) := by
  unfold wrapUint64 wrapInt64
  push_cast
  norm_num
  omega
theorem lookup_cons_self {κ ν : Type} [BEq κ] [LawfulBEq κ] (t : List (κ × ν)) (k : κ) (v : ν) :
    ((k, v) :: t).lookup k = some v := by
  simp [List.lookup]

theorem lookup_cons_ne {κ ν : Type} [BEq κ] [LawfulBEq κ] (t : List (κ × ν)) {k k1 : κ} (v : ν)
    (h : k1 ≠ k) : ((k, v) :: t).lookup k1 = t.lookup k1 := by
  have : (k1 == k) = false := by simpa using h
  rw [List.lookup_cons, this]

/-- The step of the simulation for `mapMapping`. -/
theorem sim_mapMapping {d : Nat} {e : Option Mapping} {F A B : profileNormalizer}
    (hsim : Sim d e F A B) (X : Mapping)
    (hX : ∀ M0, e = some M0 → M0.ID = X.ID → X = M0)
    (hle : TablesLe (A.mapMapping (some X)).1 F) :
    ∃ B1 mi1, B.mapMapping (some (shiftMapping d X)) = (B1, mi1) ∧
      InfoRel d (A.mapMapping (some X)).2 mi1 ∧ Sim d e F (A.mapMapping (some X)).1 B1 := by
  obtain ⟨s1, s2, s3, s4, s5, s6, s7, m1, m2⟩ := hsim
  have hid : (shiftMapping d X).ID = X.ID := rfl
  have hst : (shiftMapping d X).Start = (X.Start + d) % 2 ^ 64 := rfl
  cases hA : A.mappingsByID.lookup X.ID with
  | some mi =>
    have hAm : A.mapMapping (some X) = (A, mi) := by
      simp only [profileNormalizer.mapMapping, hA]
    rw [hAm]
    cases hB : B.mappingsByID.lookup X.ID with
    | some mi1 =>
      obtain ⟨mi0, h0, hrel⟩ := m1 _ _ hB
      rw [hA] at h0
      simp only [Option.some.injEq] at h0
      subst h0
      refine ⟨B, mi1, ?_, hrel, s1, s2, s3, s4, s5, s6, s7, m1, m2⟩
      simp only [profileNormalizer.mapMapping, hid, hB]
    | none =>
      obtain ⟨M0, m, he, hM0, hF, hmi⟩ := m2 _ _ hA hB
      have hXM : X = M0 := hX M0 he hM0
      subst hXM
      have hBk : B.mappings.lookup (makeMappingKey (shiftMapping d X)) = some m := by
        rw [makeMappingKey_shift, s2]; exact hF
      refine ⟨{ B with mappingsByID := (X.ID, ⟨some m, wrapInt64 (wrapInt64 (m.Start : Int) -
          wrapInt64 (((X.Start + d) % 2 ^ 64 : Nat) : Int))⟩) :: B.mappingsByID },
        ⟨some m, wrapInt64 (wrapInt64 (m.Start : Int) -
          wrapInt64 (((X.Start + d) % 2 ^ 64 : Nat) : Int))⟩, ?_, ?_,
        s1, s2, s3, s4, s5, s6, s7, ?_, ?_⟩
      · simp only [profileNormalizer.mapMapping, hid, hB, hBk, hst]
      · rw [hmi]
        exact ⟨rfl, offset_shift d m.Start X.Start⟩
      · intro id mi1 h1
        by_cases hi : id = X.ID
        · subst hi
          rw [lookup_cons_self] at h1
          simp only [Option.some.injEq] at h1
          refine ⟨mi, hA, ?_⟩
          rw [← h1, hmi]
          exact ⟨rfl, offset_shift d m.Start X.Start⟩
        · rw [lookup_cons_ne _ _ hi] at h1
          exact m1 id mi1 h1
      · intro id mi2 h1 h2
        by_cases hi : id = X.ID
        · subst hi
          rw [lookup_cons_self] at h2
          simp at h2
        · rw [lookup_cons_ne _ _ hi] at h2
          exact m2 id mi2 h1 h2
  | none =>
    have hB : B.mappingsByID.lookup X.ID = none := by
      cases hB : B.mappingsByID.lookup X.ID with
      | none => rfl
      | some mi1 =>
        obtain ⟨mi0, h0, _⟩ := m1 _ _ hB
        rw [hA] at h0
        simp at h0
    cases hk : A.mappings.lookup (makeMappingKey X) with
    | some m =>
      have hAm : A.mapMapping (some X) =
          ({ A with mappingsByID := (X.ID, ⟨some m, wrapInt64 (wrapInt64 (m.Start : Int) -
            wrapInt64 (X.Start : Int))⟩) :: A.mappingsByID },
           ⟨some m, wrapInt64 (wrapInt64 (m.Start : Int) - wrapInt64 (X.Start : Int))⟩) := by
        simp only [profileNormalizer.mapMapping, hA, hk]
      rw [hAm] at hle ⊢
      have hBk : B.mappings.lookup (makeMappingKey (shiftMapping d X)) = some m := by
        rw [makeMappingKey_shift, s2]; exact hle.1 _ _ hk
      refine ⟨{ B with mappingsByID := (X.ID, ⟨some m, wrapInt64 (wrapInt64 (m.Start : Int) -
          wrapInt64 (((X.Start + d) % 2 ^ 64 : Nat) : Int))⟩) :: B.mappingsByID },
        ⟨some m, wrapInt64 (wrapInt64 (m.Start : Int) -
          wrapInt64 (((X.Start + d) % 2 ^ 64 : Nat) : Int))⟩, ?_, ?_,
        s1, s2, s3, s4, s5, s6, s7, ?_, ?_⟩
      · simp only [profileNormalizer.mapMapping, hid, hB, hBk, hst]
      · exact ⟨rfl, offset_shift d m.Start X.Start⟩
      · intro id mi1 h1
        by_cases hi : id = X.ID
        · subst hi
          rw [lookup_cons_self] at h1 ⊢
          simp only [Option.some.injEq] at h1
          refine ⟨_, rfl, ?_⟩
          rw [← h1]
          exact ⟨rfl, offset_shift d m.Start X.Start⟩
        · rw [lookup_cons_ne _ _ hi] at h1 ⊢
          exact m1 id mi1 h1
      · intro id mi2 h1 h2
        by_cases hi : id = X.ID
        · subst hi
          rw [lookup_cons_self] at h2
          simp at h2
        · rw [lookup_cons_ne _ _ hi] at h1 h2
          exact m2 id mi2 h1 h2
    | none =>
      obtain ⟨mnew, hmnew⟩ : ∃ mnew : Mapping, mnew =
          { ID := A.p.Mapping.length + 1, Start := X.Start, Limit := X.Limit,
            Offset := X.Offset, File := X.File, BuildID := X.BuildID,
            HasFunctions := X.HasFunctions, HasFilenames := X.HasFilenames,
            HasLineNumbers := X.HasLineNumbers, HasInlineFrames := X.HasInlineFrames } :=
        ⟨_, rfl⟩
      have hAm : A.mapMapping (some X) =
          ({ A with
              p := { A.p with Mapping := A.p.Mapping ++ [mnew] }
              mappings := (makeMappingKey X, mnew) :: A.mappings
              mappingsByID := (X.ID, ⟨some mnew, 0⟩) :: A.mappingsByID },
           ⟨some mnew, 0⟩) := by
        rw [hmnew]
        simp only [profileNormalizer.mapMapping, hA, hk]
      have hms : mnew.Start = X.Start := by rw [hmnew]
      rw [hAm] at hle ⊢
      have hBk : B.mappings.lookup (makeMappingKey (shiftMapping d X)) = some mnew := by
        rw [makeMappingKey_shift, s2]
        exact hle.1 _ _ (lookup_cons_self _ _ _)
      refine ⟨{ B with mappingsByID := (X.ID, ⟨some mnew, wrapInt64 (wrapInt64
          (mnew.Start : Int) - wrapInt64 (((X.Start + d) % 2 ^ 64 : Nat) : Int))⟩) ::
          B.mappingsByID },
        ⟨some mnew, wrapInt64 (wrapInt64
          (mnew.Start : Int) - wrapInt64 (((X.Start + d) % 2 ^ 64 : Nat) : Int))⟩,
        ?_, ?_, s1, s2, s3, s4, s5, s6, s7, ?_, ?_⟩
      · simp only [profileNormalizer.mapMapping, hid, hB, hBk, hst]
      · refine ⟨rfl, ?_⟩
        rw [hms]
        exact offset_shift_new d X.Start
      · intro id mi1 h1
        by_cases hi : id = X.ID
        · subst hi
          rw [lookup_cons_self] at h1 ⊢
          simp only [Option.some.injEq] at h1
          refine ⟨_, rfl, ?_⟩
          rw [← h1, hms]
          exact ⟨rfl, offset_shift_new d X.Start⟩
        · rw [lookup_cons_ne _ _ hi] at h1 ⊢
          exact m1 id mi1 h1
      · intro id mi2 h1 h2
        by_cases hi : id = X.ID
        · subst hi
          rw [lookup_cons_self] at h2
          simp at h2
        · rw [lookup_cons_ne _ _ hi] at h1 h2
          exact m2 id mi2 h1 h2
/-- The step of the simulation for `mapFunction`. -/
theorem sim_mapFunction {d : Nat} {e : Option Mapping} {F A B : profileNormalizer}
    (hsim : Sim d e F A B) (src : Option Function)
    (hle : TablesLe (A.mapFunction src).1 F) :
    ∃ B1, B.mapFunction src = (B1, (A.mapFunction src).2) ∧
      Sim d e F (A.mapFunction src).1 B1 := by
  obtain ⟨s1, s2, s3, s4, s5, s6, s7, m1, m2⟩ := hsim
  cases src with
  | none => exact ⟨B, rfl, s1, s2, s3, s4, s5, s6, s7, m1, m2⟩
  | some f =>
    cases hA : A.functionsByID.lookup f.ID with
    | some g =>
      have hAm : A.mapFunction (some f) = (A, some g) := by
        simp only [profileNormalizer.mapFunction, hA]
      rw [hAm]
      refine ⟨B, ?_, s1, s2, s3, s4, s5, s6, s7, m1, m2⟩
      simp only [profileNormalizer.mapFunction, s7, hA]
    | none =>
      cases hk : A.functions.lookup (makeFunctionKey f) with
      | some g =>
        have hAm : A.mapFunction (some f) =
            ({ A with functionsByID := (f.ID, g) :: A.functionsByID }, some g) := by
          simp only [profileNormalizer.mapFunction, hA, hk]
        rw [hAm] at hle ⊢
        have hBk : B.functions.lookup (makeFunctionKey f) = some g := by
          rw [s3]; exact hle.2.1 _ _ hk
        refine ⟨{ B with functionsByID := (f.ID, g) :: B.functionsByID }, ?_,
          s1, s2, s3, s4, s5, s6, ?_, m1, m2⟩
        · simp only [profileNormalizer.mapFunction, s7, hA, hBk]
        · simp only [s7]
      | none =>
        obtain ⟨fnew, hfnew⟩ : ∃ fnew : Function, fnew =
            { ID := A.p.Function.length + 1, Name := f.Name, SystemName := f.SystemName,
              Filename := f.Filename, StartLine := f.StartLine } := ⟨_, rfl⟩
        have hAm : A.mapFunction (some f) =
            ({ A with
                functions := (makeFunctionKey f, fnew) :: A.functions
                functionsByID := (f.ID, fnew) :: A.functionsByID
                p := { A.p with Function := A.p.Function ++ [fnew] } }, some fnew) := by
          rw [hfnew]
          simp only [profileNormalizer.mapFunction, hA, hk]
        rw [hAm] at hle ⊢
        have hBk : B.functions.lookup (makeFunctionKey f) = some fnew := by
          rw [s3]; exact hle.2.1 _ _ (lookup_cons_self _ _ _)
        refine ⟨{ B with functionsByID := (f.ID, fnew) :: B.functionsByID }, ?_,
          s1, s2, s3, s4, s5, s6, ?_, m1, m2⟩
        · simp only [profileNormalizer.mapFunction, s7, hA, hBk]
        · simp only [s7]

/-- The step of the simulation for the lines of a location. -/
theorem sim_mapLines {d : Nat} {e : Option Mapping} {F : profileNormalizer}
    (ls : List profile.Line) : ∀ A B : profileNormalizer, Sim d e F A B →
      TablesLe (A.mapLines ls).1 F →
      ∃ B1, B.mapLines ls = (B1, (A.mapLines ls).2) ∧ Sim d e F (A.mapLines ls).1 B1 := by
  induction ls with
  | nil => intro A B hsim _; exact ⟨B, rfl, hsim⟩
  | cons ln rest ih =>
    intro A B hsim hle
    simp only [profileNormalizer.mapLines, profileNormalizer.mapLine] at hle ⊢
    have hle1 : TablesLe (A.mapFunction ln.Function).1 F :=
      tablesLe_trans (mapLines_tablesLe rest _) hle
    obtain ⟨B1, hB1, hsim1⟩ := sim_mapFunction hsim ln.Function hle1
    obtain ⟨B2, hB2, hsim2⟩ := ih _ B1 hsim1 hle
    refine ⟨B2, ?_, hsim2⟩
    rw [hB1]
    simp only
    rw [hB2]
theorem makeLocationKey_ID (l : Location) (n : Nat) :
    makeLocationKey { l with ID := n } = makeLocationKey l := rfl

/-- The step of the simulation for `mapLocation` on a location that has a mapping. -/
theorem sim_mapLocation {d : Nat} {e : Option Mapping} {F A B : profileNormalizer}
    (hsim : Sim d e F A B) (l : Location) (X : Mapping) (hlX : l.Mapping = some X)
    (hX : ∀ M0, e = some M0 → M0.ID = X.ID → X = M0)
    (hle : TablesLe (A.mapLocation (some l)).1 F) :
    ∃ B1, B.mapLocation (some (shiftLocation d l)) = (B1, (A.mapLocation (some l)).2) ∧
      Sim d e F (A.mapLocation (some l)).1 B1 := by
  have hs6 := hsim.2.2.2.2.2.1
  cases hA : A.locationsByID.lookup l.ID with
  | some x =>
    have hAm : A.mapLocation (some l) = (A, some x) := by
      simp only [profileNormalizer.mapLocation, hA]
    rw [hAm]
    refine ⟨B, ?_, hsim⟩
    simp only [profileNormalizer.mapLocation, shiftLocation, hs6, hA]
  | none =>
    have hle2 := mapLocation_tablesLe A (some l)
    -- the run on the original profile
    obtain ⟨A1, hA1⟩ : ∃ A1, A1 = (A.mapMapping (some X)).1 := ⟨_, rfl⟩
    obtain ⟨mi, hmi⟩ : ∃ mi, mi = (A.mapMapping (some X)).2 := ⟨_, rfl⟩
    obtain ⟨A2, hA2⟩ : ∃ A2, A2 = (A1.mapLines l.Line).1 := ⟨_, rfl⟩
    obtain ⟨lines, hlines⟩ : ∃ lines, lines = (A1.mapLines l.Line).2 := ⟨_, rfl⟩
    obtain ⟨lnew, hlnew⟩ : ∃ lnew : Location, lnew =
        { ID := A1.p.Location.length + 1, Mapping := mi.m,
          Address := wrapUint64 (wrapInt64 (l.Address : Int) + mi.offset),
          Line := lines, IsFolded := l.IsFolded } := ⟨_, rfl⟩
    have hAm : A.mapLocation (some l) =
        (match A2.locations.lookup (makeLocationKey lnew) with
        | some ll => ({ A2 with locationsByID := (l.ID, ll) :: A2.locationsByID }, some ll)
        | none =>
          ({ A2 with
              locationsByID := (l.ID, lnew) :: A2.locationsByID
              locations := (makeLocationKey lnew, lnew) :: A2.locations
              p := { A2.p with Location := A2.p.Location ++ [lnew] } }, some lnew)) := by
      rw [hlnew, hlines, hA2, hmi, hA1]
      simp only [profileNormalizer.mapLocation, hA, hlX]
      try rfl
    have hA12 : TablesLe A1 A2 := by rw [hA2]; exact mapLines_tablesLe l.Line A1
    -- the tables of the original run after this call hold those after the two inner calls
    have hA2F : TablesLe A2 F ∧ ∃ r, (A.mapLocation (some l)).2 = some r ∧
        F.locations.lookup (makeLocationKey lnew) = some r ∧
        (A.mapLocation (some l)).1.locationsByID = (l.ID, r) :: A2.locationsByID ∧
        (A.mapLocation (some l)).1.samples = A2.samples ∧
        (A.mapLocation (some l)).1.functionsByID = A2.functionsByID ∧
        (A.mapLocation (some l)).1.mappingsByID = A2.mappingsByID := by
      cases hk : A2.locations.lookup (makeLocationKey lnew) with
      | some ll =>
        have hres : A.mapLocation (some l) =
            ({ A2 with locationsByID := (l.ID, ll) :: A2.locationsByID }, some ll) := by
          rw [hAm, hk]
        rw [hres] at hle ⊢
        exact ⟨hle, ll, rfl, hle.2.2 _ _ hk, rfl, rfl, rfl, rfl⟩
      | none =>
        have hres : A.mapLocation (some l) =
            ({ A2 with
                locationsByID := (l.ID, lnew) :: A2.locationsByID
                locations := (makeLocationKey lnew, lnew) :: A2.locations
                p := { A2.p with Location := A2.p.Location ++ [lnew] } }, some lnew) := by
          rw [hAm, hk]
        rw [hres] at hle ⊢
        have hstep : TablesLe A2
            { A2 with
                locationsByID := (l.ID, lnew) :: A2.locationsByID
                locations := (makeLocationKey lnew, lnew) :: A2.locations
                p := { A2.p with Location := A2.p.Location ++ [lnew] } } :=
          ⟨tableLe_refl _, tableLe_refl _, tableLe_cons _ _ _ hk⟩
        exact ⟨tablesLe_trans hstep hle, lnew, rfl, hle.2.2 _ _ (lookup_cons_self _ _ _),
          rfl, rfl, rfl, rfl⟩
    obtain ⟨hle2F, r, hr, hFr, hc1, hc2, hc3, hc4⟩ := hA2F
    have hle1F : TablesLe A1 F := tablesLe_trans hA12 hle2F
    -- the run on the shifted profile
    obtain ⟨B1, mi1, hB1, hrel, hsim1⟩ := sim_mapMapping hsim X hX (by rw [← hA1]; exact hle1F)
    rw [← hA1] at hsim1
    rw [← hmi] at hrel
    obtain ⟨B2, hB2, hsim2⟩ := sim_mapLines l.Line A1 B1 hsim1 (by rw [← hA2]; exact hle2F)
    rw [← hA2] at hsim2
    rw [← hlines] at hB2
    obtain ⟨s1, s2, s3, s4, s5, s6, s7, m1, m2⟩ := hsim2
    have hkey : makeLocationKey
        { ID := B1.p.Location.length + 1, Mapping := mi1.m,
          Address := wrapUint64 (wrapInt64 (((l.Address + d) % 2 ^ 64 : Nat) : Int) + mi1.offset),
          Line := lines, IsFolded := l.IsFolded } = makeLocationKey lnew := by
      rw [hlnew, hrel.1, hrel.2, address_shift]
      rfl
    have hBk : B2.locations.lookup (makeLocationKey lnew) = some r := by rw [s4]; exact hFr
    refine ⟨{ B2 with locationsByID := (l.ID, r) :: B2.locationsByID }, ?_,
      s1, s2, s3, s4, ?_, ?_, ?_, ?_, ?_⟩
    · rw [hr]
      have hBc : B.locationsByID.lookup l.ID = none := by rw [hs6]; exact hA
      simp only [profileNormalizer.mapLocation, shiftLocation, hBc, hlX, Option.map_some', hB1,
        hB2, hkey, hBk]
    · rw [hc2]; exact s5
    · rw [hc1, s6]
    · rw [hc3]; exact s7
    · rw [hc4]; exact m1
    · rw [hc4]; exact m2
/-- The step of the simulation for the locations of a sample. -/
theorem sim_mapLocations {d : Nat} {e : Option Mapping} {F : profileNormalizer}
    (ls : List (Option Location)) : ∀ A B : profileNormalizer, Sim d e F A B →
      (∀ l ∈ ls, ∃ loc X, l = some loc ∧ loc.Mapping = some X ∧
        ∀ M0, e = some M0 → M0.ID = X.ID → X = M0) →
      TablesLe (A.mapLocations ls).1 F →
      ∃ B1, B.mapLocations (ls.map (Option.map (shiftLocation d))) = (B1, (A.mapLocations ls).2) ∧
        Sim d e F (A.mapLocations ls).1 B1 := by
  induction ls with
  | nil => intro A B hsim _ _; exact ⟨B, rfl, hsim⟩
  | cons l rest ih =>
    intro A B hsim hl hle
    obtain ⟨loc, X, hloc, hX1, hX2⟩ := hl l (List.mem_cons_self _ _)
    subst hloc
    simp only [profileNormalizer.mapLocations] at hle ⊢
    have hle1 : TablesLe (A.mapLocation (some loc)).1 F :=
      tablesLe_trans (mapLocations_tablesLe rest _) hle
    obtain ⟨B1, hB1, hsim1⟩ := sim_mapLocation hsim loc X hX1 hX2 hle1
    obtain ⟨B2, hB2, hsim2⟩ := ih _ B1 hsim1 (fun y hy => hl y (List.mem_cons_of_mem _ hy)) hle
    refine ⟨B2, ?_, hsim2⟩
    simp only [List.map_cons, Option.map_some', profileNormalizer.mapLocations, hB1, hB2]

/-- The step of the simulation for `mapSample`. -/
theorem sim_mapSample {d : Nat} {e : Option Mapping} {F A B A1 : profileNormalizer}
    (hsim : Sim d e F A B) (x : Sample) {k : stacktraceKey} {b : Bool}
    (hl : ∀ l ∈ x.Location, ∃ loc X, l = some loc ∧ loc.Mapping = some X ∧
      ∀ M0, e = some M0 → M0.ID = X.ID → X = M0)
    (h : A.mapSample x = some (A1, k, b)) (hle : TablesLe A1 F) :
    ∃ B1, B.mapSample (shiftSample d x) = some (B1, k, b) ∧ Sim d e F A1 B1 := by
  obtain ⟨t1, t2, t3⟩ := mapSample_tables h
  have hle0 : TablesLe (A.mapLocations x.Location).1 F := by
    unfold TablesLe at hle ⊢
    rw [← t1, ← t2, ← t3]; exact hle
  obtain ⟨B0, hB0, hsim0⟩ := sim_mapLocations x.Location A B hsim hl hle0
  obtain ⟨s1, s2, s3, s4, s5, s6, s7, m1, m2⟩ := hsim0
  simp only [profileNormalizer.mapSample] at h
  simp only [profileNormalizer.mapSample, shiftSample, hB0]
  cases hk : makeStacktraceKey
      { Location := (A.mapLocations x.Location).2, Value := [], Label := x.Label,
        NumLabel := x.NumLabel,
        NumUnit := x.NumLabel.map (fun kv => (kv.1, (x.NumUnit.lookup kv.1).getD [])) } with
  | none => simp [hk] at h
  | some k0 =>
    simp only [hk] at h ⊢
    rw [s5]
    cases hs : (A.mapLocations x.Location).1.samples.lookup k0 with
    | some sa =>
      simp only [hs] at h ⊢
      cases hsv : sa.Value with
      | nil => simp [hsv] at h
      | cons y ys =>
        cases hxv : x.Value with
        | nil => simp [hsv, hxv] at h
        | cons v vs =>
          simp only [hsv, hxv, Option.some.injEq, Prod.mk.injEq] at h ⊢
          obtain ⟨h1, h2, h3⟩ := h
          subst h1 h2 h3
          exact ⟨_, ⟨rfl, rfl, rfl⟩, s1, s2, s3, s4, by simp only [s5], s6, s7, m1, m2⟩
    | none =>
      simp only [hs] at h ⊢
      cases hxv : x.Value with
      | nil => simp [hxv] at h
      | cons v vs =>
        simp only [hxv, Option.some.injEq, Prod.mk.injEq] at h ⊢
        obtain ⟨h1, h2, h3⟩ := h
        subst h1 h2 h3
        exact ⟨_, ⟨rfl, rfl, rfl⟩, s1, s2, s3, s4, by simp only [s5], s6, s7, m1, m2⟩
theorem isZeroSample_shift (d : Nat) (x : Sample) :
    isZeroSample (shiftSample d x) = isZeroSample x := rfl

/-- The simulation for the loop over the samples of a profile. -/
theorem sim_mapSamples {d : Nat} {e : Option Mapping} {F : profileNormalizer}
    (samples : List Sample) :
    ∀ (A B Af : profileNormalizer) (keys keysf : List stacktraceKey), Sim d e F A B →
      (∀ x ∈ samples, isZeroSample x = false → ∀ l ∈ x.Location, ∃ loc X, l = some loc ∧
        loc.Mapping = some X ∧ ∀ M0, e = some M0 → M0.ID = X.ID → X = M0) →
      mapSamples A keys samples = some (Af, keysf) → TablesLe Af F →
      ∃ Bf, mapSamples B keys (samples.map (shiftSample d)) = some (Bf, keysf) ∧
        Sim d e F Af Bf := by
  induction samples with
  | nil =>
    intro A B Af keys keysf hsim _ h _
    simp only [mapSamples, Option.some.injEq, Prod.mk.injEq] at h
    obtain ⟨h1, h2⟩ := h
    subst h1 h2
    exact ⟨B, rfl, hsim⟩
  | cons x rest ih =>
    intro A B Af keys keysf hsim hl h hle
    have hrest := fun y hy => hl y (List.mem_cons_of_mem _ hy)
    cases hz : isZeroSample x with
    | true =>
      simp only [mapSamples, hz, Bool.not_true, Bool.false_eq_true, if_false] at h
      obtain ⟨Bf, hBf, hsimf⟩ := ih A B Af keys keysf hsim hrest h hle
      refine ⟨Bf, ?_, hsimf⟩
      simp only [List.map_cons, mapSamples, isZeroSample_shift, hz, Bool.not_true,
        Bool.false_eq_true, if_false]
      exact hBf
    | false =>
      simp only [mapSamples, hz, Bool.not_false, if_true] at h
      cases hm : A.mapSample x with
      | none => simp [hm] at h
      | some r =>
        obtain ⟨A1, k, isNew⟩ := r
        simp only [hm] at h
        have hA1 : TablesLe A1 F := by
          cases isNew with
          | true =>
            simp only [if_true] at h
            exact tablesLe_trans (mapSamples_tablesLe rest _ _ _ _ h) hle
          | false =>
            simp only [Bool.false_eq_true, if_false] at h
            exact tablesLe_trans (mapSamples_tablesLe rest _ _ _ _ h) hle
        obtain ⟨B1, hB1, hsim1⟩ := sim_mapSample hsim x
          (hl x (List.mem_cons_self _ _) hz) hm hA1
        cases isNew with
        | true =>
          simp only [if_true] at h
          obtain ⟨Bf, hBf, hsimf⟩ := ih A1 B1 Af _ keysf hsim1 hrest h hle
          refine ⟨Bf, ?_, hsimf⟩
          simp only [List.map_cons, mapSamples, isZeroSample_shift, hz, Bool.not_false, if_true,
            hB1]
          exact hBf
        | false =>
          simp only [Bool.false_eq_true, if_false] at h
          obtain ⟨Bf, hBf, hsimf⟩ := ih A1 B1 Af _ keysf hsim1 hrest h hle
          refine ⟨Bf, ?_, hsimf⟩
          simp only [List.map_cons, mapSamples, isZeroSample_shift, hz, Bool.not_false, if_true,
            hB1, Bool.false_eq_true, if_false]
          exact hBf
theorem wrapInt64_sub_self (a : Int) : wrapInt64 (wrapInt64 a - wrapInt64 a) = 0 := by
  rw [sub_self]; decide

theorem tableLe_ne_nil {κ ν : Type} [BEq κ] [LawfulBEq κ] {t1 t2 : List (κ × ν)}
    (h : TableLe t1 t2) (h1 : t1 ≠ []) : t2 ≠ [] := by
  obtain ⟨⟨k, v⟩, rest, hk⟩ := List.exists_cons_of_ne_nil h1
  have := h k v (by rw [hk]; exact lookup_cons_self _ _ _)
  intro h2
  rw [h2] at this
  simp at this

/-- The simulation holds when the loop over the samples starts: the run on the original
profile has at most memoized the first mapping of the profile. -/
theorem sim_start (d : Nat) (s0 : MemSeries) (P : Profile) (F : profileNormalizer)
    (hle : TablesLe (s0.normalizer.mapFirstMapping P) F) :
    Sim d P.Mapping.head? F (s0.normalizer.mapFirstMapping P)
      { p := F.p, locations := F.locations, functions := F.functions, mappings := F.mappings,
        samples := [], locationsByID := [], functionsByID := [], mappingsByID := [] } := by
  have hplain : ∀ e, Sim d e F s0.normalizer
      { p := F.p, locations := F.locations, functions := F.functions, mappings := F.mappings,
        samples := [], locationsByID := [], functionsByID := [], mappingsByID := [] } :=
    fun e => ⟨rfl, rfl, rfl, rfl, rfl, rfl, rfl, fun id mi1 h => by simp at h,
      fun id mi h => by simp [MemSeries.normalizer] at h⟩
  cases hm : s0.mappings with
  | cons kv rest =>
    have : s0.normalizer.mapFirstMapping P = s0.normalizer := by
      simp only [profileNormalizer.mapFirstMapping, MemSeries.normalizer, hm]
    rw [this]; exact hplain _
  | nil =>
    cases hP : P.Mapping with
    | nil =>
      have : s0.normalizer.mapFirstMapping P = s0.normalizer := by
        simp only [profileNormalizer.mapFirstMapping, MemSeries.normalizer, hm, hP]
      rw [this]; exact hplain _
    | cons M0 rest =>
      obtain ⟨mnew, hmnew⟩ : ∃ mnew : Mapping, mnew =
          { ID := (s0.p.getD emptyProfile).Mapping.length + 1, Start := M0.Start,
            Limit := M0.Limit, Offset := M0.Offset, File := M0.File, BuildID := M0.BuildID,
            HasFunctions := M0.HasFunctions, HasFilenames := M0.HasFilenames,
            HasLineNumbers := M0.HasLineNumbers, HasInlineFrames := M0.HasInlineFrames } :=
        ⟨_, rfl⟩
      have hA : s0.normalizer.mapFirstMapping P =
          { s0.normalizer with
            p := { s0.normalizer.p with Mapping := s0.normalizer.p.Mapping ++ [mnew] }
            mappings := [(makeMappingKey M0, mnew)]
            mappingsByID := [(M0.ID, ⟨some mnew, 0⟩)] } := by
        rw [hmnew]
        simp [profileNormalizer.mapFirstMapping, MemSeries.normalizer, hm, hP,
          profileNormalizer.mapMapping, List.lookup]
      rw [hA] at hle ⊢
      refine ⟨rfl, rfl, rfl, rfl, rfl, rfl, rfl, fun id mi1 h => by simp at h, ?_⟩
      intro id mi h _
      by_cases hi : id = M0.ID
      · subst hi
        rw [lookup_cons_self] at h
        simp only [Option.some.injEq] at h
        refine ⟨M0, mnew, rfl, rfl, hle.1 _ _ (lookup_cons_self _ _ _), ?_⟩
        rw [← h]
        have hs : mnew.Start = M0.Start := by rw [hmnew]
        rw [hs, wrapInt64_sub_self]
      · rw [lookup_cons_ne _ _ hi] at h
        simp at h
theorem derefSamples_congr {pn1 pn2 : profileNormalizer} (h : pn1.samples = pn2.samples)
    (keys : List stacktraceKey) : derefSamples pn1 keys = derefSamples pn2 keys := by
  simp only [derefSamples, h]

theorem mapFirstMapping_nonempty (s0 : MemSeries) (P : Profile) (h : P.Mapping ≠ []) :
    (s0.normalizer.mapFirstMapping P).mappings ≠ [] := by
  obtain ⟨M0, rest, hP⟩ := List.exists_cons_of_ne_nil h
  cases hm : s0.mappings with
  | cons kv tl =>
    have : s0.normalizer.mapFirstMapping P = s0.normalizer := by
      simp only [profileNormalizer.mapFirstMapping, MemSeries.normalizer, hm]
    rw [this]
    simp [MemSeries.normalizer, hm]
  | nil =>
    simp [profileNormalizer.mapFirstMapping, MemSeries.normalizer, hm, hP,
      profileNormalizer.mapMapping, List.lookup]

/-- C18 (amended). Let P be a profile in which every location of a sample that is not
skipped has a mapping, and no such mapping has the id of the first mapping of the profile
without being that mapping; let P' be P with the start and limit of every mapping and the
address of every location increased by d (64-bit wrap-around).  If normalizing P into a
series returns a profile tree, then normalizing P' into the series left behind interns
nothing new (the interned profile and the three tables stay exactly as P left them) and
returns the same profile tree (so every location of P' maps to the interned location of
the corresponding location of P). -/
theorem shifted_profile_interns_nothing_new (s s1 : MemSeries) (P : Profile) (d : Nat)
    (t : ProfileTree) (hprep : s.prepareSamplesForInsert P = some (s1, .ok t))
    (hmapped : ∀ x ∈ P.Sample, isZeroSample x = false → ∀ l ∈ x.Location,
      ∃ loc X, l = some loc ∧ loc.Mapping = some X ∧
        ∀ M0, P.Mapping.head? = some M0 → M0.ID = X.ID → X = M0) :
    s1.prepareSamplesForInsert (shiftProfile d P) = some (s1, .ok t) := by
  unfold MemSeries.prepareSamplesForInsert at hprep
  cases h0 : s.initFrom P with
  | none => simp [h0] at hprep
  | some s0 =>
    simp only [h0] at hprep
    cases hc : compatibleProfiles s0 P with
    | none => simp [hc] at hprep
    | some r =>
      cases r with
      | some err => simp [hc] at hprep
      | none =>
        simp only [hc] at hprep
        cases hb : (s0.normalizer.mapFirstMapping P).buildProfileTree P with
        | none => simp [hb] at hprep
        | some r2 =>
          obtain ⟨pn2, t2⟩ := r2
          simp only [hb, Option.some.injEq, Prod.mk.injEq, Except.ok.injEq] at hprep
          obtain ⟨hs1, ht2⟩ := hprep
          subst ht2
          -- the loop of the original run
          unfold profileNormalizer.buildProfileTree at hb
          cases hm : mapSamples (s0.normalizer.mapFirstMapping P) [] P.Sample with
          | none => simp [hm] at hb
          | some r3 =>
            obtain ⟨pnf, keys⟩ := r3
            simp only [hm] at hb
            cases hi : insertSamples ⟨none⟩ (sortSamples (derefSamples pnf keys)) with
            | none => simp [hi] at hb
            | some t3 =>
              simp only [hi, Option.some.injEq, Prod.mk.injEq] at hb
              obtain ⟨hpnf, ht3⟩ := hb
              subst hpnf ht3
              have hleA : TablesLe (s0.normalizer.mapFirstMapping P) pnf :=
                mapSamples_tablesLe _ _ _ _ _ hm
              -- the run on the shifted profile
              have hsim0 := sim_start d s0 P pnf hleA
              obtain ⟨Bf, hBf, hsimf⟩ := sim_mapSamples P.Sample _ _ pnf [] keys hsim0 hmapped hm
                (tablesLe_refl _)
              obtain ⟨f1, f2, f3, f4, f5, _⟩ := hsimf
              have hinit : s1.initFrom (shiftProfile d P) = some s1 := by
                rw [← hs1]; rfl
              have hcomp : compatibleProfiles s1 (shiftProfile d P) = some none := by
                rw [← hs1]; exact hc
              have hnorm : s1.normalizer =
                  { p := pnf.p, locations := pnf.locations, functions := pnf.functions,
                    mappings := pnf.mappings, samples := [], locationsByID := [],
                    functionsByID := [], mappingsByID := [] } := by
                rw [← hs1]; rfl
              have hfirst : s1.normalizer.mapFirstMapping (shiftProfile d P) = s1.normalizer := by
                rw [hnorm]
                cases hpm : pnf.mappings with
                | cons kv tl => simp only [profileNormalizer.mapFirstMapping, hpm]
                | nil =>
                  have hPm : P.Mapping = [] := by
                    by_contra hne
                    exact tableLe_ne_nil hleA.1 (mapFirstMapping_nonempty s0 P hne) hpm
                  simp only [profileNormalizer.mapFirstMapping, hpm, shiftProfile, hPm,
                    List.map_nil]
              have hbuild : (s1.normalizer).buildProfileTree (shiftProfile d P) =
                  some (Bf, t3) := by
                rw [hnorm]
                simp only [profileNormalizer.buildProfileTree, shiftProfile, hBf,
                  derefSamples_congr f5 keys, hi]
              have hsame : s1.withTables Bf = s1 := by
                rw [← hs1]
                simp only [MemSeries.withTables, f1, f2, f3, f4]
              simp only [MemSeries.prepareSamplesForInsert, hinit, hcomp, hfirst, hbuild, hsame]

theorem shifted_profile_interns_nothing_new_witness :
    ∃ s1 t, NewMemSeries.prepareSamplesForInsert exMappedProfile = some (s1, .ok t) ∧
      s1.p.map (fun p => (p.Mapping.length, p.Location.map (fun l => (l.ID, l.Address))))
        = some (1, [(1, 0x1020), (2, 0x1010)]) ∧
      s1.prepareSamplesForInsert (shiftProfile 0x5000 exMappedProfile) = some (s1, .ok t) := by
  have hmapped : ∀ x ∈ exMappedProfile.Sample, isZeroSample x = false → ∀ l ∈ x.Location,
      ∃ loc X, l = some loc ∧ loc.Mapping = some X ∧
        ∀ M0, exMappedProfile.Mapping.head? = some M0 → M0.ID = X.ID → X = M0 := by
    intro x hx _ l hl
    simp only [exMappedProfile, List.mem_singleton] at hx
    subst hx
    simp only [List.mem_cons, List.mem_singleton, List.not_mem_nil, or_false] at hl
    rcases hl with hl | hl
    · exact ⟨_, exMapping, hl, rfl, fun M0 h _ => Option.some.inj h⟩
    · exact ⟨_, exMapping, hl, rfl, fun M0 h _ => Option.some.inj h⟩
  exact ⟨_, _, rfl, rfl,
    shifted_profile_interns_nothing_new NewMemSeries _ exMappedProfile 0x5000 _ rfl hmapped⟩

/-- C18 (counterexample). The two locations of the profile `exProfile 5000000 5` have no
mapping.  After it is normalized into a fresh series (interned locations 1 and 2),
normalizing the same profile with every address increased by 1 interns two more locations,
with ids 3 and 4, and its profile tree has the nodes 4 and 3 where the first has 2 and 1. -/
theorem shifted_unmapped_locations_are_interned_anew :
    (NewMemSeries.prepareSamplesForInsert (exProfile 5000000 5)).map
        (fun r => r.1.p.map (fun p => p.Location.map (fun l => (l.ID, l.Address))))
      = some (some [(1, 32), (2, 16)]) ∧
    NewMemSeries.Append (exProfile 5000000 5) = some (exSeries1, none) ∧
    (exSeries1.prepareSamplesForInsert (shiftProfile 1 (exProfile 5000000 5))).map
        (fun r => r.1.p.map (fun p => p.Location.map (fun l => (l.ID, l.Address))))
      = some (some [(1, 32), (2, 16), (3, 33), (4, 17)]) ∧
    (exSeries1.prepareSamplesForInsert (shiftProfile 1 (exProfile 5000000 5))).map
        (fun r => match r.2 with
          | .ok t => t.Roots.map (fun root => root.nodes.map ProfileTreeNode.LocationID)
          | .error _ => none)
      = some (some [0, 4, 3]) ∧
    (exSeries1.prepareSamplesForInsert (exProfile 5000000 5)).map
        (fun r => match r.2 with
          | .ok t => t.Roots.map (fun root => root.nodes.map ProfileTreeNode.LocationID)
          | .error _ => none)
      = some (some [0, 2, 1]) := by
  refine ⟨by decide, append_exProfile, by decide, by decide, by decide⟩

/-- C21. `Iterator()` on a freshly created series panics: `NewMemSeries` leaves `Roots` of
the series tree nil and `Iterator` reads `s.seriesTree.Roots.CumulativeValues`.  The nil
root is the only obstacle: on the same series with a root node in its tree, `Iterator`
returns an iterator with countdown 0 whose first `Next` returns false and leaves it as it
was. -/
theorem iterator_on_fresh_series_panics :
    NewMemSeries.seriesTree = some ⟨none⟩ ∧
    NewMemSeries.Iterator = none ∧
    ∀ r : MemSeriesTreeNode, ∃ it, (exRootedSeries r).Iterator = some it ∧
      it.i = 0 ∧ it.series = exRootedSeries r ∧ it.Next = (it, false) := by
  refine ⟨rfl, rfl, ?_⟩
  intro r
  refine ⟨_, rfl, rfl, rfl, ?_⟩
  simp [MemSeriesIterator.Next, exRootedSeries, NewMemSeries]

theorem prepare_error {s s1 : MemSeries} {value : Profile} {e : Err}
    (h : s.prepareSamplesForInsert value = some (s1, .error e)) :
    e = .incompatiblePeriodTypes ∨ e = .incompatibleSampleTypes := by
  unfold MemSeries.prepareSamplesForInsert at h
  split at h
  · simp at h
  · rename_i s0 hs0
    split at h
    · simp at h
    · rename_i e0 hc
      simp only [Option.some.injEq, Prod.mk.injEq, Except.error.injEq] at h
      obtain ⟨_, he⟩ := h
      subst he
      unfold compatibleProfiles at hc
      split at hc
      · simp at hc
      · split at hc
        · simp at hc; exact Or.inl hc.symm
        · split at hc
          · simp at hc
          · split at hc
            · simp at hc; exact Or.inr hc.symm
            · simp at hc
    · split at h <;> simp at h

theorem chunk_AppendAt_error {c : chunk.Chunk} {i : Nat} {v : Int} {e : Err}
    (h : c.AppendAt i v = .error e) : e = .chunkOutOfOrder := by
  unfold chunk.Chunk.AppendAt at h
  split at h
  · simp at h
  · split at h
    · simp at h; exact h.symm
    · split at h <;> simp at h

theorem appendColumns_outOfOrder {s2 s' : MemSeries} {value : Profile}
    (h : s2.appendColumns value = (s', some .outOfOrderSample)) :
    timestampOf value ≤ s2.maxTime ∧
    s' = { s2 with timestamps := some (orNewFakeChunk s2.timestamps) } := by
  unfold MemSeries.appendColumns at h
  dsimp only at h
  split at h
  · rename_i hle
    simp only [Prod.mk.injEq, and_true] at h
    exact ⟨hle, h.symm⟩
  · split at h
    · rename_i e he
      simp only [Prod.mk.injEq, Option.some.injEq] at h
      rw [chunk_AppendAt_error he] at h
      simp at h
    · split at h
      · rename_i e he
        simp only [Prod.mk.injEq, Option.some.injEq] at h
        rw [chunk_AppendAt_error he] at h
        simp at h
      · split at h
        · rename_i e he
          simp only [Prod.mk.injEq, Option.some.injEq] at h
          rw [chunk_AppendAt_error he] at h
          simp at h
        · simp at h

theorem appendColumns_timestamps (s2 : MemSeries) (value : Profile) :
    (s2.appendColumns value).1.timestamps ≠ none := by
  unfold MemSeries.appendColumns
  dsimp only
  split
  · simp
  · split
    · simp
    · split
      · simp
      · split <;> simp

theorem Append_timestamps {s s1 : MemSeries} {value : Profile} {e : Option Err}
    (hs : s.timestamps ≠ none) (h : s.Append value = some (s1, e)) : s1.timestamps ≠ none := by
  unfold MemSeries.Append at h
  split at h
  · simp at h
  · rename_i s0 e0 hp
    simp only [Option.some.injEq, Prod.mk.injEq] at h
    obtain ⟨_, _, _, cts, _⟩ := prepare_sameColumns hp
    rw [← h.1, cts]; exact hs
  · rename_i s0 tree hp
    split at h
    · simp at h
    · rename_i s2 ha
      simp only [Option.some.injEq] at h
      have := appendColumns_timestamps s2 value
      rw [h] at this
      exact this

/-- The timestamp column of a series reached from a fresh series by `Append` calls is
never nil: `NewMemSeries` allocates it and no call resets it. -/
theorem appendAll_timestamps (ps : List Profile) :
    ∀ (s0 s : MemSeries) (es : List (Option Err)), s0.timestamps ≠ none →
      appendAll s0 ps = some (s, es) → s.timestamps ≠ none := by
  induction ps with
  | nil =>
    intro s0 s es h0 h
    simp only [appendAll, Option.some.injEq, Prod.mk.injEq] at h
    rw [← h.1]; exact h0
  | cons value rest ih =>
    intro s0 s es h0 h
    simp only [appendAll] at h
    cases ha : s0.Append value with
    | none => simp [ha] at h
    | some r =>
      obtain ⟨s1, e⟩ := r
      simp only [ha] at h
      cases hr : appendAll s1 rest with
      | none => simp [hr] at h
      | some q =>
        obtain ⟨s2, es2⟩ := q
        simp only [hr, Option.some.injEq, Prod.mk.injEq] at h
        rw [← h.1]
        exact ih s1 s2 es2 (Append_timestamps h0 ha) hr

/-- C22. For every series and every profile whose `Append` is rejected with
`ErrOutOfOrderSample`: the profile passed `prepareSamplesForInsert` (it is compatible) and
its millisecond timestamp is at most `maxTime`; the series tree is the one left by
`MemSeriesTree.Insert(i, tree)` for the profile's tree (the pure merge when every chunk
of the tree opens its appender); the sample index has gone through `s.i++` (plus one, as
a uint16: from 65535 to 0); `maxTime`, `minTime`, the duration column and the period column
are exactly as before the call, and so is the timestamp column of every series that was
made by `NewMemSeries` and `Append` calls, and of every series whose timestamp column is
not nil (the statement `if s.timestamps == nil` allocates a nil column before the
check). -/
theorem rejected_append_advances_tree_not_columns (s s' : MemSeries) (value : Profile)
    (h : s.Append value = some (s', some .outOfOrderSample)) :
    timestampOf value ≤ s.maxTime ∧
    (∃ s1 tree t e, s.prepareSamplesForInsert value = some (s1, .ok tree) ∧
      (orNewTree s.seriesTree).Insert s.i tree = some (t, e) ∧ s'.seriesTree = some t ∧
      ((orNewTree s.seriesTree).Healthy → t = (orNewTree s.seriesTree).merged s.i tree)) ∧
    s'.i = incUint16 s.i ∧ (s.i < 65535 → s'.i = s.i + 1) ∧
    s'.maxTime = s.maxTime ∧ s'.minTime = s.minTime ∧
    (∀ ps es, appendAll NewMemSeries ps = some (s, es) → s'.timestamps = s.timestamps) ∧
    s'.timestamps = some (orNewFakeChunk s.timestamps) ∧
    (s.timestamps ≠ none → s'.timestamps = s.timestamps) ∧
    s'.durations = s.durations ∧ s'.periods = s.periods := by
  have hkeep : s.timestamps ≠ none → some (orNewFakeChunk s.timestamps) = s.timestamps := by
    intro hne
    cases hts : s.timestamps with
    | none => exact absurd hts hne
    | some c => rfl
  unfold MemSeries.Append at h
  split at h
  · simp at h
  · rename_i s0 e0 hp
    simp only [Option.some.injEq, Prod.mk.injEq] at h
    rcases prepare_error hp with he | he <;> rw [he] at h <;> simp at h
  · rename_i s1 tree hp
    split at h
    · simp at h
    · rename_i s2 ha
      simp only [Option.some.injEq] at h
      obtain ⟨hle, hs'⟩ := appendColumns_outOfOrder h
      obtain ⟨ci, cmax, cmin, cts, cds, cps, ct⟩ := prepare_sameColumns hp
      obtain ⟨t1, e1, hins, hs2⟩ := append_some ha
      obtain ⟨samples, hsamples⟩ := prepare_tree hp
      have hhave : tree.hasCum :=
        insertSamples_hasCum samples ⟨none⟩ tree trivial hsamples
      rw [ct, ci] at hins
      subst hs2
      subst hs'
      have hinc : incUint16 s1.i = incUint16 s.i := by rw [ci]
      have hts : some (orNewFakeChunk s1.timestamps) = some (orNewFakeChunk s.timestamps) := by
        rw [cts]
      refine ⟨by simpa [cmax] using hle, ⟨s1, tree, t1, e1, hp, hins, rfl, ?_⟩, hinc, ?_,
        cmax, cmin, ?_, hts, ?_, cds, cps⟩
      · intro hH
        rw [Insert_healthy _ s.i tree hhave hH] at hins
        simp only [Option.some.injEq, Prod.mk.injEq] at hins
        exact hins.1.symm
      · intro hi
        show incUint16 s1.i = s.i + 1
        rw [ci]; unfold incUint16; omega
      · intro ps es hreach
        exact hts.trans (hkeep (appendAll_timestamps ps NewMemSeries s es (by simp [NewMemSeries])
          hreach))
      · intro hne
        exact hts.trans (hkeep hne)

theorem rejected_append_advances_tree_not_columns_witness :
    appendAll NewMemSeries [exProfile 5000000 5] = some (exSeries1, [none]) ∧
    exSeries1.Append (exProfile 5000000 7) = some (exSeriesRejected, some .outOfOrderSample) ∧
    (timestampOf (exProfile 5000000 7) ≤ exSeries1.maxTime ∧
    (∃ s1 tree t e, exSeries1.prepareSamplesForInsert (exProfile 5000000 7) = some (s1, .ok tree) ∧
      (orNewTree exSeries1.seriesTree).Insert exSeries1.i tree = some (t, e) ∧
      exSeriesRejected.seriesTree = some t ∧
      ((orNewTree exSeries1.seriesTree).Healthy →
        t = (orNewTree exSeries1.seriesTree).merged exSeries1.i tree)) ∧
    exSeriesRejected.i = incUint16 exSeries1.i ∧
    (exSeries1.i < 65535 → exSeriesRejected.i = exSeries1.i + 1) ∧
    exSeriesRejected.maxTime = exSeries1.maxTime ∧ exSeriesRejected.minTime = exSeries1.minTime ∧
    (∀ ps es, appendAll NewMemSeries ps = some (exSeries1, es) →
      exSeriesRejected.timestamps = exSeries1.timestamps) ∧
    exSeriesRejected.timestamps = some (orNewFakeChunk exSeries1.timestamps) ∧
    (exSeries1.timestamps ≠ none → exSeriesRejected.timestamps = exSeries1.timestamps) ∧
    exSeriesRejected.durations = exSeries1.durations ∧
    exSeriesRejected.periods = exSeries1.periods) :=
  ⟨rfl, rfl, rejected_append_advances_tree_not_columns exSeries1 exSeriesRejected
    (exProfile 5000000 7) rfl⟩

theorem upsertChild_append (f : ProfileTreeNode → ProfileTreeNode) (x : Nat) :
    ∀ (A B : List ProfileTreeNode), (∀ a ∈ A, a.LocationID < x) →
      upsertChild f x (A ++ B) = A ++ upsertChild f x B := by
  intro A
  induction A with
  | nil => intro B _; rfl
  | cons a rest ih =>
    intro B h
    have ha := h a (List.mem_cons_self _ _)
    simp only [List.cons_append, upsertChild, ha, if_true]
    exact congrArg (a :: ·) (ih B (fun b hb => h b (List.mem_cons_of_mem _ hb)))

theorem upsertChild_congr (f g : ProfileTreeNode → ProfileTreeNode) (x : Nat) :
    ∀ ch : List ProfileTreeNode, (∀ c ∈ ch, f c = g c) →
      f (.mk x [] [] []) = g (.mk x [] [] []) → upsertChild f x ch = upsertChild g x ch := by
  intro ch
  induction ch with
  | nil => intro _ h0; simp only [upsertChild, h0]
  | cons c cs ih =>
    intro h h0
    simp only [upsertChild, h0, h c (List.mem_cons_self _ _),
      ih (fun d hd => h d (List.mem_cons_of_mem _ hd)) h0]

/-- On children that ascend by location id the binary-search step of `ProfileTree.Insert`
is `upsertChild`. -/
theorem insertPath_cons_eq (v : Int) (x : Nat) (rest : List Nat) (id : Nat)
    (flat cum : List ProfileTreeValueNode) (ch : List ProfileTreeNode)
    (hpw : List.Pairwise (· < ·) (childIDs ch)) :
    ProfileTreeNode.insertPath v (x :: rest) (.mk id flat cum ch) =
      .mk id flat (addValue cum v) (upsertChild (ProfileTreeNode.insertPath v rest) x ch) := by
  have hfun : (fun k => decide (childID ch k ≥ x)) =
      (fun k => decide (((childIDs ch)[k]?).getD 0 ≥ x)) := by
    funext k
    rw [childID_eq]
  have hlen : ch.length = (childIDs ch).length := by simp [childIDs]
  obtain ⟨hA, hB⟩ := search_position (childIDs ch) x hpw
  simp only [ProfileTreeNode.insertPath, hfun, hlen]
  generalize sortSearch (childIDs ch).length
    (fun k => decide (((childIDs ch)[k]?).getD 0 ≥ x)) = r at hA hB ⊢
  have hA1 : ∀ a ∈ ch.take r, a.LocationID < x := by
    intro a ha
    apply hA
    simp only [childIDs, ← List.map_take]
    exact List.mem_map_of_mem _ ha
  have hB1 : ∀ b ∈ ch.drop r, x ≤ b.LocationID := by
    intro b hb
    apply hB
    simp only [childIDs, ← List.map_drop]
    exact List.mem_map_of_mem _ hb
  have hsplit : upsertChild (ProfileTreeNode.insertPath v rest) x ch =
      ch.take r ++ upsertChild (ProfileTreeNode.insertPath v rest) x (ch.drop r) := by
    conv_lhs => rw [← List.take_append_drop r ch]
    exact upsertChild_append _ x _ _ hA1
  rw [hsplit]
  split
  · rename_i child hfound
    have hget : ch[r]? = some child ∧ child.LocationID = x := by
      split at hfound
      · rename_i c0 hc0
        split at hfound
        · rename_i hid
          simp only [Option.some.injEq] at hfound; subst hfound; exact ⟨hc0, hid⟩
        · simp at hfound
      · simp at hfound
    obtain ⟨hr, hcr⟩ := List.getElem?_eq_some.mp hget.1
    have hdrop : ch.drop r = child :: ch.drop (r + 1) := by
      rw [List.drop_eq_getElem_cons hr, hcr]
    rw [hdrop]
    simp only [upsertChild, hget.2, Nat.lt_irrefl, if_false, if_true]
    rw [List.set_eq_take_append_cons_drop, if_pos hr]
  · rename_i hfound
    cases hc : ch[r]? with
    | none =>
      have hlen2 : ch.length ≤ r := by
        rcases Nat.lt_or_ge r ch.length with h | h
        · rw [List.getElem?_eq_getElem h] at hc; simp at hc
        · exact h
      simp only [List.drop_eq_nil_of_le hlen2, upsertChild]
    | some c =>
      obtain ⟨hr, hcr⟩ := List.getElem?_eq_some.mp hc
      have hdrop : ch.drop r = c :: ch.drop (r + 1) := by
        rw [List.drop_eq_getElem_cons hr, hcr]
      have hge : x ≤ c.LocationID := hB1 c (by rw [hdrop]; exact List.mem_cons_self _ _)
      have hx : c.LocationID ≠ x := by
        intro hx
        rw [hc] at hfound
        simp [hx] at hfound
      have hnlt : ¬ c.LocationID < x := by omega
      rw [hdrop]
      simp only [upsertChild, hx, hnlt, if_false]

theorem insertPath_eq_insertedPath (v : Int) : ∀ (ids : List Nat) (node : ProfileTreeNode),
    node.Sorted → node.insertPath v ids = node.insertedPath v ids := by
  intro ids
  induction ids with
  | nil =>
    intro node _
    cases node with
    | mk id flat cum ch => rfl
  | cons x rest ih =>
    intro node h
    cases node with
    | mk id flat cum ch =>
      obtain ⟨hpw, hall⟩ := h
      rw [allSorted_iff] at hall
      rw [insertPath_cons_eq v x rest id flat cum ch hpw]
      simp only [ProfileTreeNode.insertedPath]
      rw [upsertChild_congr (ProfileTreeNode.insertPath v rest)
        (ProfileTreeNode.insertedPath v rest) x ch (fun c hc => ih c (hall c hc))
        (ih _ ⟨List.Pairwise.nil, trivial⟩)]

theorem insertedPath_LocationID (v : Int) (ids : List Nat) (node : ProfileTreeNode) :
    (node.insertedPath v ids).LocationID = node.LocationID := by
  cases node with
  | mk id flat cum ch =>
    cases ids with
    | nil => rfl
    | cons x rest => rfl

theorem addValue_comm (l : List ProfileTreeValueNode) (v w : Int) :
    addValue (addValue l v) w = addValue (addValue l w) v := by
  cases l with
  | nil =>
    simp only [addValue, wrapInt64_add_left, List.cons.injEq, and_true,
      ProfileTreeValueNode.mk.injEq]
    rw [add_right_comm]
  | cons x rest =>
    simp only [addValue, wrapInt64_add_left, List.cons.injEq, and_true,
      ProfileTreeValueNode.mk.injEq]
    rw [add_right_comm]

theorem upsertChild_same (f g : ProfileTreeNode → ProfileTreeNode) (x : Nat)
    (hg : ∀ n, (g n).LocationID = n.LocationID) :
    ∀ ch : List ProfileTreeNode,
      upsertChild f x (upsertChild g x ch) = upsertChild (fun n => f (g n)) x ch := by
  intro ch
  have hid : ∀ z : Nat, (ProfileTreeNode.mk z [] [] []).LocationID = z := fun _ => rfl
  induction ch with
  | nil =>
    simp [upsertChild, hg, hid]
  | cons c cs ih =>
    by_cases h1 : c.LocationID < x
    · simp only [upsertChild, h1, if_true, ih]
    · by_cases h2 : c.LocationID = x
      · simp [upsertChild, h2, hg]
      · simp [upsertChild, h1, h2, hg, hid]

theorem upsertChild_comm (f g : ProfileTreeNode → ProfileTreeNode) (x y : Nat) (hxy : x ≠ y)
    (hf : ∀ n, (f n).LocationID = n.LocationID) (hg : ∀ n, (g n).LocationID = n.LocationID) :
    ∀ ch : List ProfileTreeNode,
      upsertChild f x (upsertChild g y ch) = upsertChild g y (upsertChild f x ch) := by
  intro ch
  have hid : ∀ z : Nat, (ProfileTreeNode.mk z [] [] []).LocationID = z := fun _ => rfl
  induction ch with
  | nil =>
    rcases Nat.lt_or_gt_of_ne hxy with h | h
    · have h1 : ¬ y < x := by omega
      have h2 : ¬ y = x := by omega
      simp [upsertChild, hf, hg, hid, h, h1, h2]
    · have h1 : ¬ x < y := by omega
      simp [upsertChild, hf, hg, hid, h, h1, hxy]
  | cons c cs ih =>
    by_cases p1 : c.LocationID < x <;> by_cases p2 : c.LocationID = x <;>
    by_cases p3 : c.LocationID < y <;> by_cases p4 : c.LocationID = y <;>
    by_cases p5 : x < y <;> by_cases p6 : y < x <;>
    first
    | (exfalso; omega)
    | (simp [upsertChild, hf, hg, hid, p1, p2, p3, p4, p5, p6, ih, hxy, Ne.symm hxy])

theorem insertedPath_comm (v w : Int) : ∀ (p q : List Nat) (node : ProfileTreeNode),
    (node.insertedPath w q).insertedPath v p = (node.insertedPath v p).insertedPath w q := by
  intro p
  induction p with
  | nil =>
    intro q node
    cases node with
    | mk id flat cum ch =>
      cases q with
      | nil =>
        simp only [ProfileTreeNode.insertedPath, addValue_comm flat w v, addValue_comm cum w v]
      | cons y r2 =>
        simp only [ProfileTreeNode.insertedPath, addValue_comm cum w v]
  | cons x r1 ih =>
    intro q node
    cases node with
    | mk id flat cum ch =>
      cases q with
      | nil =>
        simp only [ProfileTreeNode.insertedPath, addValue_comm cum w v]
      | cons y r2 =>
        simp only [ProfileTreeNode.insertedPath, addValue_comm cum w v]
        congr 1
        by_cases hxy : x = y
        · subst hxy
          rw [upsertChild_same _ _ x (insertedPath_LocationID w r2),
            upsertChild_same _ _ x (insertedPath_LocationID v r1)]
          congr 1
          funext n
          exact ih r2 n
        · exact upsertChild_comm _ _ x y hxy (insertedPath_LocationID v r1)
            (insertedPath_LocationID w r2) ch

theorem Insert_of_readable (t : ProfileTree) (sample : Sample) (ids : List Nat) (v : Int)
    (vs : List Int) (hl : locationIDs sample.Location = some ids) (hv : sample.Value = v :: vs) :
    t.Insert sample =
      some ⟨some ((t.Roots.getD (.mk 0 [] [] [])).insertPath v ids.reverse)⟩ := by
  simp only [ProfileTree.Insert, hl, hv]
  cases t.Roots <;> rfl

theorem Insert_of_not_readable (t : ProfileTree) (sample : Sample)
    (h : ¬ readableSample sample) : t.Insert sample = none := by
  unfold ProfileTree.Insert
  dsimp only
  split
  · rename_i ids v vs hl hv
    exfalso
    apply h
    exact ⟨by rw [hv]; simp, by rw [hl]; rfl⟩
  · rfl

theorem readableSample_iff (sample : Sample) :
    readableSample sample ↔
      ∃ ids v vs, locationIDs sample.Location = some ids ∧ sample.Value = v :: vs := by
  constructor
  · intro h
    obtain ⟨v, vs, hvs⟩ := List.exists_cons_of_ne_nil h.1
    obtain ⟨ids, hids⟩ := Option.isSome_iff_exists.mp h.2
    exact ⟨ids, v, vs, hids, hvs⟩
  · rintro ⟨ids, v, vs, hl, hv⟩
    exact ⟨by rw [hv]; simp, by rw [hl]; rfl⟩

theorem getD_root_sorted {t : ProfileTree} (ht : t.Sorted) :
    (t.Roots.getD (.mk 0 [] [] [])).Sorted := by
  cases hr : t.Roots with
  | none => exact ⟨List.Pairwise.nil, trivial⟩
  | some r => simpa [ProfileTree.Sorted, hr] using ht

theorem Insert_comm (t : ProfileTree) (a b : Sample) (ht : t.Sorted) :
    (t.Insert a).bind (fun t1 => t1.Insert b) = (t.Insert b).bind (fun t1 => t1.Insert a) := by
  by_cases ha : readableSample a
  · by_cases hb : readableSample b
    · obtain ⟨ia, va, vsa, hla, hva⟩ := (readableSample_iff a).mp ha
      obtain ⟨ib, vb, vsb, hlb, hvb⟩ := (readableSample_iff b).mp hb
      have hs := getD_root_sorted ht
      rw [Insert_of_readable t a ia va vsa hla hva, Insert_of_readable t b ib vb vsb hlb hvb]
      simp only [Option.some_bind]
      rw [Insert_of_readable _ b ib vb vsb hlb hvb, Insert_of_readable _ a ia va vsa hla hva]
      simp only [Option.getD_some]
      rw [insertPath_eq_insertedPath va _ _ hs, insertPath_eq_insertedPath vb _ _ hs]
      have hs1 := insertPath_sorted va ia.reverse _ hs
      have hs2 := insertPath_sorted vb ib.reverse _ hs
      rw [insertPath_eq_insertedPath va _ _ hs] at hs1
      rw [insertPath_eq_insertedPath vb _ _ hs] at hs2
      rw [insertPath_eq_insertedPath vb _ _ hs1, insertPath_eq_insertedPath va _ _ hs2,
        insertedPath_comm]
    · rw [Insert_of_not_readable t b hb]
      cases h : t.Insert a with
      | none => rfl
      | some t1 => simp only [Option.some_bind, Option.none_bind, Insert_of_not_readable t1 b hb]
  · rw [Insert_of_not_readable t a ha]
    cases h : t.Insert b with
    | none => rfl
    | some t1 => simp only [Option.some_bind, Option.none_bind, Insert_of_not_readable t1 a ha]

theorem insertSamples_cons (t : ProfileTree) (a : Sample) (l : List Sample) :
    insertSamples t (a :: l) = (t.Insert a).bind (fun t1 => insertSamples t1 l) := by
  simp only [insertSamples]
  cases t.Insert a <;> rfl

theorem insertSamples_perm {l1 l2 : List Sample} (h : l1.Perm l2) :
    ∀ t : ProfileTree, t.Sorted → insertSamples t l1 = insertSamples t l2 := by
  induction h with
  | nil => intro t _; rfl
  | cons x _ ih =>
    intro t ht
    rw [insertSamples_cons, insertSamples_cons]
    cases h : t.Insert x with
    | none => rfl
    | some t1 =>
      simp only [Option.some_bind]
      exact ih t1 (Insert_sorted ht h)
  | swap x y l =>
    intro t ht
    rw [insertSamples_cons, insertSamples_cons]
    have h1 : (t.Insert y).bind (fun t1 => insertSamples t1 (x :: l)) =
        ((t.Insert y).bind (fun t1 => t1.Insert x)).bind (fun t2 => insertSamples t2 l) := by
      cases t.Insert y with
      | none => rfl
      | some t1 => simp only [Option.some_bind, insertSamples_cons]
    have h2 : (t.Insert x).bind (fun t1 => insertSamples t1 (y :: l)) =
        ((t.Insert x).bind (fun t1 => t1.Insert y)).bind (fun t2 => insertSamples t2 l) := by
      cases t.Insert x with
      | none => rfl
      | some t1 => simp only [Option.some_bind, insertSamples_cons]
    rw [h1, h2, Insert_comm t y x ht]
  | trans _ _ ih1 ih2 =>
    intro t ht
    exact (ih1 t ht).trans (ih2 t ht)

/-- C25. Inserting a list of samples into an empty profile tree with `ProfileTree.Insert`
gives the same result in every order: for a permutation of the list the loop returns the
same tree (equal as values, so the same nodes, the same order of children and the same
flat and cumulative slots at every node), and it panics for the one order exactly when it
panics for the other.  When every sample has a first value and no nil location, the loop
returns a tree in both orders. -/
theorem profileTree_insert_order_irrelevant (l1 l2 : List Sample) (h : l1.Perm l2) :
    insertSamples ⟨none⟩ l1 = insertSamples ⟨none⟩ l2 ∧
    ((∀ s ∈ l1, readableSample s) →
      ∃ t, insertSamples ⟨none⟩ l1 = some t ∧ insertSamples ⟨none⟩ l2 = some t) := by
  have heq := insertSamples_perm h ⟨none⟩ trivial
  refine ⟨heq, ?_⟩
  intro hr
  obtain ⟨t, ht⟩ := insertSamples_readable l1 hr ⟨none⟩
  exact ⟨t, ht, heq ▸ ht⟩

theorem profileTree_insert_order_irrelevant_witness :
    exSamples.Perm exSamples.reverse ∧
    insertSamples ⟨none⟩ exSamples = insertSamples ⟨none⟩ exSamples.reverse ∧
    ((∀ s ∈ exSamples, readableSample s) →
      ∃ t, insertSamples ⟨none⟩ exSamples = some t ∧
        insertSamples ⟨none⟩ exSamples.reverse = some t) :=
  ⟨(List.reverse_perm exSamples).symm,
    profileTree_insert_order_irrelevant exSamples exSamples.reverse
      (List.reverse_perm exSamples).symm⟩

theorem find?_cons_id_ne (y : Nat) (c : ProfileTreeNode) (cs : List ProfileTreeNode)
    (h : c.LocationID ≠ y) :
    (c :: cs).find? (fun c => c.LocationID == y) = cs.find? (fun c => c.LocationID == y) :=
  List.find?_cons_of_neg cs (by simpa using h)

theorem find?_cons_id_eq (y : Nat) (c : ProfileTreeNode) (cs : List ProfileTreeNode)
    (h : c.LocationID = y) :
    (c :: cs).find? (fun c => c.LocationID == y) = some c :=
  List.find?_cons_of_pos cs (by simpa using h)

theorem upsertChild_lt (f : ProfileTreeNode → ProfileTreeNode) (x : Nat) (c : ProfileTreeNode)
    (cs : List ProfileTreeNode) (h : c.LocationID < x) :
    upsertChild f x (c :: cs) = c :: upsertChild f x cs := by
  simp only [upsertChild, h, if_true]

theorem upsertChild_eq (f : ProfileTreeNode → ProfileTreeNode) (x : Nat) (c : ProfileTreeNode)
    (cs : List ProfileTreeNode) (h : c.LocationID = x) :
    upsertChild f x (c :: cs) = f c :: cs := by
  simp only [upsertChild, h, Nat.lt_irrefl, if_false, if_true]

theorem upsertChild_gt (f : ProfileTreeNode → ProfileTreeNode) (x : Nat) (c : ProfileTreeNode)
    (cs : List ProfileTreeNode) (h : x < c.LocationID) :
    upsertChild f x (c :: cs) = f (.mk x [] [] []) :: c :: cs := by
  have h1 : ¬ c.LocationID < x := by omega
  have h2 : ¬ c.LocationID = x := by omega
  simp only [upsertChild, h1, h2, if_false]

theorem find?_upsertChild_ne (f : ProfileTreeNode → ProfileTreeNode) (x y : Nat) (hxy : y ≠ x)
    (hf : ∀ n, (f n).LocationID = n.LocationID) :
    ∀ ch : List ProfileTreeNode,
      (upsertChild f x ch).find? (fun c => c.LocationID == y) =
        ch.find? (fun c => c.LocationID == y) := by
  intro ch
  have hfresh : (f (.mk x [] [] [])).LocationID ≠ y := by
    rw [hf]; exact fun h => hxy h.symm
  induction ch with
  | nil =>
    simp only [upsertChild]
    rw [find?_cons_id_ne y _ _ hfresh]
  | cons c cs ih =>
    rcases Nat.lt_trichotomy c.LocationID x with h1 | h2 | h3
    · rw [upsertChild_lt f x c cs h1]
      by_cases hcy : c.LocationID = y
      · rw [find?_cons_id_eq y _ _ hcy, find?_cons_id_eq y _ _ hcy]
      · rw [find?_cons_id_ne y _ _ hcy, find?_cons_id_ne y _ _ hcy, ih]
    · have hc : c.LocationID ≠ y := by rw [h2]; exact fun h => hxy h.symm
      have hfc : (f c).LocationID ≠ y := by rw [hf]; exact hc
      rw [upsertChild_eq f x c cs h2, find?_cons_id_ne y _ _ hfc, find?_cons_id_ne y _ _ hc]
    · rw [upsertChild_gt f x c cs h3, find?_cons_id_ne y _ _ hfresh]

theorem find?_upsertChild_self (f : ProfileTreeNode → ProfileTreeNode) (x : Nat)
    (hf : ∀ n, (f n).LocationID = n.LocationID) :
    ∀ ch : List ProfileTreeNode, List.Pairwise (· < ·) (childIDs ch) →
      (upsertChild f x ch).find? (fun c => c.LocationID == x) =
        some (f ((ch.find? (fun c => c.LocationID == x)).getD (.mk x [] [] []))) := by
  intro ch
  have hfresh : (f (.mk x [] [] [])).LocationID = x := by rw [hf]; rfl
  induction ch with
  | nil =>
    intro _
    simp only [upsertChild]
    rw [find?_cons_id_eq x _ _ hfresh]
    rfl
  | cons c cs ih =>
    intro hpw
    simp only [childIDs, List.map_cons, List.pairwise_cons] at hpw
    obtain ⟨hlt, hrest⟩ := hpw
    rcases Nat.lt_trichotomy c.LocationID x with h1 | h2 | h3
    · have h2 : c.LocationID ≠ x := by omega
      rw [upsertChild_lt f x c cs h1, find?_cons_id_ne x _ _ h2, find?_cons_id_ne x _ _ h2]
      exact ih hrest
    · have hfc : (f c).LocationID = x := by rw [hf]; exact h2
      rw [upsertChild_eq f x c cs h2, find?_cons_id_eq x _ _ hfc, find?_cons_id_eq x _ _ h2]
      rfl
    · have h2 : c.LocationID ≠ x := by omega
      have hnone : cs.find? (fun c => c.LocationID == x) = none := by
        rw [List.find?_eq_none]
        intro d hd
        have := hlt d.LocationID (List.mem_map_of_mem _ hd)
        simp only [beq_iff_eq]
        omega
      rw [upsertChild_gt f x c cs h3, find?_cons_id_eq x _ _ hfresh,
        find?_cons_id_ne x _ _ h2, hnone]
      rfl

theorem slotsAt_fresh (x : Nat) (q : List Nat) :
    (ProfileTreeNode.mk x [] [] []).slotsAt q = ([], []) := by
  cases q with
  | nil => rfl
  | cons y r => rfl

theorem find_fresh_cons (x y : Nat) (q : List Nat) :
    (ProfileTreeNode.mk x [] [] []).find (y :: q) = none := rfl

theorem slotsAt_insertedPath (v : Int) : ∀ (path q : List Nat) (node : ProfileTreeNode),
    node.Sorted →
    (node.insertedPath v path).slotsAt q =
      ((if q = path then addValue (node.slotsAt q).1 v else (node.slotsAt q).1),
       (if q <+: path then addValue (node.slotsAt q).2 v else (node.slotsAt q).2)) := by
  intro path
  induction path with
  | nil =>
    intro q node _
    cases node with
    | mk id flat cum ch =>
      cases q with
      | nil => simp [ProfileTreeNode.insertedPath, ProfileTreeNode.slotsAt, ProfileTreeNode.find,
          ProfileTreeNode.FlatValues, ProfileTreeNode.CumulativeValues]
      | cons x q1 =>
        simp [ProfileTreeNode.insertedPath, ProfileTreeNode.slotsAt, ProfileTreeNode.find,
          ProfileTreeNode.Children]
  | cons y rest ih =>
    intro q node hs
    cases node with
    | mk id flat cum ch =>
      obtain ⟨hpw, hall⟩ := hs
      rw [allSorted_iff] at hall
      cases q with
      | nil => simp [ProfileTreeNode.insertedPath, ProfileTreeNode.slotsAt, ProfileTreeNode.find,
          ProfileTreeNode.FlatValues, ProfileTreeNode.CumulativeValues]
      | cons x q1 =>
        by_cases hxy : x = y
        · subst hxy
          have hfind := find?_upsertChild_self (ProfileTreeNode.insertedPath v rest) x
            (insertedPath_LocationID v rest) ch hpw
          have hnew : (ProfileTreeNode.insertedPath v (x :: rest) (.mk id flat cum ch)).slotsAt
              (x :: q1) =
              (ProfileTreeNode.insertedPath v rest
                ((ch.find? (fun c => c.LocationID == x)).getD (.mk x [] [] []))).slotsAt q1 := by
            simp only [ProfileTreeNode.insertedPath, ProfileTreeNode.slotsAt,
              ProfileTreeNode.find, ProfileTreeNode.Children, hfind]
          have hold : (ProfileTreeNode.mk id flat cum ch).slotsAt (x :: q1) =
              ((ch.find? (fun c => c.LocationID == x)).getD (.mk x [] [] [])).slotsAt q1 := by
            cases hc : ch.find? (fun c => c.LocationID == x) with
            | none =>
              simp only [ProfileTreeNode.slotsAt, ProfileTreeNode.find, ProfileTreeNode.Children,
                hc, Option.getD_none]
              have := slotsAt_fresh x q1
              simp only [ProfileTreeNode.slotsAt] at this
              exact this.symm
            | some c =>
              simp only [ProfileTreeNode.slotsAt, ProfileTreeNode.find, ProfileTreeNode.Children,
                hc, Option.getD_some]
          have hsorted : ((ch.find? (fun c => c.LocationID == x)).getD (.mk x [] [] [])).Sorted := by
            cases hc : ch.find? (fun c => c.LocationID == x) with
            | none => exact ⟨List.Pairwise.nil, trivial⟩
            | some c => exact hall c (List.mem_of_find?_eq_some hc)
          rw [hnew, hold, ih q1 _ hsorted]
          simp only [List.cons.injEq, true_and, List.cons_prefix_cons]
        · have hfind := find?_upsertChild_ne (ProfileTreeNode.insertedPath v rest) y x hxy
            (insertedPath_LocationID v rest) ch
          have hne : ¬ (x :: q1 = y :: rest) := by
            intro h; exact hxy (List.cons.inj h).1
          have hnp : ¬ (x :: q1 <+: y :: rest) := by
            intro h; exact hxy (List.cons_prefix_cons.mp h).1
          simp only [hne, hnp, if_false]
          simp only [ProfileTreeNode.insertedPath, ProfileTreeNode.slotsAt,
            ProfileTreeNode.find, ProfileTreeNode.Children, hfind]

theorem find_insertedPath_isSome (v : Int) : ∀ (path q : List Nat) (node : ProfileTreeNode),
    node.Sorted →
    ((node.insertedPath v path).find q).isSome =
      ((node.find q).isSome || decide (q <+: path)) := by
  intro path
  induction path with
  | nil =>
    intro q node _
    cases node with
    | mk id flat cum ch =>
      cases q with
      | nil => simp [ProfileTreeNode.insertedPath, ProfileTreeNode.find]
      | cons x q1 =>
        simp [ProfileTreeNode.insertedPath, ProfileTreeNode.find, ProfileTreeNode.Children]
  | cons y rest ih =>
    intro q node hs
    cases node with
    | mk id flat cum ch =>
      obtain ⟨hpw, hall⟩ := hs
      rw [allSorted_iff] at hall
      cases q with
      | nil => simp [ProfileTreeNode.insertedPath, ProfileTreeNode.find]
      | cons x q1 =>
        by_cases hxy : x = y
        · subst hxy
          have hfind := find?_upsertChild_self (ProfileTreeNode.insertedPath v rest) x
            (insertedPath_LocationID v rest) ch hpw
          simp only [ProfileTreeNode.insertedPath, ProfileTreeNode.find,
            ProfileTreeNode.Children, hfind, List.cons_prefix_cons, true_and]
          cases hc : ch.find? (fun c => c.LocationID == x) with
          | none =>
            simp only [Option.getD_none]
            rw [ih q1 (.mk x [] [] [])
              (show (ProfileTreeNode.mk x [] [] []).Sorted from ⟨List.Pairwise.nil, trivial⟩)]
            cases q1 with
            | nil => simp [ProfileTreeNode.find]
            | cons z q2 => simp [ProfileTreeNode.find, ProfileTreeNode.Children]
          | some c =>
            simp only [Option.getD_some]
            exact ih q1 c (hall c (List.mem_of_find?_eq_some hc))
        · have hfind := find?_upsertChild_ne (ProfileTreeNode.insertedPath v rest) y x hxy
            (insertedPath_LocationID v rest) ch
          have hnp : ¬ (x :: q1 <+: y :: rest) := by
            intro h; exact hxy (List.cons_prefix_cons.mp h).1
          simp only [ProfileTreeNode.insertedPath, ProfileTreeNode.find,
            ProfileTreeNode.Children, hfind, hnp, decide_False, Bool.or_false]
theorem cumFold_eq (l : List ProfileTreeValueNode) :
    l.foldl (fun res cv => wrapInt64 (res + cv.Value)) 0 =
      wrapInt64 (l.map (fun cv => cv.Value)).sum := by
  rw [← int64Sum_eq, int64Sum, List.foldl_map]

theorem cumFold_addValue (l : List ProfileTreeValueNode) (v : Int) :
    (addValue l v).foldl (fun res cv => wrapInt64 (res + cv.Value)) 0 =
      wrapInt64 (l.foldl (fun res cv => wrapInt64 (res + cv.Value)) 0 + v) := by
  rw [cumFold_eq, cumFold_eq, wrapInt64_add_left]
  cases l with
  | nil => simp [addValue, wrapInt64_idem]
  | cons x rest =>
    simp only [addValue, List.map_cons, List.sum_cons]
    rw [wrapInt64_add_left]
    congr 1
    ring

theorem cumulativeAt_eq (t : ProfileTree) (q : List Nat) :
    t.cumulativeAt q =
      ((t.Roots.getD (.mk 0 [] [] [])).slotsAt q).2.foldl
        (fun res cv => wrapInt64 (res + cv.Value)) 0 := by
  cases hr : t.Roots with
  | none =>
    simp only [ProfileTree.cumulativeAt, ProfileTree.nodeAt, hr, Option.getD_none,
      slotsAt_fresh]
    rfl
  | some r =>
    simp only [ProfileTree.cumulativeAt, ProfileTree.nodeAt, hr, Option.getD_some,
      Option.some_bind, ProfileTreeNode.slotsAt]
    cases r.find q <;> rfl

theorem flatAt_eq (t : ProfileTree) (q : List Nat) :
    t.flatAt q = slotValue ((t.Roots.getD (.mk 0 [] [] [])).slotsAt q).1 := by
  cases hr : t.Roots with
  | none =>
    simp only [ProfileTree.flatAt, ProfileTree.nodeAt, hr, Option.getD_none, slotsAt_fresh]
    rfl
  | some r =>
    simp only [ProfileTree.flatAt, ProfileTree.nodeAt, hr, Option.getD_some,
      Option.some_bind, ProfileTreeNode.slotsAt]
    cases r.find q <;> rfl

theorem nodeAt_isSome (t : ProfileTree) (q : List Nat) :
    ((t.Roots.getD (.mk 0 [] [] [])).find q).isSome =
      ((t.nodeAt q).isSome || decide (q = [])) := by
  cases hr : t.Roots with
  | none =>
    simp only [ProfileTree.nodeAt, hr, Option.getD_none, Option.none_bind]
    cases q with
    | nil => rfl
    | cons x r => rfl
  | some r =>
    simp only [ProfileTree.nodeAt, hr, Option.getD_some, Option.some_bind]
    cases q with
    | nil => rfl
    | cons x r1 => simp

theorem find?_of_mem_sorted (x : Nat) : ∀ (ch : List ProfileTreeNode) (c : ProfileTreeNode),
    List.Pairwise (· < ·) (childIDs ch) → c ∈ ch → c.LocationID = x →
      ch.find? (fun d => d.LocationID == x) = some c := by
  intro ch
  induction ch with
  | nil => intro c _ hc; simp at hc
  | cons d ds ih =>
    intro c hpw hc hx
    simp only [childIDs, List.map_cons, List.pairwise_cons] at hpw
    obtain ⟨hlt, hrest⟩ := hpw
    rcases List.mem_cons.mp hc with h | h
    · subst h
      exact find?_cons_id_eq x _ _ hx
    · have := hlt c.LocationID (List.mem_map_of_mem _ h)
      have hd : d.LocationID ≠ x := by omega
      rw [find?_cons_id_ne x _ _ hd]
      exact ih c hrest h hx

theorem sorted_parts {n : ProfileTreeNode} (h : n.Sorted) :
    List.Pairwise (· < ·) (childIDs n.Children) ∧ ∀ c ∈ n.Children, c.Sorted := by
  cases n with
  | mk id flat cum ch => exact ⟨h.1, (allSorted_iff ch).mp h.2⟩

theorem find_of_reaches : ∀ (q : List Nat) (r n : ProfileTreeNode), r.Sorted →
    ProfileTreeNode.reaches q r n → r.find q = some n := by
  intro q
  induction q with
  | nil =>
    intro r n _ h
    simp only [ProfileTreeNode.reaches] at h
    rw [h]; rfl
  | cons x rest ih =>
    intro r n hs h
    simp only [ProfileTreeNode.reaches] at h
    obtain ⟨c, hc, hx, hr⟩ := h
    obtain ⟨hpw, hall⟩ := sorted_parts hs
    simp only [ProfileTreeNode.find, find?_of_mem_sorted x _ c hpw hc hx]
    exact ih c n (hall c hc) hr

/-- C23. For every profile tree with sorted children (every tree built by
`ProfileTree.Insert` from the empty tree is) and every sample
with location ids `ids` (leaf first) and first value `v`, `ProfileTree.Insert` returns a
tree `t1`, again sorted, in which every node is found at its path of location ids from
the root, and for every path `q`:
the node at `q` exists in `t1` exactly when it existed before or `q` is a prefix of the
walked path `ids.reverse` (the root, ..., the node of the leaf location), so the missing
nodes of the path are created and no other;
the cumulative value at `q` is the old one plus `v` (int64 addition, 0 for a new node)
when `q` is a prefix of the walked path, and the old one otherwise;
the flat value at `q` is the old one plus `v` when `q` is the whole walked path (the root
when the sample has no location), and the old one otherwise. -/
theorem profileTree_insert_adds_value_along_path (t : ProfileTree) (sample : Sample)
    (ids : List Nat) (v : Int) (vs : List Int) (ht : t.Sorted)
    (hl : locationIDs sample.Location = some ids) (hv : sample.Value = v :: vs) :
    ∃ t1, t.Insert sample = some t1 ∧ t1.Sorted ∧
      (∀ r1, t1.Roots = some r1 → ∀ q n, ProfileTreeNode.reaches q r1 n →
        t1.nodeAt q = some n) ∧
      ∀ q : List Nat,
        (t1.nodeAt q).isSome = ((t.nodeAt q).isSome || decide (q <+: ids.reverse)) ∧
        t1.cumulativeAt q =
          (if q <+: ids.reverse then wrapInt64 (t.cumulativeAt q + v)
           else t.cumulativeAt q) ∧
        t1.flatAt q =
          (if q = ids.reverse then wrapInt64 (t.flatAt q + v) else t.flatAt q) := by
  have hs := getD_root_sorted ht
  have hins := Insert_of_readable t sample ids v vs hl hv
  have hs1 := insertPath_sorted v ids.reverse _ hs
  refine ⟨_, hins, hs1, ?_, ?_⟩
  · intro r1 hr1 q n hreach
    simp only [Option.some.injEq] at hr1
    subst hr1
    exact find_of_reaches q _ n hs1 hreach
  · intro q
    rw [cumulativeAt_eq, cumulativeAt_eq t, flatAt_eq, flatAt_eq t]
    have hsl := slotsAt_insertedPath v ids.reverse q _ hs
    have hsome := find_insertedPath_isSome v ids.reverse q _ hs
    rw [← insertPath_eq_insertedPath v _ _ hs] at hsl hsome
    rw [nodeAt_isSome t q] at hsome
    simp only [Option.getD_some]
    refine ⟨?_, ?_, ?_⟩
    · show ((ProfileTreeNode.insertPath v ids.reverse (t.Roots.getD (.mk 0 [] [] []))).find
        q).isSome = _
      rw [hsome]
      by_cases hq : q = []
      · subst hq
        simp
      · simp [hq]
    · rw [hsl]
      by_cases hp : q <+: ids.reverse
      · simp only [hp, if_true, cumFold_addValue]
      · simp only [hp, if_false]
    · rw [hsl]
      by_cases hp : q = ids.reverse
      · simp only [hp, if_true, slotValue_addValue]
      · simp only [hp, if_false]

theorem profileTree_insert_adds_value_along_path_witness :
    exTree.Sorted ∧ locationIDs exSample.Location = some [2] ∧ exSample.Value = 7 :: [] ∧
    ∃ t1, exTree.Insert exSample = some t1 ∧ t1.Sorted ∧
      (∀ r1, t1.Roots = some r1 → ∀ q n, ProfileTreeNode.reaches q r1 n →
        t1.nodeAt q = some n) ∧
      ∀ q : List Nat,
        (t1.nodeAt q).isSome = ((exTree.nodeAt q).isSome || decide (q <+: [2].reverse)) ∧
        t1.cumulativeAt q =
          (if q <+: [2].reverse then wrapInt64 (exTree.cumulativeAt q + 7)
           else exTree.cumulativeAt q) ∧
        t1.flatAt q =
          (if q = [2].reverse then wrapInt64 (exTree.flatAt q + 7) else exTree.flatAt q) :=
  have hs : exTree.Sorted := by
    simp [exTree, ProfileTree.Sorted, ProfileTreeNode.Sorted, allSorted, childIDs,
      ProfileTreeNode.LocationID]
  ⟨hs, rfl, rfl, profileTree_insert_adds_value_along_path exTree exSample [2] 7 [] hs rfl rfl⟩

theorem isZeroSample_iff (x : Sample) : isZeroSample x = true ↔ ∀ v ∈ x.Value, v = 0 := by
  simp [isZeroSample, List.all_eq_true]

theorem mapSamples_skip (pn : profileNormalizer) (keys : List stacktraceKey) (x : Sample)
    (rest : List Sample) (h : isZeroSample x = true) :
    mapSamples pn keys (x :: rest) = mapSamples pn keys rest := by
  simp only [mapSamples, h, Bool.not_true, Bool.false_eq_true, if_false]

theorem mapSamples_filter (samples : List Sample) :
    ∀ (pn : profileNormalizer) (keys : List stacktraceKey),
      mapSamples pn keys (samples.filter (fun x => !isZeroSample x)) =
        mapSamples pn keys samples := by
  induction samples with
  | nil => intro pn keys; rfl
  | cons x rest ih =>
    intro pn keys
    cases hz : isZeroSample x with
    | true =>
      rw [mapSamples_skip pn keys x rest hz, List.filter_cons_of_neg (by simp [hz])]
      exact ih pn keys
    | false =>
      rw [List.filter_cons_of_pos (by simp [hz])]
      simp only [mapSamples, hz, Bool.not_false, if_true]
      cases pn.mapSample x with
      | none => rfl
      | some r =>
        obtain ⟨pn1, k, isNew⟩ := r
        simp only
        cases isNew
        · simp only [Bool.false_eq_true, if_false]; exact ih pn1 keys
        · simp only [if_true]; exact ih pn1 (keys ++ [k])

theorem prepare_no_panic (s : MemSeries) (value : Profile) (hwf : WellFormed value) :
    ∃ s1 r, s.prepareSamplesForInsert value = some (s1, r) := by
  obtain ⟨hpt, hst, _⟩ := hwf
  obtain ⟨pt, hpt⟩ := Option.ne_none_iff_exists'.mp hpt
  obtain ⟨st, rest, hst⟩ := List.exists_cons_of_ne_nil hst
  have hinit : ∃ s0, s.initFrom value = some s0 := by
    unfold MemSeries.initFrom
    cases s.p with
    | none => simp only [hpt, hst]; exact ⟨_, rfl⟩
    | some p0 => exact ⟨_, rfl⟩
  obtain ⟨s0, hs0⟩ := hinit
  have hcomp : ∃ r, compatibleProfiles s0 value = some r := by
    simp only [compatibleProfiles, hpt, hst]
    split
    · exact ⟨_, rfl⟩
    · split
      · exact ⟨_, rfl⟩
      · exact ⟨_, rfl⟩
  obtain ⟨r, hr⟩ := hcomp
  cases r with
  | some e =>
    exact ⟨s0, .error e, by simp only [MemSeries.prepareSamplesForInsert, hs0, hr]⟩
  | none =>
    obtain ⟨pn2, tree, h3, _⟩ := buildProfileTree_total (s0.normalizer.mapFirstMapping value)
      value (by rw [mapFirstMapping_samples]; rfl) ⟨by simp [hpt], by simp [hst], by assumption⟩
    exact ⟨s0.withTables pn2, .ok tree,
      by simp only [MemSeries.prepareSamplesForInsert, hs0, hr, h3]⟩

/-- C26. `isZeroSample` returns true exactly for the samples whose values are all zero,
among them every sample with an empty value list; the loop of `prepareSamplesForInsert`
passes over such a sample without calling `mapSample` (the call gives the same result on
the profile without its zero samples), so every sample handed to `mapSample` has a first
value.  For every series and every profile with a period type, a non-empty sample-type
list and no nil location in its samples, `prepareSamplesForInsert` therefore returns
(a profile tree or an incompatibility error) and does not panic: the reads of `Value[0]`
in `mapSample` and in `ProfileTree.Insert`, which are the panics of the embedding, all
succeed. -/
theorem prepare_never_reads_missing_value (s : MemSeries) (value : Profile)
    (hpt : value.PeriodType ≠ none) (hst : value.SampleType ≠ [])
    (hloc : ∀ sample ∈ value.Sample, ∀ l ∈ sample.Location, l ≠ none) :
    (∀ x : Sample, isZeroSample x = true ↔ ∀ v ∈ x.Value, v = 0) ∧
    (∀ x : Sample, x.Value = [] → isZeroSample x = true) ∧
    (∀ (pn : profileNormalizer) (keys : List stacktraceKey) (x : Sample) (rest : List Sample),
      isZeroSample x = true → mapSamples pn keys (x :: rest) = mapSamples pn keys rest) ∧
    s.prepareSamplesForInsert { value with
        Sample := value.Sample.filter (fun x => !isZeroSample x) } =
      s.prepareSamplesForInsert value ∧
    (∀ x ∈ value.Sample, isZeroSample x = false → x.Value ≠ []) ∧
    ∃ s1 r, s.prepareSamplesForInsert value = some (s1, r) := by
  refine ⟨isZeroSample_iff, ?_, mapSamples_skip, ?_, ?_, ?_⟩
  · intro x hx
    rw [isZeroSample_iff, hx]
    intro v hv
    simp at hv
  · simp only [MemSeries.prepareSamplesForInsert, profileNormalizer.buildProfileTree,
      mapSamples_filter]
    rfl
  · intro x _ hx
    exact isZeroSample_false_value hx
  · exact prepare_no_panic s value ⟨hpt, hst, fun sample hs _ => hloc sample hs⟩

theorem prepare_never_reads_missing_value_witness :
    exZeroProfile.PeriodType ≠ none ∧ exZeroProfile.SampleType ≠ [] ∧
    (∀ sample ∈ exZeroProfile.Sample, ∀ l ∈ sample.Location, l ≠ none) ∧
    ((∀ x : Sample, isZeroSample x = true ↔ ∀ v ∈ x.Value, v = 0) ∧
    (∀ x : Sample, x.Value = [] → isZeroSample x = true) ∧
    (∀ (pn : profileNormalizer) (keys : List stacktraceKey) (x : Sample) (rest : List Sample),
      isZeroSample x = true → mapSamples pn keys (x :: rest) = mapSamples pn keys rest) ∧
    NewMemSeries.prepareSamplesForInsert { exZeroProfile with
        Sample := exZeroProfile.Sample.filter (fun x => !isZeroSample x) } =
      NewMemSeries.prepareSamplesForInsert exZeroProfile ∧
    (∀ x ∈ exZeroProfile.Sample, isZeroSample x = false → x.Value ≠ []) ∧
    ∃ s1 r, NewMemSeries.prepareSamplesForInsert exZeroProfile = some (s1, r)) :=
  have h1 : exZeroProfile.PeriodType ≠ none := by decide
  have h2 : exZeroProfile.SampleType ≠ [] := by decide
  have h3 : ∀ sample ∈ exZeroProfile.Sample, ∀ l ∈ sample.Location, l ≠ none := by decide
  ⟨h1, h2, h3, prepare_never_reads_missing_value NewMemSeries exZeroProfile h1 h2 h3⟩

theorem mapFirstMapping_fresh (pn : profileNormalizer) (value : Profile) (m : Mapping)
    (ms : List Mapping) (hm : pn.mappings = []) (hid : pn.mappingsByID = [])
    (hv : value.Mapping = m :: ms) :
    (pn.mapFirstMapping value).p.Mapping =
      pn.p.Mapping ++ [internedMapping m (pn.p.Mapping.length + 1)] ∧
    (pn.mapFirstMapping value).mappings =
      [(makeMappingKey m, internedMapping m (pn.p.Mapping.length + 1))] ∧
    (pn.mapFirstMapping value).samples = pn.samples := by
  simp only [profileNormalizer.mapFirstMapping, hm, hv, profileNormalizer.mapMapping, hid,
    List.lookup, internedMapping, and_self]

theorem mapFirstMapping_skipped (pn : profileNormalizer) (value : Profile)
    (hm : pn.mappings ≠ []) : pn.mapFirstMapping value = pn := by
  unfold profileNormalizer.mapFirstMapping
  split
  · rename_i h _; exact absurd h hm
  · rfl

theorem initFrom_tables {s s0 : MemSeries} {value : Profile} (h : s.initFrom value = some s0)
    (hempty : s.p = none ∨ s.mappings = []) :
    s0.mappings = [] ∧ s0.p = some (s.p.getD emptyProfile) := by
  refine ⟨?_, initFrom_p h⟩
  unfold MemSeries.initFrom at h
  split at h
  · rename_i p0 hp
    simp only [Option.some.injEq] at h
    subst h
    rcases hempty with h1 | h1
    · rw [hp] at h1; simp at h1
    · exact h1
  · split at h
    · simp only [Option.some.injEq] at h
      subst h; rfl
    · simp at h

theorem prefix_getElem? {α : Type} {l1 l2 : List α} (h : l1 <+: l2) {k : Nat} {a : α}
    (hk : l1[k]? = some a) : l2[k]? = some a := by
  obtain ⟨t, ht⟩ := h
  rw [← ht]
  obtain ⟨hlt, _⟩ := List.getElem?_eq_some.mp hk
  rw [List.getElem?_append_left hlt]
  exact hk

theorem prepare_first_mapping {s s1 : MemSeries} {value : Profile} {t : ProfileTree}
    {m : Mapping} {ms : List Mapping}
    (h : s.prepareSamplesForInsert value = some (s1, .ok t))
    (hempty : s.p = none ∨ s.mappings = []) (hv : value.Mapping = m :: ms) :
    ∃ p1, s1.p = some p1 ∧
      p1.Mapping[(s.p.getD emptyProfile).Mapping.length]? =
        some (internedMapping m ((s.p.getD emptyProfile).Mapping.length + 1)) ∧
      s1.mappings.lookup (makeMappingKey m) =
        some (internedMapping m ((s.p.getD emptyProfile).Mapping.length + 1)) := by
  unfold MemSeries.prepareSamplesForInsert at h
  split at h
  · simp at h
  · rename_i s0 hs0
    obtain ⟨hm0, hp0⟩ := initFrom_tables hs0 hempty
    split at h
    · simp at h
    · simp at h
    · split at h
      · simp at h
      · rename_i pn2 tree hb
        simp only [Option.some.injEq, Prod.mk.injEq, Except.ok.injEq] at h
        obtain ⟨h1, _⟩ := h
        subst h1
        have hnp : s0.normalizer.p = s.p.getD emptyProfile := by
          simp [MemSeries.normalizer, hp0]
        obtain ⟨f1, f2, _⟩ := mapFirstMapping_fresh s0.normalizer value m ms
          (by simp [MemSeries.normalizer, hm0]) rfl hv
        rw [hnp] at f1 f2
        obtain ⟨e1, _⟩ := buildProfileTree_interns hb
        have le := (buildProfileTree_tablesLe hb).1
        refine ⟨pn2.p, rfl, ?_, ?_⟩
        · apply prefix_getElem? e1.1
          rw [f1]
          simp
        · apply le
          rw [f2]
          simp [List.lookup]

theorem prepare_fresh_ok {s1 : MemSeries} {value : Profile} {r : Except Err ProfileTree}
    (h : NewMemSeries.prepareSamplesForInsert value = some (s1, r)) : ∃ t, r = .ok t := by
  unfold MemSeries.prepareSamplesForInsert at h
  split at h
  · simp at h
  · rename_i s0 hs0
    have hs0' : ∃ pt st rest, value.PeriodType = some pt ∧ value.SampleType = st :: rest ∧
        s0.periodType = ⟨pt.Typ, pt.Unit⟩ ∧ s0.sampleType = ⟨st.Typ, st.Unit⟩ := by
      simp only [MemSeries.initFrom, NewMemSeries] at hs0
      split at hs0
      · rename_i pt st rest hpt hst
        simp only [Option.some.injEq] at hs0
        subst hs0
        exact ⟨pt, st, rest, hpt, hst, rfl, rfl⟩
      · simp at hs0
    obtain ⟨pt, st, rest, hpt, hst, h1, h2⟩ := hs0'
    have hc : compatibleProfiles s0 value = some none := by
      simp [compatibleProfiles, hpt, hst, h1, h2, equalValueType_self]
    rw [hc] at h
    simp only at h
    split at h
    · simp at h
    · simp only [Option.some.injEq, Prod.mk.injEq] at h
      exact ⟨_, h.2.symm⟩

theorem Append_keeps_first {s s1 : MemSeries} {value : Profile} {e : Option Err}
    {k : mappingKey} {m1 : Mapping} (h : s.Append value = some (s1, e))
    (hp : ∃ p, s.p = some p ∧ p.Mapping.head? = some m1)
    (hk : s.mappings.lookup k = some m1) :
    (∃ p, s1.p = some p ∧ p.Mapping.head? = some m1) ∧ s1.mappings.lookup k = some m1 := by
  obtain ⟨p, hsp, hhead⟩ := hp
  obtain ⟨p1, hp1, hext, _⟩ := Append_interns h
  rw [hsp] at hext
  have hle := Append_mappings_le h (by intro hn; rw [hsp] at hn; simp at hn)
  refine ⟨⟨p1, hp1, ?_⟩, hle k m1 hk⟩
  simp only [Option.getD_some] at hext
  rw [List.head?_eq_getElem?] at hhead ⊢
  exact prefix_getElem? hext.1 hhead

theorem appendAll_keeps_first (ps : List Profile) (k : mappingKey) (m1 : Mapping) :
    ∀ (s s1 : MemSeries) (es : List (Option Err)),
      (∃ p, s.p = some p ∧ p.Mapping.head? = some m1) → s.mappings.lookup k = some m1 →
      appendAll s ps = some (s1, es) →
      (∃ p, s1.p = some p ∧ p.Mapping.head? = some m1) ∧ s1.mappings.lookup k = some m1 := by
  induction ps with
  | nil =>
    intro s s1 es hp hk h
    simp only [appendAll, Option.some.injEq, Prod.mk.injEq] at h
    rw [← h.1]
    exact ⟨hp, hk⟩
  | cons value rest ih =>
    intro s s1 es hp hk h
    simp only [appendAll] at h
    cases ha : s.Append value with
    | none => simp [ha] at h
    | some r =>
      obtain ⟨s2, e⟩ := r
      simp only [ha] at h
      cases hr : appendAll s2 rest with
      | none => simp [hr] at h
      | some q =>
        obtain ⟨s3, es3⟩ := q
        simp only [hr, Option.some.injEq, Prod.mk.injEq] at h
        obtain ⟨a1, a2⟩ := Append_keeps_first ha hp hk
        rw [← h.1]
        exact ih s2 s3 es3 a1 a2 hr

theorem Append_prepare {s s1 : MemSeries} {value : Profile} {e : Option Err}
    (h : s.Append value = some (s1, e)) :
    ∃ s0 r, s.prepareSamplesForInsert value = some (s0, r) ∧ s1.p = s0.p ∧
      s1.mappings = s0.mappings := by
  unfold MemSeries.Append at h
  split at h
  · simp at h
  · rename_i s0 e0 hp
    simp only [Option.some.injEq, Prod.mk.injEq] at h
    obtain ⟨h1, _⟩ := h
    subst h1
    exact ⟨_, _, hp, rfl, rfl⟩
  · rename_i s0 t hp
    split at h
    · simp at h
    · rename_i s2 ha
      simp only [Option.some.injEq] at h
      have h3 : s1 = (s2.appendColumns value).1 := by rw [h]
      refine ⟨_, _, hp, ?_, ?_⟩
      · rw [h3, appendColumns_p, append_p ha]
      · rw [h3, appendColumns_mappings, append_mappings ha]
theorem makeMappingKey_internedMapping (m : Mapping) (id : Nat) :
    makeMappingKey (internedMapping m id) = makeMappingKey m := rfl

theorem appendAll_fresh_first_mapping {value : Profile} {rest : List Profile} {s2 : MemSeries}
    {es : List (Option Err)} {m : Mapping} {ms : List Mapping}
    (h : appendAll NewMemSeries (value :: rest) = some (s2, es))
    (hv : value.Mapping = m :: ms) :
    ∃ p, s2.p = some p ∧ p.Mapping.head? = some (internedMapping m 1) ∧
      s2.mappings.lookup (makeMappingKey m) = some (internedMapping m 1) := by
  simp only [appendAll] at h
  cases ha : NewMemSeries.Append value with
  | none => simp [ha] at h
  | some r =>
    obtain ⟨sA, e⟩ := r
    simp only [ha] at h
    cases hr : appendAll sA rest with
    | none => simp [hr] at h
    | some q =>
      obtain ⟨s3, es3⟩ := q
      simp only [hr, Option.some.injEq, Prod.mk.injEq] at h
      obtain ⟨s0, r, hprep, hp, hm⟩ := Append_prepare ha
      obtain ⟨t, ht⟩ := prepare_fresh_ok hprep
      subst ht
      obtain ⟨p1, hp1, hget, hlook⟩ := prepare_first_mapping hprep (Or.inl rfl) hv
      have hA : ∃ p, sA.p = some p ∧ p.Mapping.head? = some (internedMapping m 1) := by
        refine ⟨p1, by rw [hp, hp1], ?_⟩
        rw [List.head?_eq_getElem?]
        exact hget
      have hB : sA.mappings.lookup (makeMappingKey m) = some (internedMapping m 1) := by
        rw [hm]; exact hlook
      obtain ⟨⟨p, c1, c2⟩, c3⟩ :=
        appendAll_keeps_first rest (makeMappingKey m) (internedMapping m 1) sA s3 es3 hA hB hr
      rw [← h.1]
      exact ⟨p, c1, c2, c3⟩

/-- C24 (amended). For every incoming profile with at least one mapping that arrives while
the mapping table of the series is empty, `prepareSamplesForInsert` interns the first
mapping of the profile before it processes any sample: the statement before the sample
loop appends a copy of that mapping, under the next free id, to the interned mappings and
enters it in the table under its key, with the sample store still untouched; in the series
left behind the copy stands at that position, ahead of every mapping the samples bring in,
and is found under the key of the source mapping (the key does not depend on the id).  In
particular, after appending to a fresh series a first profile with at least one mapping,
and after every later `Append` call, whatever it returns, the first interned mapping is the
copy with id 1 of the first mapping of that profile, found under its key.  When the mapping
table is not empty the statement before the sample loop does nothing. -/
theorem first_mapping_is_interned_first_on_empty_table (s s1 : MemSeries) (value : Profile)
    (t : ProfileTree) (m : Mapping) (ms : List Mapping)
    (h : s.prepareSamplesForInsert value = some (s1, .ok t))
    (hempty : s.p = none ∨ s.mappings = []) (hv : value.Mapping = m :: ms) :
    (∀ pn : profileNormalizer, pn.mappings = [] → pn.mappingsByID = [] →
      (pn.mapFirstMapping value).p.Mapping =
        pn.p.Mapping ++ [internedMapping m (pn.p.Mapping.length + 1)] ∧
      (pn.mapFirstMapping value).mappings =
        [(makeMappingKey m, internedMapping m (pn.p.Mapping.length + 1))] ∧
      (pn.mapFirstMapping value).samples = pn.samples) ∧
    (∃ p1, s1.p = some p1 ∧
      p1.Mapping[(s.p.getD emptyProfile).Mapping.length]? =
        some (internedMapping m ((s.p.getD emptyProfile).Mapping.length + 1)) ∧
      s1.mappings.lookup (makeMappingKey m) =
        some (internedMapping m ((s.p.getD emptyProfile).Mapping.length + 1))) ∧
    (∀ id : Nat, makeMappingKey (internedMapping m id) = makeMappingKey m) ∧
    (∀ (rest : List Profile) (s2 : MemSeries) (es : List (Option Err)),
      appendAll NewMemSeries (value :: rest) = some (s2, es) →
      ∃ p, s2.p = some p ∧ p.Mapping.head? = some (internedMapping m 1) ∧
        s2.mappings.lookup (makeMappingKey m) = some (internedMapping m 1)) ∧
    (∀ pn : profileNormalizer, pn.mappings ≠ [] → pn.mapFirstMapping value = pn) :=
  ⟨fun pn h1 h2 => mapFirstMapping_fresh pn value m ms h1 h2 hv,
    prepare_first_mapping h hempty hv,
    makeMappingKey_internedMapping m,
    fun _ _ _ ha => appendAll_fresh_first_mapping ha hv,
    fun pn hne => mapFirstMapping_skipped pn value hne⟩

theorem first_mapping_is_interned_first_on_empty_table_witness :
    NewMemSeries.prepareSamplesForInsert exMappedProfile =
      some (exSeriesPrepared, .ok exMappedTree) ∧
    (NewMemSeries.p = none ∨ NewMemSeries.mappings = []) ∧
    exMappedProfile.Mapping = exMapping :: [] ∧
    ((∀ pn : profileNormalizer, pn.mappings = [] → pn.mappingsByID = [] →
      (pn.mapFirstMapping exMappedProfile).p.Mapping =
        pn.p.Mapping ++ [internedMapping exMapping (pn.p.Mapping.length + 1)] ∧
      (pn.mapFirstMapping exMappedProfile).mappings =
        [(makeMappingKey exMapping, internedMapping exMapping (pn.p.Mapping.length + 1))] ∧
      (pn.mapFirstMapping exMappedProfile).samples = pn.samples) ∧
    (∃ p1, exSeriesPrepared.p = some p1 ∧
      p1.Mapping[(NewMemSeries.p.getD emptyProfile).Mapping.length]? =
        some (internedMapping exMapping ((NewMemSeries.p.getD emptyProfile).Mapping.length + 1)) ∧
      exSeriesPrepared.mappings.lookup (makeMappingKey exMapping) =
        some (internedMapping exMapping
          ((NewMemSeries.p.getD emptyProfile).Mapping.length + 1))) ∧
    (∀ id : Nat, makeMappingKey (internedMapping exMapping id) = makeMappingKey exMapping) ∧
    (∀ (rest : List Profile) (s2 : MemSeries) (es : List (Option Err)),
      appendAll NewMemSeries (exMappedProfile :: rest) = some (s2, es) →
      ∃ p, s2.p = some p ∧ p.Mapping.head? = some (internedMapping exMapping 1) ∧
        s2.mappings.lookup (makeMappingKey exMapping) = some (internedMapping exMapping 1)) ∧
    (∀ pn : profileNormalizer, pn.mappings ≠ [] → pn.mapFirstMapping exMappedProfile = pn)) :=
  ⟨rfl, Or.inl rfl, rfl,
    first_mapping_is_interned_first_on_empty_table NewMemSeries exSeriesPrepared
      exMappedProfile exMappedTree exMapping [] rfl (Or.inl rfl) rfl⟩

/-- C24 (counterexample). The series reached from a fresh series by appending
`exMappedProfile` has the mapping "abc" interned.  On it, `prepareSamplesForInsert` of a
profile whose mapping list is "bbb", "ccc" and whose only sample lies in "ccc" leaves the
interned mappings "abc" (id 1) and "ccc" (id 2): the first mapping "bbb" of the incoming
profile has not been interned, neither before the samples nor after. -/
theorem first_mapping_not_interned_on_later_profile :
    NewMemSeries.Append exMappedProfile = some (exSeriesMapped, none) ∧
    exSecondProfile.Mapping.map (fun m => m.BuildID) = ["bbb", "ccc"] ∧
    (exSeriesMapped.prepareSamplesForInsert exSecondProfile).map
      (fun r => ((r.1.p.getD emptyProfile).Mapping.map (fun m => (m.ID, m.BuildID)),
        r.1.mappings.map (fun kv => (kv.1.buildIDOrFile, kv.2.ID)))) =
      some ([(1, "abc"), (2, "ccc")], [("ccc", 2), ("abc", 1)]) :=
  ⟨rfl, rfl, rfl⟩

theorem mapSamples_append (l1 l2 : List Sample) : ∀ (pn : profileNormalizer)
    (keys : List stacktraceKey),
    mapSamples pn keys (l1 ++ l2) = (mapSamples pn keys l1).bind (fun r => mapSamples r.1 r.2 l2) := by
  induction l1 with
  | nil => intro pn keys; rfl
  | cons s rest ih =>
    intro pn keys
    simp only [List.cons_append, mapSamples]
    cases hz : isZeroSample s with
    | true => simp only [Bool.not_true, Bool.false_eq_true, if_false]; exact ih pn keys
    | false =>
      simp only [Bool.not_false, if_true]
      cases hm : pn.mapSample s with
      | none => rfl
      | some r =>
        obtain ⟨pn1, k, b⟩ := r
        simp only
        cases b with
        | true => simp only [if_true]; exact ih pn1 _
        | false => simp only [Bool.false_eq_true, if_false]; exact ih pn1 _

theorem mapSamples_cons_new (pn pn1 : profileNormalizer) (keys : List stacktraceKey)
    (x : Sample) (rest : List Sample) (k : stacktraceKey) (hz : isZeroSample x = false)
    (hm : pn.mapSample x = some (pn1, k, true)) :
    mapSamples pn keys (x :: rest) = mapSamples pn1 (keys ++ [k]) rest := by
  simp only [mapSamples, hz, Bool.not_false, if_true, hm]

theorem mapSamples_cons_old (pn pn1 : profileNormalizer) (keys : List stacktraceKey)
    (x : Sample) (rest : List Sample) (k : stacktraceKey) (hz : isZeroSample x = false)
    (hm : pn.mapSample x = some (pn1, k, false)) :
    mapSamples pn keys (x :: rest) = mapSamples pn1 keys rest := by
  simp only [mapSamples, hz, Bool.not_false, if_true, hm, Bool.false_eq_true, if_false]

theorem mapLocations_append_state (l1 l2 : List (Option Location)) :
    ∀ pn : profileNormalizer,
      (pn.mapLocations (l1 ++ l2)).1 = ((pn.mapLocations l1).1.mapLocations l2).1 := by
  induction l1 with
  | nil => intro pn; rfl
  | cons l rest ih =>
    intro pn
    simp only [List.cons_append, profileNormalizer.mapLocations]
    exact ih _

/-- A location whose id is not memoized has its mapping mapped first, and the bindings
left by that call are in the table when `mapLocation` returns. -/
theorem mapLocation_keeps_mapping (pn : profileNormalizer) (l : Location)
    (h : pn.locationsByID.lookup l.ID = none) :
    TableLe (pn.mapMapping l.Mapping).1.mappings (pn.mapLocation (some l)).1.mappings := by
  have h12 := (mapLines_tablesLe l.Line (pn.mapMapping l.Mapping).1).1
  simp only [profileNormalizer.mapLocation, h]
  split
  · exact h12
  · exact h12

/-- The mapping table of the series after `prepareSamplesForInsert` has returned a tree
holds every binding made by the `mapMapping` call for a location of a sample of the
profile. -/
theorem prepare_keeps_mapping {s s0 s1 : MemSeries} {value : Profile} {t : ProfileTree}
    (h : s.prepareSamplesForInsert value = some (s1, .ok t))
    (h0 : s.initFrom value = some s0)
    (pre post : List Sample) (x : Sample) (locs rest : List (Option Location)) (l : Location)
    (pnA : profileNormalizer) (keysA : List stacktraceKey)
    (hS : value.Sample = pre ++ x :: post) (hz : isZeroSample x = false)
    (hL : x.Location = locs ++ some l :: rest)
    (hA : mapSamples (s0.normalizer.mapFirstMapping value) [] pre = some (pnA, keysA))
    (hmemo : (pnA.mapLocations locs).1.locationsByID.lookup l.ID = none) :
    TableLe ((pnA.mapLocations locs).1.mapMapping l.Mapping).1.mappings s1.mappings := by
  unfold MemSeries.prepareSamplesForInsert at h
  rw [h0] at h
  simp only at h
  split at h
  · simp at h
  · simp at h
  · split at h
    · simp at h
    · rename_i pn2 t2 hb
      simp only [Option.some.injEq, Prod.mk.injEq, Except.ok.injEq] at h
      obtain ⟨h1, _⟩ := h
      subst h1
      show TableLe _ pn2.mappings
      unfold profileNormalizer.buildProfileTree at hb
      split at hb
      · simp at hb
      · rename_i pn3 keys hm
        split at hb
        · simp at hb
        · simp only [Option.some.injEq, Prod.mk.injEq] at hb
          obtain ⟨hb1, _⟩ := hb
          subst hb1
          rw [hS, mapSamples_append, hA] at hm
          simp only [Option.some_bind] at hm
          cases hx : pnA.mapSample x with
          | none => simp [mapSamples, hz, hx] at hm
          | some r =>
            obtain ⟨pnA1, k, b⟩ := r
            have hpost : ∃ keys1, mapSamples pnA1 keys1 post = some (pn3, keys) := by
              cases b with
              | true => exact ⟨_, by rw [mapSamples_cons_new _ _ _ _ _ _ hz hx] at hm; exact hm⟩
              | false => exact ⟨_, by rw [mapSamples_cons_old _ _ _ _ _ _ hz hx] at hm; exact hm⟩
            obtain ⟨keys1, hpost⟩ := hpost
            have e1 := (mapSample_tables hx).1
            have e2 := (mapSamples_tablesLe post _ _ _ _ hpost).1
            have e3 : TableLe ((pnA.mapLocations locs).1.mapMapping l.Mapping).1.mappings
                (pnA.mapLocations x.Location).1.mappings := by
              rw [hL, mapLocations_append_state]
              simp only [profileNormalizer.mapLocations]
              exact tableLe_trans (mapLocation_keeps_mapping _ l hmemo)
                (mapLocations_tablesLe rest _).1
            rw [← e1] at e3
            exact tableLe_trans e3 e2

/-- C16 (amended). Two source mappings a and b without build id and file name that agree in
offset and in size rounded up to a multiple of 4096, whatever their start and limit, map to
the same interned mapping across any number of appended profiles, each being looked up by
key (its source id is not memoized for the profile being normalized).  In a series made by
`NewMemSeries` and `Append` calls in which a has been interned as m (the mapping table of
the series binds the key of a to m, which every `mapMapping` call on a leaves behind), after
any number of further `Append` calls, whatever they return, every `mapMapping` call made
while a later profile Q is prepared returns m for b: the call is made after the loop of
`prepareSamplesForInsert` has mapped the samples `pre` and `mapSample` has mapped the
locations `locs` of the current sample.  The binding of the key of a is made by either
call site of `mapMapping` and is in the table of the series when that `Append` returns: by
the call on the first mapping of a profile appended when the table is empty, and by the
call that `mapLocation` makes for a location of a sample whose id is not memoized.  Within
one profile the same holds from the state left by the call on a, after any further samples
and locations.  The normalizer-level facts follow: a later table that holds the bindings
of the earlier one gives the same mapping, and `mapMapping`, `mapFunction`, `mapLocation`,
`mapSample` and `Append` keep every binding.  Fake mappings that differ in rounded size or
in offset have different keys. -/
theorem fake_mappings_with_equal_key_collapse (ps1 ps : List Profile) (s s2 s3 : MemSeries)
    (es1 es : List (Option Err)) (a b m : Mapping) (Q : Profile) (pre : List Sample)
    (locs : List (Option Location)) (pn2 : profileNormalizer) (keys : List stacktraceKey)
    (ha : a.BuildID = "" ∧ a.File = "") (hb : b.BuildID = "" ∧ b.File = "")
    (hsize : (makeMappingKey a).size = (makeMappingKey b).size) (hoff : a.Offset = b.Offset)
    (h1 : appendAll NewMemSeries ps1 = some (s, es1))
    (hm : s.mappings.lookup (makeMappingKey a) = some m)
    (h2 : appendAll s ps = some (s2, es))
    (h3 : s2.initFrom Q = some s3)
    (hQ : mapSamples (s3.normalizer.mapFirstMapping Q) [] pre = some (pn2, keys))
    (hmemo : (pn2.mapLocations locs).1.mappingsByID.lookup b.ID = none) :
    ((pn2.mapLocations locs).1.mapMapping (some b)).2.m = some m ∧
    (∀ pn : profileNormalizer, pn.mappingsByID.lookup a.ID = none →
      ∃ m1, (pn.mapMapping (some a)).2.m = some m1 ∧
        (pn.mapMapping (some a)).1.mappings.lookup (makeMappingKey a) = some m1 ∧
        ∀ (samples : List Sample) (keys1 keys3 : List stacktraceKey) (pn3 : profileNormalizer)
          (locs1 : List (Option Location)),
          mapSamples (pn.mapMapping (some a)).1 keys1 samples = some (pn3, keys3) →
          (pn3.mapLocations locs1).1.mappingsByID.lookup b.ID = none →
          ((pn3.mapLocations locs1).1.mapMapping (some b)).2.m = some m1) ∧
    (∀ (t0 t1 t2 : MemSeries) (value : Profile) (tree : ProfileTree) (e : Option Err)
        (rest : List Mapping),
      (t0.p = none ∨ t0.mappings = []) → value.Mapping = a :: rest →
      t0.prepareSamplesForInsert value = some (t1, .ok tree) →
      t0.Append value = some (t2, e) →
      t2.mappings.lookup (makeMappingKey a) =
        some (internedMapping a ((t0.p.getD emptyProfile).Mapping.length + 1))) ∧
    (∀ (t0 t0i t1 t2 : MemSeries) (value : Profile) (tree : ProfileTree) (e : Option Err)
        (pre1 post1 : List Sample) (x : Sample) (locs1 rest1 : List (Option Location))
        (l : Location) (pnA : profileNormalizer) (keysA : List stacktraceKey),
      t0.initFrom value = some t0i →
      t0.prepareSamplesForInsert value = some (t1, .ok tree) →
      t0.Append value = some (t2, e) →
      value.Sample = pre1 ++ x :: post1 → isZeroSample x = false →
      x.Location = locs1 ++ some l :: rest1 → l.Mapping = some a →
      mapSamples (t0i.normalizer.mapFirstMapping value) [] pre1 = some (pnA, keysA) →
      (pnA.mapLocations locs1).1.locationsByID.lookup l.ID = none →
      (pnA.mapLocations locs1).1.mappingsByID.lookup a.ID = none →
      ∃ m1, ((pnA.mapLocations locs1).1.mapMapping (some a)).2.m = some m1 ∧
        t2.mappings.lookup (makeMappingKey a) = some m1) ∧
    (∀ pn pnb : profileNormalizer, pn.mappingsByID.lookup a.ID = none →
      pnb.mappingsByID.lookup b.ID = none →
      TableLe (pn.mapMapping (some a)).1.mappings pnb.mappings →
      ∃ m1, (pn.mapMapping (some a)).2.m = some m1 ∧ (pnb.mapMapping (some b)).2.m = some m1) ∧
    (∀ (q : profileNormalizer) src, TableLe q.mappings (q.mapMapping src).1.mappings) ∧
    (∀ (q : profileNormalizer) src, TableLe q.mappings (q.mapFunction src).1.mappings) ∧
    (∀ (q : profileNormalizer) src, TableLe q.mappings (q.mapLocation src).1.mappings) ∧
    (∀ (q q1 : profileNormalizer) src k isNew, q.mapSample src = some (q1, k, isNew) →
      TableLe q.mappings q1.mappings) ∧
    (∀ (t t1 : MemSeries) value e, t.p ≠ none → t.Append value = some (t1, e) →
      TableLe t.mappings t1.mappings ∧ t1.p ≠ none ∧
      t1.normalizer.mappings = t1.mappings) ∧
    (∀ c d : Mapping, c.BuildID = "" ∧ c.File = "" → d.BuildID = "" ∧ d.File = "" →
      (makeMappingKey c).size ≠ (makeMappingKey d).size ∨ c.Offset ≠ d.Offset →
      makeMappingKey c ≠ makeMappingKey d) := by
  have hkey := makeMappingKey_fake_eq a b ha hb hsize hoff
  refine ⟨?_, ?_, ?_, ?_, ?_, fun q src => (mapMapping_tablesLe q src).1,
    fun q src => (mapFunction_tablesLe q src).1, fun q src => (mapLocation_tablesLe q src).1,
    fun q q1 src k isNew h => (mapSample_tablesLe h).1, ?_, ?_⟩
  · obtain ⟨l1, hs⟩ := appendAll_mappings_le ps1 NewMemSeries s es1 (fun _ => rfl) h1
    obtain ⟨l2, hs2⟩ := appendAll_mappings_le ps s s2 es hs h2
    have l3 : s3.mappings = s2.mappings := initFrom_mappings h3 hs2
    have l4 := (mapFirstMapping_tablesLe s3.normalizer Q).1
    have l5 := (mapSamples_tablesLe pre _ _ _ _ hQ).1
    have l6 := (mapLocations_tablesLe locs pn2).1
    have hn : s3.normalizer.mappings = s2.mappings := l3
    rw [hn] at l4
    refine mapMapping_of_lookup _ b m hmemo ?_
    rw [hkey]
    exact l6 _ _ (l5 _ _ (l4 _ _ (l2 _ _ hm)))
  · intro pn hca
    obtain ⟨m1, e1, e2⟩ := mapMapping_by_key pn a hca
    refine ⟨m1, e1, e2, ?_⟩
    intro samples keys1 keys3 pn3 locs1 hrun hcb
    refine mapMapping_of_lookup _ b m1 hcb ?_
    rw [hkey]
    exact (mapLocations_tablesLe locs1 pn3).1 _ _
      ((mapSamples_tablesLe samples _ _ _ _ hrun).1 _ _ e2)
  · intro t0 t1 t2 value tree e rest hempty hv hprep happ
    obtain ⟨_, _, _, hlook⟩ := prepare_first_mapping hprep hempty hv
    obtain ⟨s0, r, hp2, _, hmap⟩ := Append_prepare happ
    rw [hprep] at hp2
    simp only [Option.some.injEq, Prod.mk.injEq] at hp2
    rw [hmap, ← hp2.1]
    exact hlook
  · intro t0 t0i t1 t2 value tree e pre1 post1 x locs1 rest1 l pnA keysA hi hprep happ hS hz hL
      hlm hA hml hma
    obtain ⟨m1, e1, e2⟩ := mapMapping_by_key (pnA.mapLocations locs1).1 a hma
    refine ⟨m1, e1, ?_⟩
    obtain ⟨s0, r, hp2, _, hmap⟩ := Append_prepare happ
    rw [hprep] at hp2
    simp only [Option.some.injEq, Prod.mk.injEq] at hp2
    rw [hmap, ← hp2.1]
    have hkeep := prepare_keeps_mapping hprep hi pre1 post1 x locs1 rest1 l pnA keysA hS hz hL
      hA hml
    rw [hlm] at hkeep
    exact hkeep _ _ e2
  · intro pn pnb hca hcb hle
    obtain ⟨m1, e1, e2⟩ := mapMapping_by_key pn a hca
    refine ⟨m1, e1, mapMapping_of_lookup pnb b m1 hcb ?_⟩
    rw [hkey]
    exact hle _ _ e2
  · intro t t1 value e hp h
    refine ⟨Append_mappings_le h (fun h0 => absurd h0 hp), ?_, rfl⟩
    obtain ⟨p1, hp1, _⟩ := Append_interns h
    rw [hp1]; simp
  · intro c d _ _ hne hk
    rcases hne with hne | hne
    · exact hne (by rw [hk])
    · apply hne
      rw [← makeMappingKey_offset c, ← makeMappingKey_offset d, hk]

theorem fake_mappings_with_equal_key_collapse_witness :
    appendAll NewMemSeries [exProfileIn 5 fakeA 0x10 5] = some (exSeriesFakeA, [none]) ∧
    appendAll exSeriesFakeA [exProfileIn 6 fakeC 0x7020 7] = some (exSeriesFakeAC, [none]) ∧
    exSeriesFakeAC.p.map (fun p => p.Mapping) = some [fakeA] ∧
    ((exSeriesFakeAC.normalizer.mapFirstMapping (exProfileIn 7 fakeC 0x7030 9)).mapMapping
      (some fakeC)).2.m = some fakeA :=
  ⟨rfl, rfl, rfl,
    (fake_mappings_with_equal_key_collapse [exProfileIn 5 fakeA 0x10 5]
      [exProfileIn 6 fakeC 0x7020 7] exSeriesFakeA exSeriesFakeAC exSeriesFakeAC [none] [none]
      fakeA fakeC fakeA (exProfileIn 7 fakeC 0x7030 9) [] []
      (exSeriesFakeAC.normalizer.mapFirstMapping (exProfileIn 7 fakeC 0x7030 9)) []
      ⟨rfl, rfl⟩ ⟨rfl, rfl⟩ (by decide) rfl rfl rfl rfl rfl rfl rfl).1⟩

/-- C16 (counterexample). Source mappings without build id and file name interned by the same
normalizer: `fakeA` (0x1000 bytes) and `fakeB` (0x2000 bytes) get the two mapping ids 1 and
2, and so do `fakeA` and `fakeOff` (0x1000 bytes at offset 0x1000); and `fakeE`, which has
the rounded size and the offset of `fakeA` and the source id of the file mapping `fileD`
mapped before it, gets the mapping of `fileD` from the memo, not that of `fakeA`. -/
theorem fake_mappings_of_different_size_stay_apart :
    fakeA.BuildID = "" ∧ fakeA.File = "" ∧ fakeB.BuildID = "" ∧ fakeB.File = "" ∧
    (NewMemSeries.normalizer.mapMapping (some fakeA)).2.m.map (fun m => m.ID) = some 1 ∧
    ((NewMemSeries.normalizer.mapMapping (some fakeA)).1.mapMapping (some fakeB)).2.m.map
      (fun m => m.ID) = some 2 ∧
    ((NewMemSeries.normalizer.mapMapping (some fakeA)).1.mapMapping (some fakeB)).1.p.Mapping.length
      = 2 ∧
    (fakeOff.BuildID = "" ∧ fakeOff.File = "" ∧
      (makeMappingKey fakeOff).size = (makeMappingKey fakeA).size ∧
      ((NewMemSeries.normalizer.mapMapping (some fakeA)).1.mapMapping (some fakeOff)).2.m.map
        (fun m => m.ID) = some 2) ∧
    (fakeE.BuildID = "" ∧ fakeE.File = "" ∧ makeMappingKey fakeE = makeMappingKey fakeA ∧
      (((NewMemSeries.normalizer.mapMapping (some fakeA)).1.mapMapping (some fileD)).1.mapMapping
        (some fakeE)).2.m.map (fun m => (m.ID, m.File)) = some (2, "/bin/app")) := by
  refine ⟨rfl, rfl, rfl, rfl, by decide, by decide, by decide,
    ⟨rfl, rfl, by decide, by decide⟩, ⟨rfl, rfl, by decide, by decide⟩⟩

end storage

namespace symbolizer

theorem lookup_mapSet_self {κ ν : Type} [DecidableEq κ] (m : List (κ × ν)) (k : κ) (v : ν) :
    (mapSet m k v).lookup k = some v := by
  simp [mapSet, List.lookup]

theorem lookup_mapDelete_self {κ ν : Type} [DecidableEq κ] (m : List (κ × ν)) (k : κ) :
    (mapDelete m k).lookup k = none := by
  induction m with
  | nil => rfl
  | cons e m ih =>
    obtain ⟨k1, v1⟩ := e
    by_cases h : k1 = k
    · simpa [mapDelete, List.filter, h] using ih
    · have hk : (k == k1) = false := by simpa using fun h1 => h h1.symm
      simpa [mapDelete, List.filter, h, List.lookup, hk] using ih

/-- The first failed attempt sets the counter to 1 and does not look at the threshold. -/
theorem noLines_first (s : Symbolizer) (b : String) (a : Nat) (h : s.attempt b a = none) :
    (s.noLines b a).attempt b a = some 1 ∧ (s.noLines b a).failed = s.failed ∧
    (s.noLines b a).attemptThreshold = s.attemptThreshold := by
  simp only [Symbolizer.noLines, h, and_self, and_true]
  simp only [Symbolizer.attempt, lookup_mapSet_self]

/-- A later failed attempt below the threshold increments the counter. -/
theorem noLines_below (s : Symbolizer) (b : String) (a : Nat) (p : Int)
    (h : s.attempt b a = some p) (hlt : wrapInt64 (p + 1) < s.attemptThreshold) :
    (s.noLines b a).attempt b a = some (wrapInt64 (p + 1)) ∧
    (s.noLines b a).failed = s.failed ∧
    (s.noLines b a).attemptThreshold = s.attemptThreshold := by
  simp only [Symbolizer.noLines, h, ge_iff_le, not_le.mpr hlt, if_false, and_self, and_true]
  simp only [Symbolizer.attempt, lookup_mapSet_self]

/-- A later failed attempt that reaches the threshold moves the pair to `failed`. -/
theorem noLines_reached (s : Symbolizer) (b : String) (a : Nat) (p : Int)
    (h : s.attempt b a = some p) (hge : s.attemptThreshold ≤ wrapInt64 (p + 1)) :
    (s.noLines b a).attempt b a = none ∧ (s.noLines b a).failedBefore b a = true := by
  simp only [Symbolizer.noLines, h, ge_iff_le, hge, if_true]
  constructor
  · simp only [Symbolizer.attempt, lookup_mapSet_self, lookup_mapDelete_self]
  · simp only [Symbolizer.failedBefore, lookup_mapSet_self, Option.isSome_some]

/-- With a threshold of at least 2 (and below 2^63), a pair that was never attempted has
counter `k` after `k` failed attempts for `1 ≤ k < T`, not yet being in `failed`. -/
theorem failTimes_below (s : Symbolizer) (b : String) (a : Nat)
    (h0 : s.attempt b a = none)
    (hT : s.attemptThreshold < 2 ^ 63) :
    ∀ k : Nat, 1 ≤ k → (k : Int) < s.attemptThreshold →
      (failTimes s b a k).attempt b a = some (k : Int) ∧
      (failTimes s b a k).failed = s.failed ∧
      (failTimes s b a k).attemptThreshold = s.attemptThreshold := by
  intro k
  induction k with
  | zero => intro h; omega
  | succ k ih =>
    intro _ hk
    by_cases hk0 : k = 0
    · subst hk0
      simpa [failTimes] using noLines_first s b a h0
    · obtain ⟨h1, h2, h3⟩ := ih (by omega) (by push_cast at hk; omega)
      have hw : wrapInt64 ((k : Int) + 1) = (k : Int) + 1 := by
        unfold wrapInt64
        push_cast at hk
        norm_num at hT ⊢
        omega
      have hlt : wrapInt64 ((k : Int) + 1) < (failTimes s b a k).attemptThreshold := by
        rw [hw, h3]; push_cast at hk; exact hk
      obtain ⟨g1, g2, g3⟩ := noLines_below _ b a _ h1 hlt
      refine ⟨?_, ?_, ?_⟩
      · simp only [failTimes, g1, hw]; push_cast; rfl
      · simp only [failTimes, g2, h2]
      · simp only [failTimes, g3, h3]

/-- With a threshold `T` of at least 2 (and below 2^63), a pair that was never attempted is
moved to `failed` and dropped from `attempts` by its `T`-th failed attempt. -/
theorem failTimes_reached (s : Symbolizer) (b : String) (a : Nat) (T : Nat)
    (hs : s.attemptThreshold = (T : Int)) (h2 : 2 ≤ T) (hT : T < 2 ^ 63)
    (h0 : s.attempt b a = none) (hf : s.failedBefore b a = false) :
    (failTimes s b a T).attempt b a = none ∧ (failTimes s b a T).failedBefore b a = true ∧
    ∀ k : Nat, k < T → (failTimes s b a k).failedBefore b a = false := by
  have hT1 : s.attemptThreshold < 2 ^ 63 := by rw [hs]; exact_mod_cast hT
  obtain ⟨k, rfl⟩ : ∃ k, T = k + 1 := ⟨T - 1, by omega⟩
  obtain ⟨h1, _, h3⟩ := failTimes_below s b a h0 hT1 k (by omega) (by rw [hs]; push_cast; omega)
  have hw : wrapInt64 ((k : Int) + 1) = (k : Int) + 1 := by
    unfold wrapInt64
    have : (k : Int) + 1 < 2 ^ 63 := by exact_mod_cast hT
    norm_num at this ⊢
    omega
  have hge : (failTimes s b a k).attemptThreshold ≤ wrapInt64 ((k : Int) + 1) := by
    rw [hw, h3, hs]; push_cast; exact le_refl _
  obtain ⟨g1, g2⟩ := noLines_reached _ b a _ h1 hge
  refine ⟨g1, g2, ?_⟩
  intro j hj
  by_cases hj0 : j = 0
  · subst hj0; exact hf
  · obtain ⟨_, e2, _⟩ := failTimes_below s b a h0 hT1 j (by omega) (by rw [hs]; push_cast; omega)
    simp only [Symbolizer.failedBefore, e2] at hf ⊢
    exact hf

/-- C20. With attempt threshold 1 the pair is not moved to the failed set by its first
failed attempt, although its counter has then reached the threshold: after one
symbolization that finds no lines the counter is 1, the failed set is empty and the next
call of symbolize requests the location again; only the second failed attempt moves the
pair to failed, after which symbolize skips the location. -/
theorem threshold_one_needs_two_failed_attempts :
    ((NewSymbolizer 1).symbolize noSymbols [exLoc]).1 =
      { attemptThreshold := 1, attempts := [("abc", [(0x1010, 1)])], failed := [] } ∧
    ((NewSymbolizer 1).symbolize noSymbols [exLoc]).1.attempt "abc" 0x1010 = some 1 ∧
    ((NewSymbolizer 1).symbolize noSymbols [exLoc]).1.failedBefore "abc" 0x1010 = false ∧
    (Symbolizer.group noSymbols
        { attemptThreshold := 1, attempts := [("abc", [(0x1010, 1)])], failed := [] }
        [exLoc] { mappings := [], mappingLocations := [] }).mappingLocations
      = [("abc", [exLoc])] ∧
    (Symbolizer.symbolize noSymbols
        { attemptThreshold := 1, attempts := [("abc", [(0x1010, 1)])], failed := [] }
        [exLoc]).1 =
      { attemptThreshold := 1, attempts := [("abc", [])], failed := [("abc", [(0x1010, ())])] } ∧
    Symbolizer.group noSymbols
        { attemptThreshold := 1, attempts := [("abc", [])], failed := [("abc", [(0x1010, ())])] }
        [exLoc] { mappings := [], mappingLocations := [] }
      = { mappings := [], mappingLocations := [] } := by
  refine ⟨by decide, by decide, by decide, by decide, by decide, by decide⟩

end symbolizer
